import Mathlib

/-!
# IQPyramidSolver: the Dancing Links search, the boards, the pieces and the final sort

A shallow embedding of `src/IQPyramidSolver.cpp`. The vectors of `DancingLinkX` are total
maps on the natural numbers, the loops that follow links run on fuel and return an
`Option`, and a read outside a vector of a board or of a solution is `none`.
-/

namespace IQPyramidSolver

/-! ## The exact-cover engine `DancingLinkX` (src/IQPyramidSolver.cpp, lines 498-719)

Every `vector<int>` of the class is a total map from its index to the stored value
(`resize(n, 0)` is the constant map `0`); the index held in a cell is a natural number,
the live-row counter `Count` and the bound `max_column` are C++ `int`s and stay integers.
A pointer-chasing `for` loop has no syntactic bound, so each loop takes a fuel and
answers `none` when the fuel is used up. -/

/-- The constant `static const int PIECES = 12;` -/
def PIECES : Nat := 12

/-- The value of `INT_MAX` for a 32 bit `int`. -/
def INT_MAX : Int := 2147483647

/-- The data members of `class DancingLinkX`. -/
structure DancingLinkX where
  Left : Nat → Nat
  Right : Nat → Nat
  Up : Nat → Nat
  Down : Nat → Nat
  Column : Nat → Nat
  Row : Nat → Nat
  Count : Nat → Int
  Header : Nat → Nat
  counter : Nat
  Answer : List Nat
  Answers : List (List Nat)
  max_column : Int

namespace DancingLinkX

/-- One pass of the constructor's loop `for (int i = 0; i <= column_count; i++)`. -/
def initColumn (column_count : Nat) (s : DancingLinkX) (i : Nat) : DancingLinkX :=
  { s with
    Left := Function.update s.Left i (if i = 0 then column_count else i - 1)
    Right := Function.update s.Right i (if i = column_count then 0 else i + 1)
    Up := Function.update s.Up i i
    Down := Function.update s.Down i i
    Column := Function.update s.Column i i
    Row := Function.update s.Row i 0
    Count := Function.update s.Count i 0 }

/-- The constructor `DancingLinkX(node_count, row_count, column_count, isComplete)`.
The sizes `node_count` and `row_count` only fix how long the vectors are. -/
def new (_node_count _row_count column_count : Nat) (isComplete : Bool) : DancingLinkX :=
  let s0 : DancingLinkX :=
    { Left := fun _ => 0, Right := fun _ => 0, Up := fun _ => 0, Down := fun _ => 0,
      Column := fun _ => 0, Row := fun _ => 0, Count := fun _ => 0, Header := fun _ => 0,
      counter := 0, Answer := [], Answers := [],
      max_column := if isComplete then (column_count : Int) else (column_count : Int) - PIECES }
  let s1 := (List.range (column_count + 1)).foldl (initColumn column_count) s0
  { s1 with counter := column_count }

/-- The method `void DancingLinkX::Link(int row, int column)`. -/
def Link (row column : Nat) (s : DancingLinkX) : DancingLinkX :=
  let counter := s.counter + 1
  let Column1 := Function.update s.Column counter column
  let Row1 := Function.update s.Row counter row
  let Count1 := Function.update s.Count column (s.Count column + 1)
  let Up1 := Function.update s.Up counter (s.Up column)
  let Down1 := Function.update s.Down counter column
  let Down2 := Function.update Down1 (Up1 column) counter
  let Up2 := Function.update Up1 column counter
  if s.Header row = 0 then
    { s with
      counter := counter, Column := Column1, Row := Row1, Count := Count1, Up := Up2, Down := Down2
      Header := Function.update s.Header row counter
      Left := Function.update s.Left counter counter
      Right := Function.update s.Right counter counter }
  else
    let Left1 := Function.update s.Left counter (s.Left (s.Header row))
    let Right1 := Function.update s.Right counter (s.Header row)
    let Right2 := Function.update Right1 (Left1 (s.Header row)) counter
    let Left2 := Function.update Left1 (s.Header row) counter
    { s with
      counter := counter, Column := Column1, Row := Row1, Count := Count1, Up := Up2, Down := Down2
      Left := Left2, Right := Right2 }

/-- The loop `for (int i = next[start]; i != stop; i = next[i]) body(i);` over one of the
link arrays: `next` reads the array in the state the body has left behind; `σ` is the
object, or the object together with an output parameter of the enclosing function. -/
def forRing {σ : Type} (next : σ → Nat → Nat) (stop : Nat)
    (body : Nat → σ → Option σ) : Nat → Nat → σ → Option σ
  | 0, _, _ => none
  | fuel + 1, i, s =>
    if i = stop then some s
    else (body i s).bind fun s1 => forRing next stop body fuel (next s1 i) s1

/-- The three statements in the inner loop of `Delete`, for the node `j`. -/
def unlinkNode (j : Nat) (s : DancingLinkX) : DancingLinkX :=
  let Up1 := Function.update s.Up (s.Down j) (s.Up j)
  let Down1 := Function.update s.Down (Up1 j) (s.Down j)
  { s with
    Up := Up1, Down := Down1
    Count := Function.update s.Count (s.Column j) (s.Count (s.Column j) - 1) }

/-- The three statements in the inner loop of `Recover`, for the node `j`. -/
def relinkNode (j : Nat) (s : DancingLinkX) : DancingLinkX :=
  let Up1 := Function.update s.Up (s.Down j) j
  let Down1 := Function.update s.Down (Up1 j) j
  { s with
    Up := Up1, Down := Down1
    Count := Function.update s.Count (s.Column j) (s.Count (s.Column j) + 1) }

/-- The first two statements of `Delete`: the header leaves the header ring. -/
def unlinkHeader (column : Nat) (s : DancingLinkX) : DancingLinkX :=
  let Right1 := Function.update s.Right (s.Left column) (s.Right column)
  let Left1 := Function.update s.Left (Right1 column) (s.Left column)
  { s with Right := Right1, Left := Left1 }

/-- The last two statements of `Recover`: the header is put back. -/
def relinkHeader (column : Nat) (s : DancingLinkX) : DancingLinkX :=
  let Right1 := Function.update s.Right (s.Left column) column
  let Left1 := Function.update s.Left (Right1 column) column
  { s with Right := Right1, Left := Left1 }

/-- The method `void DancingLinkX::Delete(int column)`. -/
def Delete (fuel : Nat) (column : Nat) (s : DancingLinkX) : Option DancingLinkX :=
  let s0 := unlinkHeader column s
  forRing (fun t => t.Down) column
    (fun i t => forRing (fun u => u.Right) i (fun j u => some (unlinkNode j u)) fuel (t.Right i) t)
    fuel (s0.Down column) s0

/-- The method `void DancingLinkX::Recover(int column)`. -/
def Recover (fuel : Nat) (column : Nat) (s : DancingLinkX) : Option DancingLinkX :=
  (forRing (fun t => t.Up) column
    (fun i t => forRing (fun u => u.Left) i (fun j u => some (relinkNode j u)) fuel (t.Left i) t)
    fuel (s.Up column) s).map (relinkHeader column)

/-- The method `void DancingLinkX::KnownStep(int index)`. -/
def KnownStep (fuel : Nat) (index : Nat) (s : DancingLinkX) : Option DancingLinkX :=
  (Delete fuel (s.Column (s.Header index)) s).bind fun s1 =>
    let s2 := { s1 with Answer := s1.Answer ++ [index] }
    forRing (fun t => t.Right) (s2.Header index) (fun i t => Delete fuel (t.Column i) t)
      fuel (s2.Right (s2.Header index)) s2

/-- The column selection loop shared by `Spread` and `Dance`:
`for (int i = Right[0]; i != 0 && i <= max_column; i = Right[i]) if (Count[i] < least_count) ...`,
returning the final value of `now`. -/
def selectLoop (s : DancingLinkX) : Nat → Nat → Int → Nat → Option Nat
  | 0, _, _, _ => none
  | fuel + 1, i, least_count, now =>
    if i ≠ 0 ∧ (i : Int) ≤ s.max_column then
      if s.Count i < least_count then selectLoop s fuel (s.Right i) (s.Count i) i
      else selectLoop s fuel (s.Right i) least_count now
    else some now

/-- The method `void DancingLinkX::Dance()`. -/
def Dance : Nat → DancingLinkX → Option DancingLinkX
  | 0, _ => none
  | fuel + 1, s =>
    let now := s.Right 0
    if now = 0 ∨ (now : Int) > s.max_column then
      some { s with Answers := s.Answers ++ [s.Answer] }
    else
      (selectLoop s fuel (s.Right 0) INT_MAX now).bind fun now =>
      (Delete fuel now s).bind fun s1 =>
      (forRing (fun t => t.Down) now
        (fun i t =>
          let t1 := { t with Answer := t.Answer ++ [t.Row i] }
          (forRing (fun u => u.Right) i (fun j u => Delete fuel (u.Column j) u)
            fuel (t1.Right i) t1).bind fun t2 =>
          (Dance fuel t2).bind fun t3 =>
          (forRing (fun u => u.Left) i (fun j u => Recover fuel (u.Column j) u)
            fuel (t3.Left i) t3).map fun t4 =>
          { t4 with Answer := t4.Answer.dropLast })
        fuel (s1.Down now) s1).bind fun s2 =>
      Recover fuel now s2

/-- The method `void DancingLinkX::Spread(int level, int level_needed, vector<vector<int>>& steps_list)`:
the output parameter `steps_list` is threaded next to the object. -/
def Spread : Nat → Nat → Nat → DancingLinkX → List (List Nat) → Option (DancingLinkX × List (List Nat))
  | 0, _, _, _, _ => none
  | fuel + 1, level, level_needed, s, steps_list =>
    if level ≥ level_needed then
      some (s, steps_list ++ [s.Answer])
    else
      (selectLoop s fuel (s.Right 0) INT_MAX (s.Right 0)).bind fun now =>
      (Delete fuel now s).bind fun s1 =>
      (forRing (fun (p : DancingLinkX × List (List Nat)) => p.1.Down) now
        (fun i p =>
          let t1 : DancingLinkX := { p.1 with Answer := p.1.Answer ++ [p.1.Row i] }
          (forRing (fun u => u.Right) i (fun j u => Delete fuel (u.Column j) u)
            fuel (t1.Right i) t1).bind fun t2 =>
          (Spread fuel (level + 1) level_needed t2 p.2).bind fun q =>
          (forRing (fun u => u.Left) i (fun j u => Recover fuel (u.Column j) u)
            fuel (q.1.Left i) q.1).map fun t4 =>
          ({ t4 with Answer := t4.Answer.dropLast }, q.2))
        fuel (s1.Down now) (s1, steps_list)).bind fun r =>
      (Recover fuel now r.1).map fun s3 => (s3, r.2)

/-- The part of `main` that builds the matrix from the placements: a placement is given by
its covered cell ids and its piece number (`steps[i].indecies`, `steps[i].block_index`). -/
def buildLoop (size : Nat) : List (List Nat × Nat) → Nat → DancingLinkX → DancingLinkX
  | [], _, s => s
  | (indecies, block_index) :: rest, i, s =>
    let s1 := indecies.foldl (fun t index => Link (i + 1) index t) s
    buildLoop size rest (i + 1) (Link (i + 1) (block_index + size + 1) s1)

/-- The value `node_count` as `main` computes it. -/
def nodeCount (size : Nat) (steps : List (List Nat × Nat)) : Nat :=
  steps.foldl (fun value step => value + step.1.length + 1) 0 + (PIECES + size + 1)

/-- The matrix `dlx` of `main` once the build loop is over. -/
def build (size : Nat) (steps : List (List Nat × Nat)) (isComplete : Bool) : DancingLinkX :=
  buildLoop size steps 0 (new (nodeCount size steps) steps.length (size + PIECES) isComplete)

/-- The loop `for (int step : steps) clone.KnownStep(step);` of `main`. -/
def replay (fuel : Nat) : List Nat → DancingLinkX → Option DancingLinkX
  | [], s => some s
  | step :: rest, s => (KnownStep fuel step s).bind (replay fuel rest)

/-- The copy constructor `DancingLinkX(const DancingLinkX& another)`: every member is copied
but `Answers`, which starts empty. -/
def copy (another : DancingLinkX) : DancingLinkX := { another with Answers := [] }

/-- The search phase of `main`: `Spread(0, level, steps_list)`, and for every recorded prefix a
copy of `dlx` as `Spread` left it, the replay of the prefix, `Dance`, and the copy's answers
appended to `results`. -/
def solve (fuel : Nat) (level : Nat) (dlx : DancingLinkX) : Option (List (List Nat)) :=
  (Spread fuel 0 level dlx []).bind fun r =>
    r.2.foldlM (fun results steps =>
      (replay fuel steps (copy r.1)).bind fun clone =>
      (Dance fuel clone).map fun done => results ++ done.Answers) []

end DancingLinkX
end IQPyramidSolver



namespace IQPyramidSolver
namespace DancingLinkX

/-! ## The matrix as a list of incidences, and what the links must look like -/

/-- The calls `Link(row, column)` the build loop of `main` makes, in order. -/
def linksFrom (size : Nat) : List (List Nat × Nat) → Nat → List (Nat × Nat)
  | [], _ => []
  | (indecies, block_index) :: rest, i =>
    indecies.map (fun index => (i + 1, index)) ++ (i + 1, block_index + size + 1) ::
      linksFrom size rest (i + 1)

/-- The columns of row `r`, in the order they were linked. -/
def colsOf (links : List (Nat × Nat)) (r : Nat) : List Nat :=
  (links.filter (fun e => e.1 = r)).map (fun e => e.2)

/-- Row `r` meets no column outside `L`. -/
def rowLive (links : List (Nat × Nat)) (L : List Nat) (r : Nat) : Bool :=
  (colsOf links r).all (fun c => decide (c ∈ L))

/-- The ids of the nodes whose incidence satisfies `p`: the `k`-th call of `Link` made the
node `nc + 1 + k`. -/
def nodeIds (nc : Nat) (links : List (Nat × Nat)) (p : Nat × Nat → Bool) : List Nat :=
  ((List.enumFrom (nc + 1) links).filter (fun e => p e.2)).map (fun e => e.1)

/-- The nodes of row `r`. -/
def rowNodes (nc : Nat) (links : List (Nat × Nat)) (r : Nat) : List Nat :=
  nodeIds nc links (fun e => decide (e.1 = r))

/-- The nodes of column `c` whose row meets no column outside `L`. -/
def ringNodes (nc : Nat) (links : List (Nat × Nat)) (L : List Nat) (c : Nat) : List Nat :=
  nodeIds nc links (fun e => decide (e.2 = c) && rowLive links L e.1)

/-- The rows of the nodes of `ringNodes`, in the same order. -/
def ringRows (links : List (Nat × Nat)) (L : List Nat) (c : Nat) : List Nat :=
  (links.filter (fun e => decide (e.2 = c) && rowLive links L e.1)).map (fun e => e.1)

/-- The map `f` leads from `a` through the nodes of the list, in order, to `b`. -/
def Path (f : Nat → Nat) : Nat → List Nat → Nat → Prop
  | a, [], b => f a = b
  | a, x :: l, b => f a = x ∧ Path f x l b

/-- A two-way ring: `next` runs from `a` through `l` back to `a`, and `prev` runs the
other way round. -/
def Ring (next prev : Nat → Nat) (a : Nat) (l : List Nat) : Prop :=
  Path next a l a ∧ Path prev a l.reverse a

/-- The matrix is well formed: every column is one of `1..nc` and no row is linked to
the same column twice. -/
def WellLinked (nc : Nat) (links : List (Nat × Nat)) : Prop :=
  (∀ e ∈ links, 1 ≤ e.2 ∧ e.2 ≤ nc) ∧ links.Nodup

/-- The part of the state no search step changes: the incidence of every node, the row
rings and the first node of every row. -/
structure Static (nc : Nat) (links : List (Nat × Nat)) (s : DancingLinkX) : Prop where
  counter_eq : s.counter = nc + links.length
  column_header : ∀ c, c ≤ nc → s.Column c = c
  incidence : ∀ k e, links[k]? = some e →
    s.Row (nc + 1 + k) = e.1 ∧ s.Column (nc + 1 + k) = e.2
  rows : ∀ r h t, rowNodes nc links r = h :: t → Ring s.Right s.Left h t
  header : ∀ r, s.Header r = (rowNodes nc links r).headD 0

/-- The column rings while the nodes of `U` are unlinked: column `d` holds its nodes of
live rows, `U` left out, and `Count[d]` is their number; the root `0` has no node. -/
def ColumnsOK (nc : Nat) (links : List (Nat × Nat)) (L U : List Nat) (s : DancingLinkX) : Prop :=
  ∀ d ∈ 0 :: L,
    Ring s.Down s.Up d ((ringNodes nc links L d).filter (fun n => decide (n ∉ U))) ∧
    s.Count d = (((ringNodes nc links L d).filter (fun n => decide (n ∉ U))).length : Int)

/-- The state between two complete `Delete`/`Recover` calls in which exactly the columns
of `L` are in the header ring. -/
structure Inv (nc : Nat) (links : List (Nat × Nat)) (L : List Nat) (s : DancingLinkX) : Prop where
  static : Static nc links s
  sorted : L.Sorted (fun a b => a < b)
  range : ∀ c ∈ L, 1 ≤ c ∧ c ≤ nc
  header_ring : Ring s.Right s.Left 0 L
  columns : ColumnsOK nc links L [] s

/-! ## The search on the incidence list -/

/-- What the selection loop computes when it walks the live columns `L`. -/
def selectList (cnt : Nat → Int) (maxc : Int) : List Nat → Int → Nat → Nat
  | [], _, now => now
  | i :: rest, least_count, now =>
    if (i : Int) ≤ maxc then
      if cnt i < least_count then selectList cnt maxc rest (cnt i) i
      else selectList cnt maxc rest least_count now
    else now

/-- The column the selection loop of `Dance` and `Spread` ends with. -/
def chosen (links : List (Nat × Nat)) (maxc : Int) (L : List Nat) : Nat :=
  selectList (fun c => ((ringRows links L c).length : Int)) maxc L INT_MAX (L.headD 0)

/-- The answers `Dance` adds (each without the rows already on `Answer`) when exactly the
columns `L` are live; `n` bounds the depth. -/
def searchList (links : List (Nat × Nat)) (maxc : Int) : Nat → List Nat → List (List Nat)
  | 0, _ => []
  | n + 1, L =>
    if L.headD 0 = 0 ∨ ((L.headD 0 : Nat) : Int) > maxc then [[]]
    else
      (ringRows links L (chosen links maxc L)).flatMap fun r =>
        (searchList links maxc n (L.filter (fun c => decide (c ∉ colsOf links r)))).map
          (fun sol => r :: sol)

/-- The prefixes `Spread` adds (each without the rows already on `Answer`) when exactly the
columns `L` are live and `n` levels are still to go (`level_needed - level`). -/
def spreadList (links : List (Nat × Nat)) (maxc : Int) : Nat → List Nat → List (List Nat)
  | 0, _ => [[]]
  | n + 1, L =>
    (ringRows links L (chosen links maxc L)).flatMap fun r =>
      (spreadList links maxc n (L.filter (fun c => decide (c ∉ colsOf links r)))).map
        (fun sol => r :: sol)

end DancingLinkX
end IQPyramidSolver


namespace IQPyramidSolver
namespace DancingLinkX

/-- The row of node `n`, read from the incidence list. -/
def rowOf (nc : Nat) (links : List (Nat × Nat)) (n : Nat) : Nat :=
  ((links[n - (nc + 1)]?).getD (0, 0)).1

/-- The nodes the loop `for (j = Right[i]; j != i; j = Right[j])` visits: the nodes of
the row of `i` that come after `i`, then those before it. -/
def rowOthers (nc : Nat) (links : List (Nat × Nat)) (i : Nat) : List Nat :=
  ((rowNodes nc links (rowOf nc links i)).dropWhile (fun n => decide (n ≠ i))).tail ++
    (rowNodes nc links (rowOf nc links i)).takeWhile (fun n => decide (n ≠ i))

/-- The nodes `Delete(c)` unlinks, in the order it reaches them. -/
def coverNodes (nc : Nat) (links : List (Nat × Nat)) (L : List Nat) (c : Nat) : List Nat :=
  (ringNodes nc links L c).flatMap (rowOthers nc links)

/-- The inner statements of `Delete` for the nodes of a list, one after the other. -/
def unlinkAll (js : List Nat) (s : DancingLinkX) : DancingLinkX :=
  js.foldl (fun t j => unlinkNode j t) s

/-- The state `t` differs from `s` in the link arrays and `Count` at most. -/
def LinksOnly (s t : DancingLinkX) : Prop :=
  ∃ l r u d c, t = { s with Left := l, Right := r, Up := u, Down := d, Count := c }

/-- The state `Delete(c)` leaves when exactly the columns `L` were live. -/
def deleteState (nc : Nat) (links : List (Nat × Nat)) (L : List Nat) (c : Nat)
    (s : DancingLinkX) : DancingLinkX :=
  unlinkAll (coverNodes nc links L c) (unlinkHeader c s)

/-- The state with other contents of `Answer` and `Answers`. -/
def withAnswers (a : List Nat) (A : List (List Nat)) (s : DancingLinkX) : DancingLinkX :=
  { s with Answer := a, Answers := A }

/-- The column of node `n`, read from the incidence list. -/
def colOf (nc : Nat) (links : List (Nat × Nat)) (n : Nat) : Nat :=
  ((links[n - (nc + 1)]?).getD (0, 0)).2

/-- The state after `Delete` was called for the columns of a list, one after the other,
starting with exactly the columns `L` live. -/
def deleteCols (nc : Nat) (links : List (Nat × Nat)) : List Nat → List Nat → DancingLinkX → DancingLinkX
  | _, [], s => s
  | L, c :: cs, s => deleteCols nc links (L.erase c) cs (deleteState nc links L c s)

/-- The columns the rows of a list meet, row after row. -/
def covered (links : List (Nat × Nat)) (sol : List Nat) : List Nat :=
  sol.flatMap (colsOf links)

/-- The columns still live after the rows of a prefix were chosen, starting from `L`. -/
def liveAfter (links : List (Nat × Nat)) (L : List Nat) (p : List Nat) : List Nat :=
  p.foldl (fun l r => l.filter (fun c => decide (c ∉ colsOf links r))) L

/-- Every row of the prefix meets live columns only at the time it is chosen, and meets
at least one. -/
def LiveSeq (links : List (Nat × Nat)) : List Nat → List Nat → Prop
  | _, [] => True
  | L, r :: p =>
    rowLive links L r = true ∧ colsOf links r ≠ [] ∧
      LiveSeq links (L.filter (fun c => decide (c ∉ colsOf links r))) p

end DancingLinkX
end IQPyramidSolver


namespace IQPyramidSolver

/-! ## Pieces (src/IQPyramidSolver.cpp, lines 26-172) -/

/-- The constant `static const unsigned int PieceData[PIECES][4]`. -/
def PieceData : List (List Nat) :=
  [ [0b1000, 0b1000, 0b1100, 0b0000],
    [0b1000, 0b1100, 0b1100, 0b0000],
    [0b1000, 0b1000, 0b1000, 0b1100],
    [0b1000, 0b1000, 0b1100, 0b1000],
    [0b1000, 0b1000, 0b1100, 0b0100],
    [0b1000, 0b1100, 0b0000, 0b0000],
    [0b1000, 0b1000, 0b1110, 0b0000],
    [0b1000, 0b1100, 0b0110, 0b0000],
    [0b1100, 0b1000, 0b1100, 0b0000],
    [0b1000, 0b1000, 0b1000, 0b1000],
    [0b1100, 0b1100, 0b0000, 0b0000],
    [0b0100, 0b1110, 0b0100, 0b0000] ]

/-- The constant `static const int rotates[]`. -/
def rotates : List Nat := [8, 8, 8, 8, 8, 4, 4, 4, 4, 2, 1, 1]

/-- The type `struct Point`. -/
structure Point where
  x : Int
  y : Int
deriving DecidableEq, Repr

/-- The type `struct Step`: one placement. -/
structure Step where
  block_index : Nat
  shape_index : Nat
  x : Nat
  y : Nat
  indecies : List Nat
deriving DecidableEq, Repr

/-- The type `class Piece`: the points of one oriented shape and its two numbers. -/
structure Piece where
  points : List Point
  block_index : Nat
  shape_index : Nat
deriving DecidableEq, Repr

namespace Piece

/-- The constant `static const int WIDTH = 4;` -/
def WIDTH : Int := 4

/-- The constant `static const int HEIGHT = 4;` -/
def HEIGHT : Int := 4

/-- The method `void Normalize()`. -/
def Normalize (p : Piece) : Piece :=
  let m := p.points.foldl (fun (m : Int × Int) q => (min m.1 q.x, min m.2 q.y)) (WIDTH, HEIGHT)
  { p with points := p.points.map (fun q => ⟨q.x - m.1, q.y - m.2⟩) }

/-- The constructor `Piece(const unsigned int (&data)[HEIGHT], int block_index)`. -/
def new (data : List Nat) (block_index : Nat) : Piece :=
  let points := (List.range 4).flatMap fun i =>
    (List.range 4).filterMap fun j =>
      if (data.getD i 0) &&& (1 <<< (4 - j - 1)) ≠ 0 then some (⟨(j : Int), (i : Int)⟩ : Point)
      else none
  Normalize { points := points, block_index := block_index, shape_index := 0 }

/-- The method `void Flip()`. -/
def Flip (p : Piece) : Piece :=
  let q := Normalize { p with points := p.points.map (fun q => ⟨WIDTH - q.x - 1, q.y⟩) }
  { q with shape_index := q.shape_index + 1 }

/-- The method `void Rotate()`. -/
def Rotate (p : Piece) : Piece :=
  let q := Normalize { p with points := p.points.map (fun q => ⟨HEIGHT - q.y - 1, q.x⟩) }
  { q with shape_index := q.shape_index + 1 }

/-- The method `int size() const`. -/
def size (p : Piece) : Nat := p.points.length

end Piece

/-- The shapes `main` pushes onto `pieces` for one value of `block_index`: the `switch` on
`rotates[block_index]`. -/
def orientations (block_index : Nat) : List Piece :=
  let piece := Piece.new (PieceData.getD block_index []) block_index
  match rotates.getD block_index 0 with
  | 8 =>
    let p1 := piece.Rotate
    let p2 := p1.Rotate
    let p3 := p2.Rotate
    let p4 := p3.Flip
    let p5 := p4.Rotate
    let p6 := p5.Rotate
    let p7 := p6.Rotate
    [piece, p1, p2, p3, p4, p5, p6, p7]
  | 4 =>
    let p1 := piece.Rotate
    let p2 := p1.Rotate
    let p3 := p2.Rotate
    [piece, p1, p2, p3]
  | 2 => [piece, piece.Rotate]
  | _ => [piece]

/-- The vector `pieces` of `main` after the generation loop. -/
def pieces : List Piece := (List.range PIECES).flatMap orientations

/-- The value of `piece_node_count` after the generation loop. -/
def piece_node_count : Nat :=
  (List.range PIECES).foldl
    (fun n block_index => n + (Piece.new (PieceData.getD block_index []) block_index).size) 0

/-! ## The symmetries of the square, for the statement about the orientations -/

/-- The eight rotations and reflections of the square, as maps of the plane. -/
def symmetries : List (Point → Point) :=
  [ fun p => ⟨p.x, p.y⟩, fun p => ⟨-p.y, p.x⟩, fun p => ⟨-p.x, -p.y⟩, fun p => ⟨p.y, -p.x⟩,
    fun p => ⟨-p.x, p.y⟩, fun p => ⟨p.y, p.x⟩, fun p => ⟨p.x, -p.y⟩, fun p => ⟨-p.y, -p.x⟩ ]

/-- A point list moved so that its least `x` and its least `y` are `0`. -/
def normalise (points : List Point) : List Point :=
  let mx := (points.map fun p => p.x).foldl min (points.headD ⟨0, 0⟩).x
  let my := (points.map fun p => p.y).foldl min (points.headD ⟨0, 0⟩).y
  points.map fun p => ⟨p.x - mx, p.y - my⟩

/-- Two point lists are the same set of points. -/
def SameShape (a b : List Point) : Prop := a ⊆ b ∧ b ⊆ a

instance (a b : List Point) : Decidable (SameShape a b) := by
  unfold SameShape; infer_instance

/-- The base shape of a piece: what the constructor of `Piece` reads from `PieceData`. -/
def baseShape (block_index : Nat) : List Point :=
  (Piece.new (PieceData.getD block_index []) block_index).points

/-! ## Boards (src/IQPyramidSolver.cpp, lines 174-496) -/

/-- A read `table[i]` with the `int` index `i`: `none` when `i` is outside the vector. -/
def readAt (table : List Nat) (i : Int) : Option Nat :=
  if i < 0 then none else table[i.toNat]?

/-- The loop `for (Point p : piece.getPoints())` that decides `valid` for the translation
`(x, y)` on a slice that is `w` wide and `h` high and stored row after row in `table`:
`some false` after a `break`, `some true` when every point passed, `none` when a read
of the table was outside it. -/
def checkValid (table : List Nat) (w h : Int) (x y : Int) : List Point → Option Bool
  | [] => some true
  | p :: ps =>
    if p.x + x < 0 ∨ p.x + x ≥ w then some false
    else if p.y + y < 0 ∨ p.y + y ≥ h then some false
    else
      match readAt table ((p.y + y) * w + p.x + x) with
      | none => none
      | some v => if v = 0 then some false else checkValid table w h x y ps

/-- The loop that fills `step.indecies`: one read of the table for every point. -/
def readIndecies (table : List Nat) (w : Int) (x y : Int) : List Point → Option (List Nat)
  | [] => some []
  | p :: ps =>
    match readAt table ((p.y + y) * w + p.x + x) with
    | none => none
    | some v => (readIndecies table w x y ps).map (fun rest => v :: rest)

/-- The body of the two loops over `y` and `x` for one translation: the validity check and,
when it passes, the new step (with the shape number `id`) pushed onto `steps` and `count`
increased. -/
def tryPlace (table : List Nat) (w h : Nat) (piece : Piece) (id : Nat) (x y : Nat)
    (acc : List Step × Nat) : Option (List Step × Nat) :=
  match checkValid table w h x y piece.points with
  | none => none
  | some false => some acc
  | some true =>
    match readIndecies table w x y piece.points with
    | none => none
    | some indecies =>
      some (acc.1 ++ [{ block_index := piece.block_index, shape_index := id, x := x, y := y,
                        indecies := indecies }], acc.2 + 1)

/-- The two nested loops `for (y ...) for (x ...)` over one slice. -/
def scanSlice (table : List Nat) (w h : Nat) (piece : Piece) (id : Nat)
    (acc : List Step × Nat) : Option (List Step × Nat) :=
  (List.range h).foldlM (fun a y =>
    (List.range w).foldlM (fun b x => tryPlace table w h piece id x y b) a) acc

/-- The type `class TrianglePattern`. -/
structure TrianglePattern where
  matrix : List Nat

namespace TrianglePattern

/-- The constant `static const int ORDER = 10;` -/
def ORDER : Nat := 10

/-- The constructor `TrianglePattern()`. -/
def new : TrianglePattern :=
  let r := (List.range ORDER).foldl (fun (a : List Nat × Nat) y =>
    (List.range ORDER).foldl (fun (b : List Nat × Nat) x =>
      if x ≤ y then (b.1 ++ [b.2 + 1], b.2 + 1) else (b.1 ++ [0], b.2)) a) ([], 0)
  { matrix := r.1 }

/-- The method `int size() const`. -/
def size (_ : TrianglePattern) : Nat := ORDER * (ORDER + 1) / 2

/-- The method `int GetValidSteps(Piece& piece, vector<Step>& steps) const`: the new `steps` and the
returned `count`. -/
def GetValidSteps (t : TrianglePattern) (piece : Piece) (steps : List Step) :
    Option (List Step × Nat) :=
  scanSlice t.matrix ORDER ORDER piece piece.shape_index (steps, 0)

end TrianglePattern

/-- The type `class RectanglePattern`. -/
structure RectanglePattern where
  matrix : List Nat

namespace RectanglePattern

/-- The constant `static const int WIDTH = 11;` -/
def WIDTH : Nat := 11

/-- The constant `static const int HEIGHT = 5;` -/
def HEIGHT : Nat := 5

/-- The constructor `RectanglePattern()`. -/
def new : RectanglePattern :=
  let r := (List.range HEIGHT).foldl (fun (a : List Nat × Nat) _ =>
    (List.range WIDTH).foldl (fun (b : List Nat × Nat) _ => (b.1 ++ [b.2 + 1], b.2 + 1)) a) ([], 0)
  { matrix := r.1 }

/-- The method `int size() const`. -/
def size (_ : RectanglePattern) : Nat := WIDTH * HEIGHT

/-- The method `int GetValidSteps(Piece& piece, vector<Step>& steps) const`. -/
def GetValidSteps (t : RectanglePattern) (piece : Piece) (steps : List Step) :
    Option (List Step × Nat) :=
  scanSlice t.matrix WIDTH HEIGHT piece piece.shape_index (steps, 0)

end RectanglePattern

/-- The type `class PyramidPattern`. -/
structure PyramidPattern where
  ORDER : Nat
  floors : List (List Nat)
  diagonals_left : List (List Nat)
  diagonals_right : List (List Nat)
deriving DecidableEq, Repr

namespace PyramidPattern

/-- The first loop of the constructor: the horizontal planes, numbered through. -/
def newFloors (order : Nat) : List (List Nat) :=
  ((List.range order).foldl (fun (a : List (List Nat) × Nat) floor =>
    let r := (List.range (floor + 1)).foldl (fun (b : List Nat × Nat) _ =>
      (List.range (floor + 1)).foldl (fun (c : List Nat × Nat) _ => (c.1 ++ [c.2 + 1], c.2 + 1)) b)
      ([], a.2)
    (a.1 ++ [r.1], r.2)) ([], 0)).1

/-- The statement `int size = ORDER - std::abs(ORDER - 1 - plane);` -/
def planeSize (order plane : Nat) : Nat :=
  ((order : Int) - ((order : Int) - 1 - (plane : Int)).natAbs).toNat

/-- A read `floors[floor][i]` with `int` indices. -/
def readFloor (floors : List (List Nat)) (floor i : Int) : Option Nat :=
  if floor < 0 then none
  else match floors[floor.toNat]? with
    | none => none
    | some table => readAt table i

/-- The entries of the two diagonal slices of one plane at `(x, y)`, as the constructor
computes them. -/
def diagonalEntry (order : Nat) (floors : List (List Nat)) (plane x y : Nat) :
    Option (Nat × Nat) :=
  if x ≤ y then
    let floor : Int := (order : Int) - 1 - ((y : Int) - (x : Int))
    let offset : Int := (plane : Int) - (order : Int) + 1
    if offset < 0 then
      match readFloor floors floor ((x : Int) * (floor + 1) + floor + offset - x),
        readFloor floors floor ((floor + offset - x) * (floor + 1) + floor - x) with
      | some l, some r => some (l, r)
      | _, _ => none
    else
      match readFloor floors floor (((x : Int) + offset) * (floor + 1) + floor - x),
        readFloor floors floor ((floor - x) * (floor + 1) + floor - offset - x) with
      | some l, some r => some (l, r)
      | _, _ => none
  else some (0, 0)

/-- The loops over `y` and `x` of the constructor for one plane: the left and the right
diagonal slice of that plane. -/
def newPlane (order : Nat) (floors : List (List Nat)) (plane : Nat) :
    Option (List Nat × List Nat) :=
  (List.range (planeSize order plane)).foldlM (fun (a : List Nat × List Nat) y =>
    (List.range (planeSize order plane)).foldlM (fun (b : List Nat × List Nat) x =>
      (diagonalEntry order floors plane x y).map fun e => (b.1 ++ [e.1], b.2 ++ [e.2])) a)
    ([], [])

/-- The constructor `PyramidPattern(int order)`: `none` when a read of `floors` was outside
the vector, and when `order` is `0`, for which `resize(2 * ORDER - 1)` is given `-1`. -/
def new (order : Nat) : Option PyramidPattern :=
  if order = 0 then none
  else
    let floors := newFloors order
    ((List.range (2 * order - 1)).foldlM (fun (a : List (List Nat) × List (List Nat)) plane =>
      (newPlane order floors plane).map fun p => (a.1 ++ [p.1], a.2 ++ [p.2])) ([], [])).map
      fun d => { ORDER := order, floors := floors, diagonals_left := d.1, diagonals_right := d.2 }

/-- The method `int size() const`. -/
def size (t : PyramidPattern) : Nat := t.ORDER * (t.ORDER + 1) * (t.ORDER * 2 + 1) / 6

/-- The first loop of `GetValidSteps`: the floors (`none` when `floors[floor]` does not
exist). -/
def scanFloors (t : PyramidPattern) (piece : Piece) (acc : List Step × Nat) :
    Option (List Step × Nat) :=
  (List.range t.ORDER).foldlM (fun a floor =>
    (t.floors[floor]?).bind fun table =>
      scanSlice table (floor + 1) (floor + 1) piece ((floor <<< 3) ||| piece.shape_index) a) acc

/-- The second and the third loop of `GetValidSteps`: a family of diagonal slices, `tag` being
`1 << 6` for the left and `1 << 7` for the right family. -/
def scanDiagonals (t : PyramidPattern) (slices : List (List Nat)) (tag : Nat) (piece : Piece)
    (acc : List Step × Nat) : Option (List Step × Nat) :=
  (List.range (2 * t.ORDER - 1)).foldlM (fun a plane =>
    (slices[plane]?).bind fun table =>
      scanSlice table (planeSize t.ORDER plane) (planeSize t.ORDER plane) piece
        (tag ||| (plane <<< 3) ||| piece.shape_index) a) acc

/-- The method `int GetValidSteps(Piece& piece, vector<Step>& steps) const`. -/
def GetValidSteps (t : PyramidPattern) (piece : Piece) (steps : List Step) :
    Option (List Step × Nat) :=
  (scanFloors t piece (steps, 0)).bind fun a =>
  (scanDiagonals t t.diagonals_left (1 <<< 6) piece a).bind fun b =>
  scanDiagonals t t.diagonals_right (1 <<< 7) piece b

end PyramidPattern

/-- The type `class IPattern`: the object `pattern` of `main` is one of the three boards. -/
inductive Pattern where
  | triangle (t : TrianglePattern)
  | rectangle (t : RectanglePattern)
  | pyramid (t : PyramidPattern)

namespace Pattern

/-- The virtual `int size() const`. -/
def size : Pattern → Nat
  | triangle t => t.size
  | rectangle t => t.size
  | pyramid t => t.size

/-- The virtual `int GetValidSteps(Piece& piece, vector<Step>& steps) const`. -/
def GetValidSteps : Pattern → Piece → List Step → Option (List Step × Nat)
  | triangle t => t.GetValidSteps
  | rectangle t => t.GetValidSteps
  | pyramid t => t.GetValidSteps

end Pattern

/-- The choice of `pattern` in `main` from the option `type`; `none` when `main` returns
before it has a board (or the constructor of the board read outside a vector). -/
def selectPattern (type : String) : Option Pattern :=
  if type = "t" then some (.triangle TrianglePattern.new)
  else if type = "r" then some (.rectangle RectanglePattern.new)
  else if type = "p4" then (PyramidPattern.new 4).map .pyramid
  else if type = "p5" then (PyramidPattern.new 5).map .pyramid
  else none

/-- The four values of the option `type` that give a board. -/
def boardTypes : List String := ["t", "r", "p4", "p5"]

/-- The loop `for (Piece piece : pieces) pattern->GetValidSteps(piece, steps);` of `main`. -/
def mainSteps (pattern : Pattern) : Option (List Step) :=
  pieces.foldlM (fun steps piece => (pattern.GetValidSteps piece steps).map (fun r => r.1)) []

/-- What the build loop of `main` takes from a step: its cells and its piece. -/
def placementOf (step : Step) : List Nat × Nat := (step.indecies, step.block_index)

/-- The matrix `dlx` of `main` for the steps it has collected. -/
def mainMatrix (pattern : Pattern) (steps : List Step) : DancingLinkX :=
  DancingLinkX.build pattern.size (steps.map placementOf)
    (decide (pattern.size = piece_node_count))

/-! ## The placements a board admits, slice by slice -/

/-- One slice of a board: its table, its width and height, and the orientation id a step on
it gets from the shape number of the piece. -/
structure Slice where
  table : List Nat
  w : Nat
  h : Nat
  id : Nat → Nat

/-- The cell id at column `x`, row `y` of a slice (`0` outside the table). -/
def cellAt (table : List Nat) (w : Nat) (x y : Int) : Nat :=
  (readAt table (y * w + x)).getD 0

/-- Every point of the shape, moved by `(x, y)`, lands inside the slice on a cell that is
not `0`. -/
def fits (table : List Nat) (w h : Nat) (points : List Point) (x y : Int) : Bool :=
  points.all fun p =>
    decide (0 ≤ p.x + x ∧ p.x + x < w ∧ 0 ≤ p.y + y ∧ p.y + y < h ∧
      cellAt table w (p.x + x) (p.y + y) ≠ 0)

/-- The step for the shape placed at `(x, y)` on a slice. -/
def stepAt (sl : Slice) (piece : Piece) (x y : Nat) : Step :=
  { block_index := piece.block_index, shape_index := sl.id piece.shape_index, x := x, y := y,
    indecies := piece.points.map fun p => cellAt sl.table sl.w (p.x + x) (p.y + y) }

/-- One step for every translation of the slice at which the shape fits, row after row. -/
def placementsOn (sl : Slice) (piece : Piece) : List Step :=
  (List.range sl.h).flatMap fun y =>
    (List.range sl.w).flatMap fun x =>
      if fits sl.table sl.w sl.h piece.points x y then [stepAt sl piece x y] else []

/-- The slices of a board, in the order `GetValidSteps` goes through them. -/
def Pattern.slices : Pattern → List Slice
  | .triangle t => [⟨t.matrix, TrianglePattern.ORDER, TrianglePattern.ORDER, fun s => s⟩]
  | .rectangle t => [⟨t.matrix, RectanglePattern.WIDTH, RectanglePattern.HEIGHT, fun s => s⟩]
  | .pyramid t =>
    (List.range t.ORDER).map (fun floor =>
      ⟨t.floors.getD floor [], floor + 1, floor + 1, fun s => (floor <<< 3) ||| s⟩) ++
    (List.range (2 * t.ORDER - 1)).map (fun plane =>
      ⟨t.diagonals_left.getD plane [], PyramidPattern.planeSize t.ORDER plane,
        PyramidPattern.planeSize t.ORDER plane, fun s => (1 <<< 6) ||| (plane <<< 3) ||| s⟩) ++
    (List.range (2 * t.ORDER - 1)).map (fun plane =>
      ⟨t.diagonals_right.getD plane [], PyramidPattern.planeSize t.ORDER plane,
        PyramidPattern.planeSize t.ORDER plane, fun s => (1 <<< 7) ||| (plane <<< 3) ||| s⟩)

/-- All placements of a shape on a board. -/
def Pattern.placements (pattern : Pattern) (piece : Piece) : List Step :=
  pattern.slices.flatMap fun sl => placementsOn sl piece

/-- A slice is stored completely, its cell ids are at most `size`, and no cell id other
than `0` occurs twice in it. -/
def GoodSlice (size : Nat) (sl : Slice) : Prop :=
  sl.table.length = sl.w * sl.h ∧ (∀ v ∈ sl.table, v ≤ size) ∧
    (sl.table.filter (fun v => decide (v ≠ 0))).Nodup

instance (size : Nat) (sl : Slice) : Decidable (GoodSlice size sl) := by
  unfold GoodSlice; infer_instance

/-- Every slice the loops of `GetValidSteps` go to exists. -/
def Pattern.Complete : Pattern → Prop
  | .pyramid t => t.floors.length = t.ORDER ∧ t.diagonals_left.length = 2 * t.ORDER - 1 ∧
      t.diagonals_right.length = 2 * t.ORDER - 1
  | _ => True

instance (pattern : Pattern) : Decidable pattern.Complete := by
  cases pattern <;> unfold Pattern.Complete <;> infer_instance

/-- The tables of a board are as `GetValidSteps` takes them to be. -/
def Pattern.Good (pattern : Pattern) : Prop :=
  pattern.Complete ∧ ∀ sl ∈ pattern.slices, GoodSlice pattern.size sl

instance (pattern : Pattern) : Decidable pattern.Good := by
  unfold Pattern.Good; infer_instance

end IQPyramidSolver


namespace IQPyramidSolver
namespace DancingLinkX

/-! ## Placement lists and what a solution is -/

/-- A list of placements for a board of `size` cells: the cells of a placement are cells
of the board, none twice, and its piece is one of the `PIECES` pieces. -/
def WellFormed (size : Nat) (steps : List (List Nat × Nat)) : Prop :=
  ∀ st ∈ steps, st.1.Nodup ∧ (∀ c ∈ st.1, 1 ≤ c ∧ c ≤ size) ∧ st.2 < PIECES

instance (size : Nat) (steps : List (List Nat × Nat)) : Decidable (WellFormed size steps) := by
  unfold WellFormed; infer_instance

/-- The cells of the placement of row `r`; the rows are numbered from `1`. -/
def cellsOf (steps : List (List Nat × Nat)) : Nat → List Nat
  | 0 => []
  | r + 1 => ((steps[r]?).map fun st => st.1).getD []

/-- The piece of the placement of row `r`. -/
def pieceOf (steps : List (List Nat × Nat)) : Nat → Option Nat
  | 0 => none
  | r + 1 => (steps[r]?).map fun st => st.2

/-- The columns of row `r` of the matrix: the cells of its placement and the column
`size + 1 + piece` of its piece. -/
def rowCols (size : Nat) (steps : List (List Nat × Nat)) (r : Nat) : List Nat :=
  cellsOf steps r ++ ((pieceOf steps r).map fun b => b + size + 1).toList

/-- The rows of `ans` are rows of the matrix, and their cells taken together are the cells
`1..size` of the board, each once. -/
def Partition (size : Nat) (steps : List (List Nat × Nat)) (ans : List Nat) : Prop :=
  (∀ r ∈ ans, 1 ≤ r ∧ r ≤ steps.length) ∧
    (ans.flatMap (cellsOf steps)).Perm (List.range' 1 size)

/-- The rows of `S` are an exact cover: different rows of the matrix that meet no column
twice and meet every column from `1` to `maxc`. -/
def ExactCover (size : Nat) (steps : List (List Nat × Nat)) (maxc : Int) (S : List Nat) :
    Prop :=
  S.Nodup ∧ (∀ r ∈ S, 1 ≤ r ∧ r ≤ steps.length) ∧ (S.flatMap (rowCols size steps)).Nodup ∧
    ∀ c : Nat, 1 ≤ c → (c : Int) ≤ maxc → c ∈ S.flatMap (rowCols size steps)

/-- The rows of `ans` meet no column twice, meet columns of `L` only, meet every column of
`L` up to `maxc`, and are rows of the matrix. -/
def Covers (links : List (Nat × Nat)) (L : List Nat) (maxc : Int) (ans : List Nat) : Prop :=
  (covered links ans).Nodup ∧ (∀ c ∈ covered links ans, c ∈ L) ∧
    (∀ c ∈ L, (c : Int) ≤ maxc → c ∈ covered links ans) ∧ ∀ r ∈ ans, ∃ c, (r, c) ∈ links

/-- Column `c` is in the header ring: it is reached from the root by `Right`. -/
def InHeaderRing (s : DancingLinkX) (c : Nat) : Prop :=
  c ≠ 0 ∧ ∃ k, Nat.iterate s.Right k 0 = c

/-- The states the search goes through, with the columns deleted and not yet recovered:
`Delete` of a column of the header ring (of the root when the ring is empty, as `Spread`
may do), `Recover` of the column deleted last, and any change of `Answer` and
`Answers`. -/
inductive Reach (s0 : DancingLinkX) : List Nat → DancingLinkX → Prop where
  | init : Reach s0 [] s0
  | delete {stack : List Nat} {s t : DancingLinkX} (fuel c : Nat) :
      Reach s0 stack s → InHeaderRing s c → Delete fuel c s = some t → Reach s0 (c :: stack) t
  | deleteRoot {stack : List Nat} {s t : DancingLinkX} (fuel : Nat) :
      Reach s0 stack s → s.Right 0 = 0 → Delete fuel 0 s = some t → Reach s0 (0 :: stack) t
  | recover {stack : List Nat} {s t : DancingLinkX} (fuel c : Nat) :
      Reach s0 (c :: stack) s → Recover fuel c s = some t → Reach s0 stack t
  | answers {stack : List Nat} {s : DancingLinkX} (a : List Nat) (A : List (List Nat)) :
      Reach s0 stack s → Reach s0 stack { s with Answer := a, Answers := A }

/-- What a state with the columns of `stack` deleted and not yet recovered looks like:
it is `s0`, or the state `Delete` leaves from such a state, but for `Answer` and
`Answers`. -/
def Hist (nc : Nat) (links : List (Nat × Nat)) (s0 : DancingLinkX) :
    List Nat → DancingLinkX → Prop
  | [], s => ∃ a A, s = withAnswers a A s0
  | c :: stack, s => ∃ sp L a A, Hist nc links s0 stack sp ∧ Inv nc links L sp ∧
      ((c ∈ L ∧ s = withAnswers a A (deleteState nc links L c sp)) ∨
        (c = 0 ∧ L = [] ∧ s = withAnswers a A sp))

end DancingLinkX
end IQPyramidSolver


namespace IQPyramidSolver

/-! ## The solutions `main` reports (src/IQPyramidSolver.cpp, lines 1038-1060) -/

/-- The loop `for (int index : result) solution.push_back(steps[index - 1]);`: `none` when
an index is outside `steps`. -/
def rawSolution (steps : List Step) (result : List Nat) : Option (List Step) :=
  result.mapM fun index => if index = 0 then none else steps[index - 1]?

/-- What `std::sort` promises about its outcome for the comparator `less`: the elements
are those of the input, and none is followed by one that `less` puts before it. -/
def IsSorted {α : Type} (less : α → α → Prop) (input output : List α) : Prop :=
  output.Perm input ∧ output.Pairwise fun x y => ¬ less y x

/-- The comparator of the sort inside one solution. -/
def lessBlock (step1 step2 : Step) : Prop := step1.block_index < step2.block_index

/-- The loop `for (int i = 0; i < PIECES; i++)` of the comparator of the sort across the
solutions, for the values of `i` still to come: `none` when `solution1[i]` or
`solution2[i]` is outside the vector. -/
def lessFrom (solution1 solution2 : List Step) : List Nat → Option Bool
  | [] => some false
  | i :: rest =>
    match solution1[i]?, solution2[i]? with
    | some a, some b =>
      if a.shape_index ≠ b.shape_index then some (decide (a.shape_index < b.shape_index))
      else if a.x ≠ b.x then some (decide (a.x < b.x))
      else if a.y ≠ b.y then some (decide (a.y < b.y))
      else lessFrom solution1 solution2 rest
    | _, _ => none

/-- The comparator of the sort across the solutions. -/
def lessSolution (solution1 solution2 : List Step) : Option Bool :=
  lessFrom solution1 solution2 (List.range PIECES)

/-- The comparator says that `solution1` comes before `solution2`. -/
def Before (solution1 solution2 : List Step) : Prop :=
  lessSolution solution1 solution2 = some true

/-- The vector `solution` that `main` pushes onto `solutions` for one `result`. -/
def Canonical (steps : List Step) (result : List Nat) (solution : List Step) : Prop :=
  ∃ raw, rawSolution steps result = some raw ∧ IsSorted lessBlock raw solution

/-- The vector `solutions` after the last sort, for the vector `results`. -/
def Final (steps : List Step) (results : List (List Nat)) (out : List (List Step)) : Prop :=
  ∃ solutions, List.Forall₂ (Canonical steps) results solutions ∧ IsSorted Before solutions out

/-- A solution with all the pieces after the inner sort: twelve steps of `steps`, the
one at place `i` being of piece `i`. -/
structure IsFull (steps : List Step) (a : List Step) : Prop where
  blocks : a.map (fun st => st.block_index) = List.range PIECES
  mem : ∀ st ∈ a, st ∈ steps

/-- A test for a step being one `GetValidSteps` appends on the board for an oriented piece
of `pieces`: some piece and some slice give it at its place. -/
def placedBy (pattern : Pattern) (st : Step) : Bool :=
  pieces.any fun piece => pattern.slices.any fun sl =>
    decide (piece.block_index = st.block_index ∧ sl.id piece.shape_index = st.shape_index ∧
      st.x < sl.w ∧ st.y < sl.h) &&
    (fits sl.table sl.w sl.h piece.points st.x st.y && decide (stepAt sl piece st.x st.y = st))

/-- The steps of one solution of the 4-level pyramid, sorted by `block_index`. -/
def solutionA : List Step :=
  [⟨0, 18, 1, 0, [14, 11, 8, 7]⟩, ⟨1, 30, 1, 0, [16, 17, 21, 18, 22]⟩,
    ⟨2, 28, 0, 1, [26, 25, 24, 23, 19]⟩, ⟨3, 155, 0, 2, [1, 2, 6, 20, 15]⟩,
    ⟨5, 11, 0, 0, [4, 5, 3]⟩, ⟨9, 25, 0, 3, [30, 29, 28, 27]⟩,
    ⟨10, 16, 0, 1, [9, 10, 12, 13]⟩]

/-- The steps of another solution of the 4-level pyramid, sorted by `block_index`. -/
def solutionB : List Step :=
  [⟨0, 18, 1, 0, [14, 11, 8, 7]⟩, ⟨3, 155, 0, 2, [1, 2, 6, 20, 15]⟩,
    ⟨5, 11, 0, 0, [4, 5, 3]⟩, ⟨6, 26, 1, 0, [26, 22, 18, 17, 16]⟩,
    ⟨8, 27, 0, 1, [23, 19, 24, 25, 21]⟩, ⟨9, 25, 0, 3, [30, 29, 28, 27]⟩,
    ⟨10, 16, 0, 1, [9, 10, 12, 13]⟩]

/-- The orientation ids tell the slices of a board apart, as far as a piece fits on
them, and the shape number can be read off an orientation id. -/
def Pattern.KeyGood (pattern : Pattern) : Prop :=
  (∀ sl ∈ pattern.slices, ∀ s ∈ List.range 8, sl.id s % 8 = s ∧ sl.id s / 8 = sl.id 0 / 8) ∧
  (∀ sl1 ∈ pattern.slices, ∀ sl2 ∈ pattern.slices, sl1.id 0 / 8 = sl2.id 0 / 8 →
    (sl1.table = sl2.table ∧ sl1.w = sl2.w) ∨ sl1.w ≤ 1) ∧
  ∀ piece ∈ pieces, ∀ sl ∈ pattern.slices, sl.w ≤ 1 → placementsOn sl piece = []

instance (pattern : Pattern) : Decidable pattern.KeyGood := by
  unfold Pattern.KeyGood; infer_instance

end IQPyramidSolver


namespace IQPyramidSolver

/-! ## Orientation ids and cell ids of the boards -/

/-- The three loops of `PyramidPattern::GetValidSteps`: over the floors, over the left
diagonal planes and over the right diagonal planes. -/
inductive Family where
  | floor
  | left
  | right
deriving DecidableEq, Repr

/-- The second argument of `Step step(...)` in the three loops of
`PyramidPattern::GetValidSteps`: `(floor << 3) | piece.shape_index`,
`(1 << 6) | (plane << 3) | piece.shape_index` and
`(1 << 7) | (plane << 3) | piece.shape_index`. -/
def compositeId : Family → Nat → Nat → Nat
  | .floor, floor, s => (floor <<< 3) ||| s
  | .left, plane, s => (1 <<< 6) ||| (plane <<< 3) ||| s
  | .right, plane, s => (1 <<< 7) ||| (plane <<< 3) ||| s

/-- The slices of a pyramid of the given order: the floors `0..ORDER-1` and, for both
diagonal families, the planes `0..2*ORDER-2`. -/
def sliceNumbers (order : Nat) : List (Family × Nat) :=
  (List.range order).map (fun floor => (Family.floor, floor)) ++
  (List.range (2 * order - 1)).map (fun plane => (Family.left, plane)) ++
  (List.range (2 * order - 1)).map (fun plane => (Family.right, plane))

/-- All triples of a family, a slice number of it and a shape number `0..7`. -/
def sliceKeys (order : Nat) : List (Family × Nat × Nat) :=
  (sliceNumbers order).flatMap fun k => (List.range 8).map fun s => (k.1, k.2, s)

/-- The tables of a board, one per family of slices: the matrix of the triangle and of the
rectangle, and for a pyramid all floors, all left diagonal slices and all right diagonal
slices. -/
def Pattern.tables : Pattern → List (List Nat)
  | .triangle t => [t.matrix]
  | .rectangle t => [t.matrix]
  | .pyramid t => [t.floors.flatten, t.diagonals_left.flatten, t.diagonals_right.flatten]

/-- The cell ids of a table: its entries other than `0`. -/
def cellIds (table : List Nat) : List Nat := table.filter fun v => decide (v ≠ 0)

/-- The floors of a pyramid have `(floor + 1) * (floor + 1)` entries each. -/
def Pattern.FloorsSquare : Pattern → Prop
  | .pyramid t => t.floors.length = t.ORDER ∧
      ∀ floor ∈ List.range t.ORDER, (t.floors.getD floor []).length = (floor + 1) * (floor + 1)
  | _ => True

instance (pattern : Pattern) : Decidable pattern.FloorsSquare := by
  cases pattern <;> unfold Pattern.FloorsSquare <;> infer_instance

namespace DancingLinkX

/-- Two prefixes part: they are different, and a row of the one and a different row of the
other meet one column. -/
def Clash (links : List (Nat × Nat)) (p q : List Nat) : Prop :=
  p ≠ q ∧ ∃ r1 ∈ p, ∃ r2 ∈ q, r1 ≠ r2 ∧ ∃ c, c ∈ colsOf links r1 ∧ c ∈ colsOf links r2

/-- The method `Spread` with one addition that changes nothing it does: next to the prefix it
pushes onto `steps_list` it notes the object as it is at that moment. -/
def SpreadLog : Nat → Nat → Nat → DancingLinkX → List (List Nat × DancingLinkX) →
    Option (DancingLinkX × List (List Nat × DancingLinkX))
  | 0, _, _, _, _ => none
  | fuel + 1, level, level_needed, s, steps_list =>
    if level ≥ level_needed then
      some (s, steps_list ++ [(s.Answer, s)])
    else
      (selectLoop s fuel (s.Right 0) INT_MAX (s.Right 0)).bind fun now =>
      (Delete fuel now s).bind fun s1 =>
      (forRing (fun (p : DancingLinkX × List (List Nat × DancingLinkX)) => p.1.Down) now
        (fun i p =>
          let t1 : DancingLinkX := { p.1 with Answer := p.1.Answer ++ [p.1.Row i] }
          (forRing (fun u => u.Right) i (fun j u => Delete fuel (u.Column j) u)
            fuel (t1.Right i) t1).bind fun t2 =>
          (SpreadLog fuel (level + 1) level_needed t2 p.2).bind fun q =>
          (forRing (fun u => u.Left) i (fun j u => Recover fuel (u.Column j) u)
            fuel (q.1.Left i) q.1).map fun t4 =>
          ({ t4 with Answer := t4.Answer.dropLast }, q.2))
        fuel (s1.Down now) (s1, steps_list)).bind fun r =>
      (Recover fuel now r.1).map fun s3 => (s3, r.2)

/-- What `SpreadLog` notes for the prefix that adds the rows `sol` to the `Answer` of `s`:
the prefix, and a state in which exactly the columns the rows of `sol` leave are live. -/
def Recorded (nc : Nat) (links : List (Nat × Nat)) (L : List Nat) (s : DancingLinkX)
    (sol : List Nat) (e : List Nat × DancingLinkX) : Prop :=
  e.1 = s.Answer ++ sol ∧ Inv nc links (liveAfter links L sol) e.2 ∧
    e.2.Answer = s.Answer ++ sol ∧ e.2.Answers = s.Answers ∧ e.2.max_column = s.max_column

end DancingLinkX

end IQPyramidSolver


namespace IQPyramidSolver

/-- A write `v[i] = x` into a vector: `none` when `i` is outside the vector. -/
def writeAt {α : Type} (v : List α) (i : Nat) (x : α) : Option (List α) :=
  if i < v.length then some (v.set i x) else none

/-! ## The exact-cover engine with the lengths of its vectors

The same methods as above, on vectors that have the length the constructor gives them:
a read or a write outside a vector is `none`. -/

namespace Checked

/-- The data members of `class DancingLinkX`, the vectors as lists. -/
structure DancingLinkX where
  Left : List Nat
  Right : List Nat
  Up : List Nat
  Down : List Nat
  Column : List Nat
  Row : List Nat
  Count : List Int
  Header : List Nat
  counter : Nat
  Answer : List Nat
  Answers : List (List Nat)
  max_column : Int
deriving DecidableEq, Repr

namespace DancingLinkX

/-- One pass of the constructor's loop `for (int i = 0; i <= column_count; i++)`. -/
def initColumn (column_count : Nat) (s : DancingLinkX) (i : Nat) : Option DancingLinkX :=
  (writeAt s.Left i (if i = 0 then column_count else i - 1)).bind fun Left1 =>
  (writeAt s.Right i (if i = column_count then 0 else i + 1)).bind fun Right1 =>
  (writeAt s.Up i i).bind fun Up1 =>
  (writeAt s.Down i i).bind fun Down1 =>
  (writeAt s.Column i i).bind fun Column1 =>
  (writeAt s.Row i 0).bind fun Row1 =>
  (writeAt s.Count i 0).map fun Count1 =>
  { s with Left := Left1, Right := Right1, Up := Up1, Down := Down1, Column := Column1,
           Row := Row1, Count := Count1 }

/-- The constructor `DancingLinkX(node_count, row_count, column_count, isComplete)`. -/
def new (node_count row_count column_count : Nat) (isComplete : Bool) : Option DancingLinkX :=
  let s0 : DancingLinkX :=
    { Left := List.replicate node_count 0, Right := List.replicate node_count 0,
      Up := List.replicate node_count 0, Down := List.replicate node_count 0,
      Column := List.replicate node_count 0, Row := List.replicate node_count 0,
      Count := List.replicate (column_count + 1) 0, Header := List.replicate (row_count + 1) 0,
      counter := 0, Answer := [], Answers := [],
      max_column := if isComplete then (column_count : Int) else (column_count : Int) - PIECES }
  ((List.range (column_count + 1)).foldlM (initColumn column_count) s0).map fun s1 =>
    { s1 with counter := column_count }

/-- The first eight statements of `Link`: the new node gets its column and row and is put
at the end of the column ring. -/
def linkColumn (row column : Nat) (s : DancingLinkX) : Option DancingLinkX :=
  let counter := s.counter + 1
  (writeAt s.Column counter column).bind fun Column1 =>
  (writeAt s.Row counter row).bind fun Row1 =>
  (s.Count[column]?).bind fun n =>
  (writeAt s.Count column (n + 1)).bind fun Count1 =>
  (s.Up[column]?).bind fun uc =>
  (writeAt s.Up counter uc).bind fun Up1 =>
  (writeAt s.Down counter column).bind fun Down1 =>
  (Up1[column]?).bind fun uc1 =>
  (writeAt Down1 uc1 counter).bind fun Down2 =>
  (writeAt Up1 column counter).map fun Up2 =>
  { s with
    counter := counter, Column := Column1, Row := Row1, Count := Count1, Up := Up2, Down := Down2 }

/-- The branch `if (Header[row] == 0)` of `Link`: the new node is the first of its row. -/
def linkFirst (row : Nat) (s : DancingLinkX) : Option DancingLinkX :=
  (writeAt s.Header row s.counter).bind fun Header1 =>
  (writeAt s.Left s.counter s.counter).bind fun Left1 =>
  (writeAt s.Right s.counter s.counter).map fun Right1 =>
  { s with Header := Header1, Left := Left1, Right := Right1 }

/-- The branch `else` of `Link`: the new node is put at the end of the row ring of the
node `h`, which is `Header[row]`. -/
def linkNext (h : Nat) (s : DancingLinkX) : Option DancingLinkX :=
  (s.Left[h]?).bind fun lh =>
  (writeAt s.Left s.counter lh).bind fun Left1 =>
  (writeAt s.Right s.counter h).bind fun Right1 =>
  (Left1[h]?).bind fun lh1 =>
  (writeAt Right1 lh1 s.counter).bind fun Right2 =>
  (writeAt Left1 h s.counter).map fun Left2 =>
  { s with Left := Left2, Right := Right2 }

/-- The method `void DancingLinkX::Link(int row, int column)`. -/
def Link (row column : Nat) (s : DancingLinkX) : Option DancingLinkX :=
  (linkColumn row column s).bind fun s1 =>
  (s1.Header[row]?).bind fun h =>
  if h = 0 then linkFirst row s1 else linkNext h s1

/-- The loop `for (int i = next[start]; i != stop; i = next[i]) body(i);` with a read of
`next` that may be outside the vector. -/
def forRing {σ : Type} (next : σ → Nat → Option Nat) (stop : Nat)
    (body : Nat → σ → Option σ) : Nat → Nat → σ → Option σ
  | 0, _, _ => none
  | fuel + 1, i, s =>
    if i = stop then some s
    else (body i s).bind fun s1 => (next s1 i).bind fun i1 => forRing next stop body fuel i1 s1

/-- The three statements in the inner loop of `Delete`, for the node `j`. -/
def unlinkNode (j : Nat) (s : DancingLinkX) : Option DancingLinkX :=
  (s.Down[j]?).bind fun dj =>
  (s.Up[j]?).bind fun uj =>
  (writeAt s.Up dj uj).bind fun Up1 =>
  (Up1[j]?).bind fun uj1 =>
  (writeAt s.Down uj1 dj).bind fun Down1 =>
  (s.Column[j]?).bind fun cj =>
  (s.Count[cj]?).bind fun n =>
  (writeAt s.Count cj (n - 1)).map fun Count1 =>
  { s with Up := Up1, Down := Down1, Count := Count1 }

/-- The three statements in the inner loop of `Recover`, for the node `j`. -/
def relinkNode (j : Nat) (s : DancingLinkX) : Option DancingLinkX :=
  (s.Down[j]?).bind fun dj =>
  (writeAt s.Up dj j).bind fun Up1 =>
  (Up1[j]?).bind fun uj1 =>
  (writeAt s.Down uj1 j).bind fun Down1 =>
  (s.Column[j]?).bind fun cj =>
  (s.Count[cj]?).bind fun n =>
  (writeAt s.Count cj (n + 1)).map fun Count1 =>
  { s with Up := Up1, Down := Down1, Count := Count1 }

/-- The method `void DancingLinkX::Delete(int column)`. -/
def Delete (fuel : Nat) (column : Nat) (s : DancingLinkX) : Option DancingLinkX :=
  (s.Left[column]?).bind fun l =>
  (s.Right[column]?).bind fun r =>
  (writeAt s.Right l r).bind fun Right1 =>
  (Right1[column]?).bind fun r1 =>
  (writeAt s.Left r1 l).bind fun Left1 =>
  let s0 : DancingLinkX := { s with Right := Right1, Left := Left1 }
  (s0.Down[column]?).bind fun i0 =>
  forRing (fun t i => t.Down[i]?) column
    (fun i t => (t.Right[i]?).bind fun j0 =>
      forRing (fun u j => u.Right[j]?) i (fun j u => unlinkNode j u) fuel j0 t)
    fuel i0 s0

/-- The method `void DancingLinkX::Recover(int column)`. -/
def Recover (fuel : Nat) (column : Nat) (s : DancingLinkX) : Option DancingLinkX :=
  (s.Up[column]?).bind fun i0 =>
  (forRing (fun t i => t.Up[i]?) column
    (fun i t => (t.Left[i]?).bind fun j0 =>
      forRing (fun u j => u.Left[j]?) i (fun j u => relinkNode j u) fuel j0 t)
    fuel i0 s).bind fun s1 =>
  (s1.Left[column]?).bind fun l =>
  (writeAt s1.Right l column).bind fun Right1 =>
  (Right1[column]?).bind fun r1 =>
  (writeAt s1.Left r1 column).map fun Left1 =>
  { s1 with Right := Right1, Left := Left1 }

/-- The column selection loop of `Spread` and `Dance`. -/
def selectLoop (s : DancingLinkX) : Nat → Nat → Int → Nat → Option Nat
  | 0, _, _, _ => none
  | fuel + 1, i, least_count, now =>
    if i ≠ 0 ∧ (i : Int) ≤ s.max_column then
      (s.Count[i]?).bind fun n =>
      (s.Right[i]?).bind fun i1 =>
      if n < least_count then selectLoop s fuel i1 n i
      else selectLoop s fuel i1 least_count now
    else some now

/-- The method `void DancingLinkX::Spread(int level, int level_needed, vector<vector<int>>& steps_list)`. -/
def Spread : Nat → Nat → Nat → DancingLinkX → List (List Nat) →
    Option (DancingLinkX × List (List Nat))
  | 0, _, _, _, _ => none
  | fuel + 1, level, level_needed, s, steps_list =>
    if level ≥ level_needed then
      some (s, steps_list ++ [s.Answer])
    else
      (s.Right[0]?).bind fun r0 =>
      (selectLoop s fuel r0 INT_MAX r0).bind fun now =>
      (Delete fuel now s).bind fun s1 =>
      (s1.Down[now]?).bind fun i0 =>
      (forRing (fun (p : DancingLinkX × List (List Nat)) i => p.1.Down[i]?) now
        (fun i p =>
          (p.1.Row[i]?).bind fun ri =>
          let t1 : DancingLinkX := { p.1 with Answer := p.1.Answer ++ [ri] }
          (t1.Right[i]?).bind fun j0 =>
          (forRing (fun u j => u.Right[j]?) i
            (fun j u => (u.Column[j]?).bind fun cj => Delete fuel cj u) fuel j0 t1).bind fun t2 =>
          (Spread fuel (level + 1) level_needed t2 p.2).bind fun q =>
          (q.1.Left[i]?).bind fun k0 =>
          (forRing (fun u j => u.Left[j]?) i
            (fun j u => (u.Column[j]?).bind fun cj => Recover fuel cj u) fuel k0 q.1).map fun t4 =>
          ({ t4 with Answer := t4.Answer.dropLast }, q.2))
        fuel i0 (s1, steps_list)).bind fun r =>
      (Recover fuel now r.1).map fun s3 => (s3, r.2)

/-- The part of `main` that builds the matrix from the placements. -/
def buildLoop (size : Nat) : List (List Nat × Nat) → Nat → DancingLinkX → Option DancingLinkX
  | [], _, s => some s
  | (indecies, block_index) :: rest, i, s =>
    (indecies.foldlM (fun t index => Link (i + 1) index t) s).bind fun s1 =>
    (Link (i + 1) (block_index + size + 1) s1).bind fun s2 =>
    buildLoop size rest (i + 1) s2

/-- The matrix `dlx` of `main` once the build loop is over. -/
def build (size : Nat) (steps : List (List Nat × Nat)) (isComplete : Bool) :
    Option DancingLinkX :=
  (new (IQPyramidSolver.DancingLinkX.nodeCount size steps) steps.length (size + PIECES)
    isComplete).bind (buildLoop size steps 0)

end DancingLinkX
end Checked

end IQPyramidSolver


namespace IQPyramidSolver

/-! ## The grid of a solution (`FormatMatrix`, src/IQPyramidSolver.cpp, lines 241-258, 310-326
and 467-495) -/

/-- The first loop of `FormatMatrix`, the same in the three classes:
`vector<int> piece_matrix(size() + 1, 0)` and the writes
`piece_matrix[index] = step.block_index`; `none` when an index is outside the vector. -/
def pieceMatrix (size : Nat) (solution : List Step) : Option (List Int) :=
  solution.foldlM (fun pm step =>
    step.indecies.foldlM (fun pm1 index => writeAt pm1 index (step.block_index : Int)) pm)
    (List.replicate (size + 1) 0)

namespace TrianglePattern

/-- The loops over `y` and `x` of `FormatMatrix` with the counter `index`, for a read `read`
of `piece_matrix`. -/
def formatWith {α : Type} (read : Nat → Option α) : Option (List (List α)) :=
  ((List.range ORDER).foldlM (fun (a : List (List α) × Nat) y =>
    ((List.range ORDER).foldlM (fun (b : List α × Nat) x =>
      if x ≤ y then (read (b.2 + 1)).map fun v => (b.1 ++ [v], b.2 + 1) else some b)
      ([], a.2)).map fun r => (a.1 ++ [r.1], r.2)) ([], 0)).map fun r => r.1

/-- The method `vector<vector<int>> FormatMatrix(vector<Step>& solution) const`. -/
def FormatMatrix (t : TrianglePattern) (solution : List Step) : Option (List (List Int)) :=
  (pieceMatrix t.size solution).bind fun pm => formatWith fun i => pm[i]?

end TrianglePattern

namespace RectanglePattern

/-- The loops over `y` and `x` of `FormatMatrix` with the counter `index`, for a read `read`
of `piece_matrix`. -/
def formatWith {α : Type} (read : Nat → Option α) : Option (List (List α)) :=
  ((List.range HEIGHT).foldlM (fun (a : List (List α) × Nat) _ =>
    ((List.range WIDTH).foldlM (fun (b : List α × Nat) _ =>
      (read (b.2 + 1)).map fun v => (b.1 ++ [v], b.2 + 1))
      ([], a.2)).map fun r => (a.1 ++ [r.1], r.2)) ([], 0)).map fun r => r.1

/-- The method `vector<vector<int>> FormatMatrix(vector<Step>& solution) const`. -/
def FormatMatrix (t : RectanglePattern) (solution : List Step) : Option (List (List Int)) :=
  (pieceMatrix t.size solution).bind fun pm => formatWith fun i => pm[i]?

end RectanglePattern

namespace PyramidPattern

/-- The loops over `i`, `j` and `k` of `FormatMatrix`, for a read `read` of `piece_matrix`
and the value `filler` where the method pushes `-1`; `none` when a read of `floors` or of
`piece_matrix` is outside the vector. -/
def formatWith {α : Type} (t : PyramidPattern) (filler : α) (read : Nat → Option α) :
    Option (List (List α)) :=
  (List.range t.ORDER).foldlM (fun (rows : List (List α)) i =>
    ((List.range t.ORDER).foldlM (fun (row : List α) j =>
      ((List.range (j + 1)).foldlM (fun (row1 : List α) k =>
        if j ≥ i then
          ((t.floors[j]?).bind fun table => table[i * (j + 1) + k]?).bind fun e =>
            (read e).map fun v => row1 ++ [v]
        else some (row1 ++ [filler])) row).map fun row2 => row2 ++ [filler]) []).map
      fun row => rows ++ [row]) []

/-- The method `vector<vector<int>> FormatMatrix(vector<Step>& solution) const`. -/
def FormatMatrix (t : PyramidPattern) (solution : List Step) : Option (List (List Int)) :=
  (pieceMatrix t.size solution).bind fun pm => t.formatWith (-1) fun i => pm[i]?

end PyramidPattern

namespace Pattern

/-- The virtual `vector<vector<int>> FormatMatrix(vector<Step>& solution) const`. -/
def FormatMatrix : Pattern → List Step → Option (List (List Int))
  | triangle t => t.FormatMatrix
  | rectangle t => t.FormatMatrix
  | pyramid t => t.FormatMatrix

/-- The loops of `FormatMatrix` that fill the grid, of the class of the board. -/
def formatWith {α : Type} : Pattern → α → (Nat → Option α) → Option (List (List α))
  | triangle _, _, read => TrianglePattern.formatWith read
  | rectangle _, _, read => RectanglePattern.formatWith read
  | pyramid t, filler, read => t.formatWith filler read

/-- The grid the loops of `FormatMatrix` give for a `piece_matrix` that holds at every index
`0..size()` the index itself: the cell id each place of the grid stands for, and `none` at
the places the method fills with `-1`. -/
def layout (pattern : Pattern) : Option (List (List (Option Nat))) :=
  pattern.formatWith none fun i => if i ≤ pattern.size then some (some i) else none

end Pattern

/-- What the grid shows at a place that stands for the cell id `e` (or for none): the
entry of `piece_matrix`, or `-1`. -/
def render (pm : List Int) : Option Nat → Int
  | none => -1
  | some e => pm.getD e 0

/-- The grid entry `v` at a place that stands for `e` is right for the solution: `-1` at a
place that stands for no cell, and else the `block_index` of a step that covers the cell. -/
def Shows (solution : List Step) (e : Option Nat) (v : Int) : Prop :=
  match e with
  | none => v = -1
  | some cell => ∃ st ∈ solution, cell ∈ st.indecies ∧ v = (st.block_index : Int)

/-- The board is of the class `PyramidPattern`. -/
def Pattern.isPyramid : Pattern → Bool
  | .pyramid _ => true
  | _ => false

/-- The facts about the places of the grid of a board: every cell id `1..size` stands at
exactly one place, no other number stands anywhere, and the grids of the triangle and of
the rectangle have no place without a cell. -/
def Pattern.LayoutGood (pattern : Pattern) (lay : List (List (Option Nat))) : Prop :=
  (∀ cell ∈ List.range' 1 pattern.size, lay.flatten.count (some cell) = 1) ∧
  (∀ e ∈ lay.flatten, e.all fun cell => decide (1 ≤ cell ∧ cell ≤ pattern.size)) ∧
  (pattern.isPyramid = false → none ∉ lay.flatten)

instance (pattern : Pattern) (lay : List (List (Option Nat))) :
    Decidable (pattern.LayoutGood lay) := by
  unfold Pattern.LayoutGood
  infer_instance

/-- The writes `piece_matrix[index] = step.block_index` of `FormatMatrix`, in order: the
index and the value. -/
def writesOf (solution : List Step) : List (Nat × Int) :=
  solution.flatMap fun st => st.indecies.map fun index => (index, (st.block_index : Int))

end IQPyramidSolver


namespace IQPyramidSolver

/-! ## Rows of the matrix that name the same piece on the same cells -/

/-- Two steps are of the same piece and cover the same set of cells. -/
def SameRow (a b : Step) : Prop :=
  a.block_index = b.block_index ∧ ∀ cell, cell ∈ a.indecies ↔ cell ∈ b.indecies

/-- The place `(x, y)` is inside slice `a`, on a cell that is also a cell of slice `b`. -/
def common (a b : Slice) (x y : Nat) : Bool :=
  decide (x < a.w ∧ y < a.h ∧ cellAt a.table a.w x y ≠ 0 ∧ cellAt a.table a.w x y ∈ b.table)

/-- No two cells of slice `a` that are also cells of slice `b` are neighbours in `a`. -/
def Apart (a b : Slice) : Prop :=
  ∀ y ∈ List.range a.h, ∀ x ∈ List.range a.w, common a b x y = true →
    common a b (x + 1) y = false ∧ common a b x (y + 1) = false

instance (a b : Slice) : Decidable (Apart a b) := by
  unfold Apart; infer_instance

/-- Any two slices of the board share no two cells that are neighbours in one of them. -/
def Pattern.SlicesApart (pattern : Pattern) : Prop :=
  pattern.slices.Pairwise fun a b => Apart a b ∧ Apart b a

instance (pattern : Pattern) : Decidable pattern.SlicesApart := by
  unfold Pattern.SlicesApart; infer_instance

/-- The slices at the places `lo .. hi - 1` of the list of slices are apart from all the
slices after them. -/
def Pattern.ApartRows (pattern : Pattern) (lo hi : Nat) : Prop :=
  ∀ k ∈ List.range' lo (hi - lo), ∀ a ∈ pattern.slices[k]?, ∀ b ∈ pattern.slices.drop (k + 1),
    Apart a b ∧ Apart b a

instance (pattern : Pattern) (lo hi : Nat) : Decidable (pattern.ApartRows lo hi) := by
  unfold Pattern.ApartRows; infer_instance

/-- In the tiling the rows of `ans` give, the cell `cell` belongs to the piece `block`. -/
def Tiles (steps : List (List Nat × Nat)) (ans : List Nat) (cell block : Nat) : Prop :=
  ∃ r ∈ ans, cell ∈ DancingLinkX.cellsOf steps r ∧ DancingLinkX.pieceOf steps r = some block

namespace Checked
namespace DancingLinkX

/-- The vectors have the lengths the constructor gives them, the headers are below the
counter, and no link stored in `Up`, `Left` or `Header` points beyond the counter. -/
def Sized (node_count row_count column_count : Nat) (s : DancingLinkX) : Prop :=
  s.Left.length = node_count ∧ s.Right.length = node_count ∧ s.Up.length = node_count ∧
  s.Down.length = node_count ∧ s.Column.length = node_count ∧ s.Row.length = node_count ∧
  s.Count.length = column_count + 1 ∧ s.Header.length = row_count + 1 ∧
  column_count ≤ s.counter ∧ (∀ v ∈ s.Up, v ≤ s.counter) ∧ (∀ v ∈ s.Left, v ≤ s.counter) ∧
  ∀ v ∈ s.Header, v ≤ s.counter

end DancingLinkX
end Checked

end IQPyramidSolver


namespace IQPyramidSolver
namespace DancingLinkX

/-- The method `Dance` with one addition that changes nothing it does: next to the object it
keeps the largest size the `Answer` stack had so far, brought up to date after every
`Answer.push_back`. -/
def DanceDepth : Nat → DancingLinkX × Nat → Option (DancingLinkX × Nat)
  | 0, _ => none
  | fuel + 1, p0 =>
    let s := p0.1
    let now := s.Right 0
    if now = 0 ∨ (now : Int) > s.max_column then
      some ({ s with Answers := s.Answers ++ [s.Answer] }, p0.2)
    else
      (selectLoop s fuel (s.Right 0) INT_MAX now).bind fun now =>
      (Delete fuel now s).bind fun s1 =>
      (forRing (fun (p : DancingLinkX × Nat) => p.1.Down) now
        (fun i p =>
          let t1 : DancingLinkX := { p.1 with Answer := p.1.Answer ++ [p.1.Row i] }
          (forRing (fun u => u.Right) i (fun j u => Delete fuel (u.Column j) u)
            fuel (t1.Right i) t1).bind fun t2 =>
          (DanceDepth fuel (t2, max p.2 t1.Answer.length)).bind fun q =>
          (forRing (fun u => u.Left) i (fun j u => Recover fuel (u.Column j) u)
            fuel (q.1.Left i) q.1).map fun t4 =>
          ({ t4 with Answer := t4.Answer.dropLast }, q.2))
        fuel (s1.Down now) (s1, p0.2)).bind fun r =>
      (Recover fuel now r.1).map fun s3 => (s3, r.2)

/-- The method `Spread` with the same addition: the third component is the largest size the
`Answer` stack had so far. -/
def SpreadDepth : Nat → Nat → Nat → DancingLinkX → List (List Nat) × Nat →
    Option (DancingLinkX × List (List Nat) × Nat)
  | 0, _, _, _, _ => none
  | fuel + 1, level, level_needed, s, out =>
    if level ≥ level_needed then
      some (s, out.1 ++ [s.Answer], out.2)
    else
      (selectLoop s fuel (s.Right 0) INT_MAX (s.Right 0)).bind fun now =>
      (Delete fuel now s).bind fun s1 =>
      (forRing (fun (p : DancingLinkX × List (List Nat) × Nat) => p.1.Down) now
        (fun i p =>
          let t1 : DancingLinkX := { p.1 with Answer := p.1.Answer ++ [p.1.Row i] }
          (forRing (fun u => u.Right) i (fun j u => Delete fuel (u.Column j) u)
            fuel (t1.Right i) t1).bind fun t2 =>
          (SpreadDepth fuel (level + 1) level_needed t2 (p.2.1, max p.2.2 t1.Answer.length)).bind
            fun q =>
          (forRing (fun u => u.Left) i (fun j u => Recover fuel (u.Column j) u)
            fuel (q.1.Left i) q.1).map fun t4 =>
          ({ t4 with Answer := t4.Answer.dropLast }, q.2))
        fuel (s1.Down now) (s1, out)).bind fun r =>
      (Recover fuel now r.1).map fun s3 => (s3, r.2)

/-- The columns of `L` that stand for a piece: those beyond the `size` cell columns. -/
def pieceColumns (size : Nat) (L : List Nat) : List Nat :=
  L.filter fun c => decide (size < c)

end DancingLinkX
end IQPyramidSolver


namespace IQPyramidSolver
namespace DancingLinkX

/-! ## Paths and rings -/

theorem path_append (f : Nat → Nat) (l1 : List Nat) (x : Nat) (l2 : List Nat) (a b : Nat) :
    Path f a (l1 ++ x :: l2) b ↔ Path f a l1 x ∧ Path f x l2 b := by
  induction l1 generalizing a with
  | nil => simp [Path]
  | cons y l1 ih => simp [Path, ih, and_assoc]

theorem path_congr (f g : Nat → Nat) (l : List Nat) (a b : Nat)
    (h : ∀ x ∈ a :: l, f x = g x) : Path f a l b ↔ Path g a l b := by
  induction l generalizing a with
  | nil => simp [Path, h a (by simp)]
  | cons y l ih =>
    simp only [Path, h a (by simp)]
    rw [ih y (fun x hx => h x (List.mem_cons_of_mem _ hx))]

/-- The successor of an element of a path. -/
theorem path_next (f : Nat → Nat) (l1 : List Nat) (x : Nat) (l2 : List Nat) (a b : Nat)
    (h : Path f a (l1 ++ x :: l2) b) : f x = l2.headD b := by
  rw [path_append] at h
  cases l2 with
  | nil => simpa [Path] using h.2
  | cons y l2 => simpa [Path] using h.2.1

theorem path_next_start (f : Nat → Nat) (l : List Nat) (a b : Nat)
    (h : Path f a l b) : f a = l.headD b := by
  cases l with
  | nil => simpa [Path] using h
  | cons y l => simpa [Path] using h.1

theorem getLastD_mem (l : List Nat) (a : Nat) : l.getLastD a ∈ a :: l := by
  induction l generalizing a with
  | nil => simp
  | cons y l ih =>
    rw [List.getLastD_cons]
    exact List.mem_cons_of_mem _ (ih y)

/-- Taking `x` out of a path: the element before it now leads to the element after it. -/
theorem path_erase (f : Nat → Nat) (l1 : List Nat) (x : Nat) (l2 : List Nat) (a b : Nat)
    (hnd : (a :: (l1 ++ x :: l2)).Nodup) (h : Path f a (l1 ++ x :: l2) b) :
    Path (Function.update f (l1.getLastD a) (f x)) a (l1 ++ l2) b := by
  induction l1 generalizing a with
  | nil =>
    simp only [List.nil_append, Path, List.getLastD_nil] at h ⊢
    have hx : f x = l2.headD b := path_next_start f l2 x b h.2
    have hnd' : a ∉ l2 := by
      simp only [List.nil_append, List.nodup_cons, List.mem_cons, not_or] at hnd
      exact hnd.1.2
    cases l2 with
    | nil => simpa [Path] using hx
    | cons y l2 =>
      simp only [Path, Function.update_same, List.headD_cons] at h ⊢
      refine ⟨h.2.1, ?_⟩
      rw [path_congr _ f l2 y b]
      · exact h.2.2
      · intro z hz
        have : z ≠ a := by
          intro e
          subst e
          exact hnd' hz
        simp [Function.update_noteq this]
  | cons y l1 ih =>
    simp only [List.cons_append, Path] at h ⊢
    have hnd1 : (y :: (l1 ++ x :: l2)).Nodup := (List.nodup_cons.1 hnd).2
    rw [List.getLastD_cons]
    have hmem : l1.getLastD y ∈ y :: l1 := getLastD_mem l1 y
    have hne : a ≠ l1.getLastD y := by
      intro e
      have ha : a ∉ y :: (l1 ++ x :: l2) := (List.nodup_cons.1 hnd).1
      apply ha
      rw [e]
      simp only [List.mem_cons, List.mem_append] at hmem ⊢
      rcases hmem with hm | hm
      · exact Or.inl hm
      · exact Or.inr (Or.inl hm)
    refine ⟨by rw [Function.update_noteq hne]; exact h.1, ih y hnd1 h.2⟩

theorem headD_reverse (l : List Nat) (a : Nat) : l.reverse.headD a = l.getLastD a := by
  induction l generalizing a with
  | nil => simp
  | cons y l ih =>
    rw [List.getLastD_cons, ← ih y]
    cases h : l.reverse with
    | nil => simp [h]
    | cons z t => simp [h]

theorem getLastD_reverse (l : List Nat) (a : Nat) : l.reverse.getLastD a = l.headD a := by
  rw [← headD_reverse, List.reverse_reverse]

theorem ring_next (next prev : Nat → Nat) (a : Nat) (l1 : List Nat) (x : Nat) (l2 : List Nat)
    (h : Ring next prev a (l1 ++ x :: l2)) : next x = l2.headD a :=
  path_next next l1 x l2 a a h.1

theorem ring_prev (next prev : Nat → Nat) (a : Nat) (l1 : List Nat) (x : Nat) (l2 : List Nat)
    (h : Ring next prev a (l1 ++ x :: l2)) : prev x = l1.getLastD a := by
  have h2 := h.2
  rw [List.reverse_append, List.reverse_cons, List.append_assoc, List.singleton_append] at h2
  rw [path_next prev l2.reverse x l1.reverse a a h2, headD_reverse]

theorem ring_next_start (next prev : Nat → Nat) (a : Nat) (l : List Nat)
    (h : Ring next prev a l) : next a = l.headD a :=
  path_next_start next l a a h.1

theorem ring_prev_start (next prev : Nat → Nat) (a : Nat) (l : List Nat)
    (h : Ring next prev a l) : prev a = l.getLastD a := by
  rw [path_next_start prev l.reverse a a h.2, headD_reverse]

/-- A ring read the other way round is a ring. -/
theorem ring_reverse (next prev : Nat → Nat) (a : Nat) (l : List Nat)
    (h : Ring next prev a l) : Ring prev next a l.reverse :=
  ⟨h.2, by rw [List.reverse_reverse]; exact h.1⟩

/-- Unlinking `x` from a two-way ring, the way `Delete` does it. -/
theorem ring_unlink (next prev : Nat → Nat) (a : Nat) (l1 : List Nat) (x : Nat) (l2 : List Nat)
    (hnd : (a :: (l1 ++ x :: l2)).Nodup) (h : Ring next prev a (l1 ++ x :: l2)) :
    Ring (Function.update next (prev x) (next x)) (Function.update prev (next x) (prev x)) a
      (l1 ++ l2) := by
  have hp := ring_prev next prev a l1 x l2 h
  have hn := ring_next next prev a l1 x l2 h
  constructor
  · rw [hp]
    exact path_erase next l1 x l2 a a hnd h.1
  · have h2 := h.2
    rw [List.reverse_append, List.reverse_cons, List.append_assoc, List.singleton_append] at h2
    rw [List.reverse_append, hn, ← getLastD_reverse]
    refine path_erase prev l2.reverse x l1.reverse a a ?_ h2
    have : (a :: (l2.reverse ++ x :: l1.reverse)).Perm (a :: (l1 ++ x :: l2)) := by
      refine List.Perm.cons a ?_
      have e : l2.reverse ++ x :: l1.reverse = (l1 ++ x :: l2).reverse := by simp
      rw [e]
      exact List.reverse_perm _
    exact this.nodup_iff.2 hnd

/-- A ring can be read from any of its nodes. -/
theorem ring_rotate (next prev : Nat → Nat) (a : Nat) (l1 : List Nat) (x : Nat) (l2 : List Nat)
    (h : Ring next prev a (l1 ++ x :: l2)) : Ring next prev x (l2 ++ a :: l1) := by
  obtain ⟨h1, h2⟩ := h
  rw [List.reverse_append, List.reverse_cons, List.append_assoc, List.singleton_append] at h2
  rw [path_append] at h1 h2
  constructor
  · rw [path_append]
    exact ⟨h1.2, h1.1⟩
  · rw [List.reverse_append, List.reverse_cons, List.append_assoc, List.singleton_append,
      path_append]
    exact ⟨h2.2, h2.1⟩

/-! ## The pointer-chasing loop -/

/-- A loop over a ring runs the body once for every node of the ring, in order. `J rest s`
describes the state `s` when the nodes `rest` are still to come; `nxt` is the link array the
loop follows, which the bodies leave alone on the nodes of the ring. -/
theorem forRing_spec {σ : Type} (next : σ → Nat → Nat) (stop : Nat)
    (body : Nat → σ → Option σ) (nxt : Nat → Nat) (J : List Nat → σ → Prop)
    (hbody : ∀ x rest s, J (x :: rest) s →
      ∃ s1, body x s = some s1 ∧ J rest s1 ∧ next s1 x = nxt x)
    (xs : List Nat) (a : Nat) (s : σ) (fuel : Nat)
    (hpath : Path nxt a xs stop) (hstop : stop ∉ xs) (hJ : J xs s) (hfuel : xs.length < fuel) :
    ∃ s1, forRing next stop body fuel (nxt a) s = some s1 ∧ J [] s1 := by
  induction xs generalizing a s fuel with
  | nil =>
    cases fuel with
    | zero => simp at hfuel
    | succ fuel =>
      simp only [Path] at hpath
      exact ⟨s, by simp [forRing, hpath], hJ⟩
  | cons x rest ih =>
    cases fuel with
    | zero => simp at hfuel
    | succ fuel =>
      simp only [Path] at hpath
      obtain ⟨s1, hb, hJ1, hn⟩ := hbody x rest s hJ
      have hx : x ≠ stop := fun e => hstop (by simp [e])
      have hrest : stop ∉ rest := fun e => hstop (List.mem_cons_of_mem _ e)
      obtain ⟨s2, h2, hJ2⟩ := ih x s1 fuel hpath.2 hrest hJ1 (by simpa using hfuel)
      refine ⟨s2, ?_, hJ2⟩
      simp only [forRing, hpath.1, hx, if_false, hb, Option.some_bind, hn]
      exact h2

end DancingLinkX
end IQPyramidSolver


namespace IQPyramidSolver
namespace DancingLinkX

theorem path_last (f : Nat → Nat) (l : List Nat) (a b : Nat) (h : Path f a l b) :
    f (l.getLastD a) = b := by
  induction l generalizing a with
  | nil => simpa [Path] using h
  | cons y l ih =>
    rw [List.getLastD_cons]
    exact ih y h.2

theorem ring_link_back (next prev : Nat → Nat) (a : Nat) (l1 : List Nat) (x : Nat) (l2 : List Nat)
    (h : Ring next prev a (l1 ++ x :: l2)) : next (prev x) = x ∧ prev (next x) = x := by
  have hp := ring_prev next prev a l1 x l2 h
  have hn := ring_next next prev a l1 x l2 h
  obtain ⟨h1, h2⟩ := h
  rw [List.reverse_append, List.reverse_cons, List.append_assoc, List.singleton_append] at h2
  rw [path_append] at h1 h2
  constructor
  · rw [hp]; exact path_last next l1 a x h1.1
  · rw [hn, ← getLastD_reverse]; exact path_last prev l2.reverse a x h2.1

/-- Relinking a node right after unlinking it gives the state back, when the node's two
neighbours pointed at it. -/
theorem relink_unlink (j : Nat) (s : DancingLinkX)
    (h1 : s.Down (s.Up j) = j) (h2 : s.Up (s.Down j) = j)
    (h3 : s.Down j ≠ j) (h4 : s.Up j ≠ j) : relinkNode j (unlinkNode j s) = s := by
  cases s with
  | mk Left Right Up Down Column Row Count Header counter Answer Answers max_column =>
    simp only [unlinkNode, relinkNode] at *
    have e1 : Function.update Up (Down j) (Up j) j = Up j :=
      Function.update_noteq (Ne.symm h3) _ _
    have e2 : Function.update Down (Up j) (Down j) j = Down j :=
      Function.update_noteq (Ne.symm h4) _ _
    have e3 : Function.update Up (Down j) j = Up := by
      have := Function.update_eq_self (Down j) Up
      rwa [h2] at this
    have e4 : Function.update Down (Up j) j = Down := by
      have := Function.update_eq_self (Up j) Down
      rwa [h1] at this
    have e5 : Function.update Count (Column j) (Count (Column j) - 1 + 1) = Count := by
      rw [sub_add_cancel]
      exact Function.update_eq_self _ _
    rw [e1, e2, Function.update_idem, e3, Function.update_idem, e4, Function.update_idem,
      Function.update_same, e5]

end DancingLinkX
end IQPyramidSolver


namespace IQPyramidSolver
namespace DancingLinkX

/-! ## The nodes of the matrix -/

theorem mem_nodeIds (nc : Nat) (links : List (Nat × Nat)) (p : Nat × Nat → Bool) (n : Nat) :
    n ∈ nodeIds nc links p ↔ ∃ e, nc + 1 ≤ n ∧ links[n - (nc + 1)]? = some e ∧ p e = true := by
  unfold nodeIds
  rw [List.mem_map]
  constructor
  · rintro ⟨⟨i, e⟩, h, rfl⟩
    rw [List.mem_filter, List.mk_mem_enumFrom_iff_le_and_getElem?_sub] at h
    exact ⟨e, h.1.1, h.1.2, h.2⟩
  · rintro ⟨e, h1, h2, hp⟩
    refine ⟨(n, e), ?_, rfl⟩
    rw [List.mem_filter, List.mk_mem_enumFrom_iff_le_and_getElem?_sub]
    exact ⟨⟨h1, h2⟩, hp⟩

theorem nodup_nodeIds (nc : Nat) (links : List (Nat × Nat)) (p : Nat × Nat → Bool) :
    (nodeIds nc links p).Nodup := by
  unfold nodeIds
  have h : (List.map (fun e => e.1) (List.enumFrom (nc + 1) links)).Nodup := by
    have := List.enumFrom_map_fst (nc + 1) links
    rw [show (fun e : Nat × (Nat × Nat) => e.1) = Prod.fst from rfl, this]
    exact List.nodup_range' _ _
  exact (List.Sublist.map _ (List.filter_sublist _)).nodup h

theorem lt_of_mem_nodeIds (nc : Nat) (links : List (Nat × Nat)) (p : Nat × Nat → Bool) (n : Nat)
    (h : n ∈ nodeIds nc links p) : nc < n := by
  obtain ⟨e, h1, _⟩ := (mem_nodeIds nc links p n).1 h
  omega

theorem column_of_mem_ringNodes (nc : Nat) (links : List (Nat × Nat)) (L : List Nat) (s : DancingLinkX)
    (hs : Static nc links s) (d n : Nat) (h : n ∈ ringNodes nc links L d) : s.Column n = d := by
  obtain ⟨e, h1, h2, hp⟩ := (mem_nodeIds nc links _ n).1 h
  have := (hs.incidence (n - (nc + 1)) e h2).2
  rw [show nc + 1 + (n - (nc + 1)) = n by omega] at this
  simp only [Bool.and_eq_true, decide_eq_true_eq] at hp
  rw [this, hp.1]

/-- Every node of a column ring, the header included, carries the column's number. -/
theorem column_of_mem_ring (nc : Nat) (links : List (Nat × Nat)) (L : List Nat) (s : DancingLinkX)
    (hs : Static nc links s) (d : Nat) (hd : d ≤ nc) (x : Nat)
    (h : x ∈ d :: ringNodes nc links L d) : s.Column x = d := by
  rcases List.mem_cons.1 h with h | h
  · rw [h]; exact hs.column_header d hd
  · exact column_of_mem_ringNodes nc links L s hs d x h

theorem nodup_ring (nc : Nat) (links : List (Nat × Nat)) (L : List Nat) (d : Nat) (hd : d ≤ nc)
    (q : Nat → Bool) : (d :: (ringNodes nc links L d).filter q).Nodup := by
  refine List.nodup_cons.2 ⟨?_, (nodup_nodeIds nc links _).filter _⟩
  intro h
  have := lt_of_mem_nodeIds nc links _ d (List.mem_of_mem_filter h)
  omega

theorem headD_mem (l : List Nat) (a : Nat) : l.headD a ∈ a :: l := by
  cases l <;> simp

theorem ring_congr (next prev next1 prev1 : Nat → Nat) (a : Nat) (l : List Nat)
    (h : ∀ x ∈ a :: l, next x = next1 x ∧ prev x = prev1 x) :
    Ring next prev a l ↔ Ring next1 prev1 a l := by
  unfold Ring
  rw [path_congr next next1 l a a (fun x hx => (h x hx).1),
    path_congr prev prev1 l.reverse a a (fun x hx => (h x (by
      rcases List.mem_cons.1 hx with hx | hx
      · exact List.mem_cons.2 (Or.inl hx)
      · exact List.mem_cons.2 (Or.inr (List.mem_reverse.1 hx)))).2)]

/-- The fields `Static` speaks of decide it. -/
theorem static_congr (nc : Nat) (links : List (Nat × Nat)) (s t : DancingLinkX)
    (h1 : t.counter = s.counter) (h2 : t.Column = s.Column) (h3 : t.Row = s.Row)
    (h4 : t.Right = s.Right) (h5 : t.Left = s.Left) (h6 : t.Header = s.Header)
    (hs : Static nc links s) : Static nc links t := by
  constructor
  · rw [h1]; exact hs.counter_eq
  · rw [h2]; exact hs.column_header
  · rw [h2, h3]; exact hs.incidence
  · rw [h4, h5]; exact hs.rows
  · rw [h6]; exact hs.header

theorem static_unlinkNode (nc : Nat) (links : List (Nat × Nat)) (s : DancingLinkX) (j : Nat)
    (hs : Static nc links s) : Static nc links (unlinkNode j s) :=
  static_congr nc links s (unlinkNode j s) rfl rfl rfl rfl rfl rfl hs

/-- One pass of the inner loop of `Delete` on a node that is in its column ring: the ring
loses the node, the other rings are untouched, and `Recover`'s statements undo the pass. -/
theorem unlink_step (nc : Nat) (links : List (Nat × Nat)) (L U : List Nat) (s : DancingLinkX)
    (hs : Static nc links s) (hc : ColumnsOK nc links L U s) (hL : ∀ c ∈ L, c ≤ nc)
    (d j : Nat) (hd : d ∈ L) (hj : j ∈ ringNodes nc links L d) (hU : j ∉ U) :
    ColumnsOK nc links L (j :: U) (unlinkNode j s) ∧ relinkNode j (unlinkNode j s) = s := by
  have hjmem : j ∈ (ringNodes nc links L d).filter (fun n => decide (n ∉ U)) :=
    List.mem_filter.2 ⟨hj, by simpa using hU⟩
  obtain ⟨l1, l2, hsplit⟩ := List.append_of_mem hjmem
  have hring := (hc d (List.mem_cons_of_mem _ hd)).1
  have hcount := (hc d (List.mem_cons_of_mem _ hd)).2
  have hL0 : ∀ c ∈ 0 :: L, c ≤ nc := fun c hc => by
    rcases List.mem_cons.1 hc with h | h
    · omega
    · exact hL c h
  have hnd := nodup_ring nc links L d (hL d hd) (fun n => decide (n ∉ U))
  rw [hsplit] at hring hcount hnd
  have hdown : s.Down j = l2.headD d := ring_next _ _ _ _ _ _ hring
  have hup : s.Up j = l1.getLastD d := ring_prev _ _ _ _ _ _ hring
  have hjd : j ≠ d := by
    intro e
    have := (List.nodup_cons.1 hnd).1
    exact this (by rw [← e]; simp)
  have hj1 : j ∉ l1 := by
    intro h
    have := (List.nodup_cons.1 hnd).2
    rw [List.nodup_append] at this
    exact this.2.2 h (by simp)
  have hj2 : j ∉ l2 := by
    intro h
    have := (List.nodup_cons.1 hnd).2
    rw [List.nodup_append] at this
    exact (List.nodup_cons.1 this.2.1).1 h
  have hdj : s.Down j ≠ j := by
    rw [hdown]
    intro e
    rcases List.mem_cons.1 (headD_mem l2 d) with h | h
    · exact hjd (e ▸ h)
    · exact hj2 (e ▸ h)
  have huj : s.Up j ≠ j := by
    rw [hup]
    intro e
    rcases List.mem_cons.1 (getLastD_mem l1 d) with h | h
    · exact hjd (e ▸ h)
    · exact hj1 (e ▸ h)
  have hcolj : s.Column j = d := column_of_mem_ringNodes nc links L s hs d j hj
  have hUp : (unlinkNode j s).Up = Function.update s.Up (s.Down j) (s.Up j) := rfl
  have hDown : (unlinkNode j s).Down = Function.update s.Down (s.Up j) (s.Down j) := by
    show Function.update s.Down (Function.update s.Up (s.Down j) (s.Up j) j) (s.Down j) = _
    rw [Function.update_noteq (Ne.symm hdj)]
  have hCount : (unlinkNode j s).Count = Function.update s.Count d (s.Count d - 1) := by
    show Function.update s.Count (s.Column j) (s.Count (s.Column j) - 1) = _
    rw [hcolj]
  have hsub : ∀ x, x ∈ d :: (l1 ++ j :: l2) → x ∈ d :: ringNodes nc links L d := by
    intro x hx
    rcases List.mem_cons.1 hx with hx | hx
    · exact List.mem_cons.2 (Or.inl hx)
    · refine List.mem_cons.2 (Or.inr ?_)
      rw [← hsplit] at hx
      exact List.mem_of_mem_filter hx
  have hcolup : s.Column (s.Up j) = d := by
    apply column_of_mem_ring nc links L s hs d (hL d hd)
    apply hsub
    rw [hup]
    rcases List.mem_cons.1 (getLastD_mem l1 d) with h | h
    · exact List.mem_cons.2 (Or.inl h)
    · exact List.mem_cons.2 (Or.inr (List.mem_append_left _ h))
  have hcoldown : s.Column (s.Down j) = d := by
    apply column_of_mem_ring nc links L s hs d (hL d hd)
    apply hsub
    rw [hdown]
    rcases List.mem_cons.1 (headD_mem l2 d) with h | h
    · exact List.mem_cons.2 (Or.inl h)
    · exact List.mem_cons.2 (Or.inr (List.mem_append_right _ (List.mem_cons_of_mem _ h)))
  constructor
  · intro d1 hd1
    by_cases hdd : d1 = d
    · subst hdd
      have hfilter : (ringNodes nc links L d1).filter (fun n => decide (n ∉ j :: U)) = l1 ++ l2 := by
        have e : (ringNodes nc links L d1).filter (fun n => decide (n ∉ j :: U)) =
            ((ringNodes nc links L d1).filter (fun n => decide (n ∉ U))).filter
              (fun n => decide (n ≠ j)) := by
          rw [List.filter_filter]
          congr 1
          funext n
          simp only [List.mem_cons, not_or, decide_not, Bool.decide_and, Bool.and_comm]
        rw [e, hsplit, List.filter_append, List.filter_cons]
        simp only [ne_eq, not_true_eq_false, decide_False, Bool.false_eq_true, if_false]
        rw [List.filter_eq_self.2, List.filter_eq_self.2]
        · intro a ha
          have : a ≠ j := fun e => hj2 (e ▸ ha)
          simpa using this
        · intro a ha
          have : a ≠ j := fun e => hj1 (e ▸ ha)
          simpa using this
      rw [hfilter, hUp, hDown, hCount]
      refine ⟨ring_unlink s.Down s.Up d1 l1 j l2 hnd hring, ?_⟩
      rw [Function.update_same, hcount]
      simp only [List.length_append, List.length_cons]
      push_cast
      ring
    · have hnot : j ∉ ringNodes nc links L d1 := by
        intro h
        have := column_of_mem_ringNodes nc links L s hs d1 j h
        exact hdd (this.symm.trans hcolj)
      have hfilter : (ringNodes nc links L d1).filter (fun n => decide (n ∉ j :: U)) =
          (ringNodes nc links L d1).filter (fun n => decide (n ∉ U)) := by
        apply List.filter_congr
        intro x hx
        have : x ≠ j := fun e => hnot (e ▸ hx)
        simp [this]
      rw [hfilter, hUp, hDown, hCount]
      refine ⟨?_, ?_⟩
      · rw [← ring_congr s.Down s.Up]
        · exact (hc d1 hd1).1
        · intro x hx
          have hcx : s.Column x = d1 := by
            apply column_of_mem_ring nc links L s hs d1 (hL0 d1 hd1)
            rcases List.mem_cons.1 hx with hx | hx
            · exact List.mem_cons.2 (Or.inl hx)
            · exact List.mem_cons.2 (Or.inr (List.mem_of_mem_filter hx))
          have n1 : x ≠ s.Up j := fun e => hdd (by rw [← hcx, e, hcolup])
          have n2 : x ≠ s.Down j := fun e => hdd (by rw [← hcx, e, hcoldown])
          exact ⟨(Function.update_noteq n1 _ _).symm, (Function.update_noteq n2 _ _).symm⟩
      · rw [Function.update_noteq hdd]
        exact (hc d1 hd1).2
  · obtain ⟨hb1, hb2⟩ := ring_link_back _ _ _ _ _ _ hring
    exact relink_unlink j s hb1 hb2 hdj huj

end DancingLinkX
end IQPyramidSolver


namespace IQPyramidSolver
namespace DancingLinkX

theorem columnsOK_congr (nc : Nat) (links : List (Nat × Nat)) (L U U1 : List Nat) (s : DancingLinkX)
    (h : ∀ n, n ∈ U ↔ n ∈ U1) (hc : ColumnsOK nc links L U s) : ColumnsOK nc links L U1 s := by
  have e : (fun n => decide (n ∉ U)) = (fun n => decide (n ∉ U1)) := by
    funext n
    simp [h n]
  intro d hd
  have := hc d hd
  rw [e] at this
  exact this

theorem unlinkAll_cons (j : Nat) (js : List Nat) (s : DancingLinkX) :
    unlinkAll (j :: js) s = unlinkAll js (unlinkNode j s) := rfl

theorem unlinkAll_append (js ks : List Nat) (s : DancingLinkX) :
    unlinkAll (js ++ ks) s = unlinkAll ks (unlinkAll js s) := by
  simp [unlinkAll, List.foldl_append]

theorem static_unlinkAll (nc : Nat) (links : List (Nat × Nat)) (js : List Nat) (s : DancingLinkX)
    (hs : Static nc links s) : Static nc links (unlinkAll js s) := by
  induction js generalizing s with
  | nil => exact hs
  | cons j js ih => exact ih (unlinkNode j s) (static_unlinkNode nc links s j hs)

/-- Unlinking the nodes of a list one after the other: every column ring loses its nodes
of the list, and relinking them in the opposite order gives the first state back. -/
theorem unlinkAll_spec (nc : Nat) (links : List (Nat × Nat)) (L : List Nat)
    (hL : ∀ c ∈ L, c ≤ nc) (js : List Nat) (U : List Nat) (s : DancingLinkX)
    (hs : Static nc links s) (hc : ColumnsOK nc links L U s) (hnd : js.Nodup)
    (hv : ∀ j ∈ js, j ∉ U ∧ ∃ d ∈ L, j ∈ ringNodes nc links L d) :
    ColumnsOK nc links L (js ++ U) (unlinkAll js s) ∧
      js.reverse.foldl (fun t j => relinkNode j t) (unlinkAll js s) = s := by
  induction js generalizing U s with
  | nil => exact ⟨hc, rfl⟩
  | cons j js ih =>
    obtain ⟨hjU, d, hd, hj⟩ := hv j (by simp)
    obtain ⟨h1, h2⟩ := unlink_step nc links L U s hs hc hL d j hd hj hjU
    have hnd1 := List.nodup_cons.1 hnd
    obtain ⟨h3, h4⟩ := ih (j :: U) (unlinkNode j s) (static_unlinkNode nc links s j hs) h1 hnd1.2
      (by
        intro k hk
        refine ⟨?_, (hv k (List.mem_cons_of_mem _ hk)).2⟩
        intro hm
        rcases List.mem_cons.1 hm with hm | hm
        · exact hnd1.1 (hm ▸ hk)
        · exact (hv k (List.mem_cons_of_mem _ hk)).1 hm)
    constructor
    · refine columnsOK_congr nc links L _ _ _ ?_ h3
      intro n
      simp only [List.mem_append, List.mem_cons]
      tauto
    · rw [List.reverse_cons, List.foldl_append, unlinkAll_cons, h4]
      exact h2

theorem unlinkAll_withAnswers (js : List Nat) (a : List Nat) (A : List (List Nat))
    (s : DancingLinkX) : unlinkAll js (withAnswers a A s) = withAnswers a A (unlinkAll js s) := by
  induction js generalizing s with
  | nil => rfl
  | cons j js ih =>
    rw [unlinkAll_cons, unlinkAll_cons, ← ih]
    rfl

theorem unlinkAll_fields (js : List Nat) (s : DancingLinkX) :
    (unlinkAll js s).Left = s.Left ∧ (unlinkAll js s).Right = s.Right ∧
    (unlinkAll js s).Column = s.Column ∧ (unlinkAll js s).Row = s.Row ∧
    (unlinkAll js s).Header = s.Header ∧ (unlinkAll js s).counter = s.counter ∧
    (unlinkAll js s).Answer = s.Answer ∧ (unlinkAll js s).Answers = s.Answers ∧
    (unlinkAll js s).max_column = s.max_column := by
  induction js generalizing s with
  | nil => simp [unlinkAll]
  | cons j js ih =>
    rw [unlinkAll_cons]
    exact ih (unlinkNode j s)

end DancingLinkX
end IQPyramidSolver


namespace IQPyramidSolver
namespace DancingLinkX

/-! ## Rows, columns and the nodes `Delete` unlinks -/

theorem mem_ringNodes (nc : Nat) (links : List (Nat × Nat)) (L : List Nat) (c n : Nat) :
    n ∈ ringNodes nc links L c ↔
      ∃ r, nc + 1 ≤ n ∧ links[n - (nc + 1)]? = some (r, c) ∧ rowLive links L r = true := by
  unfold ringNodes
  rw [mem_nodeIds]
  constructor
  · rintro ⟨⟨r, c1⟩, h1, h2, hp⟩
    simp only [Bool.and_eq_true, decide_eq_true_eq] at hp
    obtain ⟨rfl, hp⟩ := hp
    exact ⟨r, h1, h2, hp⟩
  · rintro ⟨r, h1, h2, hp⟩
    exact ⟨(r, c), h1, h2, by simp [hp]⟩

theorem mem_rowNodes (nc : Nat) (links : List (Nat × Nat)) (r n : Nat) :
    n ∈ rowNodes nc links r ↔ ∃ c, nc + 1 ≤ n ∧ links[n - (nc + 1)]? = some (r, c) := by
  unfold rowNodes
  rw [mem_nodeIds]
  constructor
  · rintro ⟨⟨r1, c⟩, h1, h2, hp⟩
    simp only [decide_eq_true_eq] at hp
    subst hp
    exact ⟨c, h1, h2⟩
  · rintro ⟨c, h1, h2⟩
    exact ⟨(r, c), h1, h2, by simp⟩

theorem mem_colsOf (links : List (Nat × Nat)) (r c : Nat) :
    c ∈ colsOf links r ↔ (r, c) ∈ links := by
  unfold colsOf
  simp only [List.mem_map, List.mem_filter, decide_eq_true_eq, Prod.exists, exists_and_right,
    exists_eq_right]

theorem rowLive_iff (links : List (Nat × Nat)) (L : List Nat) (r : Nat) :
    rowLive links L r = true ↔ ∀ c, (r, c) ∈ links → c ∈ L := by
  unfold rowLive
  simp only [List.all_eq_true, decide_eq_true_eq, mem_colsOf]

theorem mem_of_getElem? (links : List (Nat × Nat)) (k : Nat) (e : Nat × Nat)
    (h : links[k]? = some e) : e ∈ links := by
  obtain ⟨h1, h2⟩ := List.getElem?_eq_some_iff.1 h
  exact h2 ▸ List.getElem_mem h1

theorem index_unique (links : List (Nat × Nat)) (hnd : links.Nodup) (a b : Nat) (e : Nat × Nat)
    (ha : links[a]? = some e) (hb : links[b]? = some e) : a = b := by
  obtain ⟨ha1, ha2⟩ := List.getElem?_eq_some_iff.1 ha
  obtain ⟨hb1, hb2⟩ := List.getElem?_eq_some_iff.1 hb
  exact (List.Nodup.getElem_inj_iff hnd).1 (ha2.trans hb2.symm)

theorem rowOf_eq (nc : Nat) (links : List (Nat × Nat)) (n : Nat) (e : Nat × Nat)
    (h : links[n - (nc + 1)]? = some e) : rowOf nc links n = e.1 := by
  simp [rowOf, h]

theorem rowOthers_spec (nc : Nat) (links : List (Nat × Nat)) (i r : Nat)
    (hi : i ∈ rowNodes nc links r) :
    ∃ l1 l2, rowNodes nc links r = l1 ++ i :: l2 ∧ rowOthers nc links i = l2 ++ l1 := by
  obtain ⟨c, h1, h2⟩ := (mem_rowNodes nc links r i).1 hi
  have hr : rowOf nc links i = r := rowOf_eq nc links i (r, c) h2
  obtain ⟨l1, l2, hsplit⟩ := List.append_of_mem hi
  have hnd : (rowNodes nc links r).Nodup := nodup_nodeIds nc links _
  rw [hsplit] at hnd
  have hi1 : i ∉ l1 := by
    intro h
    rw [List.nodup_append] at hnd
    exact hnd.2.2 h (by simp)
  refine ⟨l1, l2, hsplit, ?_⟩
  unfold rowOthers
  rw [hr, hsplit]
  have hp : ∀ a ∈ l1, (fun n => decide (n ≠ i)) a = true := by
    intro a ha
    have : a ≠ i := fun e => hi1 (e ▸ ha)
    simpa using this
  rw [List.dropWhile_append_of_pos hp, List.takeWhile_append_of_pos hp]
  simp

/-- The row ring of a node, read from the node. -/
theorem ring_row (nc : Nat) (links : List (Nat × Nat)) (s : DancingLinkX)
    (hs : Static nc links s) (i r : Nat) (hi : i ∈ rowNodes nc links r) :
    Ring s.Right s.Left i (rowOthers nc links i) := by
  obtain ⟨l1, l2, hsplit, ho⟩ := rowOthers_spec nc links i r hi
  rw [ho]
  cases l1 with
  | nil =>
    simp only [List.nil_append] at hsplit
    simpa using hs.rows r i l2 hsplit
  | cons h l1 =>
    have := hs.rows r h (l1 ++ i :: l2) (by simpa using hsplit)
    exact ring_rotate _ _ _ _ _ _ this

theorem mem_rowOthers (nc : Nat) (links : List (Nat × Nat)) (i r : Nat)
    (hi : i ∈ rowNodes nc links r) (j : Nat) :
    j ∈ rowOthers nc links i ↔ j ∈ rowNodes nc links r ∧ j ≠ i := by
  obtain ⟨l1, l2, hsplit, ho⟩ := rowOthers_spec nc links i r hi
  have hnd : (rowNodes nc links r).Nodup := nodup_nodeIds nc links _
  rw [ho, hsplit]
  rw [hsplit] at hnd
  have hi1 : i ∉ l1 := by
    intro h
    rw [List.nodup_append] at hnd
    exact hnd.2.2 h (by simp)
  have hi2 : i ∉ l2 := by
    intro h
    rw [List.nodup_append] at hnd
    exact (List.nodup_cons.1 hnd.2.1).1 h
  simp only [List.mem_append, List.mem_cons]
  constructor
  · rintro (h | h)
    · exact ⟨Or.inr (Or.inr h), fun e => hi2 (e ▸ h)⟩
    · exact ⟨Or.inl h, fun e => hi1 (e ▸ h)⟩
  · rintro ⟨h | h | h, hne⟩
    · exact Or.inr h
    · exact absurd h hne
    · exact Or.inl h

theorem nodup_rowOthers (nc : Nat) (links : List (Nat × Nat)) (i r : Nat)
    (hi : i ∈ rowNodes nc links r) : (rowOthers nc links i).Nodup := by
  obtain ⟨l1, l2, hsplit, ho⟩ := rowOthers_spec nc links i r hi
  have hnd : (rowNodes nc links r).Nodup := nodup_nodeIds nc links _
  rw [hsplit] at hnd
  rw [ho]
  have : (l1 ++ i :: l2).Perm (i :: (l2 ++ l1)) := by
    refine List.perm_middle.trans (List.Perm.cons i List.perm_append_comm)
  exact (List.nodup_cons.1 (this.nodup_iff.1 hnd)).2

theorem length_rowOthers (nc : Nat) (links : List (Nat × Nat)) (i r : Nat)
    (hi : i ∈ rowNodes nc links r) : (rowOthers nc links i).length < links.length := by
  obtain ⟨l1, l2, hsplit, ho⟩ := rowOthers_spec nc links i r hi
  have h1 : (rowNodes nc links r).length ≤ links.length := by
    unfold rowNodes nodeIds
    rw [List.length_map]
    exact (List.length_filter_le _ _).trans (by simp)
  rw [hsplit] at h1
  rw [ho]
  simp only [List.length_append, List.length_cons] at h1 ⊢
  omega

theorem length_ringNodes (nc : Nat) (links : List (Nat × Nat)) (L : List Nat) (c : Nat) :
    (ringNodes nc links L c).length ≤ links.length := by
  unfold ringNodes nodeIds
  rw [List.length_map]
  exact (List.length_filter_le _ _).trans (by simp)

end DancingLinkX
end IQPyramidSolver


namespace IQPyramidSolver
namespace DancingLinkX

/-- A node of a live row is in the ring of its column, and that column is live. -/
theorem live_row_nodes (nc : Nat) (links : List (Nat × Nat)) (L : List Nat) (c x : Nat)
    (hx : x ∈ ringNodes nc links L c) (j : Nat) (hj : j ∈ rowOthers nc links x)
    (hnd : links.Nodup) :
    ∃ d, d ∈ L ∧ d ≠ c ∧ j ∈ ringNodes nc links L d := by
  obtain ⟨r, h1, h2, hlive⟩ := (mem_ringNodes nc links L c x).1 hx
  have hxr : x ∈ rowNodes nc links r := (mem_rowNodes nc links r x).2 ⟨c, h1, h2⟩
  obtain ⟨hjr, hne⟩ := (mem_rowOthers nc links x r hxr j).1 hj
  obtain ⟨d, h3, h4⟩ := (mem_rowNodes nc links r j).1 hjr
  refine ⟨d, (rowLive_iff links L r).1 hlive d (mem_of_getElem? links _ _ h4), ?_, ?_⟩
  · intro e
    subst e
    have := index_unique links hnd _ _ _ h4 h2
    omega
  · exact (mem_ringNodes nc links L d j).2 ⟨r, h3, h4, hlive⟩

theorem nodup_coverNodes (nc : Nat) (links : List (Nat × Nat)) (L : List Nat) (c : Nat)
    (hnd : links.Nodup) : (coverNodes nc links L c).Nodup := by
  unfold coverNodes
  rw [List.nodup_flatMap]
  constructor
  · intro x hx
    obtain ⟨r, h1, h2, _⟩ := (mem_ringNodes nc links L c x).1 hx
    exact nodup_rowOthers nc links x r ((mem_rowNodes nc links r x).2 ⟨c, h1, h2⟩)
  · have hn : (ringNodes nc links L c).Nodup := nodup_nodeIds nc links _
    refine List.Pairwise.imp_of_mem ?_ hn
    intro x y hx hy hxy
    obtain ⟨r, h1, h2, _⟩ := (mem_ringNodes nc links L c x).1 hx
    obtain ⟨r1, h3, h4, _⟩ := (mem_ringNodes nc links L c y).1 hy
    have hxr : x ∈ rowNodes nc links r := (mem_rowNodes nc links r x).2 ⟨c, h1, h2⟩
    have hyr : y ∈ rowNodes nc links r1 := (mem_rowNodes nc links r1 y).2 ⟨c, h3, h4⟩
    have hrr : r ≠ r1 := by
      intro e
      subst e
      have := index_unique links hnd _ _ _ h2 h4
      omega
    intro j hjx hjy
    obtain ⟨c1, _, h5⟩ := (mem_rowNodes nc links r j).1 ((mem_rowOthers nc links x r hxr j).1 hjx).1
    obtain ⟨c2, _, h6⟩ := (mem_rowNodes nc links r1 j).1 ((mem_rowOthers nc links y r1 hyr j).1 hjy).1
    rw [h5] at h6
    simp only [Option.some.injEq, Prod.mk.injEq] at h6
    exact hrr h6.1

theorem mem_coverNodes (nc : Nat) (links : List (Nat × Nat)) (L : List Nat) (c : Nat)
    (n r d : Nat) (hn : nc + 1 ≤ n) (he : links[n - (nc + 1)]? = some (r, d))
    (hlive : rowLive links L r = true) (hdc : d ≠ c) :
    n ∈ coverNodes nc links L c ↔ (r, c) ∈ links := by
  unfold coverNodes
  rw [List.mem_flatMap]
  have hnr : n ∈ rowNodes nc links r := (mem_rowNodes nc links r n).2 ⟨d, hn, he⟩
  constructor
  · rintro ⟨x, hx, hj⟩
    obtain ⟨r1, h1, h2, _⟩ := (mem_ringNodes nc links L c x).1 hx
    have hxr : x ∈ rowNodes nc links r1 := (mem_rowNodes nc links r1 x).2 ⟨c, h1, h2⟩
    obtain ⟨c2, _, h6⟩ := (mem_rowNodes nc links r1 n).1 ((mem_rowOthers nc links x r1 hxr n).1 hj).1
    rw [he] at h6
    simp only [Option.some.injEq, Prod.mk.injEq] at h6
    rw [h6.1]
    exact mem_of_getElem? links _ _ h2
  · intro h
    obtain ⟨k, hk, hke⟩ := List.getElem_of_mem h
    have hk2 : links[k]? = some (r, c) := by
      rw [List.getElem?_eq_some_iff]
      exact ⟨hk, hke⟩
    have hk3 : links[nc + 1 + k - (nc + 1)]? = some (r, c) := by
      rw [show nc + 1 + k - (nc + 1) = k by omega]
      exact hk2
    refine ⟨nc + 1 + k, (mem_ringNodes nc links L c _).2 ⟨r, by omega, hk3, hlive⟩, ?_⟩
    have hxr : nc + 1 + k ∈ rowNodes nc links r :=
      (mem_rowNodes nc links r _).2 ⟨c, by omega, hk3⟩
    rw [mem_rowOthers nc links _ r hxr]
    refine ⟨hnr, ?_⟩
    intro e
    rw [e, hk3] at he
    simp only [Option.some.injEq, Prod.mk.injEq] at he
    exact hdc he.2.symm

theorem nodeIds_filter (nc : Nat) (links : List (Nat × Nat)) (p p1 : Nat × Nat → Bool)
    (q : Nat → Bool)
    (h : ∀ n e, nc + 1 ≤ n → links[n - (nc + 1)]? = some e → (p e && q n) = p1 e) :
    (nodeIds nc links p).filter q = nodeIds nc links p1 := by
  unfold nodeIds
  rw [List.filter_map, List.filter_filter]
  congr 1
  apply List.filter_congr
  rintro ⟨n, e⟩ hm
  rw [List.mk_mem_enumFrom_iff_le_and_getElem?_sub] at hm
  have := h n e hm.1 hm.2
  simp only [Function.comp] at this ⊢
  rw [← this, Bool.and_comm]

/-- The column rings once `Delete(c)` is over. -/
theorem ringNodes_erase (nc : Nat) (links : List (Nat × Nat)) (L : List Nat) (c d : Nat)
    (hL : L.Nodup) (hdc : d ≠ c) :
    (ringNodes nc links L d).filter (fun n => decide (n ∉ coverNodes nc links L c ++ [])) =
      ringNodes nc links (L.erase c) d := by
  unfold ringNodes
  apply nodeIds_filter
  rintro n ⟨r, d1⟩ hn he
  by_cases hd1 : d1 = d
  · subst hd1
    by_cases hlive : rowLive links L r = true
    · have hm := mem_coverNodes nc links L c n r d1 hn he hlive hdc
      simp only [List.append_nil, hm, decide_True, Bool.true_and, hlive, decide_not]
      by_cases hrc : (r, c) ∈ links
      · simp only [hrc, decide_True, Bool.not_true]
        symm
        rw [Bool.eq_false_iff]
        intro h
        have := (rowLive_iff links (L.erase c) r).1 h c hrc
        exact (List.Nodup.not_mem_erase hL) this
      · simp only [hrc, decide_False, Bool.not_false]
        symm
        rw [rowLive_iff]
        intro c1 hc1
        have h1 := (rowLive_iff links L r).1 hlive c1 hc1
        have h2 : c1 ≠ c := fun e => hrc (e ▸ hc1)
        exact (List.mem_erase_of_ne h2).2 h1
    · have h2 : rowLive links (L.erase c) r ≠ true := by
        intro h
        apply hlive
        rw [rowLive_iff] at h ⊢
        intro c1 hc1
        exact List.mem_of_mem_erase (h c1 hc1)
      simp only [Bool.not_eq_true] at hlive h2
      simp [hlive, h2]
  · simp [hd1]

end DancingLinkX
end IQPyramidSolver


namespace IQPyramidSolver
namespace DancingLinkX

/-! ## `Delete` and `Recover` -/

theorem filter_not_mem_nil (l : List Nat) : l.filter (fun n => decide (n ∉ ([] : List Nat))) = l := by
  simp

theorem inv_nodup (nc : Nat) (links : List (Nat × Nat)) (L : List Nat) (s : DancingLinkX)
    (h : Inv nc links L s) : (0 :: L).Nodup := by
  refine List.nodup_cons.2 ⟨fun h0 => ?_, h.sorted.nodup⟩
  have := (h.range 0 h0).1
  omega

theorem inv_le (nc : Nat) (links : List (Nat × Nat)) (L : List Nat) (s : DancingLinkX)
    (h : Inv nc links L s) : ∀ c ∈ L, c ≤ nc := fun c hc => (h.range c hc).2

/-- The header ring and the row rings share no node. -/
theorem static_header_update (nc : Nat) (links : List (Nat × Nat)) (s t : DancingLinkX)
    (hs : Static nc links s)
    (h1 : t.counter = s.counter) (h2 : t.Column = s.Column) (h3 : t.Row = s.Row)
    (h4 : ∀ n, nc < n → t.Right n = s.Right n ∧ t.Left n = s.Left n)
    (h6 : t.Header = s.Header) : Static nc links t := by
  constructor
  · rw [h1]; exact hs.counter_eq
  · rw [h2]; exact hs.column_header
  · rw [h2, h3]; exact hs.incidence
  · intro r h l hr
    rw [ring_congr t.Right t.Left s.Right s.Left]
    · exact hs.rows r h l hr
    · intro x hx
      apply h4
      apply lt_of_mem_nodeIds nc links (fun e => decide (e.1 = r)) x
      show x ∈ rowNodes nc links r
      rw [hr]
      exact hx
  · rw [h6]; exact hs.header

theorem header_facts (nc : Nat) (links : List (Nat × Nat)) (L : List Nat) (s : DancingLinkX)
    (h : Inv nc links L s) (c : Nat) (hc : c ∈ L) :
    s.Left c ≤ nc ∧ s.Right c ≤ nc ∧ s.Left c ≠ c ∧ s.Right c ≠ c ∧
      s.Right (s.Left c) = c ∧ s.Left (s.Right c) = c := by
  obtain ⟨l1, l2, hsplit⟩ := List.append_of_mem hc
  have hring := h.header_ring
  have hnd := inv_nodup nc links L s h
  rw [hsplit] at hring hnd
  have hl := ring_prev _ _ _ _ _ _ hring
  have hr := ring_next _ _ _ _ _ _ hring
  have hb := ring_link_back _ _ _ _ _ _ hring
  have hc0 : c ≠ 0 := fun e => (List.nodup_cons.1 hnd).1 (by rw [← e]; simp)
  have hc1 : c ∉ l1 := by
    intro hm
    have := (List.nodup_cons.1 hnd).2
    rw [List.nodup_append] at this
    exact this.2.2 hm (by simp)
  have hc2 : c ∉ l2 := by
    intro hm
    have := (List.nodup_cons.1 hnd).2
    rw [List.nodup_append] at this
    exact (List.nodup_cons.1 this.2.1).1 hm
  have hle : ∀ x, x ∈ 0 :: L → x ≤ nc := by
    intro x hx
    rcases List.mem_cons.1 hx with hx | hx
    · omega
    · exact (h.range x hx).2
  have hlm : s.Left c ∈ 0 :: l1 := hl ▸ getLastD_mem l1 0
  have hrm : s.Right c ∈ 0 :: l2 := hr ▸ headD_mem l2 0
  refine ⟨hle _ ?_, hle _ ?_, ?_, ?_, hb.1, hb.2⟩
  · rw [hsplit]
    rcases List.mem_cons.1 hlm with hm | hm
    · exact List.mem_cons.2 (Or.inl hm)
    · exact List.mem_cons.2 (Or.inr (List.mem_append_left _ hm))
  · rw [hsplit]
    rcases List.mem_cons.1 hrm with hm | hm
    · exact List.mem_cons.2 (Or.inl hm)
    · exact List.mem_cons.2 (Or.inr (List.mem_append_right _ (List.mem_cons_of_mem _ hm)))
  · intro e
    rcases List.mem_cons.1 hlm with hm | hm
    · exact hc0 (e ▸ hm)
    · exact hc1 (e ▸ hm)
  · intro e
    rcases List.mem_cons.1 hrm with hm | hm
    · exact hc0 (e ▸ hm)
    · exact hc2 (e ▸ hm)

theorem unlinkHeader_fields (c : Nat) (s : DancingLinkX) (h : s.Left c ≠ c) :
    (unlinkHeader c s).Right = Function.update s.Right (s.Left c) (s.Right c) ∧
      (unlinkHeader c s).Left = Function.update s.Left (s.Right c) (s.Left c) := by
  refine ⟨rfl, ?_⟩
  show Function.update s.Left (Function.update s.Right (s.Left c) (s.Right c) c) (s.Left c) = _
  rw [Function.update_noteq (Ne.symm h)]

theorem relink_unlink_header (c : Nat) (s : DancingLinkX)
    (h1 : s.Left c ≠ c) (h2 : s.Right c ≠ c)
    (h3 : s.Right (s.Left c) = c) (h4 : s.Left (s.Right c) = c) :
    relinkHeader c (unlinkHeader c s) = s := by
  cases s with
  | mk Left Right Up Down Column Row Count Header counter Answer Answers max_column =>
    simp only [unlinkHeader, relinkHeader] at *
    have e1 : Function.update Right (Left c) (Right c) c = Right c :=
      Function.update_noteq (Ne.symm h1) _ _
    have e2 : Function.update Left (Right c) (Left c) c = Left c :=
      Function.update_noteq (Ne.symm h2) _ _
    have e3 : Function.update Right (Left c) c = Right := by
      have := Function.update_eq_self (Left c) Right
      rwa [h3] at this
    have e4 : Function.update Left (Right c) c = Left := by
      have := Function.update_eq_self (Right c) Left
      rwa [h4] at this
    rw [e1, e2, Function.update_idem, e3, Function.update_idem, e4]

theorem static_unlinkHeader (nc : Nat) (links : List (Nat × Nat)) (L : List Nat) (s : DancingLinkX)
    (h : Inv nc links L s) (c : Nat) (hc : c ∈ L) : Static nc links (unlinkHeader c s) := by
  obtain ⟨h1, h2, h3, h4, _, _⟩ := header_facts nc links L s h c hc
  obtain ⟨e1, e2⟩ := unlinkHeader_fields c s h3
  refine static_header_update nc links s _ h.static rfl rfl rfl ?_ rfl
  intro n hn
  rw [e1, e2]
  exact ⟨Function.update_noteq (by omega) _ _, Function.update_noteq (by omega) _ _⟩

end DancingLinkX
end IQPyramidSolver


namespace IQPyramidSolver
namespace DancingLinkX

theorem valid_coverNodes (nc : Nat) (links : List (Nat × Nat)) (L : List Nat) (c : Nat)
    (hnd : links.Nodup) (j : Nat) (hj : j ∈ coverNodes nc links L c) :
    ∃ d, d ∈ L ∧ d ≠ c ∧ j ∈ ringNodes nc links L d := by
  unfold coverNodes at hj
  obtain ⟨x, hx, hjx⟩ := List.mem_flatMap.1 hj
  exact live_row_nodes nc links L c x hx j hjx hnd

theorem not_mem_ring_of_cover (nc : Nat) (links : List (Nat × Nat)) (L : List Nat) (c : Nat)
    (hnd : links.Nodup) (j : Nat) (hj : j ∈ coverNodes nc links L c) :
    j ∉ ringNodes nc links L c := by
  obtain ⟨d, _, hdc, hjd⟩ := valid_coverNodes nc links L c hnd j hj
  intro h
  obtain ⟨r, _, h2, _⟩ := (mem_ringNodes nc links L c j).1 h
  obtain ⟨r1, _, h4, _⟩ := (mem_ringNodes nc links L d j).1 hjd
  rw [h2] at h4
  simp only [Option.some.injEq, Prod.mk.injEq] at h4
  exact hdc h4.2.symm

/-- The states `Delete(c)` passes through: when the nodes `js` (the first of those it
unlinks) are out, the column rings hold the rest, the ring of `c` is as before, and
relinking `js` backwards gives back the state right after the header left its ring. -/
theorem cover_initial (nc : Nat) (links : List (Nat × Nat)) (L : List Nat) (s : DancingLinkX)
    (hinv : Inv nc links L s) (hnd : links.Nodup) (c : Nat) (hc : c ∈ L)
    (js more : List Nat) (hjs : coverNodes nc links L c = js ++ more) :
    Static nc links (unlinkAll js (unlinkHeader c s)) ∧
    ColumnsOK nc links L (js ++ []) (unlinkAll js (unlinkHeader c s)) ∧
    js.reverse.foldl (fun t j => relinkNode j t) (unlinkAll js (unlinkHeader c s)) =
      unlinkHeader c s ∧
    Ring (unlinkAll js (unlinkHeader c s)).Down (unlinkAll js (unlinkHeader c s)).Up c
      (ringNodes nc links L c) := by
  have hs0 := static_unlinkHeader nc links L s hinv c hc
  have hc0 : ColumnsOK nc links L [] (unlinkHeader c s) := hinv.columns
  have hjnd : js.Nodup := by
    have := nodup_coverNodes nc links L c hnd
    rw [hjs] at this
    exact (List.nodup_append.1 this).1
  have hsub : ∀ j ∈ js, j ∈ coverNodes nc links L c := fun j hj => by
    rw [hjs]; exact List.mem_append_left _ hj
  obtain ⟨h1, h2⟩ := unlinkAll_spec nc links L (inv_le nc links L s hinv) js [] (unlinkHeader c s)
    hs0 hc0 hjnd (fun j hj => ⟨by simp, by
      obtain ⟨d, hd, _, hjd⟩ := valid_coverNodes nc links L c hnd j (hsub j hj)
      exact ⟨d, hd, hjd⟩⟩)
  refine ⟨static_unlinkAll nc links js _ hs0, h1, h2, ?_⟩
  have := (h1 c (List.mem_cons_of_mem _ hc)).1
  rw [List.filter_eq_self.2] at this
  · exact this
  · intro n hn
    simp only [List.append_nil, decide_not, Bool.not_eq_true', decide_eq_false_iff_not]
    intro hm
    exact not_mem_ring_of_cover nc links L c hnd n (hsub n hm) hn

theorem flatMap_initial (ro : Nat → List Nat) (done : List Nat) (x : Nat) (rest : List Nat) :
    (done ++ x :: rest).flatMap ro = (done.flatMap ro ++ ro x) ++ rest.flatMap ro := by
  simp [List.flatMap_append, List.flatMap_cons]

/-- With enough fuel `Delete(c)` ends, in the state `deleteState` describes. -/
theorem delete_eq (nc : Nat) (links : List (Nat × Nat)) (L : List Nat) (s : DancingLinkX)
    (hinv : Inv nc links L s) (hnd : links.Nodup) (c : Nat) (hc : c ∈ L)
    (fuel : Nat) (hfuel : links.length < fuel) :
    Delete fuel c s = some (deleteState nc links L c s) := by
  have hring0 := (hinv.columns c (List.mem_cons_of_mem _ hc)).1
  rw [filter_not_mem_nil] at hring0
  have hcR : c ∉ ringNodes nc links L c := fun h => by
    have := lt_of_mem_nodeIds nc links _ c h
    have := inv_le nc links L s hinv c hc
    omega
  obtain ⟨s1, hrun, done, hdone, hs1⟩ := forRing_spec (fun t : DancingLinkX => t.Down) c
    (fun i t => forRing (fun u : DancingLinkX => u.Right) i (fun j u => some (unlinkNode j u))
      fuel (t.Right i) t) s.Down
    (fun rest t => ∃ done, ringNodes nc links L c = done ++ rest ∧
      t = unlinkAll (done.flatMap (rowOthers nc links)) (unlinkHeader c s))
    (by
      rintro x rest t ⟨done, hR, rfl⟩
      have hxR : x ∈ ringNodes nc links L c := by rw [hR]; simp
      obtain ⟨r, hx1, hx2, _⟩ := (mem_ringNodes nc links L c x).1 hxR
      have hxr : x ∈ rowNodes nc links r := (mem_rowNodes nc links r x).2 ⟨c, hx1, hx2⟩
      have hcov : coverNodes nc links L c =
          (done.flatMap (rowOthers nc links) ++ rowOthers nc links x) ++
            rest.flatMap (rowOthers nc links) := by
        unfold coverNodes
        rw [hR, flatMap_initial]
      have hcov0 : coverNodes nc links L c = done.flatMap (rowOthers nc links) ++
          (rowOthers nc links x ++ rest.flatMap (rowOthers nc links)) := by
        rw [hcov, List.append_assoc]
      obtain ⟨hst, _, _, _⟩ := cover_initial nc links L s hinv hnd c hc _ _ hcov0
      obtain ⟨_, _, _, hring1⟩ := cover_initial nc links L s hinv hnd c hc _ _ hcov
      have hf := unlinkAll_fields (done.flatMap (rowOthers nc links)) (unlinkHeader c s)
      obtain ⟨u1, hrun1, done1, hdone1, hu1⟩ := forRing_spec (fun u : DancingLinkX => u.Right) x
        (fun j u => some (unlinkNode j u)) (unlinkHeader c s).Right
        (fun rest1 u => ∃ done1, rowOthers nc links x = done1 ++ rest1 ∧
          u = unlinkAll done1 (unlinkAll (done.flatMap (rowOthers nc links)) (unlinkHeader c s)))
        (by
          rintro j rest1 u ⟨done1, hro, rfl⟩
          refine ⟨_, rfl, ⟨done1 ++ [j], by simp [hro], by rw [unlinkAll_append]; rfl⟩, ?_⟩
          show (unlinkAll done1 _).Right j = _
          rw [(unlinkAll_fields _ _).2.1, hf.2.1])
        (rowOthers nc links x) x _ fuel
        (ring_row nc links _ (static_unlinkHeader nc links L s hinv c hc) x r hxr).1
        (fun h => ((mem_rowOthers nc links x r hxr x).1 h).2 rfl)
        ⟨[], rfl, rfl⟩
        (lt_trans (length_rowOthers nc links x r hxr) hfuel)
      simp only [List.append_nil] at hdone1
      subst hdone1
      refine ⟨u1, ?_, ⟨done ++ [x], by simp [hR], ?_⟩, ?_⟩
      · beta_reduce
        rw [hf.2.1]
        exact hrun1
      · rw [hu1, ← unlinkAll_append]
        simp [List.flatMap_append]
      · show u1.Down x = s.Down x
        rw [hu1, ← unlinkAll_append]
        rw [hR] at hring1 hring0
        rw [ring_next _ _ _ _ _ _ hring1, ring_next _ _ _ _ _ _ hring0])
    (ringNodes nc links L c) c (unlinkHeader c s) fuel hring0.1 hcR ⟨[], rfl, rfl⟩
    (lt_of_le_of_lt (length_ringNodes nc links L c) hfuel)
  simp only [List.append_nil] at hdone
  subst hdone
  unfold Delete deleteState coverNodes
  rw [← hs1]
  exact hrun

/-- With enough fuel `Recover(c)` run on the state `Delete(c)` has left gives back the state
`Delete(c)` started from. -/
theorem recover_eq (nc : Nat) (links : List (Nat × Nat)) (L : List Nat) (s : DancingLinkX)
    (hinv : Inv nc links L s) (hnd : links.Nodup) (c : Nat) (hc : c ∈ L)
    (fuel : Nat) (hfuel : links.length < fuel) :
    Recover fuel c (deleteState nc links L c s) = some s := by
  have hring0 := (hinv.columns c (List.mem_cons_of_mem _ hc)).1
  rw [filter_not_mem_nil] at hring0
  have hcR : c ∉ (ringNodes nc links L c).reverse := fun h => by
    have := lt_of_mem_nodeIds nc links _ c (List.mem_reverse.1 h)
    have := inv_le nc links L s hinv c hc
    omega
  obtain ⟨s1, hrun, done, hdone, hs1⟩ := forRing_spec (fun t : DancingLinkX => t.Up) c
    (fun i t => forRing (fun u : DancingLinkX => u.Left) i (fun j u => some (relinkNode j u))
      fuel (t.Left i) t) s.Up
    (fun rest t => ∃ done, (ringNodes nc links L c).reverse = done ++ rest ∧
      t = unlinkAll (rest.reverse.flatMap (rowOthers nc links)) (unlinkHeader c s))
    (by
      rintro x rest t ⟨done, hR, rfl⟩
      have hR1 : ringNodes nc links L c = rest.reverse ++ x :: done.reverse := by
        have := congrArg List.reverse hR
        simpa using this
      have hxR : x ∈ ringNodes nc links L c := by rw [hR1]; simp
      obtain ⟨r, hx1, hx2, _⟩ := (mem_ringNodes nc links L c x).1 hxR
      have hxr : x ∈ rowNodes nc links r := (mem_rowNodes nc links r x).2 ⟨c, hx1, hx2⟩
      have hcov : coverNodes nc links L c =
          (rest.reverse.flatMap (rowOthers nc links) ++ rowOthers nc links x) ++
            done.reverse.flatMap (rowOthers nc links) := by
        unfold coverNodes
        rw [hR1, flatMap_initial]
      have hcov0 : coverNodes nc links L c = rest.reverse.flatMap (rowOthers nc links) ++
          (rowOthers nc links x ++ done.reverse.flatMap (rowOthers nc links)) := by
        rw [hcov, List.append_assoc]
      obtain ⟨_, _, _, hring1⟩ := cover_initial nc links L s hinv hnd c hc _ _ hcov0
      have hpre : (x :: rest).reverse.flatMap (rowOthers nc links) =
          rest.reverse.flatMap (rowOthers nc links) ++ rowOthers nc links x := by
        simp [List.flatMap_append]
      have hf := unlinkAll_fields ((x :: rest).reverse.flatMap (rowOthers nc links))
        (unlinkHeader c s)
      obtain ⟨u1, hrun1, done1, hdone1, hu1⟩ := forRing_spec (fun u : DancingLinkX => u.Left) x
        (fun j u => some (relinkNode j u)) (unlinkHeader c s).Left
        (fun rest1 u => ∃ done1, (rowOthers nc links x).reverse = done1 ++ rest1 ∧
          u = unlinkAll (rest.reverse.flatMap (rowOthers nc links) ++ rest1.reverse)
            (unlinkHeader c s))
        (by
          rintro j rest1 u ⟨done1, hro, rfl⟩
          have hro1 : rowOthers nc links x = rest1.reverse ++ j :: done1.reverse := by
            have := congrArg List.reverse hro
            simpa using this
          have hcov1 : coverNodes nc links L c =
              (rest.reverse.flatMap (rowOthers nc links) ++ rest1.reverse) ++
                (j :: (done1.reverse ++ done.reverse.flatMap (rowOthers nc links))) := by
            rw [hcov, hro1]
            simp
          obtain ⟨hst, hcol, _, _⟩ := cover_initial nc links L s hinv hnd c hc _ _ hcov1
          have hjc : j ∈ coverNodes nc links L c := by rw [hcov1]; simp
          obtain ⟨d, hd, _, hjd⟩ := valid_coverNodes nc links L c hnd j hjc
          have hjU : j ∉ (rest.reverse.flatMap (rowOthers nc links) ++ rest1.reverse) ++ [] := by
            have := nodup_coverNodes nc links L c hnd
            rw [hcov1, List.nodup_append] at this
            rw [List.append_nil]
            intro hm
            exact this.2.2 hm (by simp)
          have hback := (unlink_step nc links L _ _ hst hcol (inv_le nc links L s hinv) d j hd hjd
            hjU).2
          have hstate : unlinkAll (rest.reverse.flatMap (rowOthers nc links) ++ (j :: rest1).reverse)
              (unlinkHeader c s) =
              unlinkNode j (unlinkAll (rest.reverse.flatMap (rowOthers nc links) ++ rest1.reverse)
                (unlinkHeader c s)) := by
            rw [List.reverse_cons, ← List.append_assoc, unlinkAll_append]
            rfl
          refine ⟨_, rfl, ⟨done1 ++ [j], by simp [hro], ?_⟩, ?_⟩
          · rw [hstate, hback]
          · rw [hstate, hback]
            show (unlinkAll _ _).Left j = _
            rw [(unlinkAll_fields _ _).1])
        (rowOthers nc links x).reverse x
        (unlinkAll ((x :: rest).reverse.flatMap (rowOthers nc links)) (unlinkHeader c s)) fuel
        (ring_row nc links _ (static_unlinkHeader nc links L s hinv c hc) x r hxr).2
        (fun h => ((mem_rowOthers nc links x r hxr x).1 (List.mem_reverse.1 h)).2 rfl)
        ⟨[], rfl, by rw [List.reverse_reverse, hpre]⟩
        (by
          rw [List.length_reverse]
          exact lt_trans (length_rowOthers nc links x r hxr) hfuel)
      simp only [List.reverse_nil, List.append_nil] at hu1
      refine ⟨u1, ?_, ⟨done ++ [x], by simp [hR], hu1⟩, ?_⟩
      · beta_reduce
        rw [hf.1]
        exact hrun1
      · show u1.Up x = s.Up x
        rw [hu1]
        rw [hR1] at hring1 hring0
        rw [ring_prev _ _ _ _ _ _ hring1, ring_prev _ _ _ _ _ _ hring0])
    (ringNodes nc links L c).reverse c (deleteState nc links L c s) fuel hring0.2 hcR
    ⟨[], rfl, by rw [List.reverse_reverse]; rfl⟩
    (by
      rw [List.length_reverse]
      exact lt_of_le_of_lt (length_ringNodes nc links L c) hfuel)
  simp only [List.reverse_nil, List.flatMap_nil] at hs1
  have hs2 : s1 = unlinkHeader c s := hs1
  obtain ⟨_, _, h3, h4, h5, h6⟩ := header_facts nc links L s hinv c hc
  have hup : (deleteState nc links L c s).Up c = s.Up c := by
    have hcov : coverNodes nc links L c = coverNodes nc links L c ++ [] := by simp
    obtain ⟨_, _, _, hring1⟩ := cover_initial nc links L s hinv hnd c hc _ _ hcov
    show (unlinkAll _ _).Up c = _
    rw [ring_prev_start _ _ _ _ hring1, ring_prev_start _ _ _ _ hring0]
  unfold Recover
  rw [hup, hrun, hs2]
  simp only [Option.map_some']
  rw [relink_unlink_header c s h3 h4 h5 h6]

end DancingLinkX
end IQPyramidSolver


namespace IQPyramidSolver
namespace DancingLinkX

theorem deleteState_fields (nc : Nat) (links : List (Nat × Nat)) (L : List Nat) (c : Nat)
    (s : DancingLinkX) :
    (deleteState nc links L c s).Answer = s.Answer ∧
    (deleteState nc links L c s).Answers = s.Answers ∧
    (deleteState nc links L c s).max_column = s.max_column ∧
    (deleteState nc links L c s).Row = s.Row ∧
    (deleteState nc links L c s).Column = s.Column ∧
    (deleteState nc links L c s).Header = s.Header := by
  obtain ⟨_, _, h3, h4, h5, _, h7, h8, h9⟩ := unlinkAll_fields (coverNodes nc links L c)
    (unlinkHeader c s)
  exact ⟨h7, h8, h9, h4, h3, h5⟩

theorem deleteState_withAnswers (nc : Nat) (links : List (Nat × Nat)) (L : List Nat) (c : Nat)
    (a : List Nat) (A : List (List Nat)) (s : DancingLinkX) :
    deleteState nc links L c (withAnswers a A s) = withAnswers a A (deleteState nc links L c s) := by
  unfold deleteState
  rw [← unlinkAll_withAnswers]
  rfl

/-- The invariant `Inv` does not look at `Answer` and `Answers`. -/
theorem inv_withAnswers (nc : Nat) (links : List (Nat × Nat)) (L : List Nat) (s : DancingLinkX)
    (a : List Nat) (A : List (List Nat)) (h : Inv nc links L s) :
    Inv nc links L (withAnswers a A s) :=
  ⟨static_congr nc links s _ rfl rfl rfl rfl rfl rfl h.static, h.sorted, h.range, h.header_ring,
    h.columns⟩

theorem sorted_erase (L : List Nat) (c : Nat) (h : L.Sorted (fun a b => a < b)) :
    (L.erase c).Sorted (fun a b => a < b) :=
  List.Pairwise.sublist (List.erase_sublist c L) h

/-- The call `Delete(c)` for a live column `c` leaves exactly the other columns live. -/
theorem inv_deleteState (nc : Nat) (links : List (Nat × Nat)) (L : List Nat) (s : DancingLinkX)
    (hinv : Inv nc links L s) (hnd : links.Nodup) (c : Nat) (hc : c ∈ L) :
    Inv nc links (L.erase c) (deleteState nc links L c s) := by
  have hcov : coverNodes nc links L c = coverNodes nc links L c ++ [] := by simp
  obtain ⟨hst, hcol, _, _⟩ := cover_initial nc links L s hinv hnd c hc _ _ hcov
  have hLnd : L.Nodup := hinv.sorted.nodup
  refine ⟨hst, sorted_erase L c hinv.sorted, fun d hd => hinv.range d (List.mem_of_mem_erase hd),
    ?_, ?_⟩
  · obtain ⟨l1, l2, hsplit⟩ := List.append_of_mem hc
    have hring := hinv.header_ring
    have hnd0 := inv_nodup nc links L s hinv
    obtain ⟨_, _, h3, _, _, _⟩ := header_facts nc links L s hinv c hc
    obtain ⟨e1, e2⟩ := unlinkHeader_fields c s h3
    have hf := unlinkAll_fields (coverNodes nc links L c) (unlinkHeader c s)
    have hc1 : c ∉ l1 := by
      intro hm
      rw [hsplit, List.nodup_append] at hLnd
      exact hLnd.2.2 hm (by simp)
    have herase : L.erase c = l1 ++ l2 := by
      rw [hsplit, List.erase_append_right _ hc1]
      simp
    rw [hsplit] at hring hnd0
    show Ring (unlinkAll _ _).Right (unlinkAll _ _).Left 0 (L.erase c)
    rw [hf.1, hf.2.1, e1, e2, herase]
    exact ring_unlink s.Right s.Left 0 l1 c l2 hnd0 hring
  · intro d hd
    have hdL : d ∈ 0 :: L := by
      rcases List.mem_cons.1 hd with h | h
      · exact List.mem_cons.2 (Or.inl h)
      · exact List.mem_cons_of_mem _ (List.mem_of_mem_erase h)
    have hdc : d ≠ c := by
      rcases List.mem_cons.1 hd with h | h
      · have := (hinv.range c hc).1
        omega
      · exact fun e => (List.Nodup.not_mem_erase hLnd) (e ▸ h)
    have := hcol d hdL
    rw [ringNodes_erase nc links L c d hLnd hdc] at this
    rw [filter_not_mem_nil]
    exact this

end DancingLinkX
end IQPyramidSolver


namespace IQPyramidSolver
namespace DancingLinkX

/-! ## Covering and uncovering the columns of a row -/

theorem deleteCols_append (nc : Nat) (links : List (Nat × Nat)) (L cs : List Nat) (c : Nat)
    (s : DancingLinkX) :
    deleteCols nc links L (cs ++ [c]) s =
      deleteState nc links (L.diff cs) c (deleteCols nc links L cs s) := by
  induction cs generalizing L s with
  | nil => simp [deleteCols]
  | cons a cs ih =>
    simp only [List.cons_append, deleteCols, List.diff_cons]
    exact ih _ _

theorem inv_deleteCols (nc : Nat) (links : List (Nat × Nat)) (hnd : links.Nodup)
    (cs L : List Nat) (s : DancingLinkX) (hinv : Inv nc links L s) (hcs : cs.Nodup)
    (hsub : ∀ c ∈ cs, c ∈ L) : Inv nc links (L.diff cs) (deleteCols nc links L cs s) := by
  induction cs generalizing L s with
  | nil => simpa [deleteCols] using hinv
  | cons c cs ih =>
    simp only [deleteCols, List.diff_cons]
    have hc := List.nodup_cons.1 hcs
    refine ih _ _ (inv_deleteState nc links L s hinv hnd c (hsub c (by simp))) hc.2 ?_
    intro d hd
    have hne : d ≠ c := fun e => hc.1 (e ▸ hd)
    exact (List.mem_erase_of_ne hne).2 (hsub d (List.mem_cons_of_mem _ hd))

theorem deleteCols_withAnswers (nc : Nat) (links : List (Nat × Nat)) (cs L : List Nat)
    (a : List Nat) (A : List (List Nat)) (s : DancingLinkX) :
    deleteCols nc links L cs (withAnswers a A s) =
      withAnswers a A (deleteCols nc links L cs s) := by
  induction cs generalizing L s with
  | nil => rfl
  | cons c cs ih =>
    simp only [deleteCols]
    rw [deleteState_withAnswers, ih]

theorem deleteCols_fields (nc : Nat) (links : List (Nat × Nat)) (cs L : List Nat)
    (s : DancingLinkX) :
    (deleteCols nc links L cs s).Answer = s.Answer ∧
    (deleteCols nc links L cs s).Answers = s.Answers ∧
    (deleteCols nc links L cs s).max_column = s.max_column ∧
    (deleteCols nc links L cs s).Row = s.Row ∧
    (deleteCols nc links L cs s).Column = s.Column ∧
    (deleteCols nc links L cs s).Header = s.Header := by
  induction cs generalizing L s with
  | nil => simp [deleteCols]
  | cons c cs ih =>
    simp only [deleteCols]
    obtain ⟨h1, h2, h3, h4, h5, h6⟩ := ih (L.erase c) (deleteState nc links L c s)
    obtain ⟨g1, g2, g3, g4, g5, g6⟩ := deleteState_fields nc links L c s
    exact ⟨h1.trans g1, h2.trans g2, h3.trans g3, h4.trans g4, h5.trans g5, h6.trans g6⟩

theorem column_eq_colOf (nc : Nat) (links : List (Nat × Nat)) (s : DancingLinkX)
    (hs : Static nc links s) (r j : Nat) (hj : j ∈ rowNodes nc links r) :
    s.Column j = colOf nc links j ∧ s.Row j = r ∧ (r, colOf nc links j) ∈ links := by
  obtain ⟨c, h1, h2⟩ := (mem_rowNodes nc links r j).1 hj
  have := hs.incidence (j - (nc + 1)) (r, c) h2
  rw [show nc + 1 + (j - (nc + 1)) = j by omega] at this
  have hc : colOf nc links j = c := by simp [colOf, h2]
  rw [hc]
  exact ⟨this.2, this.1, mem_of_getElem? links _ _ h2⟩

theorem colOf_injective (nc : Nat) (links : List (Nat × Nat)) (hnd : links.Nodup) (r j k : Nat)
    (hj : j ∈ rowNodes nc links r) (hk : k ∈ rowNodes nc links r)
    (h : colOf nc links j = colOf nc links k) : j = k := by
  obtain ⟨c, h1, h2⟩ := (mem_rowNodes nc links r j).1 hj
  obtain ⟨d, h3, h4⟩ := (mem_rowNodes nc links r k).1 hk
  have hc : colOf nc links j = c := by simp [colOf, h2]
  have hd : colOf nc links k = d := by simp [colOf, h4]
  rw [hc, hd] at h
  subst h
  have := index_unique links hnd _ _ _ h2 h4
  omega

theorem nodup_map_colOf (nc : Nat) (links : List (Nat × Nat)) (hnd : links.Nodup) (r : Nat)
    (js : List Nat) (hjs : js.Nodup) (hsub : ∀ j ∈ js, j ∈ rowNodes nc links r) :
    (js.map (colOf nc links)).Nodup := by
  refine List.Nodup.map_on ?_ hjs
  intro j hj k hk h
  exact colOf_injective nc links hnd r j k (hsub j hj) (hsub k hk) h

/-- The loop `for (j = Right[i]; j != i; j = Right[j]) Delete(Column[j]);` deletes the other
columns of the row of `i`, one after the other. -/
theorem coverRow_eq (nc : Nat) (links : List (Nat × Nat)) (hnd : links.Nodup) (L : List Nat)
    (t : DancingLinkX) (hinv : Inv nc links L t) (i r : Nat) (hi : i ∈ rowNodes nc links r)
    (hlive : ∀ j ∈ rowOthers nc links i, colOf nc links j ∈ L)
    (fuel : Nat) (hfuel : links.length < fuel) :
    forRing (fun u : DancingLinkX => u.Right) i (fun j u => Delete fuel (u.Column j) u) fuel
      (t.Right i) t =
      some (deleteCols nc links L ((rowOthers nc links i).map (colOf nc links)) t) := by
  have hro : ∀ j ∈ rowOthers nc links i, j ∈ rowNodes nc links r := fun j hj =>
    ((mem_rowOthers nc links i r hi j).1 hj).1
  have hcnd := nodup_map_colOf nc links hnd r (rowOthers nc links i)
    (nodup_rowOthers nc links i r hi) hro
  have hring := ring_row nc links t hinv.static i r hi
  obtain ⟨u1, hrun, done, hdone, hu1⟩ := forRing_spec (fun u : DancingLinkX => u.Right) i
    (fun j u => Delete fuel (u.Column j) u) t.Right
    (fun rest u => ∃ done, rowOthers nc links i = done ++ rest ∧
      u = deleteCols nc links L (done.map (colOf nc links)) t)
    (by
      rintro j rest u ⟨done, hsplit, rfl⟩
      have hjr : j ∈ rowNodes nc links r := hro j (by rw [hsplit]; simp)
      rw [hsplit, List.map_append, List.map_cons] at hcnd
      have hsub : ∀ c ∈ done.map (colOf nc links), c ∈ L := by
        intro c hc
        obtain ⟨k, hk, rfl⟩ := List.mem_map.1 hc
        exact hlive k (by rw [hsplit]; simp [hk])
      have hinv1 := inv_deleteCols nc links hnd _ L t hinv (List.nodup_append.1 hcnd).1 hsub
      have hcol := (column_eq_colOf nc links _ hinv1.static r j hjr).1
      have hjL : colOf nc links j ∈ L.diff (done.map (colOf nc links)) := by
        rw [List.Nodup.diff_eq_filter hinv.sorted.nodup, List.mem_filter]
        refine ⟨hlive j (by rw [hsplit]; simp), ?_⟩
        simp only [decide_not, Bool.not_eq_true', decide_eq_false_iff_not]
        intro hm
        exact (List.nodup_append.1 hcnd).2.2 hm (by simp)
      refine ⟨deleteState nc links (L.diff (done.map (colOf nc links))) (colOf nc links j)
          (deleteCols nc links L (done.map (colOf nc links)) t), ?_,
          ⟨done ++ [j], by simp [hsplit], ?_⟩, ?_⟩
      · beta_reduce
        rw [hcol]
        exact delete_eq nc links _ _ hinv1 hnd _ hjL fuel hfuel
      · rw [List.map_append, List.map_cons, List.map_nil, deleteCols_append]
      · have hinv2 := inv_deleteState nc links _ _ hinv1 hnd _ hjL
        have hring2 := ring_row nc links _ hinv2.static i r hi
        rw [hsplit] at hring hring2
        show (deleteState nc links _ _ _).Right j = t.Right j
        rw [ring_next _ _ _ _ _ _ hring, ring_next _ _ _ _ _ _ hring2])
    (rowOthers nc links i) i t fuel hring.1
    (fun h => ((mem_rowOthers nc links i r hi i).1 h).2 rfl) ⟨[], rfl, rfl⟩
    (lt_trans (length_rowOthers nc links i r hi) hfuel)
  simp only [List.append_nil] at hdone
  subst hdone
  rw [hrun, hu1]

/-- The loop `for (j = Left[i]; j != i; j = Left[j]) Recover(Column[j]);` undoes the loop of
`coverRow_eq`. -/
theorem uncoverRow_eq (nc : Nat) (links : List (Nat × Nat)) (hnd : links.Nodup) (L : List Nat)
    (t : DancingLinkX) (hinv : Inv nc links L t) (i r : Nat) (hi : i ∈ rowNodes nc links r)
    (hlive : ∀ j ∈ rowOthers nc links i, colOf nc links j ∈ L)
    (fuel : Nat) (hfuel : links.length < fuel) :
    forRing (fun u : DancingLinkX => u.Left) i (fun j u => Recover fuel (u.Column j) u) fuel
      ((deleteCols nc links L ((rowOthers nc links i).map (colOf nc links)) t).Left i)
      (deleteCols nc links L ((rowOthers nc links i).map (colOf nc links)) t) = some t := by
  have hro : ∀ j ∈ rowOthers nc links i, j ∈ rowNodes nc links r := fun j hj =>
    ((mem_rowOthers nc links i r hi j).1 hj).1
  have hcnd := nodup_map_colOf nc links hnd r (rowOthers nc links i)
    (nodup_rowOthers nc links i r hi) hro
  have hring := ring_row nc links t hinv.static i r hi
  have hinvAll := inv_deleteCols nc links hnd _ L t hinv hcnd (by
    intro c hc
    obtain ⟨k, hk, rfl⟩ := List.mem_map.1 hc
    exact hlive k hk)
  have hringAll := ring_row nc links _ hinvAll.static i r hi
  obtain ⟨u1, hrun, done, hdone, hu1⟩ := forRing_spec (fun u : DancingLinkX => u.Left) i
    (fun j u => Recover fuel (u.Column j) u) t.Left
    (fun rest u => ∃ done, (rowOthers nc links i).reverse = done ++ rest ∧
      u = deleteCols nc links L (rest.reverse.map (colOf nc links)) t)
    (by
      rintro j rest u ⟨done, hsplit, rfl⟩
      have hsplit1 : rowOthers nc links i = rest.reverse ++ j :: done.reverse := by
        have := congrArg List.reverse hsplit
        simpa using this
      have hjr : j ∈ rowNodes nc links r := hro j (by rw [hsplit1]; simp)
      rw [hsplit1, List.map_append, List.map_cons] at hcnd
      have hsub : ∀ c ∈ rest.reverse.map (colOf nc links), c ∈ L := by
        intro c hc
        obtain ⟨k, hk, rfl⟩ := List.mem_map.1 hc
        exact hlive k (by rw [hsplit1]; exact List.mem_append_left _ hk)
      have hinv1 := inv_deleteCols nc links hnd _ L t hinv (List.nodup_append.1 hcnd).1 hsub
      have hjL : colOf nc links j ∈ L.diff (rest.reverse.map (colOf nc links)) := by
        rw [List.Nodup.diff_eq_filter hinv.sorted.nodup, List.mem_filter]
        refine ⟨hlive j (by rw [hsplit1]; simp), ?_⟩
        simp only [decide_not, Bool.not_eq_true', decide_eq_false_iff_not]
        intro hm
        exact (List.nodup_append.1 hcnd).2.2 hm (by simp)
      have hstate : deleteCols nc links L ((j :: rest).reverse.map (colOf nc links)) t =
          deleteState nc links (L.diff (rest.reverse.map (colOf nc links))) (colOf nc links j)
            (deleteCols nc links L (rest.reverse.map (colOf nc links)) t) := by
        rw [List.reverse_cons, List.map_append, List.map_cons, List.map_nil, deleteCols_append]
      have hinv2 := inv_deleteState nc links _ _ hinv1 hnd _ hjL
      have hcol := (column_eq_colOf nc links _ hinv2.static r j hjr).1
      refine ⟨deleteCols nc links L (rest.reverse.map (colOf nc links)) t, ?_,
        ⟨done ++ [j], by simp [hsplit], rfl⟩, ?_⟩
      · beta_reduce
        rw [hstate, hcol]
        exact recover_eq nc links _ _ hinv1 hnd _ hjL fuel hfuel
      · have hring1 := ring_row nc links _ hinv1.static i r hi
        rw [hsplit1] at hring hring1
        show (deleteCols nc links _ _ _).Left j = t.Left j
        have e : ∀ (f g : Nat → Nat), Ring f g i (rest.reverse ++ j :: done.reverse) →
            g j = rest.reverse.getLastD i := fun f g h => ring_prev f g i _ j _ h
        rw [e _ _ hring, e _ _ hring1])
    (rowOthers nc links i).reverse i _ fuel hring.2
    (fun h => ((mem_rowOthers nc links i r hi i).1 (List.mem_reverse.1 h)).2 rfl)
    ⟨[], rfl, by rw [List.reverse_reverse]⟩
    (by
      rw [List.length_reverse]
      exact lt_trans (length_rowOthers nc links i r hi) hfuel)
  simp only [List.reverse_nil, List.map_nil, deleteCols] at hu1
  have e1 : (deleteCols nc links L ((rowOthers nc links i).map (colOf nc links)) t).Left i =
      t.Left i := by
    rw [ring_prev_start _ _ _ _ hringAll, ring_prev_start _ _ _ _ hring]
  rw [e1, hrun, hu1]

end DancingLinkX
end IQPyramidSolver


namespace IQPyramidSolver
namespace DancingLinkX

/-! ## The selection loop and the rows of a column ring -/

theorem selectLoop_eq (s : DancingLinkX) (l : List Nat) (a : Nat) (least_count : Int) (now : Nat)
    (fuel : Nat) (hpath : Path s.Right a l 0) (h0 : ∀ i ∈ l, i ≠ 0) (hfuel : l.length < fuel) :
    selectLoop s fuel (s.Right a) least_count now =
      some (selectList s.Count s.max_column l least_count now) := by
  induction l generalizing a least_count now fuel with
  | nil =>
    cases fuel with
    | zero => simp at hfuel
    | succ fuel =>
      simp only [Path] at hpath
      simp [selectLoop, selectList, hpath]
  | cons i rest ih =>
    cases fuel with
    | zero => simp at hfuel
    | succ fuel =>
      simp only [Path] at hpath
      have hi : i ≠ 0 := h0 i (by simp)
      have hrest : ∀ k ∈ rest, k ≠ 0 := fun k hk => h0 k (List.mem_cons_of_mem _ hk)
      have hf : rest.length < fuel := by simpa using hfuel
      rw [hpath.1]
      unfold selectLoop selectList
      by_cases hm : (i : Int) ≤ s.max_column
      · simp only [hi, ne_eq, not_false_eq_true, hm, and_self, if_true]
        by_cases hc : s.Count i < least_count
        · simp only [hc, if_true]
          exact ih i _ _ fuel hpath.2 hrest hf
        · simp only [hc, if_false]
          exact ih i _ _ fuel hpath.2 hrest hf
      · simp [hm]

theorem selectList_congr (cnt cnt1 : Nat → Int) (maxc : Int) (l : List Nat) (least_count : Int)
    (now : Nat) (h : ∀ i ∈ l, cnt i = cnt1 i) :
    selectList cnt maxc l least_count now = selectList cnt1 maxc l least_count now := by
  induction l generalizing least_count now with
  | nil => rfl
  | cons i rest ih =>
    unfold selectList
    rw [h i (by simp)]
    have hrest : ∀ k ∈ rest, cnt k = cnt1 k := fun k hk => h k (List.mem_cons_of_mem _ hk)
    rw [ih _ _ hrest, ih _ _ hrest]

/-- The selection loop ends with the value it started with or with a column it has seen,
and a column it has seen is not beyond `max_column`. -/
theorem selectList_mem (cnt : Nat → Int) (maxc : Int) (l : List Nat) (least_count : Int)
    (now : Nat) :
    selectList cnt maxc l least_count now = now ∨
      (selectList cnt maxc l least_count now ∈ l ∧
        ((selectList cnt maxc l least_count now : Nat) : Int) ≤ maxc) := by
  induction l generalizing least_count now with
  | nil => exact Or.inl rfl
  | cons i rest ih =>
    unfold selectList
    by_cases hm : (i : Int) ≤ maxc
    · simp only [hm, if_true]
      by_cases hc : cnt i < least_count
      · simp only [hc, if_true]
        rcases ih (cnt i) i with h | h
        · rw [h]
          exact Or.inr ⟨by simp, hm⟩
        · exact Or.inr ⟨List.mem_cons_of_mem _ h.1, h.2⟩
      · simp only [hc, if_false]
        rcases ih least_count now with h | h
        · exact Or.inl h
        · exact Or.inr ⟨List.mem_cons_of_mem _ h.1, h.2⟩
    · simp [hm]

theorem filter_enumFrom (n : Nat) (l : List (Nat × Nat)) (p : Nat × Nat → Bool) :
    ((List.enumFrom n l).filter (fun e => p e.2)).map Prod.snd = l.filter p := by
  have := List.filter_map (f := Prod.snd) (p := p) (l := List.enumFrom n l)
  rw [List.enumFrom_map_snd] at this
  rw [this]
  rfl

theorem map_row_ringNodes (nc : Nat) (links : List (Nat × Nat)) (L : List Nat) (s : DancingLinkX)
    (hs : Static nc links s) (c : Nat) :
    (ringNodes nc links L c).map s.Row = ringRows links L c := by
  unfold ringNodes nodeIds ringRows
  rw [List.map_map]
  have h1 : List.map (s.Row ∘ fun e : Nat × (Nat × Nat) => e.1)
      (List.filter (fun e => decide (e.2.2 = c) && rowLive links L e.2.1)
        (List.enumFrom (nc + 1) links)) =
      List.map (fun e : Nat × (Nat × Nat) => e.2.1)
      (List.filter (fun e => decide (e.2.2 = c) && rowLive links L e.2.1)
        (List.enumFrom (nc + 1) links)) := by
    apply List.map_congr_left
    rintro ⟨n, e⟩ hm
    have hm1 := (List.mem_filter.1 hm).1
    rw [List.mk_mem_enumFrom_iff_le_and_getElem?_sub] at hm1
    have := (hs.incidence (n - (nc + 1)) e hm1.2).1
    rw [show nc + 1 + (n - (nc + 1)) = n by omega] at this
    exact this
  rw [h1]
  have h2 := filter_enumFrom (nc + 1) links (fun e => decide (e.2 = c) && rowLive links L e.1)
  rw [← h2, List.map_map]
  rfl

theorem length_ringRows (nc : Nat) (links : List (Nat × Nat)) (L : List Nat) (s : DancingLinkX)
    (hs : Static nc links s) (c : Nat) :
    (ringRows links L c).length = (ringNodes nc links L c).length := by
  rw [← map_row_ringNodes nc links L s hs c, List.length_map]

/-- The selection loop of `Dance` and `Spread` ends with the column `chosen` names. -/
theorem selectLoop_chosen (nc : Nat) (links : List (Nat × Nat)) (L : List Nat) (s : DancingLinkX)
    (hinv : Inv nc links L s) (fuel : Nat) (hfuel : L.length < fuel) :
    selectLoop s fuel (s.Right 0) INT_MAX (s.Right 0) = some (chosen links s.max_column L) := by
  have h0 : ∀ i ∈ L, i ≠ 0 := fun i hi => by
    have := (hinv.range i hi).1
    omega
  have hstart : s.Right 0 = L.headD 0 := ring_next_start _ _ _ _ hinv.header_ring
  rw [selectLoop_eq s L 0 INT_MAX (s.Right 0) fuel hinv.header_ring.1 h0 hfuel, hstart]
  unfold chosen
  congr 1
  apply selectList_congr
  intro i hi
  have := (hinv.columns i (List.mem_cons_of_mem _ hi)).2
  rw [filter_not_mem_nil] at this
  rw [this, length_ringRows nc links L s hinv.static i]

theorem chosen_mem (links : List (Nat × Nat)) (maxc : Int) (L : List Nat)
    (h : L.headD 0 ≠ 0) : chosen links maxc L ∈ L := by
  unfold chosen
  rcases selectList_mem (fun c => ((ringRows links L c).length : Int)) maxc L INT_MAX (L.headD 0)
    with h1 | h1
  · rw [h1]
    cases L with
    | nil => simp at h
    | cons a l => simp
  · exact h1.1

theorem column_eq_colOfAux (nc : Nat) (links : List (Nat × Nat)) (r j : Nat)
    (hj : j ∈ rowNodes nc links r) : (r, colOf nc links j) ∈ links := by
  obtain ⟨c, _, h2⟩ := (mem_rowNodes nc links r j).1 hj
  have hc : colOf nc links j = c := by simp [colOf, h2]
  rw [hc]
  exact mem_of_getElem? links _ _ h2

/-- The columns still live once a row of the ring of `c` has been chosen and covered. -/
theorem live_after_row (nc : Nat) (links : List (Nat × Nat)) (L : List Nat)
    (hL : L.Nodup) (c x r : Nat) (hx : links[x - (nc + 1)]? = some (r, c)) (hx1 : nc + 1 ≤ x) :
    (L.erase c).diff ((rowOthers nc links x).map (colOf nc links)) =
      L.filter (fun d => decide (d ∉ colsOf links r)) := by
  have hxr : x ∈ rowNodes nc links r := (mem_rowNodes nc links r x).2 ⟨c, hx1, hx⟩
  rw [← List.diff_cons, List.Nodup.diff_eq_filter hL]
  apply List.filter_congr
  intro d _
  congr 1
  rw [eq_iff_iff, not_iff_not, mem_colsOf]
  simp only [List.mem_cons, List.mem_map]
  constructor
  · rintro (h | ⟨j, hj, rfl⟩)
    · rw [h]; exact mem_of_getElem? links _ _ hx
    · exact (column_eq_colOfAux nc links r j ((mem_rowOthers nc links x r hxr j).1 hj).1)
  · intro h
    obtain ⟨k, hk, hke⟩ := List.getElem_of_mem h
    have hk2 : links[nc + 1 + k - (nc + 1)]? = some (r, d) := by
      rw [show nc + 1 + k - (nc + 1) = k by omega, List.getElem?_eq_some_iff]
      exact ⟨hk, hke⟩
    have hkr : nc + 1 + k ∈ rowNodes nc links r := (mem_rowNodes nc links r _).2 ⟨d, by omega, hk2⟩
    have hcol : colOf nc links (nc + 1 + k) = d := by
      unfold colOf
      rw [hk2]
      rfl
    by_cases hkx : nc + 1 + k = x
    · left
      rw [hkx, hx] at hk2
      simp only [Option.some.injEq, Prod.mk.injEq] at hk2
      exact hk2.2.symm
    · right
      exact ⟨nc + 1 + k, (mem_rowOthers nc links x r hxr _).2 ⟨hkr, hkx⟩, hcol⟩

end DancingLinkX
end IQPyramidSolver


namespace IQPyramidSolver
namespace DancingLinkX

/-! ## `Dance` computes `searchList` -/

theorem withAnswers_self (s : DancingLinkX) : withAnswers s.Answer s.Answers s = s := rfl

theorem withAnswers_withAnswers (a b : List Nat) (A B : List (List Nat)) (s : DancingLinkX) :
    withAnswers a A (withAnswers b B s) = withAnswers a A s := rfl

/-- With enough fuel `Dance` ends in the state it started from, `Answers` extended by the
answers `searchList` lists, each behind the rows that were on `Answer`. -/
theorem dance_eq (nc : Nat) (links : List (Nat × Nat)) (hnd : links.Nodup) (n : Nat) (L : List Nat)
    (s : DancingLinkX) (fuel : Nat) (hinv : Inv nc links L s) (hn : L.length < n)
    (hfuel : links.length + n < fuel) :
    Dance fuel s = some (withAnswers s.Answer
      (s.Answers ++ (searchList links s.max_column n L).map (fun sol => s.Answer ++ sol)) s) := by
  induction n generalizing L s fuel with
  | zero => simp at hn
  | succ n ih =>
    cases fuel with
    | zero => simp at hfuel
    | succ fuel =>
      have hf1 : links.length < fuel := by omega
      have hf2 : L.length < fuel := by omega
      have hstart : s.Right 0 = L.headD 0 := ring_next_start _ _ _ _ hinv.header_ring
      unfold Dance searchList
      simp only [hstart]
      by_cases hterm : L.headD 0 = 0 ∨ ((L.headD 0 : Nat) : Int) > s.max_column
      · simp only [hterm, if_true]
        simp [withAnswers]
      · simp only [hterm, if_false]
        have hsel := selectLoop_chosen nc links L s hinv fuel hf2
        rw [hstart] at hsel
        rw [hsel]
        simp only [Option.some_bind]
        have hhead : L.headD 0 ≠ 0 := fun e => hterm (Or.inl e)
        have hcL : chosen links s.max_column L ∈ L := chosen_mem links s.max_column L hhead
        generalize hcdef : chosen links s.max_column L = c at hcL ⊢
        rw [delete_eq nc links L s hinv hnd c hcL fuel hf1]
        simp only [Option.some_bind]
        have hinv1 := inv_deleteState nc links L s hinv hnd c hcL
        have hring0 := (hinv.columns c (List.mem_cons_of_mem _ hcL)).1
        rw [filter_not_mem_nil] at hring0
        have hring1 : Ring (deleteState nc links L c s).Down (deleteState nc links L c s).Up c
            (ringNodes nc links L c) :=
          (cover_initial nc links L s hinv hnd c hcL (coverNodes nc links L c) [] (by simp)).2.2.2
        have hcR : c ∉ ringNodes nc links L c := fun h => by
          have := lt_of_mem_nodeIds nc links _ c h
          have := inv_le nc links L s hinv c hcL
          omega
        have hdf := deleteState_fields nc links L c s
        obtain ⟨s2, hrun, done, hdone, hs2⟩ := forRing_spec (fun t : DancingLinkX => t.Down) c
          (fun i t =>
            (forRing (fun u : DancingLinkX => u.Right) i (fun j u => Delete fuel (u.Column j) u)
              fuel (({ t with Answer := t.Answer ++ [t.Row i] } : DancingLinkX).Right i)
              { t with Answer := t.Answer ++ [t.Row i] }).bind fun t2 =>
            (Dance fuel t2).bind fun t3 =>
            (forRing (fun u : DancingLinkX => u.Left) i (fun j u => Recover fuel (u.Column j) u)
              fuel (t3.Left i) t3).map fun t4 =>
            { t4 with Answer := t4.Answer.dropLast })
          s.Down
          (fun rest t => ∃ done, ringNodes nc links L c = done ++ rest ∧
            t = withAnswers s.Answer (s.Answers ++ done.flatMap (fun x =>
              (searchList links s.max_column n
                (L.filter (fun d => decide (d ∉ colsOf links (s.Row x))))).map
                  (fun sol => s.Answer ++ s.Row x :: sol))) (deleteState nc links L c s))
          (by
            rintro x rest t ⟨done, hR, rfl⟩
            have hxR : x ∈ ringNodes nc links L c := by rw [hR]; simp
            obtain ⟨r, hx1, hx2, hlive⟩ := (mem_ringNodes nc links L c x).1 hxR
            have hxr : x ∈ rowNodes nc links r := (mem_rowNodes nc links r x).2 ⟨c, hx1, hx2⟩
            have hrow : s.Row x = r := (column_eq_colOf nc links s hinv.static r x hxr).2.1
            have hliveRow : ∀ j ∈ rowOthers nc links x, colOf nc links j ∈ L.erase c := by
              intro j hj
              obtain ⟨d, hd, hdc, hjd⟩ := live_row_nodes nc links L c x hxR j hj hnd
              obtain ⟨r1, _, h4, _⟩ := (mem_ringNodes nc links L d j).1 hjd
              have : colOf nc links j = d := by
                unfold colOf
                rw [h4]
                rfl
              rw [this]
              exact (List.mem_erase_of_ne hdc).2 hd
            generalize hA : s.Answers ++ done.flatMap (fun x =>
              (searchList links s.max_column n
                (L.filter (fun d => decide (d ∉ colsOf links (s.Row x))))).map
                  (fun sol => s.Answer ++ s.Row x :: sol)) = A1
            have ht1 : ({ withAnswers s.Answer A1 (deleteState nc links L c s) with
                Answer := (withAnswers s.Answer A1 (deleteState nc links L c s)).Answer ++
                  [(withAnswers s.Answer A1 (deleteState nc links L c s)).Row x] } : DancingLinkX) =
                withAnswers (s.Answer ++ [r]) A1 (deleteState nc links L c s) := by
              show withAnswers (s.Answer ++ [(deleteState nc links L c s).Row x]) A1
                (deleteState nc links L c s) = _
              rw [hdf.2.2.2.1, hrow]
            have hinvt1 := inv_withAnswers nc links _ _ (s.Answer ++ [r]) A1 hinv1
            have hcover := coverRow_eq nc links hnd _ _ hinvt1 x r hxr hliveRow fuel hf1
            have hlist := live_after_row nc links L hinv.sorted.nodup c x r hx2 hx1
            have hcnd := nodup_map_colOf nc links hnd r (rowOthers nc links x)
              (nodup_rowOthers nc links x r hxr)
              (fun j hj => ((mem_rowOthers nc links x r hxr j).1 hj).1)
            have hinv2 := inv_deleteCols nc links hnd _ _ _ hinvt1 hcnd (by
              intro d hd
              obtain ⟨k, hk, rfl⟩ := List.mem_map.1 hd
              exact hliveRow k hk)
            rw [hlist] at hinv2
            have hlen : (L.filter (fun d => decide (d ∉ colsOf links r))).length < n := by
              have hlt : (L.filter (fun d => decide (d ∉ colsOf links r))).length < L.length := by
                apply List.length_filter_lt_length_iff_exists.2
                refine ⟨c, hcL, ?_⟩
                have : c ∈ colsOf links r := (mem_colsOf links r c).2 (mem_of_getElem? links _ _ hx2)
                simp [this]
              omega
            have hdance := ih _ _ fuel hinv2 hlen (by omega)
            have hcf := deleteCols_fields nc links ((rowOthers nc links x).map (colOf nc links))
              (L.erase c) (withAnswers (s.Answer ++ [r]) A1 (deleteState nc links L c s))
            rw [hcf.1, hcf.2.1, hcf.2.2.1] at hdance
            have hmax : (withAnswers (s.Answer ++ [r]) A1 (deleteState nc links L c s)).max_column =
                s.max_column := hdf.2.2.1
            have hans : (withAnswers (s.Answer ++ [r]) A1 (deleteState nc links L c s)).Answer =
                s.Answer ++ [r] := rfl
            have hanss : (withAnswers (s.Answer ++ [r]) A1 (deleteState nc links L c s)).Answers =
                A1 := rfl
            rw [hmax, hans, hanss, ← deleteCols_withAnswers, withAnswers_withAnswers] at hdance
            generalize hA2 : A1 ++ (searchList links s.max_column n
              (L.filter (fun d => decide (d ∉ colsOf links r)))).map
                (fun sol => (s.Answer ++ [r]) ++ sol) = A2 at hdance
            have hinvt2 := inv_withAnswers nc links _ _ (s.Answer ++ [r]) A2 hinv1
            have huncover := uncoverRow_eq nc links hnd _ _ hinvt2 x r hxr hliveRow fuel hf1
            refine ⟨withAnswers s.Answer A2 (deleteState nc links L c s), ?_,
              ⟨done ++ [x], by simp [hR], ?_⟩, ?_⟩
            · beta_reduce
              rw [ht1, hcover]
              simp only [Option.some_bind]
              rw [hdance]
              simp only [Option.some_bind]
              rw [huncover]
              simp [withAnswers]
            · rw [← hA2, ← hA]
              simp [List.flatMap_append, hrow, List.append_assoc]
            · show (deleteState nc links L c s).Down x = s.Down x
              rw [hR] at hring1 hring0
              rw [ring_next _ _ _ _ _ _ hring1, ring_next _ _ _ _ _ _ hring0])
          (ringNodes nc links L c) c (deleteState nc links L c s) fuel hring0.1 hcR
          ⟨[], rfl, by
            rw [List.flatMap_nil, List.append_nil]
            conv_lhs => rw [← withAnswers_self (deleteState nc links L c s)]
            rw [hdf.1, hdf.2.1]⟩
          (lt_of_le_of_lt (length_ringNodes nc links L c) hf1)
        simp only [List.append_nil] at hdone
        have hfirst : (deleteState nc links L c s).Down c = s.Down c := by
          rw [ring_next_start _ _ _ _ hring1, ring_next_start _ _ _ _ hring0]
        rw [hfirst, hrun]
        simp only [Option.some_bind]
        rw [hs2, ← deleteState_withAnswers]
        rw [recover_eq nc links L _ (inv_withAnswers nc links L s _ _ hinv) hnd c hcL fuel hf1]
        congr 2
        rw [← hdone, ← map_row_ringNodes nc links L s hinv.static c]
        simp only [List.map_flatMap, List.flatMap_map, List.map_map]
        rfl

end DancingLinkX
end IQPyramidSolver


namespace IQPyramidSolver
namespace DancingLinkX

/-! ## The matrix `Link` builds -/

theorem path_retarget (f : Nat → Nat) (l : List Nat) (a b b1 : Nat)
    (hnd : (a :: l).Nodup) (h : Path f a l b) :
    Path (Function.update f (l.getLastD a) b1) a l b1 := by
  induction l generalizing a with
  | nil =>
    show Function.update f a b1 a = b1
    exact Function.update_same _ _ _
  | cons y l ih =>
    simp only [Path] at h ⊢
    rw [List.getLastD_cons]
    have hne : a ≠ l.getLastD y := by
      intro e
      have ha : a ∉ y :: l := (List.nodup_cons.1 hnd).1
      exact ha (e ▸ getLastD_mem l y)
    exact ⟨by rw [Function.update_noteq hne]; exact h.1, ih y (List.nodup_cons.1 hnd).2 h.2⟩

theorem path_start_congr (f g : Nat → Nat) (l : List Nat) (a a1 b : Nat)
    (h : Path f a l b) (h1 : g a1 = f a) (h2 : ∀ x ∈ l, g x = f x) : Path g a1 l b := by
  cases l with
  | nil =>
    simp only [Path] at h ⊢
    rw [h1, h]
  | cons y l =>
    simp only [Path] at h ⊢
    refine ⟨by rw [h1, h.1], ?_⟩
    rw [path_congr g f l y b h2]
    exact h.2

/-- What `Link` does to a ring: the new node `m` goes in last, before the first node `a`. -/
theorem ring_append (next prev : Nat → Nat) (a : Nat) (l : List Nat) (m : Nat)
    (hnd : (a :: l).Nodup) (hm : m ∉ a :: l) (h : Ring next prev a l) :
    Ring (Function.update (Function.update next m a) (prev a) m)
      (Function.update (Function.update prev m (prev a)) a m) a (l ++ [m]) := by
  have hp : prev a = l.getLastD a := ring_prev_start next prev a l h
  have hpm : prev a ≠ m := by
    rw [hp]
    intro e
    exact hm (e ▸ getLastD_mem l a)
  have ham : a ≠ m := fun e => hm (by rw [e]; simp)
  constructor
  · rw [path_append]
    constructor
    · rw [hp]
      apply path_retarget _ l a a m hnd
      rw [path_congr _ next l a a]
      · exact h.1
      · intro x hx
        have : x ≠ m := fun e => hm (e ▸ hx)
        exact Function.update_noteq this _ _
    · show Function.update (Function.update next m a) (prev a) m m = a
      rw [Function.update_noteq (Ne.symm hpm), Function.update_same]
  · rw [List.reverse_append, List.reverse_singleton, List.singleton_append]
    show _ ∧ _
    constructor
    · exact Function.update_same _ _ _
    · apply path_start_congr prev _ l.reverse a m a h.2
      · rw [Function.update_noteq (Ne.symm ham), Function.update_same]
      · intro x hx
        have hx1 : x ∈ l := List.mem_reverse.1 hx
        have n1 : x ≠ a := fun e => (List.nodup_cons.1 hnd).1 (e ▸ hx1)
        have n2 : x ≠ m := fun e => hm (List.mem_cons_of_mem _ (e ▸ hx1))
        rw [Function.update_noteq n1, Function.update_noteq n2]

theorem path_of_inverse (f g : Nat → Nat) (l : List Nat) (a b : Nat) (h : Path f a l b)
    (hinv : ∀ x ∈ a :: l, g (f x) = x) : Path g b l.reverse a := by
  induction l generalizing a with
  | nil =>
    simp only [Path] at h
    simp only [List.reverse_nil, Path]
    rw [← h]
    exact hinv a (by simp)
  | cons y l ih =>
    simp only [Path] at h
    rw [List.reverse_cons, path_append]
    refine ⟨ih y h.2 (fun x hx => hinv x (List.mem_cons_of_mem _ hx)), ?_⟩
    show g y = a
    rw [← h.1]
    exact hinv a (by simp)

theorem nodeIds_append (nc : Nat) (done : List (Nat × Nat)) (e : Nat × Nat)
    (p : Nat × Nat → Bool) :
    nodeIds nc (done ++ [e]) p =
      nodeIds nc done p ++ (if p e = true then [nc + 1 + done.length] else []) := by
  unfold nodeIds
  rw [List.enumFrom_append, List.filter_append, List.map_append]
  congr 1
  simp only [List.enumFrom_singleton, List.filter_cons, List.filter_nil]
  by_cases h : p e = true <;> simp [h]

theorem nodeIds_congr (nc : Nat) (links : List (Nat × Nat)) (p q : Nat × Nat → Bool)
    (h : ∀ e ∈ links, p e = q e) : nodeIds nc links p = nodeIds nc links q := by
  unfold nodeIds
  congr 1
  apply List.filter_congr
  rintro ⟨n, e⟩ hm
  exact h e (List.snd_mem_of_mem_enumFrom hm)

theorem nodeIds_lt (nc : Nat) (links : List (Nat × Nat)) (p : Nat × Nat → Bool) (n : Nat)
    (h : n ∈ nodeIds nc links p) : n < nc + 1 + links.length := by
  obtain ⟨e, h1, h2, _⟩ := (mem_nodeIds nc links p n).1 h
  have := (List.getElem?_eq_some_iff.1 h2).1
  omega

theorem rowLive_all (nc : Nat) (links : List (Nat × Nat)) (hw : WellLinked nc links) (r : Nat) :
    rowLive links (List.range' 1 nc) r = true := by
  rw [rowLive_iff]
  intro c hc
  have := hw.1 (r, c) hc
  rw [List.mem_range']
  exact ⟨c - 1, by omega, by omega⟩

theorem ringNodes_all (nc : Nat) (links : List (Nat × Nat)) (hw : WellLinked nc links) (d : Nat) :
    ringNodes nc links (List.range' 1 nc) d = nodeIds nc links (fun e => decide (e.2 = d)) := by
  unfold ringNodes
  apply nodeIds_congr
  intro e _
  rw [rowLive_all nc links hw]
  simp

end DancingLinkX
end IQPyramidSolver


namespace IQPyramidSolver
namespace DancingLinkX

theorem link_fields (r c : Nat) (s : DancingLinkX) (hc : c ≠ s.counter + 1) :
    (Link r c s).counter = s.counter + 1 ∧
    (Link r c s).Column = Function.update s.Column (s.counter + 1) c ∧
    (Link r c s).Row = Function.update s.Row (s.counter + 1) r ∧
    (Link r c s).Count = Function.update s.Count c (s.Count c + 1) ∧
    (Link r c s).Up = Function.update (Function.update s.Up (s.counter + 1) (s.Up c)) c (s.counter + 1) ∧
    (Link r c s).Down =
      Function.update (Function.update s.Down (s.counter + 1) c) (s.Up c) (s.counter + 1) ∧
    (Link r c s).max_column = s.max_column ∧ (Link r c s).Answer = s.Answer ∧
    (Link r c s).Answers = s.Answers := by
  have e : Function.update s.Up (s.counter + 1) (s.Up c) c = s.Up c :=
    Function.update_noteq hc _ _
  unfold Link
  by_cases h : s.Header r = 0
  · simp [h, e]
  · simp [h, e]

theorem link_fields_first (r c : Nat) (s : DancingLinkX) (h : s.Header r = 0) :
    (Link r c s).Header = Function.update s.Header r (s.counter + 1) ∧
    (Link r c s).Left = Function.update s.Left (s.counter + 1) (s.counter + 1) ∧
    (Link r c s).Right = Function.update s.Right (s.counter + 1) (s.counter + 1) := by
  unfold Link
  simp [h]

theorem link_fields_next (r c : Nat) (s : DancingLinkX) (h : s.Header r ≠ 0)
    (hm : s.Header r ≠ s.counter + 1) :
    (Link r c s).Header = s.Header ∧
    (Link r c s).Left =
      Function.update (Function.update s.Left (s.counter + 1) (s.Left (s.Header r)))
        (s.Header r) (s.counter + 1) ∧
    (Link r c s).Right =
      Function.update (Function.update s.Right (s.counter + 1) (s.Header r))
        (s.Left (s.Header r)) (s.counter + 1) := by
  have e : Function.update s.Left (s.counter + 1) (s.Left (s.Header r)) (s.Header r) =
      s.Left (s.Header r) := Function.update_noteq hm _ _
  unfold Link
  simp [h, e]

theorem wellLinked_initial (nc : Nat) (done : List (Nat × Nat)) (e : Nat × Nat)
    (hw : WellLinked nc (done ++ [e])) :
    WellLinked nc done ∧ 1 ≤ e.2 ∧ e.2 ≤ nc ∧ e ∉ done := by
  obtain ⟨h1, h2⟩ := hw
  rw [List.nodup_append] at h2
  refine ⟨⟨fun x hx => h1 x (List.mem_append_left _ hx), h2.1⟩, (h1 e (by simp)).1,
    (h1 e (by simp)).2, fun hm => h2.2.2 hm (by simp)⟩

theorem rowNodes_disjoint (nc : Nat) (links : List (Nat × Nat)) (r r1 x : Nat)
    (hx : x ∈ rowNodes nc links r) (hx1 : x ∈ rowNodes nc links r1) : r = r1 := by
  obtain ⟨c, _, h2⟩ := (mem_rowNodes nc links r x).1 hx
  obtain ⟨c1, _, h4⟩ := (mem_rowNodes nc links r1 x).1 hx1
  rw [h2] at h4
  simp only [Option.some.injEq, Prod.mk.injEq] at h4
  exact h4.1

theorem rowNodes_append (nc : Nat) (done : List (Nat × Nat)) (r c r1 : Nat) :
    rowNodes nc (done ++ [(r, c)]) r1 =
      rowNodes nc done r1 ++ (if r = r1 then [nc + 1 + done.length] else []) := by
  unfold rowNodes
  rw [nodeIds_append]
  simp

theorem colNodes_append (nc : Nat) (done : List (Nat × Nat)) (r c d : Nat) :
    nodeIds nc (done ++ [(r, c)]) (fun e => decide (e.2 = d)) =
      nodeIds nc done (fun e => decide (e.2 = d)) ++
        (if c = d then [nc + 1 + done.length] else []) := by
  rw [nodeIds_append]
  simp

/-- One call of `Link` keeps the matrix well formed: the new node is the last of its row
ring and of its column ring. -/
theorem inv_link (nc : Nat) (done : List (Nat × Nat)) (r c : Nat) (s : DancingLinkX)
    (hinv : Inv nc done (List.range' 1 nc) s) (hw : WellLinked nc (done ++ [(r, c)])) :
    Inv nc (done ++ [(r, c)]) (List.range' 1 nc) (Link r c s) := by
  obtain ⟨hwd, hc1, hcn, _⟩ := wellLinked_initial nc done (r, c) hw
  simp only at hc1 hcn
  have hcount := hinv.static.counter_eq
  have hm : s.counter + 1 = nc + 1 + done.length := by omega
  have hcm : c ≠ s.counter + 1 := by omega
  obtain ⟨f1, f2, f3, f4, f5, f6, _, _, _⟩ := link_fields r c s hcm
  have hcL : c ∈ List.range' 1 nc := List.mem_range'.2 ⟨c - 1, by omega, by omega⟩
  -- the row side
  have hrowside : (∀ n, n ≤ nc → (Link r c s).Right n = s.Right n ∧ (Link r c s).Left n = s.Left n) ∧
      (∀ r1 h t, rowNodes nc (done ++ [(r, c)]) r1 = h :: t →
        Ring (Link r c s).Right (Link r c s).Left h t) ∧
      (∀ r1, (Link r c s).Header r1 = (rowNodes nc (done ++ [(r, c)]) r1).headD 0) := by
    by_cases hh : s.Header r = 0
    · obtain ⟨g1, g2, g3⟩ := link_fields_first r c s hh
      have hnil : rowNodes nc done r = [] := by
        have := hinv.static.header r
        rw [hh] at this
        cases hrn : rowNodes nc done r with
        | nil => rfl
        | cons a l =>
          rw [hrn] at this
          simp only [List.headD_cons] at this
          have := lt_of_mem_nodeIds nc done _ a (by
            show a ∈ rowNodes nc done r
            rw [hrn]; simp)
          omega
      refine ⟨?_, ?_, ?_⟩
      · intro n hn
        rw [g2, g3]
        exact ⟨Function.update_noteq (by omega) _ _, Function.update_noteq (by omega) _ _⟩
      · intro r1 h t hr1
        rw [rowNodes_append] at hr1
        by_cases hrr : r = r1
        · subst hrr
          rw [hnil] at hr1
          simp only [if_true, List.nil_append, List.cons.injEq] at hr1
          obtain ⟨rfl, rfl⟩ := hr1
          rw [g2, g3, ← hm]
          exact ⟨Function.update_same _ _ _, Function.update_same _ _ _⟩
        · simp only [hrr, if_false, List.append_nil] at hr1
          rw [ring_congr _ _ s.Right s.Left]
          · exact hinv.static.rows r1 h t hr1
          · intro x hx
            have hxm : x ≠ s.counter + 1 := by
              have := nodeIds_lt nc done _ x (by
                show x ∈ rowNodes nc done r1
                rw [hr1]; exact hx)
              omega
            rw [g2, g3]
            exact ⟨Function.update_noteq hxm _ _, Function.update_noteq hxm _ _⟩
      · intro r1
        rw [rowNodes_append, g1]
        by_cases hrr : r = r1
        · subst hrr
          rw [hnil, Function.update_same, hm]
          simp
        · simp only [hrr, if_false, List.append_nil]
          rw [Function.update_noteq (Ne.symm hrr)]
          exact hinv.static.header r1
    · have hhd := hinv.static.header r
      obtain ⟨t0, hrn⟩ : ∃ t0, rowNodes nc done r = s.Header r :: t0 := by
        cases hrn : rowNodes nc done r with
        | nil => rw [hrn] at hhd; exact absurd hhd hh
        | cons a l =>
          rw [hrn] at hhd
          simp only [List.headD_cons] at hhd
          exact ⟨l, by rw [hhd]⟩
      have hmem : ∀ x, x ∈ s.Header r :: t0 → x ∈ rowNodes nc done r := fun x hx => by
        rw [hrn]; exact hx
      have hlt : ∀ x, x ∈ s.Header r :: t0 → nc < x ∧ x < s.counter + 1 := fun x hx => by
        have h1 := lt_of_mem_nodeIds nc done _ x (hmem x hx)
        have h2 := nodeIds_lt nc done _ x (hmem x hx)
        omega
      have hhm : s.Header r ≠ s.counter + 1 := by
        have := (hlt (s.Header r) (by simp)).2
        omega
      obtain ⟨g1, g2, g3⟩ := link_fields_next r c s hh hhm
      have hring := hinv.static.rows r _ _ hrn
      have hnd : (s.Header r :: t0).Nodup := by
        rw [← hrn]; exact nodup_nodeIds nc done _
      have hlm : s.Left (s.Header r) ∈ s.Header r :: t0 := by
        rw [ring_prev_start _ _ _ _ hring]
        exact getLastD_mem t0 _
      refine ⟨?_, ?_, ?_⟩
      · intro n hn
        rw [g2, g3]
        have n1 : n ≠ s.counter + 1 := by omega
        have n2 : n ≠ s.Header r := by
          have := (hlt _ (List.mem_cons_self _ _)).1
          omega
        have n3 : n ≠ s.Left (s.Header r) := by
          have := (hlt _ hlm).1
          omega
        rw [Function.update_noteq n3, Function.update_noteq n1, Function.update_noteq n2,
          Function.update_noteq n1]
        exact ⟨rfl, rfl⟩
      · intro r1 h t hr1
        rw [rowNodes_append] at hr1
        by_cases hrr : r = r1
        · subst hrr
          rw [hrn] at hr1
          simp only [if_true, List.cons_append, List.cons.injEq] at hr1
          obtain ⟨rfl, rfl⟩ := hr1
          rw [g2, g3, ← hm]
          refine ring_append s.Right s.Left _ t0 _ hnd ?_ hring
          intro hx
          have := (hlt _ hx).2
          omega
        · simp only [hrr, if_false, List.append_nil] at hr1
          rw [ring_congr _ _ s.Right s.Left]
          · exact hinv.static.rows r1 h t hr1
          · intro x hx
            have hxr1 : x ∈ rowNodes nc done r1 := by rw [hr1]; exact hx
            have hxm : x ≠ s.counter + 1 := by
              have := nodeIds_lt nc done _ x hxr1
              omega
            have hx2 : ∀ y, y ∈ s.Header r :: t0 → x ≠ y := by
              intro y hy e
              exact hrr (rowNodes_disjoint nc done r r1 x (e ▸ hmem y hy) hxr1)
            rw [g2, g3]
            rw [Function.update_noteq (hx2 _ hlm), Function.update_noteq hxm,
              Function.update_noteq (hx2 _ (List.mem_cons_self _ _)), Function.update_noteq hxm]
            exact ⟨rfl, rfl⟩
      · intro r1
        rw [rowNodes_append, g1]
        by_cases hrr : r = r1
        · subst hrr
          rw [hrn]
          simp
        · simp only [hrr, if_false, List.append_nil]
          exact hinv.static.header r1
  obtain ⟨hr1, hr2, hr3⟩ := hrowside
  refine ⟨⟨?_, ?_, ?_, hr2, hr3⟩, hinv.sorted, hinv.range, ?_, ?_⟩
  · rw [f1, List.length_append, List.length_singleton]
    omega
  · intro d hd
    rw [f2, Function.update_noteq (by omega)]
    exact hinv.static.column_header d hd
  · intro k e he
    rw [f2, f3]
    by_cases hk : k < done.length
    · rw [List.getElem?_append_left hk] at he
      rw [Function.update_noteq (by omega), Function.update_noteq (by omega)]
      exact hinv.static.incidence k e he
    · have hk1 : k = done.length := by
        by_contra hne
        have : (done ++ [(r, c)]).length ≤ k := by
          rw [List.length_append, List.length_singleton]
          omega
        rw [List.getElem?_eq_none this] at he
        exact absurd he (by simp)
      subst hk1
      rw [List.getElem?_append_right (le_refl _)] at he
      simp only [Nat.sub_self, List.getElem?_cons_zero, Option.some.injEq] at he
      subst he
      rw [← hm, Function.update_same, Function.update_same]
      exact ⟨rfl, rfl⟩
  · rw [ring_congr _ _ s.Right s.Left]
    · exact hinv.header_ring
    · intro x hx
      apply hr1
      rcases List.mem_cons.1 hx with hx | hx
      · omega
      · exact (hinv.range x hx).2
  · intro d hd
    rw [filter_not_mem_nil, ringNodes_all nc _ hw, colNodes_append]
    have hold := hinv.columns d hd
    rw [filter_not_mem_nil, ringNodes_all nc _ hwd] at hold
    have hdn : d ≤ nc := by
      rcases List.mem_cons.1 hd with h | h
      · omega
      · exact (hinv.range d h).2
    by_cases hcd : c = d
    · subst hcd
      simp only [if_true]
      rw [f4, f5, f6, ← hm, Function.update_same, hold.2, List.length_append,
        List.length_singleton]
      refine ⟨ring_append s.Down s.Up c _ _ ?_ ?_ hold.1, by push_cast; ring⟩
      · refine List.nodup_cons.2 ⟨fun h => ?_, nodup_nodeIds nc done _⟩
        have := lt_of_mem_nodeIds nc done _ c h
        omega
      · intro h
        rcases List.mem_cons.1 h with h | h
        · omega
        · have := nodeIds_lt nc done _ _ h
          omega
    · simp only [hcd, if_false, List.append_nil]
      rw [f4, Function.update_noteq (Ne.symm hcd)]
      refine ⟨?_, hold.2⟩
      rw [ring_congr _ _ s.Down s.Up]
      · exact hold.1
      · intro x hx
        have hcolx : s.Column x = d := by
          apply column_of_mem_ring nc done (List.range' 1 nc) s hinv.static d hdn
          rw [ringNodes_all nc _ hwd]
          exact hx
        have hxm : x ≠ s.counter + 1 := by
          rcases List.mem_cons.1 hx with hx | hx
          · omega
          · have := nodeIds_lt nc done _ _ hx
            omega
        have hxc : x ≠ c := by
          intro e
          rw [e, hinv.static.column_header c hcn] at hcolx
          exact hcd hcolx
        have hupc : s.Column (s.Up c) = c := by
          apply column_of_mem_ring nc done (List.range' 1 nc) s hinv.static c hcn
          have hc := (hinv.columns c (List.mem_cons_of_mem _ hcL)).1
          rw [filter_not_mem_nil] at hc
          rw [ring_prev_start _ _ _ _ hc]
          exact getLastD_mem _ _
        have hxu : x ≠ s.Up c := by
          intro e
          rw [e, hupc] at hcolx
          exact hcd hcolx
        rw [f5, f6, Function.update_noteq hxu, Function.update_noteq hxm,
          Function.update_noteq hxc, Function.update_noteq hxm]
        exact ⟨rfl, rfl⟩

end DancingLinkX
end IQPyramidSolver


namespace IQPyramidSolver
namespace DancingLinkX

/-! ## The constructor and the build loop of `main` -/

theorem init_fields (cc : Nat) (s0 : DancingLinkX) (k : Nat) :
    (∀ i, i < k →
      ((List.range k).foldl (initColumn cc) s0).Left i = (if i = 0 then cc else i - 1) ∧
      ((List.range k).foldl (initColumn cc) s0).Right i = (if i = cc then 0 else i + 1) ∧
      ((List.range k).foldl (initColumn cc) s0).Up i = i ∧
      ((List.range k).foldl (initColumn cc) s0).Down i = i ∧
      ((List.range k).foldl (initColumn cc) s0).Column i = i ∧
      ((List.range k).foldl (initColumn cc) s0).Count i = 0) ∧
    ((List.range k).foldl (initColumn cc) s0).Header = s0.Header ∧
    ((List.range k).foldl (initColumn cc) s0).Answer = s0.Answer ∧
    ((List.range k).foldl (initColumn cc) s0).Answers = s0.Answers ∧
    ((List.range k).foldl (initColumn cc) s0).max_column = s0.max_column := by
  induction k with
  | zero => simp
  | succ k ih =>
    rw [List.range_succ, List.foldl_append]
    simp only [List.foldl_cons, List.foldl_nil]
    obtain ⟨h1, h2, h3, h4, h5⟩ := ih
    refine ⟨?_, h2, h3, h4, h5⟩
    intro i hi
    by_cases hik : i = k
    · subst hik
      simp [initColumn]
    · have hlt : i < k := by omega
      obtain ⟨a1, a2, a3, a4, a5, a6⟩ := h1 i hlt
      simp only [initColumn, Function.update_noteq hik]
      exact ⟨a1, a2, a3, a4, a5, a6⟩

theorem path_range (f : Nat → Nat) (len a b : Nat)
    (h1 : ∀ i, a ≤ i → i < a + len → f i = i + 1) (h2 : f (a + len) = b) :
    Path f a (List.range' (a + 1) len) b := by
  induction len generalizing a with
  | zero => simpa [Path] using h2
  | succ len ih =>
    rw [List.range'_succ]
    refine ⟨h1 a (le_refl _) (by omega), ih (a + 1) ?_ ?_⟩
    · intro i hi1 hi2
      exact h1 i (by omega) (by omega)
    · rw [← h2]
      congr 1
      omega

theorem new_fields (node_count row_count nc : Nat) (isComplete : Bool) :
    (∀ i, i ≤ nc →
      (new node_count row_count nc isComplete).Left i = (if i = 0 then nc else i - 1) ∧
      (new node_count row_count nc isComplete).Right i = (if i = nc then 0 else i + 1) ∧
      (new node_count row_count nc isComplete).Up i = i ∧
      (new node_count row_count nc isComplete).Down i = i ∧
      (new node_count row_count nc isComplete).Column i = i ∧
      (new node_count row_count nc isComplete).Count i = 0) ∧
    (new node_count row_count nc isComplete).Header = (fun _ => 0) ∧
    (new node_count row_count nc isComplete).counter = nc := by
  obtain ⟨h1, h2, _, _, _⟩ := init_fields nc
    { Left := fun _ => 0, Right := fun _ => 0, Up := fun _ => 0, Down := fun _ => 0,
      Column := fun _ => 0, Row := fun _ => 0, Count := fun _ => 0, Header := fun _ => 0,
      counter := 0, Answer := [], Answers := [],
      max_column := if isComplete then (nc : Int) else (nc : Int) - PIECES } (nc + 1)
  exact ⟨fun i hi => h1 i (by omega), h2, rfl⟩

/-- The freshly constructed object: all columns in the header ring, every column ring empty. -/
theorem inv_new (node_count row_count nc : Nat) (isComplete : Bool) :
    Inv nc [] (List.range' 1 nc) (new node_count row_count nc isComplete) := by
  obtain ⟨h1, h2, h3⟩ := new_fields node_count row_count nc isComplete
  generalize new node_count row_count nc isComplete = s at h1 h2 h3
  have hnil : ∀ p, nodeIds nc [] p = [] := fun p => rfl
  refine ⟨⟨by rw [h3]; rfl, ?_, ?_, ?_, ?_⟩, ?_, ?_, ?_, ?_⟩
  · intro c hc
    exact (h1 c hc).2.2.2.2.1
  · intro k e he
    simp at he
  · intro r h t hr
    exact absurd hr (by simp [rowNodes, hnil])
  · intro r
    show _ = (nodeIds nc [] _).headD 0
    rw [hnil, h2]
    rfl
  · exact List.pairwise_lt_range' 1 nc
  · intro c hc
    obtain ⟨i, hi, rfl⟩ := List.mem_range'.1 hc
    omega
  · have hfwd : Path s.Right 0 (List.range' 1 nc) 0 := by
      apply path_range _ nc 0 0
      · intro i _ hi
        have hne : ¬ i = nc := by omega
        rw [(h1 i (by omega)).2.1, if_neg hne]
      · rw [(h1 (0 + nc) (by omega)).2.1, if_pos (by omega)]
    refine ⟨hfwd, path_of_inverse _ _ _ 0 0 hfwd ?_⟩
    intro x hx
    have hxn : x ≤ nc := by
      rcases List.mem_cons.1 hx with hx | hx
      · omega
      · obtain ⟨i, hi, rfl⟩ := List.mem_range'.1 hx
        omega
    rw [(h1 x hxn).2.1]
    by_cases hxe : x = nc
    · rw [if_pos hxe, (h1 0 (by omega)).1, if_pos rfl, hxe]
    · have hne : ¬ x + 1 = 0 := by omega
      rw [if_neg hxe, (h1 (x + 1) (by omega)).1, if_neg hne]
      rfl
  · intro d hd
    have hdn : d ≤ nc := by
      rcases List.mem_cons.1 hd with h | h
      · omega
      · obtain ⟨i, hi, rfl⟩ := List.mem_range'.1 h
        omega
    have hh := h1 d hdn
    show Ring _ _ _ ((nodeIds nc [] _).filter _) ∧ _ = (((nodeIds nc [] _).filter _).length : Int)
    rw [hnil]
    exact ⟨⟨hh.2.2.2.1, hh.2.2.1⟩, hh.2.2.2.2.2⟩

theorem inv_foldl_link (nc : Nat) (rest done : List (Nat × Nat)) (s : DancingLinkX)
    (hinv : Inv nc done (List.range' 1 nc) s) (hw : WellLinked nc (done ++ rest)) :
    Inv nc (done ++ rest) (List.range' 1 nc) (rest.foldl (fun t e => Link e.1 e.2 t) s) := by
  induction rest generalizing done s with
  | nil => simpa using hinv
  | cons e rest ih =>
    have hw1 : WellLinked nc ((done ++ [e]) ++ rest) := by simpa using hw
    have hw2 : WellLinked nc (done ++ [e]) :=
      ⟨fun x hx => hw1.1 x (List.mem_append_left _ hx), (List.nodup_append.1 hw1.2).1⟩
    have := ih (done ++ [e]) (Link e.1 e.2 s) (inv_link nc done e.1 e.2 s hinv hw2) hw1
    simpa using this

theorem buildLoop_eq (size : Nat) (steps : List (List Nat × Nat)) (i : Nat) (s : DancingLinkX) :
    buildLoop size steps i s = (linksFrom size steps i).foldl (fun t e => Link e.1 e.2 t) s := by
  induction steps generalizing i s with
  | nil => rfl
  | cons step rest ih =>
    obtain ⟨indecies, block_index⟩ := step
    simp only [buildLoop, linksFrom, List.foldl_append, List.foldl_cons, List.foldl_map]
    rw [ih]

/-- The matrix `main` builds satisfies the invariant of the search, all columns live. -/
theorem inv_build (size : Nat) (steps : List (List Nat × Nat)) (isComplete : Bool)
    (hw : WellLinked (size + PIECES) (linksFrom size steps 0)) :
    Inv (size + PIECES) (linksFrom size steps 0) (List.range' 1 (size + PIECES))
      (build size steps isComplete) := by
  unfold build
  rw [buildLoop_eq]
  have := inv_foldl_link (size + PIECES) (linksFrom size steps 0) [] _
    (inv_new (nodeCount size steps) steps.length (size + PIECES) isComplete) (by simpa using hw)
  simpa using this

end DancingLinkX
end IQPyramidSolver


namespace IQPyramidSolver
namespace DancingLinkX

/-! ## `Spread` computes `spreadList` -/

theorem ringRows_zero (nc : Nat) (links : List (Nat × Nat)) (hw : WellLinked nc links)
    (L : List Nat) : ringRows links L 0 = [] := by
  unfold ringRows
  rw [List.map_eq_nil_iff, List.filter_eq_nil_iff]
  intro e he
  have := (hw.1 e he).1
  have hne : ¬ e.2 = 0 := by omega
  simp [hne]

/-- With no column left in the header ring, `Delete(0)` and `Recover(0)` change nothing. -/
theorem delete_zero (nc : Nat) (links : List (Nat × Nat)) (s : DancingLinkX)
    (hinv : Inv nc links [] s) (fuel : Nat) (hfuel : 0 < fuel) :
    Delete fuel 0 s = some s ∧ Recover fuel 0 s = some s ∧ s.Down 0 = 0 := by
  have hr : s.Right 0 = 0 := hinv.header_ring.1
  have hl : s.Left 0 = 0 := hinv.header_ring.2
  have hcol := (hinv.columns 0 (by simp)).1
  have hnil : ringNodes nc links [] 0 = [] := by
    cases h : ringNodes nc links [] 0 with
    | nil => rfl
    | cons a l =>
      have ha : a ∈ ringNodes nc links [] 0 := by rw [h]; simp
      obtain ⟨r, _, h2, hlive⟩ := (mem_ringNodes nc links [] 0 a).1 ha
      have := (rowLive_iff links [] r).1 hlive 0 (mem_of_getElem? links _ _ h2)
      simp at this
  rw [hnil] at hcol
  have hd : s.Down 0 = 0 := hcol.1
  have hu : s.Up 0 = 0 := hcol.2
  have e1 : unlinkHeader 0 s = s := by
    cases s with
    | mk Left Right Up Down Column Row Count Header counter Answer Answers max_column =>
      simp only [unlinkHeader] at *
      rw [hl, hr]
      have a1 : Function.update Right 0 0 = Right := by
        have := Function.update_eq_self 0 Right
        rwa [hr] at this
      have a2 : Function.update Left 0 0 = Left := by
        have := Function.update_eq_self 0 Left
        rwa [hl] at this
      rw [a1, hr, a2]
  have e2 : relinkHeader 0 s = s := by
    cases s with
    | mk Left Right Up Down Column Row Count Header counter Answer Answers max_column =>
      simp only [relinkHeader] at *
      rw [hl]
      have a1 : Function.update Right 0 0 = Right := by
        have := Function.update_eq_self 0 Right
        rwa [hr] at this
      have a2 : Function.update Left 0 0 = Left := by
        have := Function.update_eq_self 0 Left
        rwa [hl] at this
      rw [a1, hr, a2]
  obtain ⟨f, rfl⟩ : ∃ f, fuel = f + 1 := ⟨fuel - 1, by omega⟩
  refine ⟨?_, ?_, hd⟩
  · unfold Delete
    rw [e1]
    simp only [hd]
    simp [forRing]
  · unfold Recover
    rw [hu]
    simp [forRing, e2]

/-- With enough fuel `Spread` ends in the state it started from, and `steps_list` has grown
by the prefixes `spreadList` lists, each behind the rows that were on `Answer`. -/
theorem spread_eq (nc : Nat) (links : List (Nat × Nat)) (hw : WellLinked nc links) (n : Nat)
    (L : List Nat) (s : DancingLinkX) (level level_needed : Nat) (steps_list : List (List Nat))
    (fuel : Nat) (hinv : Inv nc links L s) (hn : level_needed - level = n)
    (hfuel : links.length + n < fuel) (hfuelL : L.length + 1 < fuel) :
    Spread fuel level level_needed s steps_list = some (s,
      steps_list ++ (spreadList links s.max_column n L).map (fun sol => s.Answer ++ sol)) := by
  have hnd := hw.2
  induction n generalizing L s level steps_list fuel with
  | zero =>
    obtain ⟨f, rfl⟩ : ∃ f, fuel = f + 1 := ⟨fuel - 1, by omega⟩
    have hge : level ≥ level_needed := by omega
    unfold Spread spreadList
    simp [hge]
  | succ n ih =>
    obtain ⟨fuel, rfl⟩ : ∃ f, fuel = f + 1 := ⟨fuel - 1, by omega⟩
    have hf1 : links.length < fuel := by omega
    have hf2 : L.length < fuel := by omega
    have hlt : ¬ level ≥ level_needed := by omega
    unfold Spread spreadList
    simp only [hlt, if_false]
    rw [selectLoop_chosen nc links L s hinv fuel hf2]
    simp only [Option.some_bind]
    by_cases hLnil : L = []
    · subst hLnil
      have hc0 : chosen links s.max_column [] = 0 := rfl
      obtain ⟨hd1, hd2, hd3⟩ := delete_zero nc links s hinv fuel (by omega)
      obtain ⟨f, rfl⟩ : ∃ f, fuel = f + 1 := ⟨fuel - 1, by omega⟩
      rw [hc0, hd1]
      simp only [Option.some_bind, hd3, forRing, if_true, hd2, Option.map_some',
        ringRows_zero nc links hw]
      simp
    · have hhead : L.headD 0 ≠ 0 := by
        cases L with
        | nil => exact absurd rfl hLnil
        | cons a l =>
          have := (hinv.range a (by simp)).1
          simp only [List.headD_cons]
          omega
      have hcL : chosen links s.max_column L ∈ L := chosen_mem links s.max_column L hhead
      generalize hcdef : chosen links s.max_column L = c at hcL ⊢
      rw [delete_eq nc links L s hinv hnd c hcL fuel hf1]
      simp only [Option.some_bind]
      have hinv1 := inv_deleteState nc links L s hinv hnd c hcL
      have hring0 := (hinv.columns c (List.mem_cons_of_mem _ hcL)).1
      rw [filter_not_mem_nil] at hring0
      have hring1 : Ring (deleteState nc links L c s).Down (deleteState nc links L c s).Up c
          (ringNodes nc links L c) :=
        (cover_initial nc links L s hinv hnd c hcL (coverNodes nc links L c) [] (by simp)).2.2.2
      have hcR : c ∉ ringNodes nc links L c := fun h => by
        have := lt_of_mem_nodeIds nc links _ c h
        have := inv_le nc links L s hinv c hcL
        omega
      have hdf := deleteState_fields nc links L c s
      obtain ⟨s2, hrun, done, hdone, hs2⟩ := forRing_spec
        (fun p : DancingLinkX × List (List Nat) => p.1.Down) c
        (fun i p =>
          (forRing (fun u : DancingLinkX => u.Right) i (fun j u => Delete fuel (u.Column j) u)
            fuel (({ p.1 with Answer := p.1.Answer ++ [p.1.Row i] } : DancingLinkX).Right i)
            { p.1 with Answer := p.1.Answer ++ [p.1.Row i] }).bind fun t2 =>
          (Spread fuel (level + 1) level_needed t2 p.2).bind fun q =>
          (forRing (fun u : DancingLinkX => u.Left) i (fun j u => Recover fuel (u.Column j) u)
            fuel (q.1.Left i) q.1).map fun t4 =>
          (({ t4 with Answer := t4.Answer.dropLast } : DancingLinkX), q.2))
        s.Down
        (fun rest p => ∃ done, ringNodes nc links L c = done ++ rest ∧
          p = (deleteState nc links L c s, steps_list ++ done.flatMap (fun x =>
            (spreadList links s.max_column n
              (L.filter (fun d => decide (d ∉ colsOf links (s.Row x))))).map
                (fun sol => s.Answer ++ s.Row x :: sol))))
        (by
          rintro x rest p ⟨done, hR, rfl⟩
          have hxR : x ∈ ringNodes nc links L c := by rw [hR]; simp
          obtain ⟨r, hx1, hx2, hlive⟩ := (mem_ringNodes nc links L c x).1 hxR
          have hxr : x ∈ rowNodes nc links r := (mem_rowNodes nc links r x).2 ⟨c, hx1, hx2⟩
          have hrow : s.Row x = r := (column_eq_colOf nc links s hinv.static r x hxr).2.1
          have hliveRow : ∀ j ∈ rowOthers nc links x, colOf nc links j ∈ L.erase c := by
            intro j hj
            obtain ⟨d, hd, hdc, hjd⟩ := live_row_nodes nc links L c x hxR j hj hnd
            obtain ⟨r1, _, h4, _⟩ := (mem_ringNodes nc links L d j).1 hjd
            have : colOf nc links j = d := by
              unfold colOf
              rw [h4]
              rfl
            rw [this]
            exact (List.mem_erase_of_ne hdc).2 hd
          generalize hA : steps_list ++ done.flatMap (fun x =>
            (spreadList links s.max_column n
              (L.filter (fun d => decide (d ∉ colsOf links (s.Row x))))).map
                (fun sol => s.Answer ++ s.Row x :: sol)) = A1
          have ht1 : ({ deleteState nc links L c s with
              Answer := (deleteState nc links L c s).Answer ++
                [(deleteState nc links L c s).Row x] } : DancingLinkX) =
              withAnswers (s.Answer ++ [r]) s.Answers (deleteState nc links L c s) := by
            show withAnswers ((deleteState nc links L c s).Answer ++
              [(deleteState nc links L c s).Row x]) (deleteState nc links L c s).Answers
              (deleteState nc links L c s) = _
            rw [hdf.2.2.2.1, hrow, hdf.1, hdf.2.1]
          have hinvt1 := inv_withAnswers nc links _ _ (s.Answer ++ [r]) s.Answers hinv1
          have hcover := coverRow_eq nc links hnd _ _ hinvt1 x r hxr hliveRow fuel hf1
          have hlist := live_after_row nc links L hinv.sorted.nodup c x r hx2 hx1
          have hcnd := nodup_map_colOf nc links hnd r (rowOthers nc links x)
            (nodup_rowOthers nc links x r hxr)
            (fun j hj => ((mem_rowOthers nc links x r hxr j).1 hj).1)
          have hinv2 := inv_deleteCols nc links hnd _ _ _ hinvt1 hcnd (by
            intro d hd
            obtain ⟨k, hk, rfl⟩ := List.mem_map.1 hd
            exact hliveRow k hk)
          rw [hlist] at hinv2
          have hlen : (L.filter (fun d => decide (d ∉ colsOf links r))).length < L.length := by
            apply List.length_filter_lt_length_iff_exists.2
            refine ⟨c, hcL, ?_⟩
            have : c ∈ colsOf links r := (mem_colsOf links r c).2 (mem_of_getElem? links _ _ hx2)
            simp [this]
          have hspread := ih _ _ (level + 1) A1 fuel hinv2 (by omega) (by omega) (by omega)
          have hcf := deleteCols_fields nc links ((rowOthers nc links x).map (colOf nc links))
            (L.erase c) (withAnswers (s.Answer ++ [r]) s.Answers (deleteState nc links L c s))
          rw [hcf.1, hcf.2.2.1] at hspread
          have hmax : (withAnswers (s.Answer ++ [r]) s.Answers
              (deleteState nc links L c s)).max_column = s.max_column := hdf.2.2.1
          have hans : (withAnswers (s.Answer ++ [r]) s.Answers
              (deleteState nc links L c s)).Answer = s.Answer ++ [r] := rfl
          rw [hmax, hans] at hspread
          have huncover := uncoverRow_eq nc links hnd _ _ hinvt1 x r hxr hliveRow fuel hf1
          refine ⟨(deleteState nc links L c s, A1 ++ (spreadList links s.max_column n
              (L.filter (fun d => decide (d ∉ colsOf links r)))).map
                (fun sol => (s.Answer ++ [r]) ++ sol)), ?_,
            ⟨done ++ [x], by simp [hR], ?_⟩, ?_⟩
          · beta_reduce
            rw [ht1, hcover]
            simp only [Option.some_bind]
            rw [hspread]
            simp only [Option.some_bind]
            rw [huncover]
            simp only [Option.map_some', Option.some.injEq, Prod.mk.injEq, and_true]
            show withAnswers (s.Answer ++ [r]).dropLast s.Answers (deleteState nc links L c s) = _
            rw [List.dropLast_concat]
            conv_rhs => rw [← withAnswers_self (deleteState nc links L c s)]
            rw [hdf.1, hdf.2.1]
          · rw [← hA]
            simp [List.flatMap_append, hrow, List.append_assoc]
          · show (deleteState nc links L c s).Down x = s.Down x
            rw [hR] at hring1 hring0
            rw [ring_next _ _ _ _ _ _ hring1, ring_next _ _ _ _ _ _ hring0])
        (ringNodes nc links L c) c (deleteState nc links L c s, steps_list) fuel hring0.1 hcR
        ⟨[], rfl, by simp⟩
        (lt_of_le_of_lt (length_ringNodes nc links L c) hf1)
      simp only [List.append_nil] at hdone
      have hfirst : (deleteState nc links L c s).Down c = s.Down c := by
        rw [ring_next_start _ _ _ _ hring1, ring_next_start _ _ _ _ hring0]
      rw [hfirst, hrun]
      simp only [Option.some_bind]
      rw [hs2]
      simp only []
      rw [recover_eq nc links L _ hinv hnd c hcL fuel hf1]
      simp only [Option.map_some', Option.some.injEq, Prod.mk.injEq, true_and]
      congr 1
      rw [← hdone, ← map_row_ringNodes nc links L s hinv.static c]
      simp only [List.map_flatMap, List.flatMap_map, List.map_map]
      rfl

end DancingLinkX
end IQPyramidSolver


namespace IQPyramidSolver
namespace DancingLinkX

/-! ## What the search on the incidence list finds -/

theorem nodup_colsOf (links : List (Nat × Nat)) (hnd : links.Nodup) (r : Nat) :
    (colsOf links r).Nodup := by
  unfold colsOf
  refine List.Nodup.map_on ?_ (hnd.filter _)
  intro a ha b hb h
  have h1 := (List.mem_filter.1 ha).2
  have h2 := (List.mem_filter.1 hb).2
  simp only [decide_eq_true_eq] at h1 h2
  exact Prod.ext (h1.trans h2.symm) h

theorem mem_ringRows (links : List (Nat × Nat)) (L : List Nat) (c r : Nat) :
    r ∈ ringRows links L c ↔ (r, c) ∈ links ∧ rowLive links L r = true := by
  unfold ringRows
  simp only [List.mem_map, List.mem_filter, Bool.and_eq_true, decide_eq_true_eq]
  constructor
  · rintro ⟨⟨r1, c1⟩, ⟨h1, h2, h3⟩, h4⟩
    simp only at h2 h3 h4
    subst h2 h4
    exact ⟨h1, h3⟩
  · rintro ⟨h1, h2⟩
    exact ⟨(r, c), ⟨h1, rfl, h2⟩, rfl⟩

theorem nodup_ringRows (links : List (Nat × Nat)) (hnd : links.Nodup) (L : List Nat) (c : Nat) :
    (ringRows links L c).Nodup := by
  unfold ringRows
  refine List.Nodup.map_on ?_ (hnd.filter _)
  intro a ha b hb h
  have h1 := (List.mem_filter.1 ha).2
  have h2 := (List.mem_filter.1 hb).2
  simp only [Bool.and_eq_true, decide_eq_true_eq] at h1 h2
  exact Prod.ext h (h1.1.trans h2.1.symm)

/-- In a sorted list of live columns the test of the first column decides whether a
column up to `maxc` is left. -/
theorem terminal_iff (L : List Nat) (maxc : Int) (hs : L.Sorted (fun a b => a < b))
    (hpos : ∀ c ∈ L, 1 ≤ c) :
    (L.headD 0 = 0 ∨ ((L.headD 0 : Nat) : Int) > maxc) ↔ ∀ c ∈ L, ¬ ((c : Int) ≤ maxc) := by
  cases L with
  | nil => simp
  | cons a l =>
    simp only [List.headD_cons]
    have ha := hpos a (by simp)
    constructor
    · rintro (h | h)
      · omega
      · intro c hc
        rcases List.mem_cons.1 hc with hc | hc
        · rw [hc]; omega
        · have := List.rel_of_sorted_cons hs c hc
          omega
    · intro h
      right
      have := h a (by simp)
      omega

theorem chosen_spec (links : List (Nat × Nat)) (maxc : Int) (L : List Nat)
    (h : ¬ (L.headD 0 = 0 ∨ ((L.headD 0 : Nat) : Int) > maxc)) :
    chosen links maxc L ∈ L ∧ ((chosen links maxc L : Nat) : Int) ≤ maxc := by
  have h1 : L.headD 0 ≠ 0 := fun e => h (Or.inl e)
  have h2 : ((L.headD 0 : Nat) : Int) ≤ maxc := by
    by_contra hc
    exact h (Or.inr (by omega))
  refine ⟨chosen_mem links maxc L h1, ?_⟩
  unfold chosen
  rcases selectList_mem (fun c => ((ringRows links L c).length : Int)) maxc L INT_MAX (L.headD 0)
    with h3 | h3
  · rw [h3]; exact h2
  · exact h3.2

theorem covered_cons (links : List (Nat × Nat)) (r : Nat) (sol : List Nat) :
    covered links (r :: sol) = colsOf links r ++ covered links sol := by
  simp [covered, List.flatMap_cons]

/-- Every answer of the search is made of rows that exist, are pairwise disjoint, meet
live columns only and together meet every live column up to `maxc`. -/
theorem searchList_sound (links : List (Nat × Nat)) (hnd : links.Nodup) (maxc : Int) (n : Nat)
    (L : List Nat) (hs : L.Sorted (fun a b => a < b)) (hpos : ∀ c ∈ L, 1 ≤ c) (sol : List Nat)
    (h : sol ∈ searchList links maxc n L) :
    (covered links sol).Nodup ∧ (∀ c ∈ covered links sol, c ∈ L) ∧
      (∀ c ∈ L, (c : Int) ≤ maxc → c ∈ covered links sol) ∧
      (∀ r ∈ sol, ∃ c, (r, c) ∈ links) := by
  induction n generalizing L sol with
  | zero => simp [searchList] at h
  | succ n ih =>
    unfold searchList at h
    by_cases hterm : L.headD 0 = 0 ∨ ((L.headD 0 : Nat) : Int) > maxc
    · rw [if_pos hterm] at h
      simp only [List.mem_singleton] at h
      subst h
      refine ⟨by simp [covered], by simp [covered], ?_, by simp⟩
      intro c hc hle
      exact absurd hle ((terminal_iff L maxc hs hpos).1 hterm c hc)
    · rw [if_neg hterm] at h
      obtain ⟨r, hr, hsol⟩ := List.mem_flatMap.1 h
      obtain ⟨sol1, hsol1, rfl⟩ := List.mem_map.1 hsol
      obtain ⟨hrc, hlive⟩ := (mem_ringRows links L _ r).1 hr
      have hs1 : (L.filter (fun c => decide (c ∉ colsOf links r))).Sorted (fun a b => a < b) :=
        List.Pairwise.sublist (List.filter_sublist _) hs
      obtain ⟨g1, g2, g3, g4⟩ := ih _ hs1
        (fun c hc => hpos c (List.mem_of_mem_filter hc)) sol1 hsol1
      rw [covered_cons]
      refine ⟨?_, ?_, ?_, ?_⟩
      · rw [List.nodup_append]
        refine ⟨nodup_colsOf links hnd r, g1, ?_⟩
        intro c hc1 hc2
        have := (List.mem_filter.1 (g2 c hc2)).2
        simp only [decide_not, Bool.not_eq_true', decide_eq_false_iff_not] at this
        exact this hc1
      · intro c hc
        rcases List.mem_append.1 hc with hc | hc
        · exact (rowLive_iff links L r).1 hlive c ((mem_colsOf links r c).1 hc)
        · exact List.mem_of_mem_filter (g2 c hc)
      · intro c hc hle
        by_cases hcr : c ∈ colsOf links r
        · exact List.mem_append_left _ hcr
        · exact List.mem_append_right _ (g3 c (List.mem_filter.2 ⟨hc, by simpa using hcr⟩) hle)
      · intro r1 hr1
        rcases List.mem_cons.1 hr1 with hr1 | hr1
        · rw [hr1]; exact ⟨_, hrc⟩
        · exact g4 r1 hr1

end DancingLinkX
end IQPyramidSolver


namespace IQPyramidSolver
namespace DancingLinkX

/-- Every exact cover of the live columns by live rows is found by the search. -/
theorem searchList_complete (links : List (Nat × Nat)) (maxc : Int) (n : Nat)
    (L : List Nat) (hs : L.Sorted (fun a b => a < b)) (hpos : ∀ c ∈ L, 1 ≤ c)
    (hLn : L.length < n) (S : List Nat) (hSnd : (covered links S).Nodup)
    (hSlive : ∀ r ∈ S, rowLive links L r = true)
    (hSmand : ∀ r ∈ S, ∃ c ∈ colsOf links r, (c : Int) ≤ maxc)
    (hScov : ∀ c ∈ L, (c : Int) ≤ maxc → c ∈ covered links S) :
    ∃ sol ∈ searchList links maxc n L, sol.Perm S := by
  induction n generalizing L S with
  | zero => simp at hLn
  | succ n ih =>
    unfold searchList
    by_cases hterm : L.headD 0 = 0 ∨ ((L.headD 0 : Nat) : Int) > maxc
    · rw [if_pos hterm]
      have hS : S = [] := by
        cases S with
        | nil => rfl
        | cons r S =>
          obtain ⟨c, hc, hle⟩ := hSmand r (by simp)
          have hcL := (rowLive_iff links L r).1 (hSlive r (by simp)) c ((mem_colsOf links r c).1 hc)
          exact absurd hle ((terminal_iff L maxc hs hpos).1 hterm c hcL)
      subst hS
      exact ⟨[], by simp, List.Perm.refl _⟩
    · rw [if_neg hterm]
      obtain ⟨hcL, hcle⟩ := chosen_spec links maxc L hterm
      generalize chosen links maxc L = c at hcL hcle ⊢
      obtain ⟨r, hrS, hcr⟩ := List.mem_flatMap.1 (hScov c hcL hcle)
      have hperm : S.Perm (r :: S.erase r) := List.perm_cons_erase hrS
      have hcovp : (covered links S).Perm (colsOf links r ++ covered links (S.erase r)) := by
        rw [← covered_cons]
        exact List.Perm.flatMap_right _ hperm
      have hnd2 := hcovp.nodup_iff.1 hSnd
      rw [List.nodup_append] at hnd2
      have hrr : r ∈ ringRows links L c :=
        (mem_ringRows links L c r).2 ⟨(mem_colsOf links r c).1 hcr, hSlive r hrS⟩
      have hlen : (L.filter (fun d => decide (d ∉ colsOf links r))).length < n := by
        have : (L.filter (fun d => decide (d ∉ colsOf links r))).length < L.length := by
          apply List.length_filter_lt_length_iff_exists.2
          exact ⟨c, hcL, by simp [hcr]⟩
        omega
      obtain ⟨sol, hsol, hsp⟩ := ih (L.filter (fun d => decide (d ∉ colsOf links r)))
        (List.Pairwise.sublist (List.filter_sublist _) hs)
        (fun d hd => hpos d (List.mem_of_mem_filter hd)) hlen (S.erase r) hnd2.2.1
        (by
          intro r1 hr1
          rw [rowLive_iff]
          intro d hd
          have hdL := (rowLive_iff links L r1).1 (hSlive r1 (List.mem_of_mem_erase hr1)) d hd
          refine List.mem_filter.2 ⟨hdL, ?_⟩
          simp only [decide_not, Bool.not_eq_true', decide_eq_false_iff_not]
          intro hdr
          exact hnd2.2.2 hdr (List.mem_flatMap.2 ⟨r1, hr1, (mem_colsOf links r1 d).2 hd⟩))
        (fun r1 hr1 => hSmand r1 (List.mem_of_mem_erase hr1))
        (by
          intro d hd hle
          have hd1 := List.mem_filter.1 hd
          have := hcovp.subset (hScov d hd1.1 hle)
          rcases List.mem_append.1 this with h | h
          · have h2 := hd1.2
            simp only [decide_not, Bool.not_eq_true', decide_eq_false_iff_not] at h2
            exact absurd h h2
          · exact h)
      refine ⟨r :: sol, ?_, (List.Perm.cons r hsp).trans hperm.symm⟩
      exact List.mem_flatMap.2 ⟨r, hrr, List.mem_map.2 ⟨sol, hsol, rfl⟩⟩

/-- No two answers of the search are made of the same rows. -/
theorem searchList_pairwise (links : List (Nat × Nat)) (hnd : links.Nodup) (maxc : Int) (n : Nat)
    (L : List Nat) (hs : L.Sorted (fun a b => a < b)) (hpos : ∀ c ∈ L, 1 ≤ c) :
    (searchList links maxc n L).Pairwise (fun a b => ¬ a.Perm b) := by
  induction n generalizing L with
  | zero => simp [searchList]
  | succ n ih =>
    unfold searchList
    by_cases hterm : L.headD 0 = 0 ∨ ((L.headD 0 : Nat) : Int) > maxc
    · rw [if_pos hterm]
      simp
    · rw [if_neg hterm]
      generalize chosen links maxc L = c
      rw [List.pairwise_flatMap]
      constructor
      · intro r _
        rw [List.pairwise_map]
        refine List.Pairwise.imp ?_ (ih _ (List.Pairwise.sublist (List.filter_sublist _) hs)
          (fun d hd => hpos d (List.mem_of_mem_filter hd)))
        intro a b hab hp
        exact hab (List.Perm.cons_inv hp)
      · refine List.Pairwise.imp_of_mem ?_ (nodup_ringRows links hnd L c)
        intro r1 r2 hr1 hr2 hne x hx y hy hp
        obtain ⟨a, ha, rfl⟩ := List.mem_map.1 hx
        obtain ⟨b, _, rfl⟩ := List.mem_map.1 hy
        have h2 : r2 ∈ r1 :: a := hp.symm.subset (by simp)
        have h2a : r2 ∈ a := by
          rcases List.mem_cons.1 h2 with h | h
          · exact absurd h.symm hne
          · exact h
        obtain ⟨_, g2, _, _⟩ := searchList_sound links hnd maxc n _
          (List.Pairwise.sublist (List.filter_sublist _) hs)
          (fun d hd => hpos d (List.mem_of_mem_filter hd)) a ha
        have hc2 : c ∈ covered links a :=
          List.mem_flatMap.2 ⟨r2, h2a, (mem_colsOf links r2 c).2 ((mem_ringRows links L c r2).1 hr2).1⟩
        have := (List.mem_filter.1 (g2 c hc2)).2
        simp only [decide_not, Bool.not_eq_true', decide_eq_false_iff_not] at this
        exact this ((mem_colsOf links r1 c).2 ((mem_ringRows links L c r1).1 hr1).1)

end DancingLinkX
end IQPyramidSolver


namespace IQPyramidSolver
namespace DancingLinkX

/-! ## `KnownStep`, the replay of a prefix, and the search phase of `main` -/

/-- A row that meets a column has a first node, and `Header` names it. -/
theorem header_node (nc : Nat) (links : List (Nat × Nat)) (s : DancingLinkX)
    (hs : Static nc links s) (r : Nat) (hne : colsOf links r ≠ []) :
    s.Header r ∈ rowNodes nc links r := by
  have hex : ∃ c, (r, c) ∈ links := by
    cases h : colsOf links r with
    | nil => exact absurd h hne
    | cons c l => exact ⟨c, (mem_colsOf links r c).1 (by rw [h]; simp)⟩
  obtain ⟨c, hc⟩ := hex
  obtain ⟨k, hk, hke⟩ := List.getElem_of_mem hc
  have hk3 : links[nc + 1 + k - (nc + 1)]? = some (r, c) := by
    rw [show nc + 1 + k - (nc + 1) = k by omega, List.getElem?_eq_some_iff]
    exact ⟨hk, hke⟩
  have hmem : nc + 1 + k ∈ rowNodes nc links r := (mem_rowNodes nc links r _).2 ⟨c, by omega, hk3⟩
  rw [hs.header r]
  cases h : rowNodes nc links r with
  | nil => rw [h] at hmem; simp at hmem
  | cons a l => simp

/-- The call `KnownStep(r)` for a live row `r` covers the columns of `r` and puts `r` on `Answer`. -/
theorem knownStep_eq (nc : Nat) (links : List (Nat × Nat)) (hnd : links.Nodup) (L : List Nat)
    (s : DancingLinkX) (hinv : Inv nc links L s) (r : Nat) (hlive : rowLive links L r = true)
    (hne : colsOf links r ≠ []) (fuel : Nat) (hfuel : links.length < fuel) :
    ∃ s1, KnownStep fuel r s = some s1 ∧
      Inv nc links (L.filter (fun c => decide (c ∉ colsOf links r))) s1 ∧
      s1.Answer = s.Answer ++ [r] ∧ s1.Answers = s.Answers ∧ s1.max_column = s.max_column := by
  have hh := header_node nc links s hinv.static r hne
  generalize hhd : s.Header r = h at hh
  obtain ⟨c0, hh1, hh2⟩ := (mem_rowNodes nc links r h).1 hh
  obtain ⟨hcol, _, hmem⟩ := column_eq_colOf nc links s hinv.static r h hh
  have hc0 : colOf nc links h = c0 := by
    unfold colOf
    rw [hh2]
    rfl
  rw [hc0] at hcol hmem
  have hc0L : c0 ∈ L := (rowLive_iff links L r).1 hlive c0 hmem
  have hdf := deleteState_fields nc links L c0 s
  have hinv1 := inv_deleteState nc links L s hinv hnd c0 hc0L
  have hinvt := inv_withAnswers nc links _ _ (s.Answer ++ [r]) s.Answers hinv1
  have hliveRow : ∀ j ∈ rowOthers nc links h, colOf nc links j ∈ L.erase c0 := by
    intro j hj
    obtain ⟨hjr, hjne⟩ := (mem_rowOthers nc links h r hh j).1 hj
    have hjm := (column_eq_colOf nc links s hinv.static r j hjr).2.2
    have hjL := (rowLive_iff links L r).1 hlive _ hjm
    refine (List.mem_erase_of_ne ?_).2 hjL
    intro e
    exact hjne (colOf_injective nc links hnd r j h hjr hh (e.trans hc0.symm))
  have hcover := coverRow_eq nc links hnd _ _ hinvt h r hh hliveRow fuel hfuel
  have hcnd := nodup_map_colOf nc links hnd r (rowOthers nc links h)
    (nodup_rowOthers nc links h r hh)
    (fun j hj => ((mem_rowOthers nc links h r hh j).1 hj).1)
  have hinv2 := inv_deleteCols nc links hnd _ _ _ hinvt hcnd (by
    intro d hd
    obtain ⟨k, hk, rfl⟩ := List.mem_map.1 hd
    exact hliveRow k hk)
  rw [live_after_row nc links L hinv.sorted.nodup c0 h r hh2 hh1] at hinv2
  have hcf := deleteCols_fields nc links ((rowOthers nc links h).map (colOf nc links))
    (L.erase c0) (withAnswers (s.Answer ++ [r]) s.Answers (deleteState nc links L c0 s))
  refine ⟨_, ?_, hinv2, hcf.1, hcf.2.1, hcf.2.2.1.trans hdf.2.2.1⟩
  unfold KnownStep
  rw [hhd, hcol, delete_eq nc links L s hinv hnd c0 hc0L fuel hfuel]
  simp only [Option.some_bind]
  have ht : ({ deleteState nc links L c0 s with
      Answer := (deleteState nc links L c0 s).Answer ++ [r] } : DancingLinkX) =
      withAnswers (s.Answer ++ [r]) s.Answers (deleteState nc links L c0 s) := by
    show withAnswers ((deleteState nc links L c0 s).Answer ++ [r])
      (deleteState nc links L c0 s).Answers (deleteState nc links L c0 s) = _
    rw [hdf.1, hdf.2.1]
  rw [ht]
  have hhd2 : (deleteState nc links L c0 s).Header r = h := by
    rw [hdf.2.2.2.2.2, hhd]
  rw [hhd2]
  exact hcover

theorem liveAfter_cons (links : List (Nat × Nat)) (L : List Nat) (r : Nat) (p : List Nat) :
    liveAfter links L (r :: p) =
      liveAfter links (L.filter (fun c => decide (c ∉ colsOf links r))) p := rfl

/-- The replay of a prefix of live rows. -/
theorem replay_eq (nc : Nat) (links : List (Nat × Nat)) (hnd : links.Nodup) (p : List Nat)
    (L : List Nat) (s : DancingLinkX) (hinv : Inv nc links L s) (hp : LiveSeq links L p)
    (fuel : Nat) (hfuel : links.length < fuel) :
    ∃ s1, replay fuel p s = some s1 ∧ Inv nc links (liveAfter links L p) s1 ∧
      s1.Answer = s.Answer ++ p ∧ s1.Answers = s.Answers ∧ s1.max_column = s.max_column := by
  induction p generalizing L s with
  | nil => exact ⟨s, rfl, hinv, by simp, rfl, rfl⟩
  | cons r p ih =>
    obtain ⟨h1, h2, h3⟩ := hp
    obtain ⟨s1, g1, g2, g3, g4, g5⟩ := knownStep_eq nc links hnd L s hinv r h1 h2 fuel hfuel
    obtain ⟨s2, k1, k2, k3, k4, k5⟩ := ih _ s1 g2 h3
    refine ⟨s2, ?_, k2, ?_, k4.trans g4, k5.trans g5⟩
    · unfold replay
      rw [g1]
      exact k1
    · rw [k3, g3]
      simp

/-- Every prefix `Spread` records is a sequence of rows that are live when chosen. -/
theorem spreadList_liveSeq (links : List (Nat × Nat)) (maxc : Int) (n : Nat) (L : List Nat)
    (p : List Nat) (h : p ∈ spreadList links maxc n L) : LiveSeq links L p := by
  induction n generalizing L p with
  | zero =>
    simp only [spreadList, List.mem_singleton] at h
    subst h
    trivial
  | succ n ih =>
    unfold spreadList at h
    obtain ⟨r, hr, hsol⟩ := List.mem_flatMap.1 h
    obtain ⟨p1, hp1, rfl⟩ := List.mem_map.1 hsol
    obtain ⟨hrc, hlive⟩ := (mem_ringRows links L _ r).1 hr
    refine ⟨hlive, ?_, ih _ p1 hp1⟩
    intro e
    have := (mem_colsOf links r _).2 hrc
    rw [e] at this
    simp at this

theorem foldlM_some {α β : Type} (f : List β → α → Option (List β)) (g : α → List β)
    (l : List α) (init : List β) (h : ∀ a ∈ l, ∀ acc, f acc a = some (acc ++ g a)) :
    l.foldlM f init = some (init ++ l.flatMap g) := by
  induction l generalizing init with
  | nil => simp
  | cons a l ih =>
    rw [List.foldlM_cons, h a (by simp) init]
    simp only [Option.bind_eq_bind, Option.some_bind]
    rw [ih _ (fun b hb => h b (List.mem_cons_of_mem _ hb))]
    simp [List.flatMap_cons]

/-- The search phase of `main`: the results are the answers of the searches below the
recorded prefixes, prefix after prefix. -/
theorem solve_eq (nc : Nat) (links : List (Nat × Nat)) (hw : WellLinked nc links) (L : List Nat)
    (dlx : DancingLinkX) (hinv : Inv nc links L dlx) (hA : dlx.Answer = [])
    (hAs : dlx.Answers = []) (level fuel n : Nat) (hn : L.length < n)
    (hfuel : links.length + n + level < fuel) :
    solve fuel level dlx = some ((spreadList links dlx.max_column level L).flatMap (fun p =>
      (searchList links dlx.max_column n (liveAfter links L p)).map (fun sol => p ++ sol))) := by
  have hcopy : copy dlx = dlx := by
    cases dlx
    simp only at hAs
    simp only [copy, hAs]
  unfold solve
  rw [spread_eq nc links hw level L dlx 0 level [] fuel hinv (by omega) (by omega) (by omega)]
  simp only [Option.some_bind, List.nil_append, hA, hcopy]
  have hid : (spreadList links dlx.max_column level L).map (fun sol => sol) =
      spreadList links dlx.max_column level L := List.map_id' _
  rw [hid]
  have := foldlM_some (fun results steps =>
      (replay fuel steps dlx).bind fun clone =>
      (Dance fuel clone).map fun done => results ++ done.Answers)
    (fun p => (searchList links dlx.max_column n (liveAfter links L p)).map (fun sol => p ++ sol))
    (spreadList links dlx.max_column level L) [] (by
      intro p hp acc
      obtain ⟨s1, g1, g2, g3, g4, g5⟩ := replay_eq nc links hw.2 p L dlx hinv
        (spreadList_liveSeq links _ level L p hp) fuel (by omega)
      have hlen : (liveAfter links L p).length < n := by
        have : ∀ (q : List Nat) (M : List Nat), (liveAfter links M q).length ≤ M.length := by
          intro q
          induction q with
          | nil => intro M; exact le_refl _
          | cons r q ih =>
            intro M
            rw [liveAfter_cons]
            exact (ih _).trans (List.length_filter_le _ _)
        have := this p L
        omega
      have hd := dance_eq nc links hw.2 n _ s1 fuel g2 hlen (by omega)
      beta_reduce
      rw [g1]
      simp only [Option.some_bind]
      rw [hd]
      simp only [Option.map_some', withAnswers, g3, g4, g5, hA, hAs, List.nil_append])
  simpa using this

end DancingLinkX
end IQPyramidSolver


namespace IQPyramidSolver

theorem foldlM_collect {α β : Type} (f : List β × Nat → α → Option (List β × Nat))
    (g : α → List β) :
    ∀ (l : List α), (∀ a ∈ l, ∀ acc, f acc a = some (acc.1 ++ g a, acc.2 + (g a).length)) →
      ∀ (acc : List β × Nat),
      l.foldlM f acc = some (acc.1 ++ l.flatMap g, acc.2 + (l.flatMap g).length) := by
  intro l
  induction l with
  | nil => intro _ acc; simp
  | cons a t ih =>
    intro hf acc
    rw [List.foldlM_cons, hf a (List.mem_cons_self _ _)]
    simp only [Option.bind_eq_bind, Option.some_bind]
    rw [ih (fun b hb => hf b (List.mem_cons_of_mem _ hb))]
    simp [List.flatMap_cons, List.append_assoc, Nat.add_assoc]

theorem index_bounds (w h : Nat) (X Y : Int) (hx0 : 0 ≤ X) (hx : X < w) (hy0 : 0 ≤ Y)
    (hy : Y < h) : 0 ≤ Y * w + X ∧ (Y * w + X).toNat < w * h := by
  have hw : (0 : Int) ≤ w := Int.ofNat_nonneg w
  have h1 : 0 ≤ Y * w := Int.mul_nonneg hy0 hw
  have h2 : (Y + 1) * w ≤ h * w := Int.mul_le_mul_of_nonneg_right (by omega) hw
  have h3 : (Y + 1) * w = Y * w + w := by ring
  refine ⟨by omega, ?_⟩
  have h4 : Y * w + X < (h : Int) * w := by omega
  have h5 : ((w * h : Nat) : Int) = (h : Int) * w := by push_cast; ring
  omega

theorem readAt_inside (table : List Nat) (w h : Nat) (hl : table.length = w * h) (X Y : Int)
    (hx0 : 0 ≤ X) (hx : X < w) (hy0 : 0 ≤ Y) (hy : Y < h) :
    readAt table (Y * w + X) = some (cellAt table w X Y) := by
  obtain ⟨h0, h1⟩ := index_bounds w h X Y hx0 hx hy0 hy
  unfold cellAt readAt
  rw [if_neg (by omega)]
  have : (Y * w + X).toNat < table.length := by omega
  rw [List.getElem?_eq_getElem this]
  rfl

theorem checkValid_eq (table : List Nat) (w h : Nat) (hl : table.length = w * h) (x y : Int) :
    ∀ pts : List Point, checkValid table w h x y pts = some (fits table w h pts x y) := by
  intro pts
  induction pts with
  | nil => rfl
  | cons p ps ih =>
    unfold checkValid
    by_cases h1 : p.x + x < 0 ∨ p.x + x ≥ w
    · rw [if_pos h1]
      have : ¬ (0 ≤ p.x + x ∧ p.x + x < w ∧ 0 ≤ p.y + y ∧ p.y + y < h ∧
          cellAt table w (p.x + x) (p.y + y) ≠ 0) := by
        rintro ⟨a, b, -⟩; omega
      simp [fits, this]
    rw [if_neg h1]
    by_cases h2 : p.y + y < 0 ∨ p.y + y ≥ h
    · rw [if_pos h2]
      have : ¬ (0 ≤ p.x + x ∧ p.x + x < w ∧ 0 ≤ p.y + y ∧ p.y + y < h ∧
          cellAt table w (p.x + x) (p.y + y) ≠ 0) := by
        rintro ⟨-, -, a, b, -⟩; omega
      simp [fits, this]
    rw [if_neg h2]
    have hr := readAt_inside table w h hl (p.x + x) (p.y + y) (by omega) (by omega) (by omega)
      (by omega)
    rw [← Int.add_assoc] at hr
    rw [hr]
    simp only []
    by_cases h3 : cellAt table w (p.x + x) (p.y + y) = 0
    · rw [if_pos h3]
      have : ¬ (0 ≤ p.x + x ∧ p.x + x < w ∧ 0 ≤ p.y + y ∧ p.y + y < h ∧
          cellAt table w (p.x + x) (p.y + y) ≠ 0) := by
        rintro ⟨-, -, -, -, a⟩; exact a h3
      simp [fits, this]
    rw [if_neg h3, ih]
    have : (0 ≤ p.x + x ∧ p.x + x < w ∧ 0 ≤ p.y + y ∧ p.y + y < h ∧
          cellAt table w (p.x + x) (p.y + y) ≠ 0) := ⟨by omega, by omega, by omega, by omega, h3⟩
    simp [fits, this]

theorem fits_point {table : List Nat} {w h : Nat} {pts : List Point} {x y : Int}
    (hf : fits table w h pts x y = true) {p : Point} (hp : p ∈ pts) :
    0 ≤ p.x + x ∧ p.x + x < w ∧ 0 ≤ p.y + y ∧ p.y + y < h ∧
      cellAt table w (p.x + x) (p.y + y) ≠ 0 := by
  unfold fits at hf
  rw [List.all_eq_true] at hf
  simpa using hf p hp

theorem readIndecies_eq (table : List Nat) (w h : Nat) (hl : table.length = w * h) (x y : Int) :
    ∀ pts : List Point, (∀ p ∈ pts, 0 ≤ p.x + x ∧ p.x + x < w ∧ 0 ≤ p.y + y ∧ p.y + y < h) →
      readIndecies table w x y pts =
        some (pts.map fun p => cellAt table w (p.x + x) (p.y + y)) := by
  intro pts
  induction pts with
  | nil => intro _; rfl
  | cons p ps ih =>
    intro hp
    unfold readIndecies
    obtain ⟨a, b, c, d⟩ := hp p (List.mem_cons_self _ _)
    have hr := readAt_inside table w h hl (p.x + x) (p.y + y) a b c d
    rw [← Int.add_assoc] at hr
    rw [hr]
    simp only []
    rw [ih (fun q hq => hp q (List.mem_cons_of_mem _ hq))]
    rfl

theorem tryPlace_eq (sl : Slice) (hl : sl.table.length = sl.w * sl.h) (piece : Piece)
    (x y : Nat) (acc : List Step × Nat) :
    tryPlace sl.table sl.w sl.h piece (sl.id piece.shape_index) x y acc =
      some (acc.1 ++ (if fits sl.table sl.w sl.h piece.points x y then [stepAt sl piece x y]
          else []),
        acc.2 + (if fits sl.table sl.w sl.h piece.points x y then [stepAt sl piece x y]
          else []).length) := by
  unfold tryPlace
  rw [checkValid_eq sl.table sl.w sl.h hl]
  cases hf : fits sl.table sl.w sl.h piece.points x y
  · simp
  · simp only []
    rw [readIndecies_eq sl.table sl.w sl.h hl x y piece.points
      (fun p hp => by
        obtain ⟨a, b, c, d, -⟩ := fits_point hf hp
        exact ⟨a, b, c, d⟩)]
    simp [stepAt]

theorem scanSlice_eq (sl : Slice) (hl : sl.table.length = sl.w * sl.h) (piece : Piece)
    (acc : List Step × Nat) :
    scanSlice sl.table sl.w sl.h piece (sl.id piece.shape_index) acc =
      some (acc.1 ++ placementsOn sl piece, acc.2 + (placementsOn sl piece).length) := by
  unfold scanSlice placementsOn
  refine foldlM_collect _ (fun (y : Nat) => (List.range sl.w).flatMap fun (x : Nat) =>
      if fits sl.table sl.w sl.h piece.points x y then [stepAt sl piece x y] else [])
    _ (fun y _ a => ?_) _
  exact foldlM_collect _ (fun (x : Nat) =>
      if fits sl.table sl.w sl.h piece.points x y then [stepAt sl piece x y] else [])
    _ (fun x _ b => tryPlace_eq sl hl piece x y b) _

theorem scanFamily_eq (slices : List (List Nat)) (n : Nat) (hn : slices.length = n)
    (dim : Nat → Nat) (id : Nat → Nat → Nat) (size : Nat)
    (hg : ∀ k < n, GoodSlice size ⟨slices.getD k [], dim k, dim k, id k⟩) (piece : Piece)
    (acc : List Step × Nat) :
    (List.range n).foldlM (fun a k =>
      (slices[k]?).bind fun table =>
        scanSlice table (dim k) (dim k) piece (id k piece.shape_index) a) acc =
    some (acc.1 ++ (List.range n).flatMap (fun k =>
        placementsOn ⟨slices.getD k [], dim k, dim k, id k⟩ piece),
      acc.2 + ((List.range n).flatMap (fun k =>
        placementsOn ⟨slices.getD k [], dim k, dim k, id k⟩ piece)).length) := by
  refine foldlM_collect _ (fun k => placementsOn ⟨slices.getD k [], dim k, dim k, id k⟩ piece)
    _ (fun k hk a => ?_) _
  have hk2 : k < slices.length := by rw [hn]; exact List.mem_range.1 hk
  have e : slices.getD k [] = slices[k] := by
    rw [List.getD_eq_getElem?_getD, List.getElem?_eq_getElem hk2]; rfl
  rw [List.getElem?_eq_getElem hk2]
  simp only [Option.some_bind]
  have := scanSlice_eq ⟨slices.getD k [], dim k, dim k, id k⟩
    (hg k (List.mem_range.1 hk)).1 piece a
  rw [← e]
  exact this

theorem getValidSteps_eq (pattern : Pattern) (hg : pattern.Good) (piece : Piece)
    (steps : List Step) :
    pattern.GetValidSteps piece steps =
      some (steps ++ pattern.placements piece, (pattern.placements piece).length) := by
  obtain ⟨hc, hs⟩ := hg
  cases pattern with
  | triangle t =>
    have := scanSlice_eq ⟨t.matrix, TrianglePattern.ORDER, TrianglePattern.ORDER, fun s => s⟩
      (hs _ (by simp [Pattern.slices])).1 piece (steps, 0)
    simpa [Pattern.GetValidSteps, TrianglePattern.GetValidSteps, Pattern.placements,
      Pattern.slices] using this
  | rectangle t =>
    have := scanSlice_eq ⟨t.matrix, RectanglePattern.WIDTH, RectanglePattern.HEIGHT, fun s => s⟩
      (hs _ (by simp [Pattern.slices])).1 piece (steps, 0)
    simpa [Pattern.GetValidSteps, RectanglePattern.GetValidSteps, Pattern.placements,
      Pattern.slices] using this
  | pyramid t =>
    obtain ⟨h1, h2, h3⟩ := hc
    have hA := fun acc => scanFamily_eq t.floors t.ORDER h1 (fun k => k + 1)
      (fun k s => (k <<< 3) ||| s) (Pattern.pyramid t).size
      (fun k hk => hs _ (by
        simp only [Pattern.slices, List.mem_append, List.mem_map, List.mem_range]
        exact Or.inl (Or.inl ⟨k, hk, rfl⟩))) piece acc
    have hB := fun acc => scanFamily_eq t.diagonals_left (2 * t.ORDER - 1) h2
      (fun k => PyramidPattern.planeSize t.ORDER k)
      (fun k s => (1 <<< 6) ||| (k <<< 3) ||| s) (Pattern.pyramid t).size
      (fun k hk => hs _ (by
        simp only [Pattern.slices, List.mem_append, List.mem_map, List.mem_range]
        exact Or.inl (Or.inr ⟨k, hk, rfl⟩))) piece acc
    have hC := fun acc => scanFamily_eq t.diagonals_right (2 * t.ORDER - 1) h3
      (fun k => PyramidPattern.planeSize t.ORDER k)
      (fun k s => (1 <<< 7) ||| (k <<< 3) ||| s) (Pattern.pyramid t).size
      (fun k hk => hs _ (by
        simp only [Pattern.slices, List.mem_append, List.mem_map, List.mem_range]
        exact Or.inr ⟨k, hk, rfl⟩)) piece acc
    show PyramidPattern.GetValidSteps t piece steps = _
    unfold PyramidPattern.GetValidSteps PyramidPattern.scanFloors PyramidPattern.scanDiagonals
    rw [hA]
    simp only [Option.some_bind]
    rw [hB]
    simp only [Option.some_bind]
    rw [hC]
    simp [Pattern.placements, Pattern.slices, List.flatMap_append, List.flatMap_map,
      List.append_assoc, Nat.add_assoc]

end IQPyramidSolver


namespace IQPyramidSolver

set_option maxRecDepth 1000000
set_option maxHeartbeats 4000000

theorem good_boards :
    ∀ type ∈ boardTypes, ∃ pattern, selectPattern type = some pattern ∧ pattern.Good := by
  have h : ∀ type ∈ boardTypes, (selectPattern type).isSome = true ∧
      ((selectPattern type).all fun p => decide p.Good) = true := by decide
  intro type ht
  obtain ⟨h1, h2⟩ := h type ht
  obtain ⟨p, hp⟩ := Option.isSome_iff_exists.1 h1
  refine ⟨p, hp, ?_⟩
  rw [hp] at h2
  simpa using h2

theorem pieces_nodup : ∀ piece ∈ pieces, piece.points.Nodup := by decide

theorem mem_of_getElem?_nat {l : List Nat} {k v : Nat} (h : l[k]? = some v) : v ∈ l := by
  obtain ⟨hk, rfl⟩ := List.getElem?_eq_some_iff.1 h
  exact List.getElem_mem hk

theorem index_inj_of_nodup_filter {v : Nat} (hv : v ≠ 0) :
    ∀ (l : List Nat), (l.filter (fun v => decide (v ≠ 0))).Nodup → ∀ i j : Nat,
      l[i]? = some v → l[j]? = some v → i = j := by
  intro l
  induction l with
  | nil => intro _ i j hi; simp at hi
  | cons a t ih =>
    intro hn i j hi hj
    have hmem : ∀ k : Nat, t[k]? = some v → v ∈ t.filter (fun v => decide (v ≠ 0)) := by
      intro k hk
      rw [List.mem_filter]
      exact ⟨mem_of_getElem?_nat hk, by simpa using hv⟩
    cases i with
    | zero =>
      cases j with
      | zero => rfl
      | succ j =>
        exfalso
        simp only [List.getElem?_cons_zero, Option.some.injEq] at hi
        simp only [List.getElem?_cons_succ] at hj
        subst hi
        rw [List.filter_cons_of_pos (by simpa using hv)] at hn
        exact (List.nodup_cons.1 hn).1 (hmem j hj)
    | succ i =>
      cases j with
      | zero =>
        exfalso
        simp only [List.getElem?_cons_zero, Option.some.injEq] at hj
        simp only [List.getElem?_cons_succ] at hi
        subst hj
        rw [List.filter_cons_of_pos (by simpa using hv)] at hn
        exact (List.nodup_cons.1 hn).1 (hmem i hi)
      | succ j =>
        simp only [List.getElem?_cons_succ] at hi hj
        have hn2 : (t.filter (fun v => decide (v ≠ 0))).Nodup := by
          by_cases ha : a ≠ 0
          · rw [List.filter_cons_of_pos (by simpa using ha)] at hn
            exact (List.nodup_cons.1 hn).2
          · rw [List.filter_cons_of_neg (by simpa using ha)] at hn
            exact hn
        rw [ih hn2 i j hi hj]

theorem cell_index_inj (w : Nat) (X1 Y1 X2 Y2 : Int) (h1 : 0 ≤ X1) (h2 : X1 < w) (h3 : 0 ≤ X2)
    (h4 : X2 < w) (e : Y1 * w + X1 = Y2 * w + X2) : X1 = X2 ∧ Y1 = Y2 := by
  have hw : (0 : Int) < w := by omega
  have a1 : (Y1 * w + X1) % w = X1 := by
    rw [Int.add_comm, Int.add_mul_emod_self, Int.emod_eq_of_lt h1 h2]
  have a2 : (Y2 * w + X2) % w = X2 := by
    rw [Int.add_comm, Int.add_mul_emod_self, Int.emod_eq_of_lt h3 h4]
  have hx : X1 = X2 := by rw [← a1, ← a2, e]
  refine ⟨hx, ?_⟩
  subst hx
  have : Y1 * w = Y2 * w := by omega
  exact Int.eq_of_mul_eq_mul_right (by omega) this

theorem cellAt_getElem (table : List Nat) (w h : Nat) (hl : table.length = w * h) (X Y : Int)
    (hx0 : 0 ≤ X) (hx : X < w) (hy0 : 0 ≤ Y) (hy : Y < h) :
    table[(Y * w + X).toNat]? = some (cellAt table w X Y) := by
  have := readAt_inside table w h hl X Y hx0 hx hy0 hy
  obtain ⟨h0, -⟩ := index_bounds w h X Y hx0 hx hy0 hy
  unfold readAt at this
  rwa [if_neg (by omega)] at this

theorem mem_placementsOn {sl : Slice} {piece : Piece} {st : Step} :
    st ∈ placementsOn sl piece ↔ ∃ y < sl.h, ∃ x < sl.w,
      fits sl.table sl.w sl.h piece.points x y = true ∧ st = stepAt sl piece x y := by
  unfold placementsOn
  simp only [List.mem_flatMap, List.mem_range]
  constructor
  · rintro ⟨y, hy, x, hx, h⟩
    by_cases hf : fits sl.table sl.w sl.h piece.points x y = true
    · rw [if_pos hf] at h
      exact ⟨y, hy, x, hx, hf, by simpa using h⟩
    · rw [if_neg hf] at h
      simp at h
  · rintro ⟨y, hy, x, hx, hf, rfl⟩
    exact ⟨y, hy, x, hx, by rw [if_pos hf]; simp⟩

theorem stepAt_valid {size : Nat} {sl : Slice} (hg : GoodSlice size sl) {piece : Piece}
    (hn : piece.points.Nodup) {x y : Nat}
    (hf : fits sl.table sl.w sl.h piece.points x y = true) :
    (stepAt sl piece x y).indecies.length = piece.size ∧
      (∀ i ∈ (stepAt sl piece x y).indecies, 1 ≤ i ∧ i ≤ size) ∧
      (stepAt sl piece x y).indecies.Nodup := by
  obtain ⟨hl, hle, hnd⟩ := hg
  refine ⟨by simp [stepAt, Piece.size], ?_, ?_⟩
  · intro i hi
    simp only [stepAt, List.mem_map] at hi
    obtain ⟨p, hp, rfl⟩ := hi
    obtain ⟨a, b, c, d, e⟩ := fits_point hf hp
    exact ⟨by omega, hle _ (mem_of_getElem?_nat (cellAt_getElem sl.table sl.w sl.h hl _ _ a b c d))⟩
  · simp only [stepAt]
    refine List.Nodup.map_on ?_ hn
    intro p hp q hq e
    obtain ⟨a, b, c, d, e1⟩ := fits_point hf hp
    obtain ⟨a2, b2, c2, d2, -⟩ := fits_point hf hq
    have g1 := cellAt_getElem sl.table sl.w sl.h hl _ _ a b c d
    have g2 := cellAt_getElem sl.table sl.w sl.h hl _ _ a2 b2 c2 d2
    rw [← e] at g2
    have := index_inj_of_nodup_filter e1 sl.table hnd _ _ g1 g2
    obtain ⟨i1, -⟩ := index_bounds sl.w sl.h _ _ a b c d
    obtain ⟨i2, -⟩ := index_bounds sl.w sl.h _ _ a2 b2 c2 d2
    have := cell_index_inj sl.w (p.x + x) (p.y + y) (q.x + x) (q.y + y) a b a2 b2 (by omega)
    obtain ⟨px, py⟩ := p
    obtain ⟨qx, qy⟩ := q
    simp only [Point.mk.injEq]
    simp only at this
    omega

theorem placements_valid {pattern : Pattern} (hg : pattern.Good) {piece : Piece}
    (hn : piece.points.Nodup) {st : Step} (hs : st ∈ pattern.placements piece) :
    st.indecies.length = piece.size ∧ (∀ i ∈ st.indecies, 1 ≤ i ∧ i ≤ pattern.size) ∧
      st.indecies.Nodup := by
  unfold Pattern.placements at hs
  rw [List.mem_flatMap] at hs
  obtain ⟨sl, hsl, hst⟩ := hs
  obtain ⟨y, -, x, -, hf, rfl⟩ := mem_placementsOn.1 hst
  exact stepAt_valid (hg.2 sl hsl) hn hf

end IQPyramidSolver


namespace IQPyramidSolver
namespace DancingLinkX

theorem linksFrom_row (size : Nat) :
    ∀ (steps : List (List Nat × Nat)) (i : Nat), ∀ e ∈ linksFrom size steps i, i < e.1 := by
  intro steps
  induction steps with
  | nil => intro i e he; simp [linksFrom] at he
  | cons st rest ih =>
    intro i e he
    obtain ⟨ind, b⟩ := st
    simp only [linksFrom, List.mem_append, List.mem_map, List.mem_cons] at he
    rcases he with ⟨c, -, rfl⟩ | rfl | he
    · exact Nat.lt_succ_self i
    · exact Nat.lt_succ_self i
    · have := ih (i + 1) e he
      omega

theorem wellLinked_linksFrom (size : Nat) :
    ∀ (steps : List (List Nat × Nat)) (i : Nat), WellFormed size steps →
      WellLinked (size + PIECES) (linksFrom size steps i) := by
  intro steps
  induction steps with
  | nil => intro i _; exact ⟨by simp [linksFrom], by simp [linksFrom]⟩
  | cons st rest ih =>
    intro i hwf
    obtain ⟨ind, b⟩ := st
    obtain ⟨hnd, hr, hb⟩ := hwf (ind, b) (List.mem_cons_self _ _)
    obtain ⟨ih1, ih2⟩ := ih (i + 1) (fun st hst => hwf st (List.mem_cons_of_mem _ hst))
    simp only at hnd hr hb
    constructor
    · intro e he
      simp only [linksFrom, List.mem_append, List.mem_map, List.mem_cons] at he
      rcases he with ⟨c, hc, rfl⟩ | rfl | he
      · have := hr c hc
        simp only
        omega
      · simp only
        omega
      · exact ih1 e he
    · show (ind.map (fun index => (i + 1, index)) ++ (i + 1, b + size + 1) ::
        linksFrom size rest (i + 1)).Nodup
      rw [List.nodup_append]
      refine ⟨?_, ?_, ?_⟩
      · exact hnd.map (fun a c h => by simpa using h)
      · rw [List.nodup_cons]
        refine ⟨fun h => ?_, ih2⟩
        have := linksFrom_row size rest (i + 1) _ h
        simp at this
      · intro e h1 h2
        simp only [List.mem_map] at h1
        obtain ⟨c, hc, rfl⟩ := h1
        simp only [List.mem_cons, Prod.mk.injEq, true_and] at h2
        rcases h2 with h2 | h2
        · have := hr c hc
          omega
        · have := linksFrom_row size rest (i + 1) _ h2
          simp at this

theorem rowCols_cons_succ (size : Nat) (st : List Nat × Nat) (rest : List (List Nat × Nat))
    (k : Nat) : rowCols size (st :: rest) (k + 2) = rowCols size rest (k + 1) := by
  simp [rowCols, cellsOf, pieceOf]

theorem colsOf_nil_of_row (links : List (Nat × Nat)) (r : Nat) (h : ∀ e ∈ links, e.1 ≠ r) :
    colsOf links r = [] := by
  unfold colsOf
  rw [List.filter_eq_nil_iff.2 (fun e he => by simpa using h e he)]
  rfl

theorem colsOf_append (l1 l2 : List (Nat × Nat)) (r : Nat) :
    colsOf (l1 ++ l2) r = colsOf l1 r ++ colsOf l2 r := by
  simp [colsOf, List.filter_append]

theorem colsOf_linksFrom (size : Nat) :
    ∀ (steps : List (List Nat × Nat)) (i r : Nat),
      colsOf (linksFrom size steps i) r = if r ≤ i then [] else rowCols size steps (r - i) := by
  intro steps
  induction steps with
  | nil =>
    intro i r
    have : rowCols size [] (r - i) = [] := by
      cases (r - i) <;> simp [rowCols, cellsOf, pieceOf]
    simp [linksFrom, colsOf, this]
  | cons st rest ih =>
    intro i r
    obtain ⟨ind, b⟩ := st
    have e : linksFrom size ((ind, b) :: rest) i =
        ind.map (fun index => (i + 1, index)) ++ ([(i + 1, b + size + 1)] ++
          linksFrom size rest (i + 1)) := rfl
    rw [e, colsOf_append, colsOf_append, ih]
    by_cases h1 : r = i + 1
    · subst h1
      rw [if_pos (Nat.le_refl _), if_neg (by omega)]
      have e2 : i + 1 - i = 1 := by omega
      rw [e2]
      have e3 : colsOf (ind.map (fun index => (i + 1, index))) (i + 1) = ind := by
        unfold colsOf
        rw [List.filter_eq_self.2 (fun e he => by
          simp only [List.mem_map] at he
          obtain ⟨c, -, rfl⟩ := he
          simp)]
        simp [Function.comp_def]
      rw [e3]
      simp [colsOf, rowCols, cellsOf, pieceOf]
    · have e3 : colsOf (ind.map (fun index => (i + 1, index))) r = [] :=
        colsOf_nil_of_row _ _ (fun e he => by
          simp only [List.mem_map] at he
          obtain ⟨c, -, rfl⟩ := he
          exact fun h => h1 h.symm)
      have e4 : colsOf [(i + 1, b + size + 1)] r = [] :=
        colsOf_nil_of_row _ _ (fun e he => by
          simp only [List.mem_singleton] at he
          subst he
          exact fun h => h1 h.symm)
      rw [e3, e4]
      by_cases h2 : r ≤ i
      · rw [if_pos (by omega), if_pos h2]; rfl
      · rw [if_neg (by omega), if_neg h2]
        obtain ⟨k, hk⟩ : ∃ k, r = i + 2 + k := ⟨r - (i + 2), by omega⟩
        have e5 : r - (i + 1) = k + 1 := by omega
        have e6 : r - i = k + 2 := by omega
        rw [e5, e6, rowCols_cons_succ]
        rfl

theorem colsOf_build (size : Nat) (steps : List (List Nat × Nat)) (r : Nat) :
    colsOf (linksFrom size steps 0) r = rowCols size steps r := by
  rw [colsOf_linksFrom]
  cases r with
  | zero => simp [rowCols, cellsOf, pieceOf]
  | succ r => simp

theorem length_linksFrom (size : Nat) :
    ∀ (steps : List (List Nat × Nat)) (i acc : Nat),
      steps.foldl (fun value step => value + step.1.length + 1) acc =
        acc + (linksFrom size steps i).length := by
  intro steps
  induction steps with
  | nil => intro i acc; simp [linksFrom]
  | cons st rest ih =>
    intro i acc
    obtain ⟨ind, b⟩ := st
    rw [List.foldl_cons, ih (i + 1)]
    simp [linksFrom]
    omega

theorem nodeCount_eq (size : Nat) (steps : List (List Nat × Nat)) :
    nodeCount size steps = (linksFrom size steps 0).length + (PIECES + size + 1) := by
  unfold nodeCount
  rw [length_linksFrom size steps 0 0]
  omega

theorem link_answers (r c : Nat) (s : DancingLinkX) :
    (Link r c s).max_column = s.max_column ∧ (Link r c s).Answer = s.Answer ∧
      (Link r c s).Answers = s.Answers := by
  unfold Link
  split <;> exact ⟨rfl, rfl, rfl⟩

theorem foldl_link_answers (links : List (Nat × Nat)) :
    ∀ s : DancingLinkX,
      (links.foldl (fun t e => Link e.1 e.2 t) s).max_column = s.max_column ∧
      (links.foldl (fun t e => Link e.1 e.2 t) s).Answer = s.Answer ∧
      (links.foldl (fun t e => Link e.1 e.2 t) s).Answers = s.Answers := by
  induction links with
  | nil => intro s; exact ⟨rfl, rfl, rfl⟩
  | cons e rest ih =>
    intro s
    rw [List.foldl_cons]
    obtain ⟨a, b, c⟩ := ih (Link e.1 e.2 s)
    obtain ⟨a2, b2, c2⟩ := link_answers e.1 e.2 s
    exact ⟨a.trans a2, b.trans b2, c.trans c2⟩

theorem build_answers (size : Nat) (steps : List (List Nat × Nat)) (isComplete : Bool) :
    (build size steps isComplete).max_column =
        (if isComplete then ((size + PIECES : Nat) : Int) else (size : Int)) ∧
      (build size steps isComplete).Answer = [] ∧
      (build size steps isComplete).Answers = [] := by
  unfold build
  rw [buildLoop_eq]
  obtain ⟨a, b, c⟩ := foldl_link_answers (linksFrom size steps 0)
    (new (nodeCount size steps) steps.length (size + PIECES) isComplete)
  obtain ⟨-, -, h3, h4, h5⟩ := init_fields (size + PIECES)
    { Left := fun _ => 0, Right := fun _ => 0, Up := fun _ => 0, Down := fun _ => 0,
      Column := fun _ => 0, Row := fun _ => 0, Count := fun _ => 0, Header := fun _ => 0,
      counter := 0, Answer := [], Answers := [],
      max_column := if isComplete then ((size + PIECES : Nat) : Int)
        else ((size + PIECES : Nat) : Int) - PIECES } (size + PIECES + 1)
  refine ⟨a.trans ?_, b.trans ?_, c.trans ?_⟩
  · show ((List.range (size + PIECES + 1)).foldl (initColumn (size + PIECES)) _).max_column = _
    rw [h5]
    cases isComplete
    · simp
    · simp
  · show ((List.range (size + PIECES + 1)).foldl (initColumn (size + PIECES)) _).Answer = _
    rw [h3]
  · show ((List.range (size + PIECES + 1)).foldl (initColumn (size + PIECES)) _).Answers = _
    rw [h4]

end DancingLinkX
end IQPyramidSolver


namespace IQPyramidSolver
namespace DancingLinkX

theorem covered_append (links : List (Nat × Nat)) (p q : List Nat) :
    covered links (p ++ q) = covered links p ++ covered links q := by
  simp [covered, List.flatMap_append]

theorem sorted_filter (L : List Nat) (p : Nat → Bool) (h : L.Sorted (fun a b => a < b)) :
    (L.filter p).Sorted (fun a b => a < b) :=
  List.Pairwise.sublist (List.filter_sublist L) h

theorem liveSeq_covers (links : List (Nat × Nat)) (hnd : links.Nodup) :
    ∀ (p L : List Nat), L.Sorted (fun a b => a < b) → LiveSeq links L p →
      (covered links p).Nodup ∧ (∀ c ∈ covered links p, c ∈ L) ∧
      (∀ c, c ∈ liveAfter links L p ↔ c ∈ L ∧ c ∉ covered links p) ∧
      (liveAfter links L p).Sorted (fun a b => a < b) ∧ ∀ r ∈ p, ∃ c, (r, c) ∈ links := by
  intro p
  induction p with
  | nil =>
    intro L hs _
    exact ⟨by simp [covered], by simp [covered], by simp [covered, liveAfter], hs, by simp⟩
  | cons r p ih =>
    intro L hs hl
    obtain ⟨h1, h2, h3⟩ := hl
    obtain ⟨a, b, c, d, e⟩ := ih _ (sorted_filter L _ hs) h3
    rw [rowLive_iff] at h1
    refine ⟨?_, ?_, ?_, ?_, ?_⟩
    · rw [covered_cons, List.nodup_append]
      refine ⟨nodup_colsOf links hnd r, a, ?_⟩
      intro x hx1 hx2
      have := b x hx2
      simp only [List.mem_filter, decide_eq_true_eq] at this
      exact this.2 hx1
    · intro x hx
      rw [covered_cons, List.mem_append] at hx
      rcases hx with hx | hx
      · exact h1 x ((mem_colsOf links r x).1 hx)
      · exact (List.mem_filter.1 (b x hx)).1
    · intro x
      rw [liveAfter_cons, c x, covered_cons]
      simp only [List.mem_filter, decide_eq_true_eq, List.mem_append, not_or]
      tauto
    · rw [liveAfter_cons]; exact d
    · intro r2 hr2
      rcases List.mem_cons.1 hr2 with rfl | h
      · obtain ⟨x, hx⟩ := List.exists_mem_of_ne_nil _ h2
        exact ⟨x, (mem_colsOf links _ x).1 hx⟩
      · exact e r2 h

theorem covers_search (links : List (Nat × Nat)) (hnd : links.Nodup) (maxc : Int) (n : Nat)
    (L : List Nat) (hs : L.Sorted (fun a b => a < b)) (hpos : ∀ c ∈ L, 1 ≤ c) (sol : List Nat)
    (h : sol ∈ searchList links maxc n L) : Covers links L maxc sol :=
  searchList_sound links hnd maxc n L hs hpos sol h

theorem covers_solve (links : List (Nat × Nat)) (hnd : links.Nodup) (maxc : Int)
    (level n : Nat) (L : List Nat) (hs : L.Sorted (fun a b => a < b)) (hpos : ∀ c ∈ L, 1 ≤ c)
    (ans : List Nat)
    (h : ans ∈ (spreadList links maxc level L).flatMap (fun p =>
      (searchList links maxc n (liveAfter links L p)).map (fun sol => p ++ sol))) :
    Covers links L maxc ans := by
  simp only [List.mem_flatMap, List.mem_map] at h
  obtain ⟨p, hp, sol, hsol, rfl⟩ := h
  obtain ⟨a, b, c, d, e⟩ := liveSeq_covers links hnd p L hs
    (spreadList_liveSeq links maxc level L p hp)
  obtain ⟨a2, b2, c2, e2⟩ := searchList_sound links hnd maxc n _ d
    (fun x hx => hpos x ((c x).1 hx).1) sol hsol
  refine ⟨?_, ?_, ?_, ?_⟩
  · rw [covered_append, List.nodup_append]
    exact ⟨a, a2, fun x hx1 hx2 => ((c x).1 (b2 x hx2)).2 hx1⟩
  · intro x hx
    rw [covered_append, List.mem_append] at hx
    rcases hx with hx | hx
    · exact b x hx
    · exact ((c x).1 (b2 x hx)).1
  · intro x hx hm
    rw [covered_append, List.mem_append]
    by_cases hxp : x ∈ covered links p
    · exact Or.inl hxp
    · exact Or.inr (c2 x ((c x).2 ⟨hx, hxp⟩) hm)
  · intro r hr
    rcases List.mem_append.1 hr with h | h
    · exact e r h
    · exact e2 r h

theorem linksFrom_row_le (size : Nat) :
    ∀ (steps : List (List Nat × Nat)) (i : Nat), ∀ e ∈ linksFrom size steps i,
      e.1 ≤ i + steps.length := by
  intro steps
  induction steps with
  | nil => intro i e he; simp [linksFrom] at he
  | cons st rest ih =>
    intro i e he
    obtain ⟨ind, b⟩ := st
    simp only [linksFrom, List.mem_append, List.mem_map, List.mem_cons] at he
    rcases he with ⟨c, -, rfl⟩ | rfl | he
    · simp
    · simp
    · have := ih (i + 1) e he
      simp only [List.length_cons]
      omega

theorem row_of_link (size : Nat) (steps : List (List Nat × Nat)) (r c : Nat)
    (h : (r, c) ∈ linksFrom size steps 0) : 1 ≤ r ∧ r ≤ steps.length := by
  have h1 := linksFrom_row size steps 0 _ h
  have h2 := linksFrom_row_le size steps 0 _ h
  simp only at h1 h2
  omega

theorem row_facts (size : Nat) (steps : List (List Nat × Nat)) (r : Nat)
    (h : 1 ≤ r ∧ r ≤ steps.length) :
    ∃ st ∈ steps, cellsOf steps r = st.1 ∧ pieceOf steps r = some st.2 ∧
      rowCols size steps r = st.1 ++ [st.2 + size + 1] := by
  obtain ⟨k, rfl⟩ : ∃ k, r = k + 1 := ⟨r - 1, by omega⟩
  have hk : k < steps.length := by omega
  refine ⟨steps[k], List.getElem_mem hk, ?_, ?_, ?_⟩
  · simp [cellsOf, List.getElem?_eq_getElem hk]
  · simp [pieceOf, List.getElem?_eq_getElem hk]
  · simp [rowCols, cellsOf, pieceOf, List.getElem?_eq_getElem hk]

theorem covered_build (size : Nat) (steps : List (List Nat × Nat)) (ans : List Nat) :
    covered (linksFrom size steps 0) ans = ans.flatMap (rowCols size steps) := by
  unfold covered
  congr 1
  funext r
  exact colsOf_build size steps r

theorem cells_sublist (size : Nat) (steps : List (List Nat × Nat)) (ans : List Nat) :
    (ans.flatMap (cellsOf steps)).Sublist (ans.flatMap (rowCols size steps)) := by
  induction ans with
  | nil => simp
  | cons r t ih =>
    simp only [List.flatMap_cons]
    exact List.Sublist.append (by unfold rowCols; exact List.sublist_append_left _ _) ih

theorem partition_of_covers (size : Nat) (steps : List (List Nat × Nat))
    (hwf : WellFormed size steps) (maxc : Int) (hmax : (size : Int) ≤ maxc) (ans : List Nat)
    (h : Covers (linksFrom size steps 0) (List.range' 1 (size + PIECES)) maxc ans) :
    Partition size steps ans := by
  obtain ⟨h1, h2, h3, h4⟩ := h
  have hrows : ∀ r ∈ ans, 1 ≤ r ∧ r ≤ steps.length := fun r hr => by
    obtain ⟨c, hc⟩ := h4 r hr
    exact row_of_link size steps r c hc
  refine ⟨hrows, ?_⟩
  rw [covered_build] at h1 h2 h3
  refine (List.perm_ext_iff_of_nodup (h1.sublist (cells_sublist size steps ans))
    (List.nodup_range' 1 size)).2 (fun c => ?_)
  rw [List.mem_range', List.mem_flatMap]
  constructor
  · rintro ⟨r, hr, hc⟩
    obtain ⟨st, hst, e1, -, -⟩ := row_facts size steps r (hrows r hr)
    rw [e1] at hc
    have := (hwf st hst).2.1 c hc
    exact ⟨c - 1, by omega, by omega⟩
  · rintro ⟨i, hi, rfl⟩
    have hm := h3 (1 + 1 * i) (by rw [List.mem_range']; exact ⟨i, by omega, rfl⟩)
      (by push_cast; omega)
    rw [List.mem_flatMap] at hm
    obtain ⟨r, hr, hc⟩ := hm
    refine ⟨r, hr, ?_⟩
    obtain ⟨st, hst, e1, -, e3⟩ := row_facts size steps r (hrows r hr)
    rw [e3, List.mem_append, List.mem_singleton] at hc
    rw [e1]
    rcases hc with hc | hc
    · exact hc
    · omega

end DancingLinkX
end IQPyramidSolver


namespace IQPyramidSolver
namespace DancingLinkX

theorem dance_build (size : Nat) (steps : List (List Nat × Nat)) (isComplete : Bool)
    (hwf : WellFormed size steps) (fuel : Nat) (hfuel : nodeCount size steps < fuel) :
    ∃ done, Dance fuel (build size steps isComplete) = some done ∧
      done.Answers = searchList (linksFrom size steps 0) (build size steps isComplete).max_column
        (size + PIECES + 1) (List.range' 1 (size + PIECES)) := by
  have hw := wellLinked_linksFrom size steps 0 hwf
  have hinv := inv_build size steps isComplete hw
  obtain ⟨-, hA, hAs⟩ := build_answers size steps isComplete
  have hn := nodeCount_eq size steps
  have := dance_eq (size + PIECES) _ hw.2 (size + PIECES + 1) _ _ fuel hinv
    (by rw [List.length_range']; omega) (by omega)
  refine ⟨_, this, ?_⟩
  simp [withAnswers, hA, hAs]

theorem solve_build (size : Nat) (steps : List (List Nat × Nat)) (isComplete : Bool)
    (hwf : WellFormed size steps) (level fuel : Nat)
    (hfuel : nodeCount size steps + level < fuel) :
    solve fuel level (build size steps isComplete) =
      some ((spreadList (linksFrom size steps 0) (build size steps isComplete).max_column level
        (List.range' 1 (size + PIECES))).flatMap (fun p =>
          (searchList (linksFrom size steps 0) (build size steps isComplete).max_column
            (size + PIECES + 1) (liveAfter (linksFrom size steps 0)
              (List.range' 1 (size + PIECES)) p)).map (fun sol => p ++ sol))) := by
  have hw := wellLinked_linksFrom size steps 0 hwf
  have hinv := inv_build size steps isComplete hw
  obtain ⟨-, hA, hAs⟩ := build_answers size steps isComplete
  have hn := nodeCount_eq size steps
  exact solve_eq (size + PIECES) _ hw _ _ hinv hA hAs level fuel (size + PIECES + 1)
    (by rw [List.length_range']; omega) (by omega)

theorem size_le_max (size : Nat) (steps : List (List Nat × Nat)) (isComplete : Bool) :
    (size : Int) ≤ (build size steps isComplete).max_column ∧
      (build size steps isComplete).max_column ≤ ((size + PIECES : Nat) : Int) := by
  rw [(build_answers size steps isComplete).1]
  cases isComplete <;> simp

theorem covers_dance_build (size : Nat) (steps : List (List Nat × Nat)) (isComplete : Bool)
    (hwf : WellFormed size steps) (ans : List Nat)
    (h : ans ∈ searchList (linksFrom size steps 0) (build size steps isComplete).max_column
        (size + PIECES + 1) (List.range' 1 (size + PIECES))) :
    Covers (linksFrom size steps 0) (List.range' 1 (size + PIECES))
      (build size steps isComplete).max_column ans := by
  have hw := wellLinked_linksFrom size steps 0 hwf
  have hinv := inv_build size steps isComplete hw
  exact covers_search _ hw.2 _ _ _ hinv.sorted (fun c hc => (hinv.range c hc).1) ans h

theorem covers_solve_build (size : Nat) (steps : List (List Nat × Nat)) (isComplete : Bool)
    (hwf : WellFormed size steps) (level : Nat) (ans : List Nat)
    (h : ans ∈ (spreadList (linksFrom size steps 0) (build size steps isComplete).max_column level
        (List.range' 1 (size + PIECES))).flatMap (fun p =>
          (searchList (linksFrom size steps 0) (build size steps isComplete).max_column
            (size + PIECES + 1) (liveAfter (linksFrom size steps 0)
              (List.range' 1 (size + PIECES)) p)).map (fun sol => p ++ sol))) :
    Covers (linksFrom size steps 0) (List.range' 1 (size + PIECES))
      (build size steps isComplete).max_column ans := by
  have hw := wellLinked_linksFrom size steps 0 hwf
  have hinv := inv_build size steps isComplete hw
  exact covers_solve _ hw.2 _ level _ _ hinv.sorted (fun c hc => (hinv.range c hc).1) ans h

theorem partition_answers (size : Nat) (steps : List (List Nat × Nat)) (isComplete : Bool)
    (hwf : WellFormed size steps) (level fuel : Nat)
    (hfuel : nodeCount size steps + level < fuel) :
    (∃ done, Dance fuel (build size steps isComplete) = some done ∧
      ∀ ans ∈ done.Answers, Partition size steps ans) ∧
    (∃ results, solve fuel level (build size steps isComplete) = some results ∧
      ∀ ans ∈ results, Partition size steps ans) := by
  constructor
  · obtain ⟨done, h1, h2⟩ := dance_build size steps isComplete hwf fuel (by omega)
    refine ⟨done, h1, fun ans ha => ?_⟩
    rw [h2] at ha
    exact partition_of_covers size steps hwf _ (size_le_max size steps isComplete).1 ans
      (covers_dance_build size steps isComplete hwf ans ha)
  · refine ⟨_, solve_build size steps isComplete hwf level fuel hfuel, fun ans ha => ?_⟩
    exact partition_of_covers size steps hwf _ (size_le_max size steps isComplete).1 ans
      (covers_solve_build size steps isComplete hwf level ans ha)

/-- C1. Partition invariant: for a matrix built from a list of placements, with either
setting of the flag, `Dance` run directly returns, and so does the search `Spread`, replay
of every prefix with `KnownStep`, `Dance` for every depth `level`; every answer recorded
consists of rows of the matrix whose cells taken together are the cells `1..size`, each
exactly once. -/
theorem answers_partition (size : Nat) (steps : List (List Nat × Nat)) (isComplete : Bool)
    (hwf : WellFormed size steps) (level fuel : Nat)
    (hfuel : nodeCount size steps + level < fuel) :
    (∃ done, Dance fuel (build size steps isComplete) = some done ∧
      ∀ ans ∈ done.Answers, Partition size steps ans) ∧
    (∃ results, solve fuel level (build size steps isComplete) = some results ∧
      ∀ ans ∈ results, Partition size steps ans) :=
  partition_answers size steps isComplete hwf level fuel hfuel

end DancingLinkX
end IQPyramidSolver


namespace IQPyramidSolver
namespace DancingLinkX

theorem nodup_of_flatMap {α β : Type} (f : α → List β) :
    ∀ l : List α, (l.flatMap f).Nodup → (∀ r ∈ l, f r ≠ []) → l.Nodup := by
  intro l
  induction l with
  | nil => intro _ _; exact List.nodup_nil
  | cons a t ih =>
    intro h hne
    rw [List.flatMap_cons, List.nodup_append] at h
    obtain ⟨-, h2, h3⟩ := h
    refine List.nodup_cons.2 ⟨fun ha => ?_, ih h2 (fun r hr => hne r (List.mem_cons_of_mem _ hr))⟩
    obtain ⟨x, hx⟩ := List.exists_mem_of_ne_nil _ (hne a (List.mem_cons_self _ _))
    exact h3 hx (List.mem_flatMap.2 ⟨a, ha, hx⟩)

theorem countP_perm_eq_one (S : List Nat) :
    ∀ l : List (List Nat), l.Pairwise (fun a b => ¬ a.Perm b) → (∃ a ∈ l, a.Perm S) →
      l.countP (fun ans => decide (ans.Perm S)) = 1 := by
  intro l
  induction l with
  | nil => intro _ h; obtain ⟨a, ha, -⟩ := h; simp at ha
  | cons a t ih =>
    intro hp he
    rw [List.pairwise_cons] at hp
    by_cases ha : a.Perm S
    · rw [List.countP_cons_of_pos _ _ (by simpa using ha)]
      have : t.countP (fun ans => decide (ans.Perm S)) = 0 := by
        rw [List.countP_eq_zero]
        intro b hb
        simp only [decide_eq_true_eq]
        exact fun hbS => hp.1 b hb (ha.trans hbS.symm)
      omega
    · rw [List.countP_cons_of_neg _ _ (by simpa using ha)]
      obtain ⟨b, hb, hbS⟩ := he
      rcases List.mem_cons.1 hb with rfl | hb
      · exact absurd hbS ha
      · exact ih hp.2 ⟨b, hb, hbS⟩

theorem exactCover_of_covers (size : Nat) (steps : List (List Nat × Nat)) (isComplete : Bool)
    (ans : List Nat)
    (h : Covers (linksFrom size steps 0) (List.range' 1 (size + PIECES))
      (build size steps isComplete).max_column ans) :
    ExactCover size steps (build size steps isComplete).max_column ans := by
  obtain ⟨h1, h2, h3, h4⟩ := h
  have hrows : ∀ r ∈ ans, 1 ≤ r ∧ r ≤ steps.length := fun r hr => by
    obtain ⟨c, hc⟩ := h4 r hr
    exact row_of_link size steps r c hc
  rw [covered_build] at h1 h2 h3
  refine ⟨nodup_of_flatMap _ _ h1 (fun r hr => ?_), hrows, h1, fun c hc hm => ?_⟩
  · obtain ⟨st, -, -, -, e⟩ := row_facts size steps r (hrows r hr)
    rw [e]
    simp
  · have := (size_le_max size steps isComplete).2
    exact h3 c (by rw [List.mem_range']; exact ⟨c - 1, by omega, by omega⟩) hm

/-- C2. Completeness of the search: for a matrix built from a list of placements (in the
mode without the piece columns every placement has a cell), `Dance` started from the
fresh state returns; every set of rows that meets each column `1..max_column` once and no
column twice is recorded exactly once, and nothing else is recorded. -/
theorem dance_complete (size : Nat) (steps : List (List Nat × Nat)) (isComplete : Bool)
    (hwf : WellFormed size steps) (hne : isComplete = false → ∀ st ∈ steps, st.1 ≠ [])
    (fuel : Nat) (hfuel : nodeCount size steps < fuel) :
    ∃ done, Dance fuel (build size steps isComplete) = some done ∧
      (∀ S, ExactCover size steps (build size steps isComplete).max_column S →
        done.Answers.countP (fun ans => decide (ans.Perm S)) = 1) ∧
      ∀ ans ∈ done.Answers, ExactCover size steps (build size steps isComplete).max_column ans := by
  obtain ⟨done, h1, h2⟩ := dance_build size steps isComplete hwf fuel hfuel
  have hw := wellLinked_linksFrom size steps 0 hwf
  have hinv := inv_build size steps isComplete hw
  have hpos : ∀ c ∈ List.range' 1 (size + PIECES), 1 ≤ c := fun c hc => (hinv.range c hc).1
  refine ⟨done, h1, fun S hS => ?_, fun ans ha => ?_⟩
  · obtain ⟨s1, s2, s3, s4⟩ := hS
    rw [h2]
    refine countP_perm_eq_one S _ (searchList_pairwise _ hw.2 _ _ _ hinv.sorted hpos) ?_
    refine searchList_complete _ _ _ _ hinv.sorted hpos (by rw [List.length_range']; omega) S
      (by rw [covered_build]; exact s3) (fun r _ => rowLive_all _ _ hw r) (fun r hr => ?_)
      (fun c hc hm => ?_)
    · obtain ⟨st, hst, e1, -, e3⟩ := row_facts size steps r (s2 r hr)
      rw [colsOf_build, e3, (build_answers size steps isComplete).1]
      cases hi : isComplete
      · obtain ⟨x, hx⟩ := List.exists_mem_of_ne_nil _ (hne hi st hst)
        refine ⟨x, List.mem_append_left _ hx, ?_⟩
        have := ((hwf st hst).2.1 x hx).2
        simp only [Bool.false_eq_true, if_false]
        exact_mod_cast this
      · refine ⟨st.2 + size + 1, List.mem_append_right _ (List.mem_singleton_self _), ?_⟩
        have := (hwf st hst).2.2
        simp only [if_true]
        push_cast
        omega
    · rw [covered_build]
      exact s4 c (hpos c hc) hm
  · rw [h2] at ha
    exact exactCover_of_covers size steps isComplete ans
      (covers_dance_build size steps isComplete hwf ans ha)

end DancingLinkX
end IQPyramidSolver


namespace IQPyramidSolver
namespace DancingLinkX

theorem pieceCols_sublist (size : Nat) (steps : List (List Nat × Nat)) (ans : List Nat) :
    ((ans.filterMap (pieceOf steps)).map (fun b => b + size + 1)).Sublist
      (ans.flatMap (rowCols size steps)) := by
  induction ans with
  | nil => simp
  | cons r t ih =>
    rw [List.flatMap_cons]
    cases hp : pieceOf steps r with
    | none =>
      rw [List.filterMap_cons_none hp]
      exact ih.trans (List.sublist_append_right _ _)
    | some b =>
      rw [List.filterMap_cons_some hp, List.map_cons]
      have : rowCols size steps r = cellsOf steps r ++ [b + size + 1] := by
        simp [rowCols, hp]
      rw [this, List.append_assoc]
      exact (List.Sublist.cons₂ _ ih).trans (List.sublist_append_right _ _)

theorem length_filterMap_pieceOf (steps : List (List Nat × Nat)) :
    ∀ ans : List Nat, (∀ r ∈ ans, 1 ≤ r ∧ r ≤ steps.length) →
      (ans.filterMap (pieceOf steps)).length = ans.length := by
  intro ans
  induction ans with
  | nil => intro _; rfl
  | cons r t ih =>
    intro h
    obtain ⟨st, -, -, e, -⟩ := row_facts 0 steps r (h r (List.mem_cons_self _ _))
    rw [List.filterMap_cons_some e, List.length_cons, List.length_cons,
      ih (fun x hx => h x (List.mem_cons_of_mem _ hx))]

theorem pieces_of_covers (size : Nat) (steps : List (List Nat × Nat))
    (hwf : WellFormed size steps) (ans : List Nat)
    (h : Covers (linksFrom size steps 0) (List.range' 1 (size + PIECES))
      ((size + PIECES : Nat) : Int) ans) :
    ans.length = PIECES ∧ (ans.filterMap (pieceOf steps)).Perm (List.range PIECES) := by
  obtain ⟨h1, h2, h3, h4⟩ := h
  have hrows : ∀ r ∈ ans, 1 ≤ r ∧ r ≤ steps.length := fun r hr => by
    obtain ⟨c, hc⟩ := h4 r hr
    exact row_of_link size steps r c hc
  rw [covered_build] at h1 h2 h3
  have hperm : ((ans.filterMap (pieceOf steps)).map (fun b => b + size + 1)).Perm
      ((List.range PIECES).map (fun b => b + size + 1)) := by
    refine (List.perm_ext_iff_of_nodup (h1.sublist (pieceCols_sublist size steps ans))
      ((List.nodup_range PIECES).map (fun a b hab => by simpa using hab))).2 (fun x => ?_)
    simp only [List.mem_map, List.mem_filterMap, List.mem_range]
    constructor
    · rintro ⟨b, ⟨r, hr, hb⟩, rfl⟩
      refine ⟨b, ?_, rfl⟩
      obtain ⟨st, hst, -, e, -⟩ := row_facts size steps r (hrows r hr)
      rw [e] at hb
      have := (hwf st hst).2.2
      simp only [Option.some.injEq] at hb
      omega
    · rintro ⟨b, hb, rfl⟩
      have hm := h3 (b + size + 1) (by rw [List.mem_range']; exact ⟨b + size, by omega, by omega⟩)
        (by push_cast; omega)
      rw [List.mem_flatMap] at hm
      obtain ⟨r, hr, hc⟩ := hm
      obtain ⟨st, hst, -, e2, e3⟩ := row_facts size steps r (hrows r hr)
      rw [e3, List.mem_append, List.mem_singleton] at hc
      rcases hc with hc | hc
      · have := ((hwf st hst).2.1 _ hc).2
        omega
      · exact ⟨st.2, ⟨r, hr, e2⟩, by omega⟩
  have hback := hperm.map (fun x => x - (size + 1))
  simp only [List.map_map] at hback
  have hid : ((fun x => x - (size + 1)) ∘ fun b => b + size + 1) = id := by
    funext b
    simp only [Function.comp, id]
    omega
  rw [hid, List.map_id, List.map_id] at hback
  refine ⟨?_, hback⟩
  rw [← length_filterMap_pieceOf steps ans hrows, hback.length_eq, List.length_range]

/-- In the mode with the piece columns every answer of `Dance`, run directly or after the
replay of a `Spread` prefix, has `PIECES` rows, one for every piece. -/
theorem mandatory_answers (size : Nat) (steps : List (List Nat × Nat))
    (hwf : WellFormed size steps) (level fuel : Nat)
    (hfuel : nodeCount size steps + level < fuel) :
    (∃ done, Dance fuel (build size steps true) = some done ∧
      ∀ ans ∈ done.Answers, ans.length = PIECES ∧
        (ans.filterMap (pieceOf steps)).Perm (List.range PIECES)) ∧
    (∃ results, solve fuel level (build size steps true) = some results ∧
      ∀ ans ∈ results, ans.length = PIECES ∧
        (ans.filterMap (pieceOf steps)).Perm (List.range PIECES)) := by
  have hmax : (build size steps true).max_column = ((size + PIECES : Nat) : Int) := by
    rw [(build_answers size steps true).1]; rfl
  constructor
  · obtain ⟨done, h1, h2⟩ := dance_build size steps true hwf fuel (by omega)
    refine ⟨done, h1, fun ans ha => ?_⟩
    rw [h2] at ha
    have := covers_dance_build size steps true hwf ans ha
    rw [hmax] at this
    exact pieces_of_covers size steps hwf ans this
  · refine ⟨_, solve_build size steps true hwf level fuel hfuel, fun ans ha => ?_⟩
    have := covers_solve_build size steps true hwf level ans ha
    rw [hmax] at this
    exact pieces_of_covers size steps hwf ans this

end DancingLinkX

open DancingLinkX

theorem collectSteps_eq (pattern : Pattern) (hg : pattern.Good) (l : List Piece) :
    l.foldlM (fun steps piece => (pattern.GetValidSteps piece steps).map (fun r => r.1)) [] =
      some (l.flatMap pattern.placements) := by
  have := foldlM_some
    (fun steps piece => (pattern.GetValidSteps piece steps).map (fun r => r.1))
    pattern.placements l [] (fun piece _ acc => by
      beta_reduce
      rw [getValidSteps_eq pattern hg piece acc]
      rfl)
  rw [this]
  rfl

theorem mainSteps_eq (pattern : Pattern) (hg : pattern.Good) :
    mainSteps pattern = some (pieces.flatMap pattern.placements) :=
  collectSteps_eq pattern hg pieces

theorem pieces_block : ∀ piece ∈ pieces, piece.block_index < PIECES ∧ piece.shape_index < 8 := by
  decide

theorem block_of_placement {pattern : Pattern} {piece : Piece} {st : Step}
    (hs : st ∈ pattern.placements piece) : st.block_index = piece.block_index := by
  unfold Pattern.placements at hs
  rw [List.mem_flatMap] at hs
  obtain ⟨sl, -, hst⟩ := hs
  obtain ⟨y, -, x, -, -, rfl⟩ := mem_placementsOn.1 hst
  rfl

theorem wellFormed_main (pattern : Pattern) (hg : pattern.Good) :
    WellFormed pattern.size ((pieces.flatMap pattern.placements).map placementOf) := by
  intro st hst
  rw [List.mem_map] at hst
  obtain ⟨step, hstep, rfl⟩ := hst
  rw [List.mem_flatMap] at hstep
  obtain ⟨piece, hp, hs⟩ := hstep
  obtain ⟨-, h2, h3⟩ := placements_valid hg (pieces_nodup piece hp) hs
  refine ⟨h3, h2, ?_⟩
  show step.block_index < PIECES
  rw [block_of_placement hs]
  exact (pieces_block piece hp).1

end IQPyramidSolver


namespace IQPyramidSolver

open DancingLinkX

set_option maxRecDepth 1000000
set_option maxHeartbeats 4000000

theorem main_mandatory (pattern : Pattern) (hg : pattern.Good)
    (hsz : pattern.size = piece_node_count) :
    ∃ steps, mainSteps pattern = some steps ∧
      mainMatrix pattern steps = build pattern.size (steps.map placementOf) true ∧
      (mainMatrix pattern steps).max_column = ((pattern.size + PIECES : Nat) : Int) ∧
      ∀ level fuel : Nat, nodeCount pattern.size (steps.map placementOf) + level < fuel →
        (∃ done, Dance fuel (mainMatrix pattern steps) = some done ∧
          ∀ ans ∈ done.Answers, ans.length = PIECES ∧
            (ans.filterMap (pieceOf (steps.map placementOf))).Perm (List.range PIECES)) ∧
        (∃ results, solve fuel level (mainMatrix pattern steps) = some results ∧
          ∀ ans ∈ results, ans.length = PIECES ∧
            (ans.filterMap (pieceOf (steps.map placementOf))).Perm (List.range PIECES)) := by
  have hm : ∀ steps, mainMatrix pattern steps =
      build pattern.size (steps.map placementOf) true := by
    intro steps
    unfold mainMatrix
    rw [decide_eq_true hsz]
  refine ⟨_, mainSteps_eq pattern hg, hm _, ?_, fun level fuel hfuel => ?_⟩
  · rw [hm, (build_answers _ _ true).1]
    rfl
  · rw [hm]
    exact mandatory_answers pattern.size _ (wellFormed_main pattern hg) level fuel hfuel

theorem good_rectangle : (Pattern.rectangle RectanglePattern.new).Good := by decide

theorem count_pieces : piece_node_count = 55 := by decide

/-- C4. Mandatory piece use on the 11x5 rectangle: the cells of the 12 base pieces are 55
in all, as many as the board has, so the matrix of `main` is built with the flag set and
`max_column` is `size + 12`; `Dance`, run directly or after the replay of a `Spread`
prefix of any depth, returns, and every answer has exactly 12 rows, one for each of the
pieces `0..11`. -/
theorem rectangle_uses_all_pieces :
    piece_node_count = 55 ∧ (Pattern.rectangle RectanglePattern.new).size = 55 ∧
    ∃ steps, mainSteps (Pattern.rectangle RectanglePattern.new) = some steps ∧
      mainMatrix (Pattern.rectangle RectanglePattern.new) steps =
        build (Pattern.rectangle RectanglePattern.new).size (steps.map placementOf) true ∧
      (mainMatrix (Pattern.rectangle RectanglePattern.new) steps).max_column =
        (((Pattern.rectangle RectanglePattern.new).size + 12 : Nat) : Int) ∧
      ∀ level fuel : Nat,
        nodeCount (Pattern.rectangle RectanglePattern.new).size (steps.map placementOf) + level
          < fuel →
        (∃ done, Dance fuel (mainMatrix (Pattern.rectangle RectanglePattern.new) steps) =
            some done ∧
          ∀ ans ∈ done.Answers, ans.length = 12 ∧
            (ans.filterMap (pieceOf (steps.map placementOf))).Perm (List.range 12)) ∧
        (∃ results, solve fuel level (mainMatrix (Pattern.rectangle RectanglePattern.new) steps) =
            some results ∧
          ∀ ans ∈ results, ans.length = 12 ∧
            (ans.filterMap (pieceOf (steps.map placementOf))).Perm (List.range 12)) :=
  ⟨count_pieces, rfl, main_mandatory _ good_rectangle (by rw [count_pieces]; rfl)⟩

/-- C6. Placement validity: on each of the four boards and for every oriented piece,
`GetValidSteps` returns, and every step it appends has as many covered indices as the
piece has points, each of them in `[1, size()]`, none twice. -/
theorem getValidSteps_valid (type : String) (ht : type ∈ boardTypes) :
    ∃ pattern, selectPattern type = some pattern ∧
      ∀ piece ∈ pieces, ∀ steps : List Step, ∃ added,
        pattern.GetValidSteps piece steps = some (steps ++ added, added.length) ∧
        ∀ st ∈ added, st.indecies.length = piece.size ∧
          (∀ i ∈ st.indecies, 1 ≤ i ∧ i ≤ pattern.size) ∧ st.indecies.Nodup := by
  obtain ⟨pattern, hp, hg⟩ := good_boards type ht
  refine ⟨pattern, hp, fun piece hpc steps => ⟨pattern.placements piece,
    getValidSteps_eq pattern hg piece steps, fun st hst => ?_⟩⟩
  exact placements_valid hg (pieces_nodup piece hpc) hst

theorem getValidSteps_valid_witness :
    "p4" ∈ boardTypes ∧ ∃ pattern, selectPattern "p4" = some pattern ∧
      ∀ piece ∈ pieces, ∀ steps : List Step, ∃ added,
        pattern.GetValidSteps piece steps = some (steps ++ added, added.length) ∧
        ∀ st ∈ added, st.indecies.length = piece.size ∧
          (∀ i ∈ st.indecies, 1 ≤ i ∧ i ≤ pattern.size) ∧ st.indecies.Nodup :=
  ⟨by decide, getValidSteps_valid "p4" (by decide)⟩

/-- C7. Exact enumeration of fitting translations: on each of the four boards and for
every shape, `GetValidSteps` reads no table outside its range and returns; what it appends
is, slice after slice and translation after translation, one step for every translation
at which each point of the shape is inside the slice on a cell that is not `0`, and
nothing else; the number it returns is the number of steps appended. -/
theorem getValidSteps_exact (type : String) (ht : type ∈ boardTypes) :
    ∃ pattern, selectPattern type = some pattern ∧
      ∀ (piece : Piece) (steps : List Step),
        pattern.GetValidSteps piece steps =
          some (steps ++ pattern.slices.flatMap (fun sl =>
            (List.range sl.h).flatMap fun y => (List.range sl.w).flatMap fun x =>
              if fits sl.table sl.w sl.h piece.points x y then [stepAt sl piece x y] else []),
            (pattern.slices.flatMap (fun sl =>
            (List.range sl.h).flatMap fun y => (List.range sl.w).flatMap fun x =>
              if fits sl.table sl.w sl.h piece.points x y then [stepAt sl piece x y]
              else [])).length) := by
  obtain ⟨pattern, hp, hg⟩ := good_boards type ht
  exact ⟨pattern, hp, fun piece steps => getValidSteps_eq pattern hg piece steps⟩

theorem getValidSteps_exact_witness :
    "p5" ∈ boardTypes ∧ ∃ pattern, selectPattern "p5" = some pattern ∧
      ∀ (piece : Piece) (steps : List Step),
        pattern.GetValidSteps piece steps =
          some (steps ++ pattern.slices.flatMap (fun sl =>
            (List.range sl.h).flatMap fun y => (List.range sl.w).flatMap fun x =>
              if fits sl.table sl.w sl.h piece.points x y then [stepAt sl piece x y] else []),
            (pattern.slices.flatMap (fun sl =>
            (List.range sl.h).flatMap fun y => (List.range sl.w).flatMap fun x =>
              if fits sl.table sl.w sl.h piece.points x y then [stepAt sl piece x y]
              else [])).length) :=
  ⟨by decide, getValidSteps_exact "p5" (by decide)⟩

/-- C10. Full set of distinct orientations: for each of the 12 pieces the generation loop
of `main` produces exactly `rotates[piece]` shapes, no two of them the same set of points,
and each of the 8 images of the base shape under the rotations and reflections of the
square, normalised, is one of them; 60 shapes are produced in all. -/
theorem orientations_complete :
    (∀ block_index ∈ List.range PIECES,
      (orientations block_index).length = rotates.getD block_index 0 ∧
      (orientations block_index).Pairwise (fun p q => ¬ SameShape p.points q.points) ∧
      ∀ g ∈ symmetries, ∃ p ∈ orientations block_index,
        SameShape p.points (normalise ((baseShape block_index).map g))) ∧
    pieces.length = 60 := by decide

end IQPyramidSolver


namespace IQPyramidSolver
namespace DancingLinkX

theorem forRing_mono {σ : Type} (next : σ → Nat → Nat) (stop : Nat)
    (body body2 : Nat → σ → Option σ) (hb : ∀ i s r, body i s = some r → body2 i s = some r) :
    ∀ (fuel fuel2 i : Nat) (s r : σ), fuel ≤ fuel2 →
      forRing next stop body fuel i s = some r → forRing next stop body2 fuel2 i s = some r := by
  intro fuel
  induction fuel with
  | zero => intro fuel2 i s r _ h; simp [forRing] at h
  | succ fuel ih =>
    intro fuel2 i s r hle h
    obtain ⟨f2, rfl⟩ : ∃ f2, fuel2 = f2 + 1 := ⟨fuel2 - 1, by omega⟩
    unfold forRing at h ⊢
    by_cases hi : i = stop
    · rw [if_pos hi] at h ⊢
      exact h
    · rw [if_neg hi] at h ⊢
      cases hbody : body i s with
      | none => rw [hbody] at h; simp at h
      | some s1 =>
        rw [hbody] at h
        rw [hb i s s1 hbody]
        simp only [Option.some_bind] at h ⊢
        exact ih f2 _ s1 r (by omega) h

theorem delete_mono (fuel fuel2 c : Nat) (s r : DancingLinkX) (hle : fuel ≤ fuel2)
    (h : Delete fuel c s = some r) : Delete fuel2 c s = some r := by
  unfold Delete at h ⊢
  exact forRing_mono _ _ _ _ (fun i t u hu => forRing_mono _ _ _ _ (fun _ _ _ e => e)
    fuel fuel2 _ _ _ hle hu) fuel fuel2 _ _ _ hle h

theorem recover_mono (fuel fuel2 c : Nat) (s r : DancingLinkX) (hle : fuel ≤ fuel2)
    (h : Recover fuel c s = some r) : Recover fuel2 c s = some r := by
  unfold Recover at h ⊢
  rw [Option.map_eq_some'] at h ⊢
  obtain ⟨t, ht, rfl⟩ := h
  exact ⟨t, forRing_mono _ _ _ _ (fun i t u hu => forRing_mono _ _ _ _ (fun _ _ _ e => e)
    fuel fuel2 _ _ _ hle hu) fuel fuel2 _ _ _ hle ht, rfl⟩

theorem headD_mem_cons (l : List Nat) (a : Nat) : l.headD a ∈ a :: l := by
  cases l <;> simp

theorem header_ring_closed (nc : Nat) (links : List (Nat × Nat)) (L : List Nat)
    (s : DancingLinkX) (hinv : Inv nc links L s) :
    ∀ k, Nat.iterate s.Right k 0 ∈ 0 :: L := by
  intro k
  induction k with
  | zero => simp
  | succ k ih =>
    rw [Function.iterate_succ_apply']
    rcases List.mem_cons.1 ih with h | h
    · rw [h, ring_next_start _ _ _ _ hinv.header_ring]
      exact headD_mem_cons L 0
    · obtain ⟨l1, l2, hsplit⟩ := List.append_of_mem h
      have hr := hinv.header_ring
      rw [hsplit] at hr
      rw [ring_next _ _ _ _ _ _ hr, hsplit]
      have := headD_mem_cons l2 0
      rcases List.mem_cons.1 this with e | e
      · rw [e]; simp
      · exact List.mem_cons_of_mem _ (List.mem_append_right _ (List.mem_cons_of_mem _ e))

theorem mem_of_inHeaderRing (nc : Nat) (links : List (Nat × Nat)) (L : List Nat)
    (s : DancingLinkX) (hinv : Inv nc links L s) (c : Nat) (hc : InHeaderRing s c) : c ∈ L := by
  obtain ⟨h0, k, hk⟩ := hc
  have := header_ring_closed nc links L s hinv k
  rw [hk] at this
  rcases List.mem_cons.1 this with h | h
  · exact absurd h h0
  · exact h

theorem hist_inv (nc : Nat) (links : List (Nat × Nat)) (hnd : links.Nodup) (s0 : DancingLinkX)
    (L0 : List Nat) (h0 : Inv nc links L0 s0) (stack : List Nat) (s : DancingLinkX)
    (h : Hist nc links s0 stack s) : ∃ L, Inv nc links L s := by
  cases stack with
  | nil =>
    obtain ⟨a, A, rfl⟩ := h
    exact ⟨L0, inv_withAnswers nc links L0 s0 a A h0⟩
  | cons c stack =>
    obtain ⟨sp, L, a, A, -, hinv, ⟨hc, rfl⟩ | ⟨-, -, rfl⟩⟩ := h
    · exact ⟨_, inv_withAnswers nc links _ _ a A (inv_deleteState nc links L sp hinv hnd c hc)⟩
    · exact ⟨L, inv_withAnswers nc links L sp a A hinv⟩

theorem hist_withAnswers (nc : Nat) (links : List (Nat × Nat)) (s0 : DancingLinkX)
    (stack : List Nat) (s : DancingLinkX) (a : List Nat) (A : List (List Nat))
    (h : Hist nc links s0 stack s) : Hist nc links s0 stack (withAnswers a A s) := by
  cases stack with
  | nil =>
    obtain ⟨b, B, rfl⟩ := h
    exact ⟨a, A, rfl⟩
  | cons c stack =>
    obtain ⟨sp, L, b, B, hh, hinv, ⟨hc, rfl⟩ | ⟨h1, h2, rfl⟩⟩ := h
    · exact ⟨sp, L, a, A, hh, hinv, Or.inl ⟨hc, rfl⟩⟩
    · exact ⟨sp, L, a, A, hh, hinv, Or.inr ⟨h1, h2, rfl⟩⟩

theorem reach_hist (nc : Nat) (links : List (Nat × Nat)) (hw : WellLinked nc links)
    (s0 : DancingLinkX) (L0 : List Nat) (h0 : Inv nc links L0 s0) (stack : List Nat)
    (s : DancingLinkX) (h : Reach s0 stack s) : Hist nc links s0 stack s := by
  induction h with
  | init => exact ⟨s0.Answer, s0.Answers, rfl⟩
  | @delete stack s t fuel c _ hc hd ih =>
    obtain ⟨L, hinv⟩ := hist_inv nc links hw.2 s0 L0 h0 stack s ih
    have hcL := mem_of_inHeaderRing nc links L s hinv c hc
    have h1 := delete_mono fuel (max fuel (links.length + 1)) c s t (le_max_left _ _) hd
    have h2 := delete_eq nc links L s hinv hw.2 c hcL (max fuel (links.length + 1))
      (by have := le_max_right fuel (links.length + 1); omega)
    rw [h1] at h2
    refine ⟨s, L, t.Answer, t.Answers, ih, hinv, Or.inl ⟨hcL, ?_⟩⟩
    rw [← Option.some.inj h2]
    rfl
  | @deleteRoot stack s t fuel _ h0r hd ih =>
    obtain ⟨L, hinv⟩ := hist_inv nc links hw.2 s0 L0 h0 stack s ih
    have hL : L = [] := by
      have := ring_next_start _ _ _ _ hinv.header_ring
      rw [h0r] at this
      cases L with
      | nil => rfl
      | cons x l =>
        have := (hinv.range x (List.mem_cons_self _ _)).1
        simp at *
        omega
    subst hL
    have h1 := delete_mono fuel (max fuel 1) 0 s t (le_max_left _ _) hd
    have h2 := (delete_zero nc links s hinv (max fuel 1)
      (by have := le_max_right fuel 1; omega)).1
    rw [h1] at h2
    refine ⟨s, [], t.Answer, t.Answers, ih, hinv, Or.inr ⟨rfl, rfl, ?_⟩⟩
    rw [Option.some.inj h2]
    rfl
  | @recover stack s t fuel c _ hrec ih =>
    obtain ⟨sp, L, a, A, hh, hinv, ⟨hc, rfl⟩ | ⟨h1, h2, rfl⟩⟩ := ih
    · rw [← deleteState_withAnswers] at hrec
      have h1 := recover_mono fuel (max fuel (links.length + 1)) c _ t (le_max_left _ _) hrec
      have h2 := recover_eq nc links L _ (inv_withAnswers nc links L sp a A hinv) hw.2 c hc
        (max fuel (links.length + 1)) (by have := le_max_right fuel (links.length + 1); omega)
      rw [h1] at h2
      rw [Option.some.inj h2]
      exact hist_withAnswers nc links s0 stack sp a A hh
    · subst h1
      subst h2
      have h1 := recover_mono fuel (max fuel 1) 0 _ t (le_max_left _ _) hrec
      have h2 := (delete_zero nc links _ (inv_withAnswers nc links [] sp a A hinv) (max fuel 1)
        (by have := le_max_right fuel 1; omega)).2.1
      rw [h1] at h2
      rw [Option.some.inj h2]
      exact hist_withAnswers nc links s0 stack sp a A hh
  | @answers stack s a A _ ih => exact hist_withAnswers nc links s0 stack s a A ih

/-- C5. Cover/uncover reversibility: in every state the search reaches from a matrix built
from a list of placements, for every column `c` of the header ring, `Delete(c)` returns,
`Recover(c)` right after it returns, and `Left`, `Right`, `Up`, `Down` and `Count` are
what they were before. -/
theorem delete_recover_restores (size : Nat) (steps : List (List Nat × Nat))
    (isComplete : Bool) (hwf : WellFormed size steps) (stack : List Nat) (s : DancingLinkX)
    (hr : Reach (build size steps isComplete) stack s) (c : Nat) (hc : InHeaderRing s c)
    (fuel : Nat) (hfuel : nodeCount size steps < fuel) :
    ∃ t u, Delete fuel c s = some t ∧ Recover fuel c t = some u ∧
      u.Left = s.Left ∧ u.Right = s.Right ∧ u.Up = s.Up ∧ u.Down = s.Down ∧
      u.Count = s.Count := by
  have hw := wellLinked_linksFrom size steps 0 hwf
  have hinv0 := inv_build size steps isComplete hw
  have hh := reach_hist _ _ hw _ _ hinv0 stack s hr
  obtain ⟨L, hinv⟩ := hist_inv _ _ hw.2 _ _ hinv0 stack s hh
  have hcL := mem_of_inHeaderRing _ _ L s hinv c hc
  have hn := nodeCount_eq size steps
  exact ⟨_, s, delete_eq _ _ L s hinv hw.2 c hcL fuel (by omega),
    recover_eq _ _ L s hinv hw.2 c hcL fuel (by omega), rfl, rfl, rfl, rfl, rfl⟩

end DancingLinkX
end IQPyramidSolver


namespace IQPyramidSolver
namespace DancingLinkX

/-- Every exact cover with at least `level` rows is found by the search that spreads
`level` levels deep and runs `Dance` after each prefix. -/
theorem pipeline_complete (links : List (Nat × Nat)) (maxc : Int) (n : Nat) (level : Nat) :
    ∀ (L : List Nat), L.Sorted (fun a b => a < b) → (∀ c ∈ L, 1 ≤ c) → L.length < n →
    ∀ (S : List Nat), (covered links S).Nodup → (∀ r ∈ S, rowLive links L r = true) →
    (∀ r ∈ S, ∃ c ∈ colsOf links r, (c : Int) ≤ maxc) →
    (∀ c ∈ L, (c : Int) ≤ maxc → c ∈ covered links S) → level ≤ S.length →
    ∃ ans ∈ (spreadList links maxc level L).flatMap (fun p =>
        (searchList links maxc n (liveAfter links L p)).map (fun sol => p ++ sol)),
      ans.Perm S := by
  induction level with
  | zero =>
    intro L hs hpos hLn S hSnd hSlive hSmand hScov _
    obtain ⟨sol, hsol, hp⟩ := searchList_complete links maxc n L hs hpos hLn S hSnd hSlive
      hSmand hScov
    refine ⟨sol, ?_, hp⟩
    simp only [spreadList, List.flatMap_cons, List.flatMap_nil, List.append_nil, List.mem_map]
    exact ⟨sol, hsol, rfl⟩
  | succ level ih =>
    intro L hs hpos hLn S hSnd hSlive hSmand hScov hlev
    have hterm : ¬ (L.headD 0 = 0 ∨ ((L.headD 0 : Nat) : Int) > maxc) := by
      intro hterm
      cases S with
      | nil => simp at hlev
      | cons r S =>
        obtain ⟨c, hc, hle⟩ := hSmand r (by simp)
        have hcL := (rowLive_iff links L r).1 (hSlive r (by simp)) c ((mem_colsOf links r c).1 hc)
        exact absurd hle ((terminal_iff L maxc hs hpos).1 hterm c hcL)
    obtain ⟨hcL, hcle⟩ := chosen_spec links maxc L hterm
    unfold spreadList
    generalize chosen links maxc L = c at hcL hcle ⊢
    obtain ⟨r, hrS, hcr⟩ := List.mem_flatMap.1 (hScov c hcL hcle)
    have hperm : S.Perm (r :: S.erase r) := List.perm_cons_erase hrS
    have hcovp : (covered links S).Perm (colsOf links r ++ covered links (S.erase r)) := by
      rw [← covered_cons]
      exact List.Perm.flatMap_right _ hperm
    have hnd2 := hcovp.nodup_iff.1 hSnd
    rw [List.nodup_append] at hnd2
    have hrr : r ∈ ringRows links L c :=
      (mem_ringRows links L c r).2 ⟨(mem_colsOf links r c).1 hcr, hSlive r hrS⟩
    have hlen : (L.filter (fun d => decide (d ∉ colsOf links r))).length < n :=
      lt_of_le_of_lt (List.length_filter_le _ _) hLn
    have hlev2 : level ≤ (S.erase r).length := by
      rw [List.length_erase_of_mem hrS]
      omega
    obtain ⟨ans, hans, hsp⟩ := ih (L.filter (fun d => decide (d ∉ colsOf links r)))
      (List.Pairwise.sublist (List.filter_sublist _) hs)
      (fun d hd => hpos d (List.mem_of_mem_filter hd)) hlen (S.erase r) hnd2.2.1
      (by
        intro r1 hr1
        rw [rowLive_iff]
        intro d hd
        have hdL := (rowLive_iff links L r1).1 (hSlive r1 (List.mem_of_mem_erase hr1)) d hd
        refine List.mem_filter.2 ⟨hdL, ?_⟩
        simp only [decide_not, Bool.not_eq_true', decide_eq_false_iff_not]
        intro hdr
        exact hnd2.2.2 hdr (List.mem_flatMap.2 ⟨r1, hr1, (mem_colsOf links r1 d).2 hd⟩))
      (fun r1 hr1 => hSmand r1 (List.mem_of_mem_erase hr1))
      (by
        intro d hd hle
        have hd1 := List.mem_filter.1 hd
        have := hcovp.subset (hScov d hd1.1 hle)
        rcases List.mem_append.1 this with h | h
        · have h2 := hd1.2
          simp only [decide_not, Bool.not_eq_true', decide_eq_false_iff_not] at h2
          exact absurd h h2
        · exact h) hlev2
    refine ⟨r :: ans, ?_, (List.Perm.cons r hsp).trans hperm.symm⟩
    simp only [List.mem_flatMap, List.mem_map] at hans ⊢
    obtain ⟨p, hp, sol, hsol, rfl⟩ := hans
    exact ⟨r :: p, ⟨r, hrr, p, hp, rfl⟩, sol, hsol, rfl⟩

theorem length_filter_removed (L C : List Nat) (hL : L.Nodup) (hC : C.Nodup)
    (hsub : ∀ c ∈ C, c ∈ L) (M : Nat → Bool) :
    ((L.filter (fun d => decide (d ∉ C))).filter M).length + (C.filter M).length =
      (L.filter M).length := by
  have h1 : ((L.filter M).filter (fun d => decide (d ∈ C))).Perm (C.filter M) := by
    refine (List.perm_ext_iff_of_nodup ((hL.filter _).filter _) (hC.filter _)).2 (fun x => ?_)
    simp only [List.mem_filter, decide_eq_true_eq]
    constructor
    · rintro ⟨⟨_, b⟩, c⟩; exact ⟨c, b⟩
    · rintro ⟨a, b⟩; exact ⟨⟨hsub x a, b⟩, a⟩
  have h2 : (L.filter (fun d => decide (d ∉ C))).filter M =
      (L.filter M).filter (fun d => !decide (d ∈ C)) := by
    rw [List.filter_filter, List.filter_filter]
    congr 1
    funext d
    simp [Bool.and_comm]
  rw [h2, ← h1.length_eq]
  have := List.length_eq_length_filter_add (l := L.filter M) (fun d => decide (d ∈ C))
  omega

/-- When every row meets at least `m` columns up to `maxc`, `Spread` records no prefix of
`level` rows once `m * level` is more than the number of live columns up to `maxc`. -/
theorem spreadList_deep (links : List (Nat × Nat)) (hnd : links.Nodup) (maxc : Int) (m : Nat)
    (hrows : ∀ r c, (r, c) ∈ links →
      m ≤ ((colsOf links r).filter (fun (d : Nat) => decide ((d : Int) ≤ maxc))).length) :
    ∀ (level : Nat) (L : List Nat), L.Nodup →
      (L.filter (fun (d : Nat) => decide ((d : Int) ≤ maxc))).length < m * level →
      spreadList links maxc level L = [] := by
  intro level
  induction level with
  | zero => intro L _ h; simp at h
  | succ level ih =>
    intro L hL h
    unfold spreadList
    rw [List.flatMap_eq_nil_iff]
    intro r hr
    rw [mem_ringRows] at hr
    have hsub := (rowLive_iff links L r).1 hr.2
    have hcount := length_filter_removed L (colsOf links r) hL (nodup_colsOf links hnd r)
      (fun c hc => hsub c ((mem_colsOf links r c).1 hc)) (fun (d : Nat) => decide ((d : Int) ≤ maxc))
    have hm := hrows r _ hr.1
    rw [ih _ (hL.filter _) (by
      have : m * (level + 1) = m * level + m := by ring
      omega)]
    rfl

end DancingLinkX
end IQPyramidSolver


namespace IQPyramidSolver

theorem exists_isSorted {α : Type} (lt : α → α → Prop) :
    ∀ l : List α, (∀ x ∈ l, ∀ y ∈ l, lt x y → ¬ lt y x) →
      (∀ x ∈ l, ∀ y ∈ l, ∀ z ∈ l, lt x y → lt y z → lt x z) → ∃ out, IsSorted lt l out := by
  classical
  intro l
  induction l with
  | nil => intro _ _; exact ⟨[], List.Perm.refl _, List.Pairwise.nil⟩
  | cons a t ih =>
    intro hasym htrans
    obtain ⟨out, hperm, hpw⟩ := ih
      (fun x hx y hy => hasym x (List.mem_cons_of_mem _ hx) y (List.mem_cons_of_mem _ hy))
      (fun x hx y hy z hz => htrans x (List.mem_cons_of_mem _ hx) y (List.mem_cons_of_mem _ hy) z
        (List.mem_cons_of_mem _ hz))
    have hmem : ∀ x ∈ out, x ∈ a :: t := fun x hx => List.mem_cons_of_mem _ (hperm.subset hx)
    refine ⟨out.filter (fun u => decide (lt u a)) ++ a :: out.filter (fun u => !decide (lt u a)),
      ?_, ?_⟩
    · refine List.Perm.trans ?_ (List.Perm.cons a hperm)
      refine List.perm_middle.trans (List.Perm.cons a ?_)
      exact List.filter_append_perm _ out
    · rw [List.pairwise_append]
      refine ⟨hpw.sublist (List.filter_sublist _), ?_, ?_⟩
      · rw [List.pairwise_cons]
        refine ⟨fun v hv => ?_, hpw.sublist (List.filter_sublist _)⟩
        have := (List.mem_filter.1 hv).2
        simpa using this
      · intro u hu v hv
        have hu2 := List.mem_filter.1 hu
        have hua : lt u a := by simpa using hu2.2
        rcases List.mem_cons.1 hv with rfl | hv
        · exact hasym u (hmem u hu2.1) v (List.mem_cons_self _ _) hua
        · have hv2 := List.mem_filter.1 hv
          have hva : ¬ lt v a := by simpa using hv2.2
          exact fun hvu => hva (htrans v (hmem v hv2.1) u (hmem u hu2.1) a
            (List.mem_cons_self _ _) hvu hua)

theorem isSorted_unique {α : Type} (lt : α → α → Prop) :
    ∀ (l1 l2 : List α), l1.Perm l2 → (∀ x ∈ l1, ∀ y ∈ l1, ¬ lt x y → ¬ lt y x → x = y) →
      l1.Pairwise (fun x y => ¬ lt y x) → l2.Pairwise (fun x y => ¬ lt y x) → l1 = l2 := by
  intro l1
  induction l1 with
  | nil => intro l2 hp _ _ _; exact hp.nil_eq
  | cons a t ih =>
    intro l2 hp htri h1 h2
    rw [List.pairwise_cons] at h1
    have ha : a ∈ l2 := hp.subset (List.mem_cons_self _ _)
    obtain ⟨u, v, rfl⟩ := List.append_of_mem ha
    have hp2 : t.Perm (u ++ v) := (List.perm_cons a).1 (hp.trans List.perm_middle)
    have hu : ∀ x ∈ u, x = a := by
      intro x hx
      have hxt : x ∈ a :: t := hp.symm.subset (List.mem_append_left _ hx)
      have e1 : ¬ lt a x := (List.pairwise_append.1 h2).2.2 x hx a (List.mem_cons_self _ _)
      have e2 : ¬ lt x a := by
        rcases List.mem_cons.1 hxt with rfl | hxt2
        · exact e1
        · exact h1.1 x hxt2
      exact htri x hxt a (List.mem_cons_self _ _) e2 e1
    have hsub : (u ++ v).Pairwise (fun x y => ¬ lt y x) := by
      refine h2.sublist ?_
      exact List.Sublist.append (List.Sublist.refl u) (List.sublist_cons_self a v)
    have := ih (u ++ v) hp2
      (fun x hx y hy => htri x (List.mem_cons_of_mem _ hx) y (List.mem_cons_of_mem _ hy)) h1.2 hsub
    rw [this]
    clear this ih hp hp2 h2 hsub ha
    induction u with
    | nil => rfl
    | cons b u ihu =>
      have hb := hu b (List.mem_cons_self _ _)
      subst hb
      rw [List.cons_append, List.cons_append, ihu (fun x hx => hu x (List.mem_cons_of_mem _ hx))]

theorem forall₂_map_of_functional {α β : Type} (R : α → β → Prop) (g : α → β) :
    ∀ (l : List α) (m : List β), List.Forall₂ R l m → (∀ x ∈ l, ∀ y, R x y → y = g x) →
      m = l.map g := by
  intro l m h
  induction h with
  | nil => intro _; rfl
  | cons hxy _ ih =>
    intro hg
    rw [List.map_cons, ← hg _ (List.mem_cons_self _ _) _ hxy,
      ih (fun x hx => hg x (List.mem_cons_of_mem _ hx))]

theorem forall₂_map_intro {α β : Type} (R : α → β → Prop) (g : α → β) :
    ∀ (l : List α), (∀ x ∈ l, R x (g x)) → List.Forall₂ R l (l.map g) := by
  intro l
  induction l with
  | nil => intro _; exact List.Forall₂.nil
  | cons a t ih =>
    intro h
    exact List.Forall₂.cons (h a (List.mem_cons_self _ _))
      (ih (fun x hx => h x (List.mem_cons_of_mem _ hx)))

end IQPyramidSolver


namespace IQPyramidSolver

open DancingLinkX

theorem rawSolution_cons (steps : List Step) (r : Nat) (t : List Nat) :
    rawSolution steps (r :: t) =
      (if r = 0 then none else steps[r - 1]?).bind fun a =>
        (rawSolution steps t).bind fun rest => some (a :: rest) := by
  unfold rawSolution
  rw [List.mapM_cons]
  rfl

theorem raw_of_rows (steps : List Step) :
    ∀ ans : List Nat, (∀ r ∈ ans, 1 ≤ r ∧ r ≤ steps.length) →
      ∃ raw, rawSolution steps ans = some raw ∧
        raw.map (fun st => st.block_index) =
          ans.filterMap (pieceOf (steps.map placementOf)) ∧
        (∀ st ∈ raw, st ∈ steps) ∧ raw.length = ans.length := by
  intro ans
  induction ans with
  | nil => intro _; exact ⟨[], rfl, rfl, by simp, rfl⟩
  | cons r t ih =>
    intro h
    obtain ⟨raw, h1, h2, h3, h4⟩ := ih (fun x hx => h x (List.mem_cons_of_mem _ hx))
    obtain ⟨hr1, hr2⟩ := h r (List.mem_cons_self _ _)
    obtain ⟨k, rfl⟩ : ∃ k, r = k + 1 := ⟨r - 1, by omega⟩
    have hk : k < steps.length := by omega
    refine ⟨steps[k] :: raw, ?_, ?_, ?_, ?_⟩
    · rw [rawSolution_cons, if_neg (by omega), h1]
      simp [List.getElem?_eq_getElem hk]
    · have : pieceOf (steps.map placementOf) (k + 1) = some steps[k].block_index := by
        simp [pieceOf, List.getElem?_eq_getElem hk, placementOf]
      rw [List.filterMap_cons_some this, List.map_cons, h2]
    · intro st hst
      rcases List.mem_cons.1 hst with rfl | hst
      · exact List.getElem_mem hk
      · exact h3 st hst
    · simp [h4]

theorem canonical_blocks (raw a : List Step)
    (hraw : (raw.map fun st => st.block_index).Perm (List.range PIECES))
    (hs : IsSorted lessBlock raw a) :
    a.map (fun st => st.block_index) = List.range PIECES := by
  obtain ⟨hp, hpw⟩ := hs
  have hperm : (a.map fun st => st.block_index).Perm (List.range PIECES) :=
    (hp.map _).trans hraw
  have hnd : (a.map fun st => st.block_index).Nodup := hperm.nodup_iff.2 (List.nodup_range _)
  have hsorted : (a.map fun st => st.block_index).Sorted (fun x y => x < y) := by
    rw [List.Sorted, List.pairwise_map]
    have hne := List.pairwise_map.1 hnd
    refine (hpw.and hne).imp ?_
    intro x y hxy
    have h1 : ¬ y.block_index < x.block_index := hxy.1
    have h2 := hxy.2
    omega
  exact List.eq_of_perm_of_sorted hperm hsorted (List.sorted_lt_range PIECES)

theorem canonical_unique (raw a b : List Step)
    (hraw : (raw.map fun st => st.block_index).Nodup)
    (ha : IsSorted lessBlock raw a) (hb : IsSorted lessBlock raw b) : a = b := by
  refine isSorted_unique lessBlock a b (ha.1.trans hb.1.symm) ?_ ha.2 hb.2
  intro x hx y hy h1 h2
  refine List.inj_on_of_nodup_map hraw (ha.1.subset hx) (ha.1.subset hy) ?_
  unfold lessBlock at h1 h2
  omega

theorem exists_canonical (raw : List Step) : ∃ a, IsSorted lessBlock raw a :=
  exists_isSorted lessBlock raw (fun _ _ _ _ h => Nat.lt_asymm h)
    (fun _ _ _ _ _ _ h1 h2 => Nat.lt_trans h1 h2)

/-- A solution in the mode with the piece columns after the inner sort: twelve steps of
`steps`, the one at place `i` being of piece `i`. -/
theorem canonical_of_answer (steps : List Step) (ans : List Nat)
    (hrows : ∀ r ∈ ans, 1 ≤ r ∧ r ≤ steps.length)
    (hp : (ans.filterMap (pieceOf (steps.map placementOf))).Perm (List.range PIECES)) :
    (∃ a, Canonical steps ans a) ∧
      ∀ a, Canonical steps ans a →
        (a.map (fun st => st.block_index) = List.range PIECES ∧ (∀ st ∈ a, st ∈ steps)) ∧
        ∀ b, Canonical steps ans b → b = a := by
  obtain ⟨raw, h1, h2, h3, -⟩ := raw_of_rows steps ans hrows
  rw [← h2] at hp
  constructor
  · obtain ⟨a, ha⟩ := exists_canonical raw
    exact ⟨a, raw, h1, ha⟩
  · rintro a ⟨raw2, e2, ha⟩
    rw [h1] at e2
    obtain rfl := Option.some.inj e2
    refine ⟨⟨canonical_blocks raw a hp ha, fun st hst => h3 st (ha.1.subset hst)⟩, ?_⟩
    rintro b ⟨raw3, e3, hb⟩
    rw [h1] at e3
    obtain rfl := Option.some.inj e3
    exact canonical_unique raw b a (hp.nodup_iff.2 (List.nodup_range _)) hb ha

end IQPyramidSolver


namespace IQPyramidSolver

theorem lessFrom_self (a : List Step) :
    ∀ idx : List Nat, (∀ i ∈ idx, i < a.length) → lessFrom a a idx = some false := by
  intro idx
  induction idx with
  | nil => intro _; rfl
  | cons i rest ih =>
    intro h
    have hi := h i (List.mem_cons_self _ _)
    unfold lessFrom
    rw [List.getElem?_eq_getElem hi]
    simp only [ne_eq, not_true_eq_false, if_false]
    exact ih (fun j hj => h j (List.mem_cons_of_mem _ hj))

theorem lessFrom_total (a b : List Step) :
    ∀ idx : List Nat, (∀ i ∈ idx, i < a.length ∧ i < b.length) →
      ∃ v, lessFrom a b idx = some v := by
  intro idx
  induction idx with
  | nil => intro _; exact ⟨false, rfl⟩
  | cons i rest ih =>
    intro h
    obtain ⟨hi1, hi2⟩ := h i (List.mem_cons_self _ _)
    unfold lessFrom
    rw [List.getElem?_eq_getElem hi1, List.getElem?_eq_getElem hi2]
    simp only
    split_ifs
    · exact ⟨_, rfl⟩
    · exact ⟨_, rfl⟩
    · exact ⟨_, rfl⟩
    · exact ih (fun j hj => h j (List.mem_cons_of_mem _ hj))

theorem lessFrom_trans (a b e : List Step) :
    ∀ idx : List Nat, lessFrom a b idx = some true → lessFrom b e idx = some true →
      lessFrom a e idx = some true := by
  intro idx
  induction idx with
  | nil => intro h; simp [lessFrom] at h
  | cons i rest ih =>
    intro h1 h2
    unfold lessFrom at h1 h2 ⊢
    cases ha : a[i]? with
    | none => rw [ha] at h1; simp at h1
    | some x =>
      cases hb : b[i]? with
      | none => rw [ha, hb] at h1; simp at h1
      | some y =>
        cases hc : e[i]? with
        | none => rw [hb, hc] at h2; simp at h2
        | some z =>
          rw [ha, hb] at h1
          rw [hb, hc] at h2
          simp only at h1 h2 ⊢
          split_ifs at h1 h2 ⊢ <;>
            first
            | exact ih h1 h2
            | (simp only [Option.some.injEq, decide_eq_true_eq] at h1 h2 ⊢; omega)

theorem lessFrom_equal (a b : List Step) :
    ∀ idx : List Nat, lessFrom a b idx = some false → lessFrom b a idx = some false →
      ∀ i ∈ idx, ∃ x y, a[i]? = some x ∧ b[i]? = some y ∧ x.shape_index = y.shape_index ∧
        x.x = y.x ∧ x.y = y.y := by
  intro idx
  induction idx with
  | nil => intro _ _ i hi; simp at hi
  | cons i rest ih =>
    intro h1 h2 j hj
    unfold lessFrom at h1 h2
    cases ha : a[i]? with
    | none => rw [ha] at h1; simp at h1
    | some x =>
      cases hb : b[i]? with
      | none => rw [ha, hb] at h1; simp at h1
      | some y =>
        rw [ha, hb] at h1
        rw [hb, ha] at h2
        simp only at h1 h2
        by_cases e1 : x.shape_index = y.shape_index
        · by_cases e2 : x.x = y.x
          · by_cases e3 : x.y = y.y
            · rw [if_neg (by simpa using e1), if_neg (by simpa using e2),
                if_neg (by simpa using e3)] at h1
              rw [if_neg (by simpa using e1.symm), if_neg (by simpa using e2.symm),
                if_neg (by simpa using e3.symm)] at h2
              rcases List.mem_cons.1 hj with rfl | hj
              · exact ⟨x, y, ha, hb, e1, e2, e3⟩
              · exact ih h1 h2 j hj
            · exfalso
              rw [if_neg (by simpa using e1), if_neg (by simpa using e2),
                if_pos (by simpa using e3)] at h1
              rw [if_neg (by simpa using e1.symm), if_neg (by simpa using e2.symm),
                if_pos (by simpa using fun h => e3 h.symm)] at h2
              simp only [Option.some.injEq, decide_eq_false_iff_not] at h1 h2
              omega
          · exfalso
            rw [if_neg (by simpa using e1), if_pos (by simpa using e2)] at h1
            rw [if_neg (by simpa using e1.symm), if_pos (by simpa using fun h => e2 h.symm)] at h2
            simp only [Option.some.injEq, decide_eq_false_iff_not] at h1 h2
            omega
        · exfalso
          rw [if_pos (by simpa using e1)] at h1
          rw [if_pos (by simpa using fun h => e1 h.symm)] at h2
          simp only [Option.some.injEq, decide_eq_false_iff_not] at h1 h2
          omega

end IQPyramidSolver


namespace IQPyramidSolver

open DancingLinkX

set_option maxRecDepth 1000000
set_option maxHeartbeats 4000000

theorem key_boards : ∀ type ∈ boardTypes,
    ((selectPattern type).all fun p => decide p.KeyGood) = true := by decide

theorem pieces_key : ∀ p ∈ pieces, ∀ q ∈ pieces,
    p.block_index = q.block_index → p.shape_index = q.shape_index → p = q := by decide

theorem mem_of_getElem?_step {l : List Step} {k : Nat} {v : Step} (h : l[k]? = some v) :
    v ∈ l := by
  obtain ⟨hk, rfl⟩ := List.getElem?_eq_some_iff.1 h
  exact List.getElem_mem hk

theorem not_fits_of_empty {sl : Slice} {piece : Piece} (h : placementsOn sl piece = [])
    {x y : Nat} (hx : x < sl.w) (hy : y < sl.h) :
    ¬ fits sl.table sl.w sl.h piece.points x y = true := by
  intro hf
  have : stepAt sl piece x y ∈ placementsOn sl piece :=
    mem_placementsOn.2 ⟨y, hy, x, hx, hf, rfl⟩
  rw [h] at this
  simp at this

/-- On a board whose orientation ids are good, a step is known from its piece, its
orientation id and its place. -/
theorem step_key_inj (pattern : Pattern) (hk : pattern.KeyGood) (s1 s2 : Step)
    (h1 : s1 ∈ pieces.flatMap pattern.placements) (h2 : s2 ∈ pieces.flatMap pattern.placements)
    (eb : s1.block_index = s2.block_index) (es : s1.shape_index = s2.shape_index)
    (ex : s1.x = s2.x) (ey : s1.y = s2.y) : s1 = s2 := by
  obtain ⟨f1, f2, f3⟩ := hk
  simp only [List.mem_flatMap, Pattern.placements] at h1 h2
  obtain ⟨p1, hp1, sl1, hsl1, hs1⟩ := h1
  obtain ⟨p2, hp2, sl2, hsl2, hs2⟩ := h2
  obtain ⟨y1, hy1, x1, hx1, hf1, rfl⟩ := mem_placementsOn.1 hs1
  obtain ⟨y2, hy2, x2, hx2, hf2, rfl⟩ := mem_placementsOn.1 hs2
  simp only [stepAt] at eb es ex ey
  subst ex
  subst ey
  have hb1 := (pieces_block p1 hp1).2
  have hb2 := (pieces_block p2 hp2).2
  obtain ⟨g1, g2⟩ := f1 sl1 hsl1 p1.shape_index (List.mem_range.2 hb1)
  obtain ⟨g3, g4⟩ := f1 sl2 hsl2 p2.shape_index (List.mem_range.2 hb2)
  have hshape : p1.shape_index = p2.shape_index := by rw [← g1, ← g3, es]
  have hpiece : p1 = p2 := pieces_key p1 hp1 p2 hp2 eb hshape
  subst hpiece
  have htag : sl1.id 0 / 8 = sl2.id 0 / 8 := by rw [← g2, ← g4, es]
  rcases f2 sl1 hsl1 sl2 hsl2 htag with ⟨ht, hw⟩ | hw
  · simp only [stepAt, es, ht, hw]
  · exact absurd hf1 (not_fits_of_empty (f3 p1 hp1 sl1 hsl1 hw) hx1 hy1)

theorem full_length {steps a : List Step} (h : IsFull steps a) : a.length = PIECES := by
  have := congrArg List.length h.blocks
  simpa using this

theorem full_block {steps a : List Step} (h : IsFull steps a) {i : Nat} {x : Step}
    (hx : a[i]? = some x) : x.block_index = i := by
  have h1 : (a.map fun st => st.block_index)[i]? = some x.block_index := by
    rw [List.getElem?_map, hx]
    rfl
  rw [h.blocks] at h1
  obtain ⟨_, h2⟩ := List.getElem?_eq_some_iff.1 h1
  rw [← h2, List.getElem_range]

theorem before_irrefl {steps a : List Step} (h : IsFull steps a) : ¬ Before a a := by
  unfold Before lessSolution
  rw [lessFrom_self a _ (fun i hi => by rw [full_length h]; exact List.mem_range.1 hi)]
  simp

theorem before_trans {a b e : List Step} (h1 : Before a b) (h2 : Before b e) : Before a e :=
  lessFrom_trans a b e _ h1 h2

theorem before_total (pattern : Pattern) (hk : pattern.KeyGood) {a b : List Step}
    (ha : IsFull (pieces.flatMap pattern.placements) a)
    (hb : IsFull (pieces.flatMap pattern.placements) b)
    (h1 : ¬ Before a b) (h2 : ¬ Before b a) : a = b := by
  have hla := full_length ha
  have hlb := full_length hb
  obtain ⟨v1, e1⟩ := lessFrom_total a b (List.range PIECES) (fun i hi => by
    rw [hla, hlb]; exact ⟨List.mem_range.1 hi, List.mem_range.1 hi⟩)
  obtain ⟨v2, e2⟩ := lessFrom_total b a (List.range PIECES) (fun i hi => by
    rw [hla, hlb]; exact ⟨List.mem_range.1 hi, List.mem_range.1 hi⟩)
  have hv1 : v1 = false := by
    cases v1
    · rfl
    · exact absurd e1 h1
  have hv2 : v2 = false := by
    cases v2
    · rfl
    · exact absurd e2 h2
  subst hv1
  subst hv2
  have heq := lessFrom_equal a b _ e1 e2
  apply List.ext_getElem? 
  intro i
  by_cases hi : i < PIECES
  · obtain ⟨x, y, hx, hy, g1, g2, g3⟩ := heq i (List.mem_range.2 hi)
    rw [hx, hy]
    congr 1
    exact step_key_inj pattern hk x y (ha.mem x (mem_of_getElem?_step hx))
      (hb.mem y (mem_of_getElem?_step hy))
      ((full_block ha hx).trans (full_block hb hy).symm) g1 g2 g3
  · rw [List.getElem?_eq_none (by omega), List.getElem?_eq_none (by omega)]

end IQPyramidSolver


namespace IQPyramidSolver

open DancingLinkX

theorem good_of_select (type : String) (ht : type ∈ boardTypes) (pattern : Pattern)
    (hp : selectPattern type = some pattern) : pattern.Good ∧ pattern.KeyGood := by
  obtain ⟨p, h1, h2⟩ := good_boards type ht
  rw [hp] at h1
  obtain rfl := Option.some.inj h1
  refine ⟨h2, ?_⟩
  have := key_boards type ht
  rw [hp] at this
  simpa using this

/-- What `main` gets in the mode with the piece columns: the steps, and for every depth
the results, each of them rows of the matrix with one row for every piece. -/
theorem main_results (pattern : Pattern) (hg : pattern.Good)
    (hm : pattern.size = piece_node_count) (level fuel : Nat)
    (hfuel : nodeCount pattern.size ((pieces.flatMap pattern.placements).map placementOf)
      + level < fuel) :
    ∃ results, solve fuel level (mainMatrix pattern (pieces.flatMap pattern.placements)) =
        some results ∧
      ∀ ans ∈ results, (∀ r ∈ ans, 1 ≤ r ∧ r ≤ (pieces.flatMap pattern.placements).length) ∧
        (ans.filterMap (pieceOf ((pieces.flatMap pattern.placements).map placementOf))).Perm
          (List.range PIECES) := by
  have hm2 : mainMatrix pattern (pieces.flatMap pattern.placements) =
      build pattern.size ((pieces.flatMap pattern.placements).map placementOf) true := by
    unfold mainMatrix
    rw [decide_eq_true hm]
  have hwf := wellFormed_main pattern hg
  obtain ⟨-, results, h1, h2⟩ := mandatory_answers pattern.size _ hwf level fuel hfuel
  obtain ⟨-, results2, h3, h4⟩ := partition_answers pattern.size _ true hwf level fuel hfuel
  rw [h1] at h3
  obtain rfl := Option.some.inj h3
  refine ⟨results, by rw [hm2]; exact h1, fun ans ha => ⟨?_, (h2 ans ha).2⟩⟩
  have := (h4 ans ha).1
  simpa using this

/-- The order the comparator gives on the sorted solutions of a board with good tables,
when every result has one row for each piece: it never reads outside a solution, it is
a strict total order, a sorted outcome exists and it is the same for every order of the
results. -/
theorem final_unique (pattern : Pattern) (hk : pattern.KeyGood) (results : List (List Nat))
    (hres : ∀ ans ∈ results,
      (∀ r ∈ ans, 1 ≤ r ∧ r ≤ (pieces.flatMap pattern.placements).length) ∧
      (ans.filterMap (pieceOf ((pieces.flatMap pattern.placements).map placementOf))).Perm
        (List.range PIECES)) :
    (∀ r1 ∈ results, ∀ r2 ∈ results, ∀ r3 ∈ results, ∀ a b e,
      Canonical (pieces.flatMap pattern.placements) r1 a →
      Canonical (pieces.flatMap pattern.placements) r2 b →
      Canonical (pieces.flatMap pattern.placements) r3 e →
        (∃ v, lessSolution a b = some v) ∧ ¬ Before a a ∧
        (Before a b → Before b e → Before a e) ∧ (a ≠ b → Before a b ∨ Before b a)) ∧
    (∃ out, Final (pieces.flatMap pattern.placements) results out) ∧
    ∀ results1 results2 out1 out2, results1.Perm results → results2.Perm results →
      Final (pieces.flatMap pattern.placements) results1 out1 →
      Final (pieces.flatMap pattern.placements) results2 out2 → out1 = out2 := by
  classical
  have hfull : ∀ r ∈ results, ∀ a, Canonical (pieces.flatMap pattern.placements) r a →
      IsFull (pieces.flatMap pattern.placements) a := fun r hr a ha =>
    let h := ((canonical_of_answer _ r (hres r hr).1 (hres r hr).2).2 a ha).1
    ⟨h.1, h.2⟩
  let g : List Nat → List Step := fun r =>
    if h : ∃ a, Canonical (pieces.flatMap pattern.placements) r a then Classical.choose h
    else []
  have hg1 : ∀ r ∈ results, Canonical (pieces.flatMap pattern.placements) r (g r) := by
    intro r hr
    have hex := (canonical_of_answer _ r (hres r hr).1 (hres r hr).2).1
    show Canonical _ r (if h : ∃ a, Canonical (pieces.flatMap pattern.placements) r a
      then Classical.choose h else [])
    rw [dif_pos hex]
    exact Classical.choose_spec hex
  have hg2 : ∀ r ∈ results, ∀ a, Canonical (pieces.flatMap pattern.placements) r a →
      a = g r := fun r hr a ha =>
    ((canonical_of_answer _ r (hres r hr).1 (hres r hr).2).2 (g r) (hg1 r hr)).2 a ha
  have hmapfull : ∀ l : List (List Nat), (∀ r ∈ l, r ∈ results) → ∀ a ∈ l.map g,
      IsFull (pieces.flatMap pattern.placements) a := by
    intro l hl a ha
    obtain ⟨r, hr, rfl⟩ := List.mem_map.1 ha
    exact hfull r (hl r hr) _ (hg1 r (hl r hr))
  have hasym : ∀ a b, IsFull (pieces.flatMap pattern.placements) a → Before a b →
      ¬ Before b a := fun a b ha h1 h2 => before_irrefl ha (before_trans h1 h2)
  refine ⟨?_, ?_, ?_⟩
  · intro r1 hr1 r2 hr2 r3 hr3 a b e ha hb he
    have fa := hfull r1 hr1 a ha
    have fb := hfull r2 hr2 b hb
    refine ⟨?_, before_irrefl fa, before_trans, fun hne => ?_⟩
    · exact lessFrom_total a b _ (fun i hi => by
        rw [full_length fa, full_length fb]
        exact ⟨List.mem_range.1 hi, List.mem_range.1 hi⟩)
    · by_contra hcon
      rw [not_or] at hcon
      exact hne (before_total pattern hk fa fb hcon.1 hcon.2)
  · obtain ⟨out, hout⟩ := exists_isSorted Before (results.map g)
      (fun x hx y _ h => hasym x y (hmapfull results (fun _ h => h) x hx) h)
      (fun x _ y _ z _ h1 h2 => before_trans h1 h2)
    exact ⟨out, results.map g, forall₂_map_intro _ g results hg1, hout⟩
  · rintro results1 results2 out1 out2 hp1 hp2 ⟨sols1, hf1, hs1⟩ ⟨sols2, hf2, hs2⟩
    have e1 := forall₂_map_of_functional _ g results1 sols1 hf1
      (fun x hx y hy => hg2 x (hp1.subset hx) y hy)
    have e2 := forall₂_map_of_functional _ g results2 sols2 hf2
      (fun x hx y hy => hg2 x (hp2.subset hx) y hy)
    subst e1
    subst e2
    have hperm : out1.Perm out2 :=
      hs1.1.trans (((hp1.trans hp2.symm).map g).trans hs2.1.symm)
    refine isSorted_unique Before out1 out2 hperm ?_ hs1.2 hs2.2
    intro x hx y hy h1 h2
    exact before_total pattern hk
      (hmapfull results1 (fun _ h => hp1.subset h) x (hs1.1.subset hx))
      (hmapfull results1 (fun _ h => hp1.subset h) y (hs1.1.subset hy)) h1 h2

/-- C8. Canonical ordering is deterministic: on a board solved in the mode with the
piece columns, for every depth, the comparator across the solutions reads only steps
that exist and is a strict total order on the solutions sorted by `block_index`
(irreflexive, transitive, and of two different solutions one comes before the other);
the two sorts of `main` have an outcome, and it is the same list for any two orders of
the collected results. -/
theorem sort_deterministic (type : String) (ht : type ∈ boardTypes) (pattern : Pattern)
    (hp : selectPattern type = some pattern) (hm : pattern.size = piece_node_count) :
    ∃ steps, mainSteps pattern = some steps ∧
      ∀ level fuel : Nat, nodeCount pattern.size (steps.map placementOf) + level < fuel →
        ∃ results, solve fuel level (mainMatrix pattern steps) = some results ∧
          (∀ r1 ∈ results, ∀ r2 ∈ results, ∀ r3 ∈ results, ∀ a b e,
            Canonical steps r1 a → Canonical steps r2 b → Canonical steps r3 e →
              (∃ v, lessSolution a b = some v) ∧ ¬ Before a a ∧
              (Before a b → Before b e → Before a e) ∧ (a ≠ b → Before a b ∨ Before b a)) ∧
          (∃ out, Final steps results out) ∧
          ∀ results1 results2 out1 out2, results1.Perm results → results2.Perm results →
            Final steps results1 out1 → Final steps results2 out2 → out1 = out2 := by
  obtain ⟨hg, hk⟩ := good_of_select type ht pattern hp
  refine ⟨_, mainSteps_eq pattern hg, fun level fuel hfuel => ?_⟩
  obtain ⟨results, h1, h2⟩ := main_results pattern hg hm level fuel hfuel
  exact ⟨results, h1, final_unique pattern hk results h2⟩

end IQPyramidSolver


namespace IQPyramidSolver

open DancingLinkX

theorem raw_of_zip (steps : List Step) :
    ∀ (S : List Nat) (A : List Step), S.length = A.length →
      (∀ e ∈ S.zip A, e ∈ List.enumFrom 1 steps) →
      rawSolution steps S = some A ∧
      (∀ size, S.map (rowCols size (steps.map placementOf)) =
        A.map (fun st => st.indecies ++ [st.block_index + size + 1])) ∧
      ∀ r ∈ S, 1 ≤ r ∧ r ≤ steps.length := by
  intro S
  induction S with
  | nil =>
    intro A hl _
    cases A with
    | nil => exact ⟨rfl, fun _ => rfl, by simp⟩
    | cons a A => simp at hl
  | cons r S ih =>
    intro A hl h
    cases A with
    | nil => simp at hl
    | cons a A =>
      obtain ⟨h1, h2, h3⟩ := ih A (by simpa using hl)
        (fun e he => h e (by rw [List.zip_cons_cons]; exact List.mem_cons_of_mem _ he))
      have hra := h (r, a) (by rw [List.zip_cons_cons]; exact List.mem_cons_self _ _)
      rw [List.mk_mem_enumFrom_iff_le_and_getElem?_sub] at hra
      obtain ⟨hr1, hr2⟩ := hra
      obtain ⟨hk, hk2⟩ := List.getElem?_eq_some_iff.1 hr2
      obtain ⟨k, rfl⟩ : ∃ k, r = k + 1 := ⟨r - 1, by omega⟩
      simp only [Nat.add_sub_cancel] at hr2 hk hk2
      refine ⟨?_, ?_, ?_⟩
      · rw [rawSolution_cons, if_neg (by omega), h1]
        simp [hr2]
      · intro size
        rw [List.map_cons, List.map_cons, h2 size]
        congr 1
        simp [rowCols, cellsOf, pieceOf, hr2, placementOf]
      · intro x hx
        rcases List.mem_cons.1 hx with rfl | hx
        · exact ⟨by omega, by omega⟩
        · exact h3 x hx

theorem rawSolution_perm (steps : List Step) (S r : List Nat) (h : S.Perm r) :
    ∀ A, rawSolution steps S = some A → ∃ raw, rawSolution steps r = some raw ∧ raw.Perm A := by
  induction h with
  | nil => intro A hA; exact ⟨A, hA, List.Perm.refl _⟩
  | @cons x l1 l2 _ ih =>
    intro A hA
    rw [rawSolution_cons] at hA
    cases hx : (if x = 0 then none else steps[x - 1]?) with
    | none => rw [hx] at hA; simp at hA
    | some a =>
      rw [hx] at hA
      cases hl : rawSolution steps l1 with
      | none => rw [hl] at hA; simp at hA
      | some A1 =>
        rw [hl] at hA
        simp only [Option.some_bind, Option.some.injEq] at hA
        subst hA
        obtain ⟨raw, h1, h2⟩ := ih A1 hl
        refine ⟨a :: raw, ?_, List.Perm.cons a h2⟩
        rw [rawSolution_cons, hx, h1]
        rfl
  | @swap x y l =>
    intro A hA
    rw [rawSolution_cons, rawSolution_cons] at hA
    cases hy : (if y = 0 then none else steps[y - 1]?) with
    | none => rw [hy] at hA; simp at hA
    | some b =>
      cases hx : (if x = 0 then none else steps[x - 1]?) with
      | none => rw [hy, hx] at hA; simp at hA
      | some a =>
        cases hl : rawSolution steps l with
        | none => rw [hy, hx, hl] at hA; simp at hA
        | some A1 =>
          rw [hy, hx, hl] at hA
          simp only [Option.some_bind, Option.some.injEq] at hA
          subst hA
          refine ⟨a :: b :: A1, ?_, List.Perm.swap _ _ _⟩
          rw [rawSolution_cons, rawSolution_cons, hy, hx, hl]
          rfl
  | @trans l1 l2 l3 _ _ ih1 ih2 =>
    intro A hA
    obtain ⟨raw1, h1, h2⟩ := ih1 A hA
    obtain ⟨raw2, h3, h4⟩ := ih2 raw1 h1
    exact ⟨raw2, h3, h4.trans h2⟩

theorem pieces_size : ∀ piece ∈ pieces, 3 ≤ piece.size := by decide

theorem placedBy_sound (pattern : Pattern) (st : Step) (h : placedBy pattern st = true) :
    st ∈ pieces.flatMap pattern.placements := by
  unfold placedBy at h
  rw [List.any_eq_true] at h
  obtain ⟨piece, hp, h⟩ := h
  rw [List.any_eq_true] at h
  obtain ⟨sl, hsl, h⟩ := h
  simp only [Bool.and_eq_true, decide_eq_true_eq] at h
  obtain ⟨⟨-, -, hx, hy⟩, hf, he⟩ := h
  rw [List.mem_flatMap]
  refine ⟨piece, hp, ?_⟩
  unfold Pattern.placements
  rw [List.mem_flatMap]
  exact ⟨sl, hsl, mem_placementsOn.2 ⟨st.y, hy, st.x, hx, hf, he.symm⟩⟩

theorem rows_of_steps (steps : List Step) :
    ∀ A : List Step, (∀ st ∈ A, st ∈ steps) → A.Nodup →
      ∃ S : List Nat, S.length = A.length ∧
        (∀ e ∈ S.zip A, e ∈ List.enumFrom 1 steps) ∧ S.Nodup ∧
        ∀ r ∈ S, ∃ a ∈ A, steps[r - 1]? = some a := by
  intro A
  induction A with
  | nil => intro _ _; exact ⟨[], rfl, by simp, List.nodup_nil, by simp⟩
  | cons a A ih =>
    intro h hnd
    rw [List.nodup_cons] at hnd
    obtain ⟨S, h1, h2, h3, h4⟩ := ih (fun st hst => h st (List.mem_cons_of_mem _ hst)) hnd.2
    obtain ⟨k, hk, hka⟩ := List.getElem_of_mem (h a (List.mem_cons_self _ _))
    have hk2 : steps[k]? = some a := by rw [List.getElem?_eq_getElem hk, hka]
    refine ⟨(k + 1) :: S, by simp [h1], ?_, ?_, ?_⟩
    · intro e he
      rw [List.zip_cons_cons] at he
      rcases List.mem_cons.1 he with rfl | he
      · rw [List.mk_mem_enumFrom_iff_le_and_getElem?_sub]
        exact ⟨by omega, by simpa using hk2⟩
      · exact h2 e he
    · rw [List.nodup_cons]
      refine ⟨fun hmem => ?_, h3⟩
      obtain ⟨b, hb, hkb⟩ := h4 (k + 1) hmem
      simp only [Nat.add_sub_cancel] at hkb
      rw [hk2] at hkb
      obtain rfl := Option.some.inj hkb
      exact hnd.1 hb
    · intro r hr
      rcases List.mem_cons.1 hr with rfl | hr
      · exact ⟨a, List.mem_cons_self _ _, by simpa using hk2⟩
      · obtain ⟨b, hb, hrb⟩ := h4 r hr
        exact ⟨b, List.mem_cons_of_mem _ hb, hrb⟩

set_option maxRecDepth 1000000 in
set_option maxHeartbeats 4000000 in
theorem p4_facts : ((selectPattern "p4").all fun p =>
    decide (p.size = 30 ∧ p.size ≠ piece_node_count ∧
      ∀ st ∈ solutionA ++ solutionB, placedBy p st = true)) = true := by decide

/-- The 4-level pyramid in the model: its size, its flag, and the two solutions among the
steps of `main`. -/
theorem p4_setup :
    ∃ pattern, selectPattern "p4" = some pattern ∧ pattern.Good ∧ pattern.size = 30 ∧
      mainSteps pattern = some (pieces.flatMap pattern.placements) ∧
      (∀ steps, mainMatrix pattern steps = build 30 (steps.map placementOf) false) ∧
      (∀ st ∈ solutionA, st ∈ pieces.flatMap pattern.placements) ∧
      ∀ st ∈ solutionB, st ∈ pieces.flatMap pattern.placements := by
  obtain ⟨pattern, hsel, hg⟩ := good_boards "p4" (by decide)
  have hms := mainSteps_eq pattern hg
  have h := p4_facts
  rw [hsel] at h
  simp only [Option.all_some, decide_eq_true_eq] at h
  obtain ⟨h1, h2, h3⟩ := h
  refine ⟨pattern, hsel, hg, h1, hms, fun steps => ?_, fun st hst => ?_, fun st hst => ?_⟩
  · unfold mainMatrix
    rw [decide_eq_false h2, h1]
  · exact placedBy_sound pattern st (h3 st (List.mem_append_left _ hst))
  · exact placedBy_sound pattern st (h3 st (List.mem_append_right _ hst))

end IQPyramidSolver


namespace IQPyramidSolver

open DancingLinkX

namespace DancingLinkX

/-- An exact cover with at least `level` rows is among the results of the search that
spreads `level` levels deep. -/
theorem pipeline_finds (size : Nat) (steps : List (List Nat × Nat)) (isComplete : Bool)
    (hwf : WellFormed size steps) (hne : isComplete = false → ∀ st ∈ steps, st.1 ≠ [])
    (S : List Nat) (hS : ExactCover size steps (build size steps isComplete).max_column S)
    (level fuel : Nat) (hlev : level ≤ S.length)
    (hfuel : nodeCount size steps + level < fuel) :
    ∃ results, solve fuel level (build size steps isComplete) = some results ∧
      ∃ ans ∈ results, ans.Perm S := by
  have hw := wellLinked_linksFrom size steps 0 hwf
  have hinv := inv_build size steps isComplete hw
  have hpos : ∀ c ∈ List.range' 1 (size + PIECES), 1 ≤ c := fun c hc => (hinv.range c hc).1
  refine ⟨_, solve_build size steps isComplete hwf level fuel hfuel, ?_⟩
  obtain ⟨s1, s2, s3, s4⟩ := hS
  refine pipeline_complete _ _ _ level _ hinv.sorted hpos (by rw [List.length_range']; omega) S
    (by rw [covered_build]; exact s3) (fun r _ => rowLive_all _ _ hw r) (fun r hr => ?_)
    (fun c hc hm => ?_) hlev
  · obtain ⟨st, hst, e1, -, e3⟩ := row_facts size steps r (s2 r hr)
    rw [colsOf_build, e3, (build_answers size steps isComplete).1]
    cases hi : isComplete
    · obtain ⟨x, hx⟩ := List.exists_mem_of_ne_nil _ (hne hi st hst)
      refine ⟨x, List.mem_append_left _ hx, ?_⟩
      have := ((hwf st hst).2.1 x hx).2
      simp only [Bool.false_eq_true, if_false]
      exact_mod_cast this
    · refine ⟨st.2 + size + 1, List.mem_append_right _ (List.mem_singleton_self _), ?_⟩
      have := (hwf st hst).2.2
      simp only [if_true]
      push_cast
      omega
  · rw [covered_build]
    exact s4 c (hpos c hc) hm

/-- Without the piece columns, when every placement has at least `m` cells and the board
has fewer than `m * level` cells, the search that spreads `level` levels deep returns no
result at all. -/
theorem solve_deep (size : Nat) (steps : List (List Nat × Nat))
    (hwf : WellFormed size steps) (m : Nat) (hm : ∀ st ∈ steps, m ≤ st.1.length)
    (level fuel : Nat) (hlev : size < m * level)
    (hfuel : nodeCount size steps + level < fuel) :
    solve fuel level (build size steps false) = some [] := by
  have hw := wellLinked_linksFrom size steps 0 hwf
  have hinv := inv_build size steps false hw
  rw [solve_build size steps false hwf level fuel hfuel]
  have hmax : (build size steps false).max_column = (size : Int) := by
    rw [(build_answers size steps false).1]; rfl
  rw [hmax]
  rw [spreadList_deep _ hw.2 (size : Int) m ?_ level _ hinv.sorted.nodup ?_]
  · rfl
  · intro r c hrc
    obtain ⟨st, hst, e1, -, e3⟩ := row_facts size steps r (row_of_link size steps r c hrc)
    rw [colsOf_build, e3, List.filter_append]
    have : st.1.filter (fun (d : Nat) => decide ((d : Int) ≤ (size : Int))) = st.1 := by
      rw [List.filter_eq_self]
      intro x hx
      have := ((hwf st hst).2.1 x hx).2
      simpa using this
    rw [this, List.length_append]
    have := hm st hst
    omega
  · have hsub : ((List.range' 1 (size + PIECES)).filter
        (fun (d : Nat) => decide ((d : Int) ≤ (size : Int)))).Subperm (List.range' 1 size) := by
      refine List.Nodup.subperm (hinv.sorted.nodup.filter _) (fun x hx => ?_)
      obtain ⟨h1, h2⟩ := List.mem_filter.1 hx
      have h3 := (hinv.range x h1).1
      have h4 : x ≤ size := by simpa using h2
      rw [List.mem_range']
      exact ⟨x - 1, by omega, by omega⟩
    have := hsub.length_le
    rw [List.length_range'] at this
    omega

end DancingLinkX

theorem cells_of_main (pattern : Pattern) (hg : pattern.Good) :
    ∀ st ∈ (pieces.flatMap pattern.placements).map placementOf, 3 ≤ st.1.length := by
  intro st hst
  rw [List.mem_map] at hst
  obtain ⟨step, hstep, rfl⟩ := hst
  rw [List.mem_flatMap] at hstep
  obtain ⟨piece, hp, hs⟩ := hstep
  obtain ⟨h1, -, -⟩ := placements_valid hg (pieces_nodup piece hp) hs
  show 3 ≤ step.indecies.length
  rw [h1]
  exact pieces_size piece hp

theorem flatMap_eq_of_map {α β : Type} (f : α → List β) (S : List α) (A : List (List β))
    (h : S.map f = A) : S.flatMap f = A.flatten := by
  rw [← h, List.flatMap_def]

/-- A list of rows whose steps are known is an exact cover of the 4-level pyramid when
the cells of the steps are the cells `1..30`, each once. -/
theorem exactCover_of_steps (steps : List Step) (S : List Nat) (A : List Step)
    (hl : S.length = A.length) (hz : ∀ e ∈ S.zip A, e ∈ List.enumFrom 1 steps)
    (hnd : S.Nodup)
    (hA : (A.map (fun st => st.indecies ++ [st.block_index + 30 + 1])).flatten.Nodup)
    (hcov : ∀ c ∈ List.range' 1 30,
      c ∈ (A.map (fun st => st.indecies ++ [st.block_index + 30 + 1])).flatten) :
    ExactCover 30 (steps.map placementOf) (30 : Int) S := by
  obtain ⟨-, h2, h3⟩ := raw_of_zip steps S A hl hz
  have hflat := flatMap_eq_of_map _ S _ (h2 30)
  refine ⟨hnd, fun r hr => by simpa using h3 r hr, by rw [hflat]; exact hA, fun c h1 h2 => ?_⟩
  rw [hflat]
  refine hcov c ?_
  rw [List.mem_range']
  exact ⟨c - 1, by omega, by omega⟩

end IQPyramidSolver


namespace IQPyramidSolver

open DancingLinkX

theorem p4_cover (steps : List Step) (S : List Nat) (A : List Step)
    (hl : S.length = A.length) (hz : ∀ e ∈ S.zip A, e ∈ List.enumFrom 1 steps)
    (hnd : S.Nodup)
    (hA : (A.map (fun st => st.indecies ++ [st.block_index + 30 + 1])).flatten.Nodup)
    (hcov : ∀ c ∈ List.range' 1 30,
      c ∈ (A.map (fun st => st.indecies ++ [st.block_index + 30 + 1])).flatten) :
    ExactCover 30 (steps.map placementOf)
      (build 30 (steps.map placementOf) false).max_column S := by
  have hmax : (build 30 (steps.map placementOf) false).max_column = (30 : Int) := by
    rw [(build_answers 30 _ false).1]; rfl
  rw [hmax]
  exact exactCover_of_steps steps S A hl hz hnd hA hcov

theorem canonical_of_perm (steps : List Step) (S ans : List Nat) (A : List Step)
    (hl : S.length = A.length) (hz : ∀ e ∈ S.zip A, e ∈ List.enumFrom 1 steps)
    (hp : ans.Perm S) (hsorted : A.Pairwise (fun x y => ¬ lessBlock y x)) :
    Canonical steps ans A := by
  obtain ⟨h1, -, -⟩ := raw_of_zip steps S A hl hz
  obtain ⟨raw, h2, h3⟩ := rawSolution_perm steps S ans hp.symm A h1
  exact ⟨raw, h2, h3.symm, hsorted⟩

/-- C3 at `-t p4`: on the 4-level pyramid the search that spreads one level deep finds
solutions, and the search that spreads twelve levels deep returns none. -/
theorem depth_changes_count :
    ∃ pattern steps, selectPattern "p4" = some pattern ∧ mainSteps pattern = some steps ∧
      ∀ fuel : Nat, nodeCount pattern.size (steps.map placementOf) + 12 < fuel →
        (∃ results, solve fuel 1 (mainMatrix pattern steps) = some results ∧ results ≠ []) ∧
        solve fuel 12 (mainMatrix pattern steps) = some [] := by
  obtain ⟨pattern, hsel, hg, hsize, hms, hmat, hA, -⟩ := p4_setup
  refine ⟨pattern, _, hsel, hms, fun fuel hfuel => ?_⟩
  rw [hsize] at hfuel
  have hwf := wellFormed_main pattern hg
  rw [hsize] at hwf
  have hcells := cells_of_main pattern hg
  obtain ⟨S, hl, hz, hnd, -⟩ := rows_of_steps _ solutionA hA (by decide)
  rw [hmat]
  constructor
  · obtain ⟨results, h1, ans, h2, -⟩ := pipeline_finds 30 _ false hwf
      (fun _ st hst h0 => by
        have := hcells st hst
        rw [h0] at this
        simp at this)
      S (p4_cover _ S solutionA hl hz hnd (by decide) (by decide))
      1 fuel (by rw [hl]; decide) (by omega)
    exact ⟨results, h1, List.ne_nil_of_mem h2⟩
  · exact solve_deep 30 _ hwf 3 hcells 12 fuel (by decide) hfuel

/-- C9 at `-t p4`: two solutions of the 4-level pyramid that the search finds have seven
steps each after the inner sort; the comparator finds them equal at place `0`, decides
at place `1`, where the one has its step of piece `1` and the other its step of piece
`3`, and reads outside the vector when both its arguments are the first solution. -/
theorem comparator_mixes_pieces :
    ∃ pattern steps, selectPattern "p4" = some pattern ∧ mainSteps pattern = some steps ∧
      ∀ fuel : Nat, nodeCount pattern.size (steps.map placementOf) + 1 < fuel →
        ∃ results, solve fuel 1 (mainMatrix pattern steps) = some results ∧
          ∃ r1 ∈ results, ∃ r2 ∈ results,
            Canonical steps r1 solutionA ∧ Canonical steps r2 solutionB ∧
            solutionA.length = 7 ∧ solutionB.length = 7 ∧
            lessFrom solutionA solutionB [0] = some false ∧
            lessFrom solutionA solutionB [1] = some true ∧
            (solutionA[1]?).map (fun st => st.block_index) = some 1 ∧
            (solutionB[1]?).map (fun st => st.block_index) = some 3 ∧
            lessSolution solutionA solutionB = some true ∧
            lessSolution solutionA solutionA = none := by
  obtain ⟨pattern, hsel, hg, hsize, hms, hmat, hA, hB⟩ := p4_setup
  refine ⟨pattern, _, hsel, hms, fun fuel hfuel => ?_⟩
  rw [hsize] at hfuel
  have hwf := wellFormed_main pattern hg
  rw [hsize] at hwf
  have hcells := cells_of_main pattern hg
  have hne : false = false → ∀ st ∈ (pieces.flatMap pattern.placements).map placementOf,
      st.1 ≠ [] := fun _ st hst h0 => by
    have := hcells st hst
    rw [h0] at this
    simp at this
  obtain ⟨SA, hlA, hzA, hndA, -⟩ := rows_of_steps _ solutionA hA (by decide)
  obtain ⟨SB, hlB, hzB, hndB, -⟩ := rows_of_steps _ solutionB hB (by decide)
  rw [hmat]
  obtain ⟨results, h1, ans1, h2, h3⟩ := pipeline_finds 30 _ false hwf hne
    SA (p4_cover _ SA solutionA hlA hzA hndA (by decide) (by decide))
    1 fuel (by rw [hlA]; decide) hfuel
  obtain ⟨results2, h4, ans2, h5, h6⟩ := pipeline_finds 30 _ false hwf hne
    SB (p4_cover _ SB solutionB hlB hzB hndB (by decide) (by decide))
    1 fuel (by rw [hlB]; decide) hfuel
  rw [h1] at h4
  obtain rfl := Option.some.inj h4
  refine ⟨results, h1, ans1, h2, ans2, h5,
    canonical_of_perm _ SA ans1 solutionA hlA hzA h3 (by unfold lessBlock; decide),
    canonical_of_perm _ SB ans2 solutionB hlB hzB h6 (by unfold lessBlock; decide),
    by decide, by decide, by decide, by decide, by decide, by decide, by decide, by decide⟩

end IQPyramidSolver


namespace IQPyramidSolver

open DancingLinkX

set_option maxRecDepth 1000000
set_option maxHeartbeats 4000000

theorem answers_partition_witness :
    WellFormed 2 [([1], 0), ([2], 1), ([1, 2], 2)] ∧
    nodeCount 2 [([1], 0), ([2], 1), ([1, 2], 2)] + 1 < 40 ∧
    ((∃ done, Dance 40 (build 2 [([1], 0), ([2], 1), ([1, 2], 2)] false) = some done ∧
      ∀ ans ∈ done.Answers, Partition 2 [([1], 0), ([2], 1), ([1, 2], 2)] ans) ∧
    (∃ results, solve 40 1 (build 2 [([1], 0), ([2], 1), ([1, 2], 2)] false) = some results ∧
      ∀ ans ∈ results, Partition 2 [([1], 0), ([2], 1), ([1, 2], 2)] ans)) :=
  ⟨by decide, by decide,
    DancingLinkX.answers_partition 2 [([1], 0), ([2], 1), ([1, 2], 2)] false (by decide) 1 40
      (by decide)⟩

theorem dance_complete_witness :
    WellFormed 2 [([1], 0), ([2], 1), ([1, 2], 2)] ∧
    (false = false → ∀ st ∈ [([1], 0), ([2], 1), ([1, 2], 2)], st.1 ≠ ([] : List Nat)) ∧
    nodeCount 2 [([1], 0), ([2], 1), ([1, 2], 2)] < 40 ∧
    ∃ done, Dance 40 (build 2 [([1], 0), ([2], 1), ([1, 2], 2)] false) = some done ∧
      (∀ S, ExactCover 2 [([1], 0), ([2], 1), ([1, 2], 2)]
          (build 2 [([1], 0), ([2], 1), ([1, 2], 2)] false).max_column S →
        done.Answers.countP (fun ans => decide (ans.Perm S)) = 1) ∧
      ∀ ans ∈ done.Answers, ExactCover 2 [([1], 0), ([2], 1), ([1, 2], 2)]
        (build 2 [([1], 0), ([2], 1), ([1, 2], 2)] false).max_column ans :=
  ⟨by decide, by decide, by decide,
    DancingLinkX.dance_complete 2 [([1], 0), ([2], 1), ([1, 2], 2)] false (by decide) (by decide)
      40 (by decide)⟩

theorem delete_recover_restores_witness :
    WellFormed 2 [([1], 0), ([2], 1), ([1, 2], 2)] ∧
    Reach (build 2 [([1], 0), ([2], 1), ([1, 2], 2)] true) []
      (build 2 [([1], 0), ([2], 1), ([1, 2], 2)] true) ∧
    InHeaderRing (build 2 [([1], 0), ([2], 1), ([1, 2], 2)] true) 2 ∧
    nodeCount 2 [([1], 0), ([2], 1), ([1, 2], 2)] < 40 ∧
    ∃ t u, Delete 40 2 (build 2 [([1], 0), ([2], 1), ([1, 2], 2)] true) = some t ∧
      Recover 40 2 t = some u ∧
      u.Left = (build 2 [([1], 0), ([2], 1), ([1, 2], 2)] true).Left ∧
      u.Right = (build 2 [([1], 0), ([2], 1), ([1, 2], 2)] true).Right ∧
      u.Up = (build 2 [([1], 0), ([2], 1), ([1, 2], 2)] true).Up ∧
      u.Down = (build 2 [([1], 0), ([2], 1), ([1, 2], 2)] true).Down ∧
      u.Count = (build 2 [([1], 0), ([2], 1), ([1, 2], 2)] true).Count :=
  ⟨by decide, Reach.init, ⟨by decide, 2, by decide⟩, by decide,
    DancingLinkX.delete_recover_restores 2 [([1], 0), ([2], 1), ([1, 2], 2)] true (by decide) []
      _ Reach.init 2 ⟨by decide, 2, by decide⟩ 40 (by decide)⟩

theorem sort_deterministic_witness :
    "r" ∈ boardTypes ∧
    selectPattern "r" = some (Pattern.rectangle RectanglePattern.new) ∧
    (Pattern.rectangle RectanglePattern.new).size = piece_node_count ∧
    ∃ steps, mainSteps (Pattern.rectangle RectanglePattern.new) = some steps ∧
      ∀ level fuel : Nat,
        nodeCount (Pattern.rectangle RectanglePattern.new).size (steps.map placementOf) + level
          < fuel →
        ∃ results, solve fuel level (mainMatrix (Pattern.rectangle RectanglePattern.new) steps) =
            some results ∧
          (∀ r1 ∈ results, ∀ r2 ∈ results, ∀ r3 ∈ results, ∀ a b e,
            Canonical steps r1 a → Canonical steps r2 b → Canonical steps r3 e →
              (∃ v, lessSolution a b = some v) ∧ ¬ Before a a ∧
              (Before a b → Before b e → Before a e) ∧ (a ≠ b → Before a b ∨ Before b a)) ∧
          (∃ out, Final steps results out) ∧
          ∀ results1 results2 out1 out2, results1.Perm results → results2.Perm results →
            Final steps results1 out1 → Final steps results2 out2 → out1 = out2 :=
  ⟨by decide, rfl, by decide,
    sort_deterministic "r" (by decide) (Pattern.rectangle RectanglePattern.new) rfl (by decide)⟩

end IQPyramidSolver


namespace IQPyramidSolver

set_option maxRecDepth 1000000
set_option maxHeartbeats 4000000

/-- C11. Orientation closure: there are 12 pieces, and for each of them `rotates[piece]`
applications of `Rotate` to the base shape give a shape with the point set of the base
shape (the points as `Rotate` leaves them are normalised already, so that normalising them
once more gives the same set). -/
theorem rotate_closure :
    PIECES = 12 ∧ ∀ b ∈ List.range PIECES,
      SameShape (Nat.iterate Piece.Rotate (rotates.getD b 0)
        (Piece.new (PieceData.getD b []) b)).points (baseShape b) ∧
      SameShape (normalise (Nat.iterate Piece.Rotate (rotates.getD b 0)
        (Piece.new (PieceData.getD b []) b)).points) (baseShape b) :=
  ⟨rfl, by decide⟩

/-- The orientation ids of the slices of a pyramid, slice by slice, are the values of
`compositeId` on the slice numbers: the two definitions are the same expressions of the
source. -/
theorem slices_ids (t : PyramidPattern) (s : Nat) :
    (Pattern.pyramid t).slices.map (fun sl => sl.id s) =
      (sliceNumbers t.ORDER).map (fun k => compositeId k.1 k.2 s) := by
  simp [Pattern.slices, sliceNumbers, compositeId, List.map_append, List.map_map,
    Function.comp_def]

/-- C12 at order 5, left diagonal planes 0 and 8: in the pyramid of order 5 these two planes
get the same orientation id for every shape number, `(1 << 6) | (8 << 3) | s` being
`(1 << 6) | s`, so that the id is not an injective function of the family, the slice number
and the shape number over all slices of that board. -/
theorem compositeId_collision :
    (Family.left, 0, 0) ∈ sliceKeys 5 ∧ (Family.left, 8, 0) ∈ sliceKeys 5 ∧
    compositeId Family.left 8 0 = compositeId Family.left 0 0 ∧
    (∀ s ∈ List.range 8, compositeId Family.left 8 s = compositeId Family.left 0 s) ∧
    ¬ ∀ k1 ∈ sliceKeys 5, ∀ k2 ∈ sliceKeys 5,
      compositeId k1.1 k1.2.1 k1.2.2 = compositeId k2.1 k2.2.1 k2.2.2 → k1 = k2 :=
  ⟨by decide, by decide, by decide, by decide, fun h =>
    absurd (h (Family.left, 8, 0) (by decide) (Family.left, 0, 0) (by decide) (by decide))
      (by decide)⟩

/-- C12 without the left diagonal plane 8 of order 5. The composite orientation id is an
injective function of the family, the slice number and the shape number `0..7` over all
slices of the pyramid of order 4, and over all slices of the pyramid of order 5 other than
the left diagonal plane 8; that plane has one cell, so that no oriented piece has a
placement on it. -/
theorem compositeId_injective :
    (∀ k1 ∈ sliceKeys 4, ∀ k2 ∈ sliceKeys 4,
      compositeId k1.1 k1.2.1 k1.2.2 = compositeId k2.1 k2.2.1 k2.2.2 → k1 = k2) ∧
    (∀ k1 ∈ sliceKeys 5, ∀ k2 ∈ sliceKeys 5, (k1.1, k1.2.1) ≠ (Family.left, 8) →
      (k2.1, k2.2.1) ≠ (Family.left, 8) →
      compositeId k1.1 k1.2.1 k1.2.2 = compositeId k2.1 k2.2.1 k2.2.2 → k1 = k2) ∧
    ∃ t, PyramidPattern.new 5 = some t ∧ PyramidPattern.planeSize 5 8 = 1 ∧
      ∀ piece ∈ pieces, placementsOn ⟨t.diagonals_left.getD 8 [], 1, 1,
        fun s => compositeId Family.left 8 s⟩ piece = [] := by
  have h4 : ((sliceKeys 4).map fun k => compositeId k.1 k.2.1 k.2.2).Nodup := by decide!
  have h5 : (((sliceKeys 5).filter fun k => decide ((k.1, k.2.1) ≠ (Family.left, 8))).map
      fun k => compositeId k.1 k.2.1 k.2.2).Nodup := by decide!
  refine ⟨fun k1 hk1 k2 hk2 he => List.inj_on_of_nodup_map h4 hk1 hk2 he,
    fun k1 hk1 k2 hk2 hn1 hn2 he => List.inj_on_of_nodup_map h5
      (List.mem_filter.2 ⟨hk1, decide_eq_true hn1⟩) (List.mem_filter.2 ⟨hk2, decide_eq_true hn2⟩)
      he, ?_⟩
  have h : ((PyramidPattern.new 5).any fun t => decide (PyramidPattern.planeSize 5 8 = 1 ∧
      ∀ piece ∈ pieces, placementsOn ⟨t.diagonals_left.getD 8 [], 1, 1,
        fun s => compositeId Family.left 8 s⟩ piece = [])) = true := by decide!
  cases hn : PyramidPattern.new 5 with
  | none => rw [hn] at h; exact absurd h (by decide)
  | some t =>
    rw [hn] at h
    exact ⟨t, rfl, by simpa using h⟩

/-- C13 at the pieces 0 and 1: the first shape of piece 0 and the first shape of
piece 1 are in `pieces`, their `block_index` differs and their `shape_index` is `0` both. -/
theorem shape_index_shared :
    ¬ ∀ p ∈ pieces, ∀ q ∈ pieces, p.block_index ≠ q.block_index →
      p.shape_index ≠ q.shape_index := by
  decide!

/-- C13 for the pair of both numbers. The shapes of one piece carry that piece as
`block_index` and the shape numbers `0, 1, .., rotates[piece] - 1` in the order they are
generated, so that `shape_index` starts again at `0` with every piece; two different
oriented shapes differ in the pair of `block_index` and `shape_index`. -/
theorem shape_index_per_piece :
    (∀ b ∈ List.range PIECES,
      (orientations b).map (fun p => p.shape_index) = List.range (rotates.getD b 0) ∧
      ∀ p ∈ orientations b, p.block_index = b) ∧
    (pieces.map fun p => (p.block_index, p.shape_index)).Nodup ∧
    ∀ p ∈ pieces, ∀ q ∈ pieces, p.block_index = q.block_index →
      p.shape_index = q.shape_index → p = q :=
  ⟨by decide!, by decide!, pieces_key⟩

end IQPyramidSolver


namespace IQPyramidSolver

set_option maxRecDepth 1000000
set_option maxHeartbeats 4000000

/-- The facts of C15 about one board, as a test. -/
theorem index_boards : ∀ type ∈ boardTypes,
    ((selectPattern type).any fun pattern => decide (
      (cellIds pattern.tables.flatten).dedup.Perm (List.range' 1 pattern.size) ∧
      (cellIds pattern.tables.flatten).dedup.length = pattern.size ∧
      (∀ table ∈ pattern.tables, (cellIds table).Perm (List.range' 1 pattern.size)) ∧
      pattern.FloorsSquare)) = true := by
  decide!

/-- C15. Board index invariant: each of the four boards `main` can select (the triangle,
the rectangle, the pyramids of order 4 and 5) is constructed without a read outside
`floors`; `size()` is the number of distinct cell ids other than `0`, and these are
exactly `1..size()`; in every family of slices (the one matrix of the triangle and of the
rectangle; the floors, the left diagonals and the right diagonals of a pyramid) every
id of `1..size()` occurs exactly once; floor `floor` of a pyramid has
`(floor + 1) * (floor + 1)` entries. -/
theorem board_index_invariant :
    boardTypes = ["t", "r", "p4", "p5"] ∧
    ∀ type ∈ boardTypes, ∃ pattern, selectPattern type = some pattern ∧
      (cellIds pattern.tables.flatten).dedup.Perm (List.range' 1 pattern.size) ∧
      (cellIds pattern.tables.flatten).dedup.length = pattern.size ∧
      (∀ table ∈ pattern.tables, (cellIds table).Perm (List.range' 1 pattern.size)) ∧
      pattern.FloorsSquare := by
  refine ⟨rfl, fun type ht => ?_⟩
  have h := index_boards type ht
  cases hs : selectPattern type with
  | none => rw [hs] at h; exact absurd h (by decide)
  | some pattern =>
    rw [hs] at h
    exact ⟨pattern, rfl, by simpa using h⟩

end IQPyramidSolver


namespace IQPyramidSolver
namespace DancingLinkX

/-- Following `f` from `a` along a path visits the nodes of the path in order and then
reaches its end. -/
theorem iterate_path (f : Nat → Nat) (l : List Nat) (a b : Nat) (h : Path f a l b) :
    (∀ j, j < l.length → l[j]? = some (Nat.iterate f (j + 1) a)) ∧
      Nat.iterate f (l.length + 1) a = b := by
  induction l generalizing a with
  | nil => exact ⟨fun j hj => absurd hj (by simp), by simpa [Path] using h⟩
  | cons y l ih =>
    obtain ⟨h1, h2⟩ := h
    obtain ⟨ih1, ih2⟩ := ih y h2
    constructor
    · intro j hj
      cases j with
      | zero => simp [h1]
      | succ j =>
        rw [List.getElem?_cons_succ, ih1 j (by simpa using hj)]
        conv_rhs => rw [Function.iterate_succ_apply, h1]
    · rw [List.length_cons, Function.iterate_succ_apply, h1]
      exact ih2

/-- What the selection loop computes on the columns it visits (those before the first one
beyond `maxc`): either none of them has a count below `least_count` and `now` is kept, or
the result is the first of them with the least count, and that count is below
`least_count`. -/
theorem selectList_spec (cnt : Nat → Int) (maxc : Int) (l : List Nat) (least_count : Int)
    (now : Nat) :
    (selectList cnt maxc l least_count now = now ∧
      ∀ i ∈ l.takeWhile (fun (i : Nat) => decide ((i : Int) ≤ maxc)), least_count ≤ cnt i) ∨
    ∃ pre post, l.takeWhile (fun (i : Nat) => decide ((i : Int) ≤ maxc)) =
        pre ++ selectList cnt maxc l least_count now :: post ∧
      cnt (selectList cnt maxc l least_count now) < least_count ∧
      (∀ i ∈ pre, cnt (selectList cnt maxc l least_count now) < cnt i) ∧
      ∀ i ∈ post, cnt (selectList cnt maxc l least_count now) ≤ cnt i := by
  induction l generalizing least_count now with
  | nil => exact Or.inl ⟨rfl, by simp⟩
  | cons i rest ih =>
    unfold selectList
    by_cases hi : (i : Int) ≤ maxc
    · have htw : (i :: rest).takeWhile (fun (i : Nat) => decide ((i : Int) ≤ maxc)) =
          i :: rest.takeWhile (fun (i : Nat) => decide ((i : Int) ≤ maxc)) := by
        rw [List.takeWhile_cons, if_pos (decide_eq_true hi)]
      rw [if_pos hi, htw]
      by_cases hc : cnt i < least_count
      · rw [if_pos hc]
        rcases ih (cnt i) i with ⟨h1, h2⟩ | ⟨pre, post, h1, h2, h3, h4⟩
        · rw [h1]
          exact Or.inr ⟨[], _, rfl, hc, by simp, h2⟩
        · refine Or.inr ⟨i :: pre, post, by rw [h1]; rfl, lt_trans h2 hc, ?_, h4⟩
          intro j hj
          rcases List.mem_cons.1 hj with rfl | hj
          · exact h2
          · exact h3 j hj
      · rw [if_neg hc]
        rcases ih least_count now with ⟨h1, h2⟩ | ⟨pre, post, h1, h2, h3, h4⟩
        · refine Or.inl ⟨h1, ?_⟩
          intro j hj
          rcases List.mem_cons.1 hj with rfl | hj
          · exact not_lt.1 hc
          · exact h2 j hj
        · refine Or.inr ⟨i :: pre, post, by rw [h1]; rfl, h2, ?_, h4⟩
          intro j hj
          rcases List.mem_cons.1 hj with rfl | hj
          · exact lt_of_lt_of_le h2 (not_lt.1 hc)
          · exact h3 j hj
    · rw [if_neg hi]
      refine Or.inl ⟨rfl, ?_⟩
      rw [List.takeWhile_cons, if_neg (by simpa using hi)]
      simp

/-- In an increasing list the columns up to `maxc` come first. -/
theorem mem_takeWhile_of_sorted (L : List Nat) (maxc : Int) (hs : L.Sorted (fun a b => a < b))
    (c : Nat) (hc : c ∈ L) (hle : (c : Int) ≤ maxc) :
    c ∈ L.takeWhile (fun (i : Nat) => decide ((i : Int) ≤ maxc)) := by
  induction L with
  | nil => simp at hc
  | cons a l ih =>
    have ha : (a : Int) ≤ maxc := by
      rcases List.mem_cons.1 hc with rfl | h
      · exact hle
      · have := List.rel_of_sorted_cons hs c h
        omega
    rw [List.takeWhile_cons, if_pos (decide_eq_true ha)]
    rcases List.mem_cons.1 hc with rfl | h
    · simp
    · exact List.mem_cons_of_mem _ (ih (List.Sorted.of_cons hs) h)

/-- The columns of the header ring are the columns of the list of the invariant. -/
theorem inHeaderRing_iff (nc : Nat) (links : List (Nat × Nat)) (L : List Nat)
    (s : DancingLinkX) (hinv : Inv nc links L s) (c : Nat) : InHeaderRing s c ↔ c ∈ L := by
  constructor
  · exact mem_of_inHeaderRing nc links L s hinv c
  · intro hc
    refine ⟨by have := (hinv.range c hc).1; omega, ?_⟩
    obtain ⟨j, hj, rfl⟩ := List.getElem_of_mem hc
    refine ⟨j + 1, ?_⟩
    have := (iterate_path s.Right L 0 0 hinv.header_ring.1).1 j hj
    rw [List.getElem?_eq_getElem hj] at this
    exact (Option.some.inj this).symm

/-- The counter of a live column is the number of its live rows, which is at most the number
of nodes. -/
theorem count_le (nc : Nat) (links : List (Nat × Nat)) (L : List Nat)
    (s : DancingLinkX) (hinv : Inv nc links L s) (c : Nat) (hc : c ∈ L) :
    s.Count c ≤ (links.length : Int) := by
  have h := (hinv.columns c (List.mem_cons_of_mem _ hc)).2
  rw [filter_not_mem_nil] at h
  rw [h]
  exact_mod_cast length_ringNodes nc links L c

/-- The states of `Reach` from the matrix of `main` satisfy the invariant for some list of
live columns. -/
theorem reach_inv (size : Nat) (steps : List (List Nat × Nat)) (isComplete : Bool)
    (hwf : WellFormed size steps) (stack : List Nat) (s : DancingLinkX)
    (hr : Reach (build size steps isComplete) stack s) :
    ∃ L, Inv (size + PIECES) (linksFrom size steps 0) L s := by
  have hw := wellLinked_linksFrom size steps 0 hwf
  have hinv0 := inv_build size steps isComplete hw
  exact hist_inv _ _ hw.2 _ _ hinv0 stack s (reach_hist _ _ hw _ _ hinv0 stack s hr)

/-- The selection loop on a state that satisfies the invariant. -/
theorem select_min (nc : Nat) (links : List (Nat × Nat)) (L : List Nat) (s : DancingLinkX)
    (hinv : Inv nc links L s) (hmax : (links.length : Int) < INT_MAX)
    (hlive : ∃ c, InHeaderRing s c ∧ (c : Int) ≤ s.max_column)
    (fuel : Nat) (hfuel : L.length < fuel) :
    ∃ now, selectLoop s fuel (s.Right 0) INT_MAX (s.Right 0) = some now ∧
      InHeaderRing s now ∧ (now : Int) ≤ s.max_column ∧
      (∀ c, InHeaderRing s c → (c : Int) ≤ s.max_column → s.Count now ≤ s.Count c) ∧
      ∃ k, Nat.iterate s.Right (k + 1) 0 = now ∧
        ∀ j < k, Nat.iterate s.Right (j + 1) 0 ≠ 0 ∧
          ((Nat.iterate s.Right (j + 1) 0 : Nat) : Int) ≤ s.max_column ∧
          s.Count now < s.Count (Nat.iterate s.Right (j + 1) 0) := by
  have h0 : ∀ i ∈ L, i ≠ 0 := fun i hi => by
    have := (hinv.range i hi).1
    omega
  refine ⟨_, selectLoop_eq s L 0 INT_MAX (s.Right 0) fuel hinv.header_ring.1 h0 hfuel, ?_⟩
  obtain ⟨c0, hc0, hc0le⟩ := hlive
  have hc0L := (inHeaderRing_iff nc links L s hinv c0).1 hc0
  have hc0tw := mem_takeWhile_of_sorted L s.max_column hinv.sorted c0 hc0L hc0le
  have hsub : ∀ i ∈ L.takeWhile (fun (i : Nat) => decide ((i : Int) ≤ s.max_column)), i ∈ L :=
    fun i hi => (List.takeWhile_sublist _).subset hi
  rcases selectList_spec s.Count s.max_column L INT_MAX (s.Right 0) with
    ⟨-, h2⟩ | ⟨pre, post, h1, -, h3, h4⟩
  · have := h2 c0 hc0tw
    have := count_le nc links L s hinv c0 hc0L
    omega
  · generalize selectList s.Count s.max_column L INT_MAX (s.Right 0) = now at h1 h3 h4 ⊢
    have hnow : now ∈ L.takeWhile (fun (i : Nat) => decide ((i : Int) ≤ s.max_column)) := by
      rw [h1]; simp
    have hle : ∀ i ∈ L.takeWhile (fun (i : Nat) => decide ((i : Int) ≤ s.max_column)),
        (i : Int) ≤ s.max_column := fun i hi => by
      simpa using List.mem_takeWhile_imp hi
    obtain ⟨rest, hL⟩ : ∃ rest, L = pre ++ now :: rest := by
      refine ⟨post ++ L.dropWhile (fun (i : Nat) => decide ((i : Int) ≤ s.max_column)), ?_⟩
      conv_lhs =>
        rw [← List.takeWhile_append_dropWhile (fun (i : Nat) => decide ((i : Int) ≤ s.max_column)) L]
      rw [h1]
      simp
    have hiter := (iterate_path s.Right L 0 0 hinv.header_ring.1).1
    have hget : ∀ j, j < pre.length → Nat.iterate s.Right (j + 1) 0 ∈ pre := by
      intro j hj
      have h5 := hiter j (by rw [hL]; simp; omega)
      have h6 : L[j]? = pre[j]? := by
        rw [hL]
        exact List.getElem?_append_left hj
      rw [h6, List.getElem?_eq_getElem hj] at h5
      rw [← Option.some.inj h5]
      exact List.getElem_mem hj
    refine ⟨(inHeaderRing_iff nc links L s hinv now).2 (hsub now hnow), hle now hnow, ?_,
      pre.length, ?_, ?_⟩
    · intro c hc hcle
      have hcL := (inHeaderRing_iff nc links L s hinv c).1 hc
      have hctw := mem_takeWhile_of_sorted L s.max_column hinv.sorted c hcL hcle
      rw [h1] at hctw
      rcases List.mem_append.1 hctw with h | h
      · exact le_of_lt (h3 c h)
      · rcases List.mem_cons.1 h with rfl | h
        · exact le_refl _
        · exact h4 c h
    · have h5 := hiter pre.length (by rw [hL]; simp)
      have h6 : L[pre.length]? = some now := by
        rw [hL, List.getElem?_append_right (le_refl _), Nat.sub_self]
        exact List.getElem?_cons_zero
      rw [h6] at h5
      exact (Option.some.inj h5).symm
    · intro j hj
      have hm := hget j hj
      have hmtw : Nat.iterate s.Right (j + 1) 0 ∈
          L.takeWhile (fun (i : Nat) => decide ((i : Int) ≤ s.max_column)) := by
        rw [h1]; exact List.mem_append_left _ hm
      exact ⟨h0 _ (hsub _ hmtw), hle _ hmtw, h3 _ hm⟩

/-- There are at most `nc` live columns. -/
theorem length_le_of_inv (nc : Nat) (links : List (Nat × Nat)) (L : List Nat)
    (s : DancingLinkX) (hinv : Inv nc links L s) : L.length ≤ nc := by
  have h1 : L.length = L.toFinset.card := (List.toFinset_card_of_nodup hinv.sorted.nodup).symm
  have h2 : L.toFinset ⊆ Finset.Icc 1 nc := by
    intro c hc
    have := hinv.range c (List.mem_toFinset.1 hc)
    exact Finset.mem_Icc.2 this
  have h3 := Finset.card_le_card h2
  rw [Nat.card_Icc] at h3
  omega

/-- C17. Column choice: in every state the search can be in (reached from the matrix of
`main` by `Delete`, `Recover` and changes of `Answer`) that has a column of the header
ring not beyond `max_column`, the selection loop of `Dance` and `Spread` ends, with enough
fuel, with a column `now` that is in the header ring, is at most `max_column`, has the
least `Count` of the live columns up to `max_column`, and is the first such column on
the way from the root along `Right`: the columns passed before it are not the root, are
at most `max_column` and have a larger `Count`. -/
theorem column_choice (size : Nat) (steps : List (List Nat × Nat)) (isComplete : Bool)
    (hwf : WellFormed size steps) (hmax : (nodeCount size steps : Int) ≤ INT_MAX)
    (stack : List Nat) (s : DancingLinkX) (hr : Reach (build size steps isComplete) stack s)
    (hlive : ∃ c, InHeaderRing s c ∧ (c : Int) ≤ s.max_column)
    (fuel : Nat) (hfuel : nodeCount size steps < fuel) :
    ∃ now, selectLoop s fuel (s.Right 0) INT_MAX (s.Right 0) = some now ∧
      InHeaderRing s now ∧ (now : Int) ≤ s.max_column ∧
      (∀ c, InHeaderRing s c → (c : Int) ≤ s.max_column → s.Count now ≤ s.Count c) ∧
      ∃ k, Nat.iterate s.Right (k + 1) 0 = now ∧
        ∀ j < k, Nat.iterate s.Right (j + 1) 0 ≠ 0 ∧
          ((Nat.iterate s.Right (j + 1) 0 : Nat) : Int) ≤ s.max_column ∧
          s.Count now < s.Count (Nat.iterate s.Right (j + 1) 0) := by
  obtain ⟨L, hinv⟩ := reach_inv size steps isComplete hwf stack s hr
  have hn := nodeCount_eq size steps
  have hlen := length_le_of_inv _ _ L s hinv
  exact select_min _ _ L s hinv (by omega) hlive fuel (by omega)

end DancingLinkX
end IQPyramidSolver


namespace IQPyramidSolver
namespace DancingLinkX

/-- No step of the search changes `max_column`. -/
theorem hist_max_column (nc : Nat) (links : List (Nat × Nat)) (s0 : DancingLinkX)
    (stack : List Nat) (s : DancingLinkX) (h : Hist nc links s0 stack s) :
    s.max_column = s0.max_column := by
  induction stack generalizing s with
  | nil =>
    obtain ⟨a, A, rfl⟩ := h
    rfl
  | cons c stack ih =>
    obtain ⟨sp, L, a, A, hh, -, ⟨-, rfl⟩ | ⟨-, -, rfl⟩⟩ := h
    · show (deleteState nc links L c sp).max_column = _
      rw [(deleteState_fields nc links L c sp).2.2.1]
      exact ih sp hh
    · exact ih sp hh

/-- The way from the root along `Right` goes through the live columns in increasing order
and then comes back to the root. -/
theorem header_ring_increasing (nc : Nat) (links : List (Nat × Nat)) (L : List Nat)
    (s : DancingLinkX) (hinv : Inv nc links L s) :
    (∀ j < L.length, Nat.iterate s.Right (j + 1) 0 ≠ 0 ∧
      InHeaderRing s (Nat.iterate s.Right (j + 1) 0)) ∧
    Nat.iterate s.Right (L.length + 1) 0 = 0 ∧
    ∀ j k, j < k → k < L.length →
      Nat.iterate s.Right (j + 1) 0 < Nat.iterate s.Right (k + 1) 0 := by
  obtain ⟨h1, h2⟩ := iterate_path s.Right L 0 0 hinv.header_ring.1
  have hget : ∀ j (hj : j < L.length), Nat.iterate s.Right (j + 1) 0 = L[j] := by
    intro j hj
    have := h1 j hj
    rw [List.getElem?_eq_getElem hj] at this
    exact (Option.some.inj this).symm
  refine ⟨fun j hj => ?_, h2, fun j k hjk hk => ?_⟩
  · have hm : Nat.iterate s.Right (j + 1) 0 ∈ L := by
      rw [hget j hj]
      exact List.getElem_mem hj
    have := (hinv.range _ hm).1
    exact ⟨by omega, (inHeaderRing_iff nc links L s hinv _).2 hm⟩
  · rw [hget j (by omega), hget k hk]
    exact List.pairwise_iff_getElem.1 hinv.sorted j k (by omega) hk hjk

/-- The terminal test of `Dance` on a state that satisfies the invariant. -/
theorem terminal_dance (nc : Nat) (links : List (Nat × Nat)) (hnd : links.Nodup) (L : List Nat)
    (s : DancingLinkX) (hinv : Inv nc links L s) (fuel : Nat)
    (hfuel : links.length + L.length + 1 < fuel) :
    ((s.Right 0 = 0 ∨ ((s.Right 0 : Nat) : Int) > s.max_column) ↔
      ∀ c : Nat, 1 ≤ c → (c : Int) ≤ s.max_column → ¬ InHeaderRing s c) ∧
    ∃ done added, Dance fuel s = some done ∧ done = { s with Answers := s.Answers ++ added } ∧
      ((∀ c : Nat, 1 ≤ c → (c : Int) ≤ s.max_column → ¬ InHeaderRing s c) → added = [s.Answer]) ∧
      ((∃ c : Nat, 1 ≤ c ∧ (c : Int) ≤ s.max_column ∧ InHeaderRing s c) →
        ∀ ans ∈ added, ∃ r sol, ans = s.Answer ++ r :: sol) := by
  have hpos : ∀ c ∈ L, 1 ≤ c := fun c hc => (hinv.range c hc).1
  have hstart : s.Right 0 = L.headD 0 := ring_next_start _ _ _ _ hinv.header_ring
  have hiff : (s.Right 0 = 0 ∨ ((s.Right 0 : Nat) : Int) > s.max_column) ↔
      ∀ c : Nat, 1 ≤ c → (c : Int) ≤ s.max_column → ¬ InHeaderRing s c := by
    rw [hstart, terminal_iff L s.max_column hinv.sorted hpos]
    constructor
    · intro h c _ hle hc
      exact h c ((inHeaderRing_iff nc links L s hinv c).1 hc) hle
    · intro h c hc hle
      exact h c (hpos c hc) hle ((inHeaderRing_iff nc links L s hinv c).2 hc)
  refine ⟨hiff, _, _, dance_eq nc links hnd (L.length + 1) L s fuel hinv (by omega) (by omega),
    rfl, ?_, ?_⟩
  · intro h
    have ht := hiff.2 h
    rw [hstart] at ht
    unfold searchList
    rw [if_pos ht]
    simp
  · rintro ⟨c, h1, h2, h3⟩ ans hans
    have ht : ¬ (L.headD 0 = 0 ∨ ((L.headD 0 : Nat) : Int) > s.max_column) := by
      rw [← hstart]
      intro h
      exact hiff.1 h c h1 h2 h3
    unfold searchList at hans
    rw [if_neg ht] at hans
    obtain ⟨sol, hsol, rfl⟩ := List.mem_map.1 hans
    obtain ⟨r, -, hr⟩ := List.mem_flatMap.1 hsol
    obtain ⟨sol1, -, rfl⟩ := List.mem_map.1 hr
    exact ⟨r, sol1, rfl⟩

/-- C18. Terminal condition: in every state the search can be in (reached from the matrix
of `main` by `Delete`, `Recover` and changes of `Answer`), `max_column` is `size + 12`
when the matrix was built with the flag set and `size` otherwise; the test of `Dance` on
`Right[0]` holds exactly when no column of `1..max_column` is in the header ring; `Dance`
returns, having changed nothing but `Answers`, to which it has added the current `Answer`
alone when the test holds, and only proper extensions of the current `Answer` (so not the
current `Answer` itself) when it does not; the way from the root along `Right` goes
through the live columns in strictly increasing order before it is back at the root. -/
theorem terminal_condition (size : Nat) (steps : List (List Nat × Nat)) (isComplete : Bool)
    (hwf : WellFormed size steps) (stack : List Nat) (s : DancingLinkX)
    (hr : Reach (build size steps isComplete) stack s)
    (fuel : Nat) (hfuel : nodeCount size steps < fuel) :
    s.max_column = (if isComplete then ((size + 12 : Nat) : Int) else (size : Int)) ∧
    ((s.Right 0 = 0 ∨ ((s.Right 0 : Nat) : Int) > s.max_column) ↔
      ∀ c : Nat, 1 ≤ c → (c : Int) ≤ s.max_column → ¬ InHeaderRing s c) ∧
    (∃ done added, Dance fuel s = some done ∧
      done = { s with Answers := s.Answers ++ added } ∧
      ((∀ c : Nat, 1 ≤ c → (c : Int) ≤ s.max_column → ¬ InHeaderRing s c) → added = [s.Answer]) ∧
      ((∃ c : Nat, 1 ≤ c ∧ (c : Int) ≤ s.max_column ∧ InHeaderRing s c) →
        s.Answer ∉ added ∧ ∀ ans ∈ added, ∃ r sol, ans = s.Answer ++ r :: sol)) ∧
    ∃ n, (∀ j < n, Nat.iterate s.Right (j + 1) 0 ≠ 0 ∧
        InHeaderRing s (Nat.iterate s.Right (j + 1) 0)) ∧
      Nat.iterate s.Right (n + 1) 0 = 0 ∧
      ∀ j k, j < k → k < n →
        Nat.iterate s.Right (j + 1) 0 < Nat.iterate s.Right (k + 1) 0 := by
  have hw := wellLinked_linksFrom size steps 0 hwf
  have hinv0 := inv_build size steps isComplete hw
  have hh := reach_hist _ _ hw _ _ hinv0 stack s hr
  obtain ⟨L, hinv⟩ := hist_inv _ _ hw.2 _ _ hinv0 stack s hh
  have hn := nodeCount_eq size steps
  have hlen := length_le_of_inv _ _ L s hinv
  obtain ⟨h1, done, added, h2, h3, h4, h5⟩ :=
    terminal_dance _ _ hw.2 L s hinv fuel (by omega)
  refine ⟨?_, h1, ⟨done, added, h2, h3, h4, fun h => ⟨?_, h5 h⟩⟩,
    L.length, header_ring_increasing _ _ L s hinv⟩
  · rw [hist_max_column _ _ _ stack s hh, (build_answers size steps isComplete).1]
    rfl
  · intro hmem
    obtain ⟨r, sol, he⟩ := h5 h _ hmem
    have := congrArg List.length he
    simp at this

end DancingLinkX
end IQPyramidSolver


namespace IQPyramidSolver
namespace DancingLinkX

theorem clash_symm (links : List (Nat × Nat)) : Symmetric (Clash links) := by
  rintro p q ⟨h1, r1, hr1, r2, hr2, hne, c, hc1, hc2⟩
  exact ⟨fun e => h1 e.symm, r2, hr2, r1, hr1, fun e => hne e.symm, c, hc2, hc1⟩

theorem clash_cons (links : List (Nat × Nat)) (r : Nat) (p q : List Nat)
    (h : Clash links p q) : Clash links (r :: p) (r :: q) := by
  obtain ⟨h1, r1, hr1, r2, hr2, hne, hc⟩ := h
  exact ⟨fun e => h1 (List.cons.inj e).2, r1, List.mem_cons_of_mem _ hr1, r2,
    List.mem_cons_of_mem _ hr2, hne, hc⟩

/-- The prefixes `Spread` records part pairwise. -/
theorem spreadList_clash (links : List (Nat × Nat)) (hnd : links.Nodup) (maxc : Int) (n : Nat)
    (L : List Nat) : (spreadList links maxc n L).Pairwise (Clash links) := by
  induction n generalizing L with
  | zero => simp [spreadList]
  | succ n ih =>
    unfold spreadList
    generalize chosen links maxc L = c
    rw [List.pairwise_flatMap]
    constructor
    · intro r _
      rw [List.pairwise_map]
      exact List.Pairwise.imp (fun h => clash_cons links r _ _ h) (ih _)
    · refine List.Pairwise.imp_of_mem ?_ (nodup_ringRows links hnd L c)
      intro r1 r2 hr1 hr2 hne x hx y hy
      obtain ⟨a, -, rfl⟩ := List.mem_map.1 hx
      obtain ⟨b, -, rfl⟩ := List.mem_map.1 hy
      exact ⟨fun e => hne (List.cons.inj e).1, r1, by simp, r2, by simp, hne, c,
        (mem_colsOf links r1 c).2 ((mem_ringRows links L c r1).1 hr1).1,
        (mem_colsOf links r2 c).2 ((mem_ringRows links L c r2).1 hr2).1⟩

/-- Two different rows among rows that meet no column twice meet no common column. -/
theorem no_clash_of_nodup (links : List (Nat × Nat)) (ans : List Nat)
    (h : (covered links ans).Nodup) (r1 r2 : Nat) (h1 : r1 ∈ ans) (h2 : r2 ∈ ans)
    (hne : r1 ≠ r2) (c : Nat) (hc1 : c ∈ colsOf links r1) (hc2 : c ∈ colsOf links r2) :
    False := by
  unfold covered at h
  have hp := (List.nodup_flatMap.1 h).2
  have hsym : Symmetric (fun a b : Nat => List.Disjoint (colsOf links a) (colsOf links b)) :=
    fun a b hab => hab.symm
  exact List.Pairwise.forall hsym hp h1 h2 hne hc1 hc2

/-- The merged results of the searches below the recorded prefixes hold no solution twice,
not even with its rows in another order. -/
theorem pipeline_pairwise (links : List (Nat × Nat)) (hnd : links.Nodup) (maxc : Int)
    (level n : Nat) (L : List Nat) (hs : L.Sorted (fun a b => a < b)) (hpos : ∀ c ∈ L, 1 ≤ c) :
    ((spreadList links maxc level L).flatMap (fun p =>
      (searchList links maxc n (liveAfter links L p)).map (fun sol => p ++ sol))).Pairwise
      (fun a b => ¬ a.Perm b) := by
  rw [List.pairwise_flatMap]
  constructor
  · intro p hp
    obtain ⟨-, -, hc, hd, -⟩ := liveSeq_covers links hnd p L hs
      (spreadList_liveSeq links maxc level L p hp)
    rw [List.pairwise_map]
    refine List.Pairwise.imp ?_ (searchList_pairwise links hnd maxc n _ hd
      (fun x hx => hpos x ((hc x).1 hx).1))
    intro a b hab hperm
    exact hab ((List.perm_append_left_iff p).1 hperm)
  · refine List.Pairwise.imp_of_mem ?_ (spreadList_clash links hnd maxc level L)
    rintro p q hp hq ⟨-, r1, hr1, r2, hr2, hne, c, hc1, hc2⟩ x hx y hy hperm
    obtain ⟨a, ha, rfl⟩ := List.mem_map.1 hx
    obtain ⟨b, -, rfl⟩ := List.mem_map.1 hy
    have hcov := covers_solve links hnd maxc level n L hs hpos (p ++ a)
      (List.mem_flatMap.2 ⟨p, hp, List.mem_map.2 ⟨a, ha, rfl⟩⟩)
    exact no_clash_of_nodup links (p ++ a) hcov.1 r1 r2 (List.mem_append_left _ hr1)
      (hperm.symm.subset (List.mem_append_left _ hr2)) hne c hc1 hc2

/-- The prefixes `Spread(0, level, steps_list)` records on the matrix of `main`. -/
theorem spread_build (size : Nat) (steps : List (List Nat × Nat)) (isComplete : Bool)
    (hwf : WellFormed size steps) (level fuel : Nat)
    (hfuel : nodeCount size steps + level < fuel) :
    Spread fuel 0 level (build size steps isComplete) [] =
      some (build size steps isComplete,
        spreadList (linksFrom size steps 0) (build size steps isComplete).max_column level
          (List.range' 1 (size + PIECES))) := by
  have hw := wellLinked_linksFrom size steps 0 hwf
  have hinv := inv_build size steps isComplete hw
  obtain ⟨-, hA, -⟩ := build_answers size steps isComplete
  have hn := nodeCount_eq size steps
  rw [spread_eq (size + PIECES) _ hw level _ _ 0 level [] fuel hinv (by omega) (by omega)
    (by rw [List.length_range']; omega), hA]
  simp

/-- The facts of C20 for the matrix of `main`. -/
theorem disjoint_build (size : Nat) (steps : List (List Nat × Nat)) (isComplete : Bool)
    (hwf : WellFormed size steps) (level fuel : Nat)
    (hfuel : nodeCount size steps + level < fuel) :
    ∃ recorded results,
      Spread fuel 0 level (build size steps isComplete) [] =
        some (build size steps isComplete, recorded) ∧
      solve fuel level (build size steps isComplete) = some results ∧
      recorded.Nodup ∧
      (∀ p ∈ recorded, ∀ q ∈ recorded, p ≠ q →
        ∃ r1 ∈ p, ∃ r2 ∈ q, r1 ≠ r2 ∧
          ∃ c, c ∈ rowCols size steps r1 ∧ c ∈ rowCols size steps r2) ∧
      results.Pairwise (fun a b => ¬ a.Perm b) ∧ results.Nodup := by
  have hw := wellLinked_linksFrom size steps 0 hwf
  have hinv := inv_build size steps isComplete hw
  have hpos : ∀ c ∈ List.range' 1 (size + PIECES), 1 ≤ c := fun c hc => (hinv.range c hc).1
  have hclash := spreadList_clash (linksFrom size steps 0) hw.2
    (build size steps isComplete).max_column level (List.range' 1 (size + PIECES))
  have hpw := pipeline_pairwise (linksFrom size steps 0) hw.2
    (build size steps isComplete).max_column level (size + PIECES + 1)
    (List.range' 1 (size + PIECES)) hinv.sorted hpos
  refine ⟨_, _, spread_build size steps isComplete hwf level fuel hfuel,
    solve_build size steps isComplete hwf level fuel hfuel,
    List.Pairwise.imp (fun h => h.1) hclash, ?_, hpw,
    List.Pairwise.imp (fun h e => h (by rw [e])) hpw⟩
  intro p hp q hq hne
  obtain ⟨-, r1, hr1, r2, hr2, hr, c, hc1, hc2⟩ :=
    List.Pairwise.forall (clash_symm _) hclash hp hq hne
  rw [colsOf_build] at hc1 hc2
  exact ⟨r1, hr1, r2, hr2, hr, c, hc1, hc2⟩

/-- C20. Prefixes are disjoint: on the matrix of `main`, `Spread(0, level, steps_list)`
returns and the prefixes it records are pairwise distinct; any two different prefixes
contain two different rows that both cover one common column; the search phase returns,
and the merged list of results holds no solution twice (no two entries of it are the
same rows, in whatever order). -/
theorem prefixes_disjoint (size : Nat) (steps : List (List Nat × Nat)) (isComplete : Bool)
    (hwf : WellFormed size steps) (level fuel : Nat)
    (hfuel : nodeCount size steps + level < fuel) :
    ∃ recorded results,
      Spread fuel 0 level (build size steps isComplete) [] =
        some (build size steps isComplete, recorded) ∧
      solve fuel level (build size steps isComplete) = some results ∧
      recorded.Nodup ∧
      (∀ p ∈ recorded, ∀ q ∈ recorded, p ≠ q →
        ∃ r1 ∈ p, ∃ r2 ∈ q, r1 ≠ r2 ∧
          ∃ c, c ∈ rowCols size steps r1 ∧ c ∈ rowCols size steps r2) ∧
      results.Pairwise (fun a b => ¬ a.Perm b) ∧ results.Nodup :=
  disjoint_build size steps isComplete hwf level fuel hfuel

end DancingLinkX
end IQPyramidSolver


namespace IQPyramidSolver
namespace DancingLinkX

theorem forall₂_append_of {α β : Type} (R : α → β → Prop) (l1 l2 : List α) (m1 m2 : List β)
    (h1 : List.Forall₂ R l1 m1) (h2 : List.Forall₂ R l2 m2) :
    List.Forall₂ R (l1 ++ l2) (m1 ++ m2) := by
  induction h1 with
  | nil => exact h2
  | cons h _ ih => exact List.Forall₂.cons h ih

/-- With enough fuel `SpreadLog` does what `Spread` does, and what it notes for a prefix
is a state in which exactly the columns that the prefix leaves are live. -/
theorem spreadLog_eq (nc : Nat) (links : List (Nat × Nat)) (hw : WellLinked nc links) (n : Nat)
    (L : List Nat) (s : DancingLinkX) (level level_needed : Nat)
    (steps_list : List (List Nat × DancingLinkX))
    (fuel : Nat) (hinv : Inv nc links L s) (hn : level_needed - level = n)
    (hfuel : links.length + n < fuel) (hfuelL : L.length + 1 < fuel) :
    ∃ added, SpreadLog fuel level level_needed s steps_list = some (s, steps_list ++ added) ∧
      List.Forall₂ (Recorded nc links L s) (spreadList links s.max_column n L) added := by
  have hnd := hw.2
  induction n generalizing L s level steps_list fuel with
  | zero =>
    obtain ⟨f, rfl⟩ : ∃ f, fuel = f + 1 := ⟨fuel - 1, by omega⟩
    have hge : level ≥ level_needed := by omega
    refine ⟨[(s.Answer, s)], ?_, ?_⟩
    · unfold SpreadLog
      simp [hge]
    · unfold spreadList
      exact List.Forall₂.cons ⟨by simp, hinv, by simp, rfl, rfl⟩ List.Forall₂.nil
  | succ n ih =>
    obtain ⟨fuel, rfl⟩ : ∃ f, fuel = f + 1 := ⟨fuel - 1, by omega⟩
    have hf1 : links.length < fuel := by omega
    have hf2 : L.length < fuel := by omega
    have hlt : ¬ level ≥ level_needed := by omega
    unfold SpreadLog spreadList
    simp only [hlt, if_false]
    rw [selectLoop_chosen nc links L s hinv fuel hf2]
    simp only [Option.some_bind]
    by_cases hLnil : L = []
    · subst hLnil
      have hc0 : chosen links s.max_column [] = 0 := rfl
      obtain ⟨hd1, hd2, hd3⟩ := delete_zero nc links s hinv fuel (by omega)
      obtain ⟨f, rfl⟩ : ∃ f, fuel = f + 1 := ⟨fuel - 1, by omega⟩
      refine ⟨[], ?_, ?_⟩
      · rw [hc0, hd1]
        simp only [Option.some_bind, hd3, forRing, if_true, hd2, Option.map_some']
        simp
      · rw [hc0, ringRows_zero nc links hw]
        exact List.Forall₂.nil
    · have hhead : L.headD 0 ≠ 0 := by
        cases L with
        | nil => exact absurd rfl hLnil
        | cons a l =>
          have := (hinv.range a (by simp)).1
          simp only [List.headD_cons]
          omega
      have hcL : chosen links s.max_column L ∈ L := chosen_mem links s.max_column L hhead
      generalize hcdef : chosen links s.max_column L = c at hcL ⊢
      rw [delete_eq nc links L s hinv hnd c hcL fuel hf1]
      simp only [Option.some_bind]
      have hinv1 := inv_deleteState nc links L s hinv hnd c hcL
      have hring0 := (hinv.columns c (List.mem_cons_of_mem _ hcL)).1
      rw [filter_not_mem_nil] at hring0
      have hring1 : Ring (deleteState nc links L c s).Down (deleteState nc links L c s).Up c
          (ringNodes nc links L c) :=
        (cover_initial nc links L s hinv hnd c hcL (coverNodes nc links L c) [] (by simp)).2.2.2
      have hcR : c ∉ ringNodes nc links L c := fun h => by
        have := lt_of_mem_nodeIds nc links _ c h
        have := inv_le nc links L s hinv c hcL
        omega
      have hdf := deleteState_fields nc links L c s
      obtain ⟨s2, hrun, done, added, hdone, hs2, hrec⟩ := forRing_spec
        (fun p : DancingLinkX × List (List Nat × DancingLinkX) => p.1.Down) c
        (fun i p =>
          (forRing (fun u : DancingLinkX => u.Right) i (fun j u => Delete fuel (u.Column j) u)
            fuel (({ p.1 with Answer := p.1.Answer ++ [p.1.Row i] } : DancingLinkX).Right i)
            { p.1 with Answer := p.1.Answer ++ [p.1.Row i] }).bind fun t2 =>
          (SpreadLog fuel (level + 1) level_needed t2 p.2).bind fun q =>
          (forRing (fun u : DancingLinkX => u.Left) i (fun j u => Recover fuel (u.Column j) u)
            fuel (q.1.Left i) q.1).map fun t4 =>
          (({ t4 with Answer := t4.Answer.dropLast } : DancingLinkX), q.2))
        s.Down
        (fun rest p => ∃ done added, ringNodes nc links L c = done ++ rest ∧
          p = (deleteState nc links L c s, steps_list ++ added) ∧
          List.Forall₂ (Recorded nc links L s) (done.flatMap (fun x =>
            (spreadList links s.max_column n
              (L.filter (fun d => decide (d ∉ colsOf links (s.Row x))))).map
                (fun sol => s.Row x :: sol))) added)
        (by
          rintro x rest p ⟨done, added, hR, rfl, hrec⟩
          have hxR : x ∈ ringNodes nc links L c := by rw [hR]; simp
          obtain ⟨r, hx1, hx2, hlive⟩ := (mem_ringNodes nc links L c x).1 hxR
          have hxr : x ∈ rowNodes nc links r := (mem_rowNodes nc links r x).2 ⟨c, hx1, hx2⟩
          have hrow : s.Row x = r := (column_eq_colOf nc links s hinv.static r x hxr).2.1
          have hliveRow : ∀ j ∈ rowOthers nc links x, colOf nc links j ∈ L.erase c := by
            intro j hj
            obtain ⟨d, hd, hdc, hjd⟩ := live_row_nodes nc links L c x hxR j hj hnd
            obtain ⟨r1, _, h4, _⟩ := (mem_ringNodes nc links L d j).1 hjd
            have : colOf nc links j = d := by
              unfold colOf
              rw [h4]
              rfl
            rw [this]
            exact (List.mem_erase_of_ne hdc).2 hd
          have ht1 : ({ deleteState nc links L c s with
              Answer := (deleteState nc links L c s).Answer ++
                [(deleteState nc links L c s).Row x] } : DancingLinkX) =
              withAnswers (s.Answer ++ [r]) s.Answers (deleteState nc links L c s) := by
            show withAnswers ((deleteState nc links L c s).Answer ++
              [(deleteState nc links L c s).Row x]) (deleteState nc links L c s).Answers
              (deleteState nc links L c s) = _
            rw [hdf.2.2.2.1, hrow, hdf.1, hdf.2.1]
          have hinvt1 := inv_withAnswers nc links _ _ (s.Answer ++ [r]) s.Answers hinv1
          have hcover := coverRow_eq nc links hnd _ _ hinvt1 x r hxr hliveRow fuel hf1
          have hlist := live_after_row nc links L hinv.sorted.nodup c x r hx2 hx1
          have hcnd := nodup_map_colOf nc links hnd r (rowOthers nc links x)
            (nodup_rowOthers nc links x r hxr)
            (fun j hj => ((mem_rowOthers nc links x r hxr j).1 hj).1)
          have hinv2 := inv_deleteCols nc links hnd _ _ _ hinvt1 hcnd (by
            intro d hd
            obtain ⟨k, hk, rfl⟩ := List.mem_map.1 hd
            exact hliveRow k hk)
          rw [hlist] at hinv2
          have hlen : (L.filter (fun d => decide (d ∉ colsOf links r))).length < L.length := by
            apply List.length_filter_lt_length_iff_exists.2
            refine ⟨c, hcL, ?_⟩
            have : c ∈ colsOf links r := (mem_colsOf links r c).2 (mem_of_getElem? links _ _ hx2)
            simp [this]
          obtain ⟨added2, hspread, hrec2⟩ :=
            ih _ _ (level + 1) (steps_list ++ added) fuel hinv2 (by omega) (by omega) (by omega)
          have hcf := deleteCols_fields nc links ((rowOthers nc links x).map (colOf nc links))
            (L.erase c) (withAnswers (s.Answer ++ [r]) s.Answers (deleteState nc links L c s))
          have hmax : (withAnswers (s.Answer ++ [r]) s.Answers
              (deleteState nc links L c s)).max_column = s.max_column := hdf.2.2.1
          have hans : (withAnswers (s.Answer ++ [r]) s.Answers
              (deleteState nc links L c s)).Answer = s.Answer ++ [r] := rfl
          have hanss : (withAnswers (s.Answer ++ [r]) s.Answers
              (deleteState nc links L c s)).Answers = s.Answers := rfl
          rw [hcf.2.2.1, hmax] at hrec2
          have huncover := uncoverRow_eq nc links hnd _ _ hinvt1 x r hxr hliveRow fuel hf1
          refine ⟨(deleteState nc links L c s, steps_list ++ (added ++ added2)), ?_,
            ⟨done ++ [x], added ++ added2, by simp [hR], rfl, ?_⟩, ?_⟩
          · beta_reduce
            rw [ht1, hcover]
            simp only [Option.some_bind]
            rw [hspread]
            simp only [Option.some_bind]
            rw [huncover]
            simp only [Option.map_some', Option.some.injEq, Prod.mk.injEq, List.append_assoc,
              and_true]
            show withAnswers (s.Answer ++ [r]).dropLast s.Answers (deleteState nc links L c s) = _
            rw [List.dropLast_concat]
            conv_rhs => rw [← withAnswers_self (deleteState nc links L c s)]
            rw [hdf.1, hdf.2.1]
          · rw [List.flatMap_append]
            refine forall₂_append_of _ _ _ _ _ hrec ?_
            simp only [List.flatMap_cons, List.flatMap_nil, List.append_nil, hrow]
            rw [List.forall₂_map_left_iff]
            refine List.Forall₂.imp ?_ hrec2
            rintro sol e ⟨e1, e2, e3, e4, e5⟩
            rw [hcf.1, hans] at e1 e3
            rw [hcf.2.1, hanss] at e4
            rw [hcf.2.2.1, hmax] at e5
            exact ⟨by rw [e1]; simp, e2, by rw [e3]; simp, e4, e5⟩
          · show (deleteState nc links L c s).Down x = s.Down x
            rw [hR] at hring1 hring0
            rw [ring_next _ _ _ _ _ _ hring1, ring_next _ _ _ _ _ _ hring0])
        (ringNodes nc links L c) c (deleteState nc links L c s, steps_list) fuel hring0.1 hcR
        ⟨[], [], rfl, by simp, by simp⟩
        (lt_of_le_of_lt (length_ringNodes nc links L c) hf1)
      simp only [List.append_nil] at hdone
      have hfirst : (deleteState nc links L c s).Down c = s.Down c := by
        rw [ring_next_start _ _ _ _ hring1, ring_next_start _ _ _ _ hring0]
      refine ⟨added, ?_, ?_⟩
      · rw [hfirst, hrun]
        simp only [Option.some_bind]
        rw [hs2]
        simp only []
        rw [recover_eq nc links L _ hinv hnd c hcL fuel hf1]
        simp
      · rw [← hdone] at hrec
        rw [← map_row_ringNodes nc links L s hinv.static c, List.flatMap_map]
        exact hrec

end DancingLinkX
end IQPyramidSolver


namespace IQPyramidSolver
namespace DancingLinkX

theorem path_closed (f : Nat → Nat) (l : List Nat) (a b : Nat) (h : Path f a l b) :
    ∀ x ∈ a :: l, f x ∈ b :: l := by
  induction l generalizing a with
  | nil =>
    intro x hx
    rw [List.mem_singleton] at hx
    subst hx
    simpa [Path] using h
  | cons y l ih =>
    obtain ⟨h1, h2⟩ := h
    intro x hx
    rcases List.mem_cons.1 hx with rfl | hx
    · rw [h1]; simp
    · rcases List.mem_cons.1 (ih y h2 x hx) with h | h
      · rw [h]; simp
      · exact List.mem_cons_of_mem _ (List.mem_cons_of_mem _ h)

theorem path_agree (f g : Nat → Nat) (l : List Nat) (a b : Nat) (hf : Path f a l b)
    (hg : Path g a l b) : ∀ x ∈ a :: l, f x = g x := by
  induction l generalizing a with
  | nil =>
    intro x hx
    rw [List.mem_singleton] at hx
    subst hx
    simp only [Path] at hf hg
    rw [hf, hg]
  | cons y l ih =>
    obtain ⟨h1, h2⟩ := hf
    obtain ⟨g1, g2⟩ := hg
    intro x hx
    rcases List.mem_cons.1 hx with rfl | hx
    · rw [h1, g1]
    · exact ih y h2 g2 x hx

/-- Two maps that run through the same closed path from `a` visit the same nodes, step by
step. -/
theorem iterate_agree (f g : Nat → Nat) (l : List Nat) (a : Nat) (hf : Path f a l a)
    (hg : Path g a l a) : ∀ k, Nat.iterate f k a = Nat.iterate g k a := by
  have hmem : ∀ k, Nat.iterate f k a ∈ a :: l := by
    intro k
    induction k with
    | zero => simp
    | succ k ih =>
      rw [Function.iterate_succ_apply']
      exact path_closed f l a a hf _ ih
  intro k
  induction k with
  | zero => rfl
  | succ k ih =>
    rw [Function.iterate_succ_apply', Function.iterate_succ_apply', ← ih]
    exact path_agree f g l a a hf hg _ (hmem k)

theorem ring_agree (f f1 g g1 : Nat → Nat) (l : List Nat) (a : Nat) (h : Ring f f1 a l)
    (h1 : Ring g g1 a l) :
    ∀ k, Nat.iterate f k a = Nat.iterate g k a ∧ Nat.iterate f1 k a = Nat.iterate g1 k a :=
  fun k => ⟨iterate_agree f g l a h.1 h1.1 k, iterate_agree f1 g1 l.reverse a h.2 h1.2 k⟩

/-- Two states with the same live columns have the same header ring, and for every live
column the same counter and the same column ring. -/
theorem same_rings (nc : Nat) (links : List (Nat × Nat)) (L : List Nat) (s t : DancingLinkX)
    (hs : Inv nc links L s) (ht : Inv nc links L t) :
    (∀ c, InHeaderRing s c ↔ InHeaderRing t c) ∧
    (∀ k, Nat.iterate s.Right k 0 = Nat.iterate t.Right k 0 ∧
      Nat.iterate s.Left k 0 = Nat.iterate t.Left k 0) ∧
    ∀ c, InHeaderRing t c → s.Count c = t.Count c ∧
      ∀ k, Nat.iterate s.Down k c = Nat.iterate t.Down k c ∧
        Nat.iterate s.Up k c = Nat.iterate t.Up k c := by
  refine ⟨fun c => ?_, ring_agree _ _ _ _ L 0 hs.header_ring ht.header_ring, fun c hc => ?_⟩
  · rw [inHeaderRing_iff nc links L s hs, inHeaderRing_iff nc links L t ht]
  · have hcL := (inHeaderRing_iff nc links L t ht c).1 hc
    obtain ⟨a1, a2⟩ := hs.columns c (List.mem_cons_of_mem _ hcL)
    obtain ⟨b1, b2⟩ := ht.columns c (List.mem_cons_of_mem _ hcL)
    exact ⟨by rw [a2, b2], ring_agree _ _ _ _ _ c a1 b1⟩

theorem forall₂_mem_right {α β : Type} (R : α → β → Prop) (l : List α) (m : List β)
    (h : List.Forall₂ R l m) : ∀ e ∈ m, ∃ a ∈ l, R a e := by
  induction h with
  | nil => intro e he; simp at he
  | cons h _ ih =>
    intro e he
    rcases List.mem_cons.1 he with rfl | he
    · exact ⟨_, by simp, h⟩
    · obtain ⟨a, ha, hr⟩ := ih e he
      exact ⟨a, List.mem_cons_of_mem _ ha, hr⟩

theorem forall₂_map_eq {α β γ : Type} (R : α → β → Prop) (f : α → γ) (g : β → γ)
    (hfg : ∀ a b, R a b → g b = f a) (l : List α) (m : List β) (h : List.Forall₂ R l m) :
    m.map g = l.map f := by
  induction h with
  | nil => rfl
  | cons h _ ih => rw [List.map_cons, List.map_cons, ih, hfg _ _ h]

/-- The facts of C19 for the matrix of `main`. -/
theorem replay_build (size : Nat) (steps : List (List Nat × Nat)) (isComplete : Bool)
    (hwf : WellFormed size steps) (level fuel : Nat)
    (hfuel : nodeCount size steps + level < fuel) :
    ∃ recorded log,
      Spread fuel 0 level (build size steps isComplete) [] =
        some (build size steps isComplete, recorded) ∧
      SpreadLog fuel 0 level (build size steps isComplete) [] =
        some (build size steps isComplete, log) ∧
      log.map (fun e => e.1) = recorded ∧
      ∀ e ∈ log, ∃ clone, replay fuel e.1 (copy (build size steps isComplete)) = some clone ∧
        clone.Answer = e.2.Answer ∧ e.2.Answer = e.1 ∧
        (∀ c, InHeaderRing clone c ↔ InHeaderRing e.2 c) ∧
        (∀ k, Nat.iterate clone.Right k 0 = Nat.iterate e.2.Right k 0 ∧
          Nat.iterate clone.Left k 0 = Nat.iterate e.2.Left k 0) ∧
        (∀ c, InHeaderRing e.2 c → clone.Count c = e.2.Count c ∧
          ∀ k, Nat.iterate clone.Down k c = Nat.iterate e.2.Down k c ∧
            Nat.iterate clone.Up k c = Nat.iterate e.2.Up k c) ∧
        ∃ d1 d2 answers, Dance fuel e.2 = some d1 ∧ Dance fuel clone = some d2 ∧
          d1.Answers = e.2.Answers ++ answers ∧ d2.Answers = answers := by
  have hw := wellLinked_linksFrom size steps 0 hwf
  have hinv := inv_build size steps isComplete hw
  obtain ⟨hmaxc, hA, hAs⟩ := build_answers size steps isComplete
  have hn := nodeCount_eq size steps
  have hlen0 : (List.range' 1 (size + PIECES)).length = size + PIECES := List.length_range' _ _ _
  obtain ⟨log, hlog, hrec⟩ := spreadLog_eq (size + PIECES) _ hw level _ _ 0 level [] fuel hinv
    (by omega) (by omega) (by omega)
  rw [List.nil_append] at hlog
  refine ⟨_, log, spread_build size steps isComplete hwf level fuel hfuel, hlog, ?_, ?_⟩
  · refine forall₂_map_eq _ (fun sol => sol) (fun e => e.1) ?_ _ _ hrec |>.trans (List.map_id' _)
    rintro sol e ⟨h1, -⟩
    show e.1 = sol
    rw [h1, hA, List.nil_append]
  · intro e he
    obtain ⟨sol, hsol, h1, h2, h3, h4, h5⟩ := forall₂_mem_right _ _ _ hrec e he
    rw [hA, List.nil_append] at h1 h3
    have hcopy : Inv (size + PIECES) (linksFrom size steps 0) (List.range' 1 (size + PIECES))
        (copy (build size steps isComplete)) :=
      inv_withAnswers _ _ _ _ (build size steps isComplete).Answer [] hinv
    obtain ⟨clone, g1, g2, g3, g4, g5⟩ := replay_eq (size + PIECES) _ hw.2 sol _ _ hcopy
      (spreadList_liveSeq _ _ level _ sol hsol) fuel (by omega)
    have hcA : (copy (build size steps isComplete)).Answer = [] := hA
    have hcAs : (copy (build size steps isComplete)).Answers = [] := rfl
    have hcm : (copy (build size steps isComplete)).max_column =
        (build size steps isComplete).max_column := rfl
    rw [hcA, List.nil_append] at g3
    rw [hcAs] at g4
    rw [hcm] at g5
    obtain ⟨r1, r2, r3⟩ := same_rings _ _ _ clone e.2 g2 h2
    have hlen := length_le_of_inv _ _ _ _ h2
    have hd1 := dance_eq (size + PIECES) _ hw.2 (size + PIECES + 1) _ e.2 fuel h2 (by omega)
      (by omega)
    have hd2 := dance_eq (size + PIECES) _ hw.2 (size + PIECES + 1) _ clone fuel g2 (by omega)
      (by omega)
    rw [h1]
    refine ⟨clone, g1, by rw [g3, h3], h3, r1, r2, r3, _, _, _, hd1, hd2, rfl, ?_⟩
    show clone.Answers ++ _ = _
    rw [g4, g5, g3, h5, h3, List.nil_append]

/-- C19. Replay equivalence: on the matrix of `main`, `Spread(0, level, steps_list)` returns
with the matrix as it was; for every prefix it records, the replay of the prefix with
`KnownStep` on a copy of the matrix returns a state that has, compared with the state
`Spread` was in when it recorded the prefix (the state `SpreadLog` notes), the same `Answer`
(the prefix), the same header ring, and for every live column the same `Count` and the same
column ring; `Dance` returns on both states, and the answers it records on the copy are
exactly those it adds on the state of `Spread`. -/
theorem replay_equivalence (size : Nat) (steps : List (List Nat × Nat)) (isComplete : Bool)
    (hwf : WellFormed size steps) (level fuel : Nat)
    (hfuel : nodeCount size steps + level < fuel) :
    ∃ recorded log,
      Spread fuel 0 level (build size steps isComplete) [] =
        some (build size steps isComplete, recorded) ∧
      SpreadLog fuel 0 level (build size steps isComplete) [] =
        some (build size steps isComplete, log) ∧
      log.map (fun e => e.1) = recorded ∧
      ∀ e ∈ log, ∃ clone, replay fuel e.1 (copy (build size steps isComplete)) = some clone ∧
        clone.Answer = e.2.Answer ∧ e.2.Answer = e.1 ∧
        (∀ c, InHeaderRing clone c ↔ InHeaderRing e.2 c) ∧
        (∀ k, Nat.iterate clone.Right k 0 = Nat.iterate e.2.Right k 0 ∧
          Nat.iterate clone.Left k 0 = Nat.iterate e.2.Left k 0) ∧
        (∀ c, InHeaderRing e.2 c → clone.Count c = e.2.Count c ∧
          ∀ k, Nat.iterate clone.Down k c = Nat.iterate e.2.Down k c ∧
            Nat.iterate clone.Up k c = Nat.iterate e.2.Up k c) ∧
        ∃ d1 d2 answers, Dance fuel e.2 = some d1 ∧ Dance fuel clone = some d2 ∧
          d1.Answers = e.2.Answers ++ answers ∧ d2.Answers = answers :=
  replay_build size steps isComplete hwf level fuel hfuel

end DancingLinkX
end IQPyramidSolver


namespace IQPyramidSolver

open DancingLinkX

set_option maxRecDepth 1000000
set_option maxHeartbeats 4000000

theorem length_le_of_range (l : List Nat) (n : Nat) (hnd : l.Nodup)
    (h : ∀ c ∈ l, 1 ≤ c ∧ c ≤ n) : l.length ≤ n := by
  have h1 : l.length = l.toFinset.card := (List.toFinset_card_of_nodup hnd).symm
  have h2 : l.toFinset ⊆ Finset.Icc 1 n := by
    intro c hc
    exact Finset.mem_Icc.2 (h c (List.mem_toFinset.1 hc))
  have h3 := Finset.card_le_card h2
  rw [Nat.card_Icc] at h3
  omega

/-- No oriented piece has a placement on a board with fewer than three cells. -/
theorem no_placements (pattern : Pattern) (hg : pattern.Good) (hsize : pattern.size < 3)
    (piece : Piece) (hp : piece ∈ pieces) : pattern.placements piece = [] := by
  rw [List.eq_nil_iff_forall_not_mem]
  intro st hs
  obtain ⟨h1, h2, h3⟩ := placements_valid hg (pieces_nodup piece hp) hs
  have := length_le_of_range st.indecies pattern.size h3 h2
  have := pieces_size piece hp
  omega

theorem spreadList_nil (maxc : Int) (n : Nat) (L : List Nat) :
    spreadList [] maxc (n + 1) L = [] := by
  unfold spreadList
  simp [ringRows]

/-- The facts of C16 for a board with fewer than three cells. -/
theorem degenerate_pattern (pattern : Pattern) (hg : pattern.Good) (hsize : pattern.size < 3) :
    (∀ piece ∈ pieces, ∀ steps, pattern.GetValidSteps piece steps = some (steps, 0)) ∧
    mainSteps pattern = some [] ∧
    ∀ d fuel : Nat, 1 ≤ d → nodeCount pattern.size [] + d < fuel →
      Spread fuel 0 d (mainMatrix pattern []) [] = some (mainMatrix pattern [], []) ∧
      solve fuel d (mainMatrix pattern []) = some [] := by
  have hwf : WellFormed pattern.size [] := fun st hst => absurd hst (by simp)
  refine ⟨fun piece hp steps => ?_, ?_, fun d fuel hd hfuel => ?_⟩
  · rw [getValidSteps_eq pattern hg piece steps, no_placements pattern hg hsize piece hp]
    simp
  · rw [mainSteps_eq pattern hg]
    exact congrArg some (List.flatMap_eq_nil_iff.2
      (fun piece hp => no_placements pattern hg hsize piece hp))
  · obtain ⟨d, rfl⟩ : ∃ e, d = e + 1 := ⟨d - 1, by omega⟩
    have h1 := spread_build pattern.size [] (decide (pattern.size = piece_node_count)) hwf
      (d + 1) fuel hfuel
    have h2 := solve_build pattern.size [] (decide (pattern.size = piece_node_count)) hwf
      (d + 1) fuel hfuel
    have hl : linksFrom pattern.size [] 0 = [] := rfl
    rw [hl, spreadList_nil] at h1 h2
    exact ⟨h1, h2⟩

/-- The pyramid of order 1 and the run of `Spread` on its matrix with the lengths of the
vectors checked. -/
theorem degenerate_pyramid :
    ((PyramidPattern.new 1).any fun t =>
      decide ((Pattern.pyramid t).Good ∧ (Pattern.pyramid t).size = 1)) = true ∧
    ∀ d ∈ List.range' 1 12,
      ((Checked.DancingLinkX.build 1 [] (decide (1 = piece_node_count))).bind fun m =>
        (Checked.DancingLinkX.Spread 16 0 d m []).map fun r => (decide (r.1 = m), r.2)) =
      some (true, []) := by
  decide!

/-- C16. Degenerate board: on every board with fewer cells than the smallest piece has
(3), `GetValidSteps` returns without a read outside a table and adds no placement for any
oriented piece, so that `main` collects no step; for every depth `d` from 1 on and enough
fuel `Spread(0, d)` on the matrix of `main` returns and records no prefix, and the search
phase returns no solution. The pyramid of order 1 is such a board (it has one cell), and
on its matrix, with every vector as long as the constructor makes it, `Spread(0, d)` for
`d` in `1..12` returns without a read or write outside a vector, records no prefix and
leaves the matrix as it was. -/
theorem degenerate_board :
    (∀ pattern : Pattern, pattern.Good → pattern.size < 3 →
      (∀ piece ∈ pieces, ∀ steps, pattern.GetValidSteps piece steps = some (steps, 0)) ∧
      mainSteps pattern = some [] ∧
      ∀ d fuel : Nat, 1 ≤ d → nodeCount pattern.size [] + d < fuel →
        Spread fuel 0 d (mainMatrix pattern []) [] = some (mainMatrix pattern [], []) ∧
        solve fuel d (mainMatrix pattern []) = some []) ∧
    ∃ t, PyramidPattern.new 1 = some t ∧ (Pattern.pyramid t).Good ∧
      (Pattern.pyramid t).size = 1 ∧
      ∀ d ∈ List.range' 1 12, ∃ m,
        Checked.DancingLinkX.build (Pattern.pyramid t).size []
          (decide ((Pattern.pyramid t).size = piece_node_count)) = some m ∧
        Checked.DancingLinkX.Spread 16 0 d m [] = some (m, []) := by
  refine ⟨degenerate_pattern, ?_⟩
  obtain ⟨h1, h2⟩ := degenerate_pyramid
  cases hn : PyramidPattern.new 1 with
  | none => rw [hn] at h1; exact absurd h1 (by decide)
  | some t =>
    rw [hn] at h1
    simp only [Option.any_some, decide_eq_true_eq] at h1
    refine ⟨t, rfl, h1.1, h1.2, fun d hd => ?_⟩
    have h3 := h2 d hd
    rw [h1.2]
    cases hb : Checked.DancingLinkX.build 1 [] (decide (1 = piece_node_count)) with
    | none => rw [hb] at h3; exact absurd h3 (by simp)
    | some m =>
      rw [hb] at h3
      refine ⟨m, rfl, ?_⟩
      simp only [Option.some_bind, Option.map_eq_some'] at h3
      obtain ⟨r, hr, he⟩ := h3
      rw [hr]
      obtain ⟨r1, r2⟩ := r
      simp only [Prod.mk.injEq, decide_eq_true_eq] at he
      rw [he.1, he.2]

end IQPyramidSolver


namespace IQPyramidSolver

/-- A loop whose body commutes with a map of the accumulator gives the mapped result. -/
theorem foldlM_natural {α β γ : Type} (φ : α → β) (f : α → γ → Option α)
    (g : β → γ → Option β) (l : List γ)
    (h : ∀ a, ∀ x ∈ l, g (φ a) x = (f a x).map φ) (a : α) :
    l.foldlM g (φ a) = (l.foldlM f a).map φ := by
  induction l generalizing a with
  | nil => rfl
  | cons x l ih =>
    rw [List.foldlM_cons, List.foldlM_cons, h a x (by simp)]
    cases hf : f a x with
    | none => rfl
    | some a1 =>
      simp only [Option.map_some', Option.bind_eq_bind, Option.some_bind]
      exact ih (fun b y hy => h b y (List.mem_cons_of_mem _ hy)) a1

theorem triangle_format_map {α β : Type} (g : α → β) (read : Nat → Option α) :
    TrianglePattern.formatWith (fun i => (read i).map g) =
      (TrianglePattern.formatWith read).map (List.map (List.map g)) := by
  unfold TrianglePattern.formatWith
  have hin : ∀ y (b : List α × Nat),
      (List.range TrianglePattern.ORDER).foldlM (fun (b : List β × Nat) x =>
        if x ≤ y then ((read (b.2 + 1)).map g).map fun v => (b.1 ++ [v], b.2 + 1) else some b)
        (b.1.map g, b.2) =
      ((List.range TrianglePattern.ORDER).foldlM (fun (b : List α × Nat) x =>
        if x ≤ y then (read (b.2 + 1)).map fun v => (b.1 ++ [v], b.2 + 1) else some b) b).map
        (fun r => (r.1.map g, r.2)) := by
    intro y b
    refine foldlM_natural (fun r : List α × Nat => (r.1.map g, r.2)) _ _ _ ?_ b
    intro a x _
    by_cases hx : x ≤ y
    · simp only [hx, if_true]
      cases read (a.2 + 1) <;> simp
    · simp only [hx, if_false, Option.map_some']
  have hout := foldlM_natural (fun r : List (List α) × Nat => (r.1.map (List.map g), r.2))
    (fun (a : List (List α) × Nat) y =>
      ((List.range TrianglePattern.ORDER).foldlM (fun (b : List α × Nat) x =>
        if x ≤ y then (read (b.2 + 1)).map fun v => (b.1 ++ [v], b.2 + 1) else some b)
        ([], a.2)).map fun r => (a.1 ++ [r.1], r.2))
    (fun (a : List (List β) × Nat) y =>
      ((List.range TrianglePattern.ORDER).foldlM (fun (b : List β × Nat) x =>
        if x ≤ y then ((read (b.2 + 1)).map g).map fun v => (b.1 ++ [v], b.2 + 1) else some b)
        ([], a.2)).map fun r => (a.1 ++ [r.1], r.2))
    (List.range TrianglePattern.ORDER) (by
      intro a y _
      have := hin y ([], a.2)
      simp only [List.map_nil] at this
      dsimp only
      rw [this, Option.map_map, Option.map_map]
      refine congrFun (congrArg Option.map ?_) _
      funext r
      simp) ([], 0)
  simp only [List.map_nil] at hout
  rw [hout, Option.map_map, Option.map_map]
  rfl

theorem rectangle_format_map {α β : Type} (g : α → β) (read : Nat → Option α) :
    RectanglePattern.formatWith (fun i => (read i).map g) =
      (RectanglePattern.formatWith read).map (List.map (List.map g)) := by
  unfold RectanglePattern.formatWith
  have hin : ∀ (b : List α × Nat),
      (List.range RectanglePattern.WIDTH).foldlM (fun (b : List β × Nat) (_ : Nat) =>
        ((read (b.2 + 1)).map g).map fun v => (b.1 ++ [v], b.2 + 1))
        (b.1.map g, b.2) =
      ((List.range RectanglePattern.WIDTH).foldlM (fun (b : List α × Nat) (_ : Nat) =>
        (read (b.2 + 1)).map fun v => (b.1 ++ [v], b.2 + 1)) b).map
        (fun r => (r.1.map g, r.2)) := by
    intro b
    refine foldlM_natural (fun r : List α × Nat => (r.1.map g, r.2)) _ _ _ ?_ b
    intro a x _
    cases read (a.2 + 1) <;> simp
  have hout := foldlM_natural (fun r : List (List α) × Nat => (r.1.map (List.map g), r.2))
    (fun (a : List (List α) × Nat) (_ : Nat) =>
      ((List.range RectanglePattern.WIDTH).foldlM (fun (b : List α × Nat) (_ : Nat) =>
        (read (b.2 + 1)).map fun v => (b.1 ++ [v], b.2 + 1))
        ([], a.2)).map fun r => (a.1 ++ [r.1], r.2))
    (fun (a : List (List β) × Nat) (_ : Nat) =>
      ((List.range RectanglePattern.WIDTH).foldlM (fun (b : List β × Nat) (_ : Nat) =>
        ((read (b.2 + 1)).map g).map fun v => (b.1 ++ [v], b.2 + 1))
        ([], a.2)).map fun r => (a.1 ++ [r.1], r.2))
    (List.range RectanglePattern.HEIGHT) (by
      intro a y _
      have := hin ([], a.2)
      simp only [List.map_nil] at this
      dsimp only
      rw [this, Option.map_map, Option.map_map]
      refine congrFun (congrArg Option.map ?_) _
      funext r
      simp) ([], 0)
  simp only [List.map_nil] at hout
  rw [hout, Option.map_map, Option.map_map]
  rfl

theorem pyramid_format_map {α β : Type} (t : PyramidPattern) (g : α → β)
    (filler : α) (read : Nat → Option α) :
    t.formatWith (g filler) (fun i => (read i).map g) =
      (t.formatWith filler read).map (List.map (List.map g)) := by
  unfold PyramidPattern.formatWith
  have hk : ∀ i j (row : List α),
      (List.range (j + 1)).foldlM (fun (row1 : List β) k =>
        if j ≥ i then
          ((t.floors[j]?).bind fun table => table[i * (j + 1) + k]?).bind fun e =>
            ((read e).map g).map fun v => row1 ++ [v]
        else some (row1 ++ [g filler])) (row.map g) =
      ((List.range (j + 1)).foldlM (fun (row1 : List α) k =>
        if j ≥ i then
          ((t.floors[j]?).bind fun table => table[i * (j + 1) + k]?).bind fun e =>
            (read e).map fun v => row1 ++ [v]
        else some (row1 ++ [filler])) row).map (List.map g) := by
    intro i j row
    refine foldlM_natural (List.map g) _ _ _ ?_ row
    intro a k _
    by_cases hj : j ≥ i
    · simp only [hj, if_true]
      cases (t.floors[j]?).bind fun table => table[i * (j + 1) + k]? with
      | none => rfl
      | some e =>
        simp only [Option.some_bind]
        cases read e <;> simp
    · simp [hj]
  have hj : ∀ i (row : List α),
      (List.range t.ORDER).foldlM (fun (row : List β) j =>
        ((List.range (j + 1)).foldlM (fun (row1 : List β) k =>
          if j ≥ i then
            ((t.floors[j]?).bind fun table => table[i * (j + 1) + k]?).bind fun e =>
              ((read e).map g).map fun v => row1 ++ [v]
          else some (row1 ++ [g filler])) row).map fun row2 => row2 ++ [g filler])
        (row.map g) =
      ((List.range t.ORDER).foldlM (fun (row : List α) j =>
        ((List.range (j + 1)).foldlM (fun (row1 : List α) k =>
          if j ≥ i then
            ((t.floors[j]?).bind fun table => table[i * (j + 1) + k]?).bind fun e =>
              (read e).map fun v => row1 ++ [v]
          else some (row1 ++ [filler])) row).map fun row2 => row2 ++ [filler]) row).map
        (List.map g) := by
    intro i row
    refine foldlM_natural (List.map g) _ _ _ ?_ row
    intro a j _
    beta_reduce
    rw [hk i j a, Option.map_map, Option.map_map]
    refine congrFun (congrArg Option.map ?_) _
    funext r
    simp
  have hi := foldlM_natural (List.map (List.map g))
    (fun (rows : List (List α)) i =>
      ((List.range t.ORDER).foldlM (fun (row : List α) j =>
        ((List.range (j + 1)).foldlM (fun (row1 : List α) k =>
          if j ≥ i then
            ((t.floors[j]?).bind fun table => table[i * (j + 1) + k]?).bind fun e =>
              (read e).map fun v => row1 ++ [v]
          else some (row1 ++ [filler])) row).map fun row2 => row2 ++ [filler]) []).map
        fun row => rows ++ [row])
    (fun (rows : List (List β)) i =>
      ((List.range t.ORDER).foldlM (fun (row : List β) j =>
        ((List.range (j + 1)).foldlM (fun (row1 : List β) k =>
          if j ≥ i then
            ((t.floors[j]?).bind fun table => table[i * (j + 1) + k]?).bind fun e =>
              ((read e).map g).map fun v => row1 ++ [v]
          else some (row1 ++ [g filler])) row).map fun row2 => row2 ++ [g filler]) []).map
        fun row => rows ++ [row])
    (List.range t.ORDER) (by
      intro a i _
      have := hj i []
      simp only [List.map_nil] at this
      dsimp only
      rw [this, Option.map_map, Option.map_map]
      refine congrFun (congrArg Option.map ?_) _
      funext r
      simp) []
  simpa using hi

/-- The loops of `FormatMatrix` read `piece_matrix` and do nothing else with what they
read. -/
theorem pattern_format_map {α β : Type} (pattern : Pattern) (g : α → β) (filler : α)
    (read : Nat → Option α) :
    pattern.formatWith (g filler) (fun i => (read i).map g) =
      (pattern.formatWith filler read).map (List.map (List.map g)) := by
  cases pattern with
  | triangle t => exact triangle_format_map g read
  | rectangle t => exact rectangle_format_map g read
  | pyramid t => exact pyramid_format_map t g filler read

theorem formatMatrix_def (pattern : Pattern) (solution : List Step) :
    pattern.FormatMatrix solution =
      (pieceMatrix pattern.size solution).bind fun pm =>
        pattern.formatWith (-1) fun i => pm[i]? := by
  cases pattern <;> rfl

end IQPyramidSolver


namespace IQPyramidSolver

set_option maxRecDepth 1000000
set_option maxHeartbeats 4000000

theorem pieceMatrix_writes (solution : List Step) (pm : List Int) :
    solution.foldlM (fun pm step =>
      step.indecies.foldlM (fun pm1 index => writeAt pm1 index (step.block_index : Int)) pm) pm =
    (writesOf solution).foldlM (fun pm w => writeAt pm w.1 w.2) pm := by
  induction solution generalizing pm with
  | nil => rfl
  | cons st rest ih =>
    unfold writesOf
    rw [List.foldlM_cons, List.flatMap_cons, List.foldlM_append, List.foldlM_map]
    refine congrArg _ ?_
    funext pm1
    exact ih pm1

/-- The writes into a vector: all of them inside the vector, they leave a vector of the same
length that holds the old value where nothing was written, and the value written where
one write went. -/
theorem writes_spec (W : List (Nat × Int)) (pm : List Int) (hr : ∀ w ∈ W, w.1 < pm.length) :
    ∃ pm1, W.foldlM (fun pm w => writeAt pm w.1 w.2) pm = some pm1 ∧ pm1.length = pm.length ∧
      (∀ i, i ∉ W.map Prod.fst → pm1[i]? = pm[i]?) ∧
      ((W.map Prod.fst).Nodup → ∀ w ∈ W, pm1[w.1]? = some w.2) := by
  induction W generalizing pm with
  | nil => exact ⟨pm, rfl, rfl, fun _ _ => rfl, fun _ w hw => absurd hw (by simp)⟩
  | cons w W ih =>
    have hw := hr w (by simp)
    obtain ⟨pm1, h1, h2, h3, h4⟩ := ih (pm.set w.1 w.2) (fun v hv => by
      rw [List.length_set]
      exact hr v (List.mem_cons_of_mem _ hv))
    refine ⟨pm1, ?_, by rw [h2, List.length_set], ?_, ?_⟩
    · rw [List.foldlM_cons]
      unfold writeAt
      rw [if_pos hw]
      exact h1
    · intro i hi
      rw [List.map_cons, List.mem_cons, not_or] at hi
      rw [h3 i hi.2, List.getElem?_set_ne (fun e => hi.1 e.symm)]
    · intro hnd v hv
      rw [List.map_cons, List.nodup_cons] at hnd
      rcases List.mem_cons.1 hv with rfl | hv
      · rw [h3 _ hnd.1, List.getElem?_set_self hw]
      · exact h4 hnd.2 v hv

theorem map_fst_writesOf (solution : List Step) :
    (writesOf solution).map Prod.fst = solution.flatMap fun st => st.indecies := by
  unfold writesOf
  rw [List.map_flatMap]
  congr 1
  funext st
  rw [List.map_map]
  exact List.map_id' _

/-- The vector `piece_matrix` of a solution whose steps cover the cells `1..size`, each
once: it holds at every cell the `block_index` of the step that covers it. -/
theorem pieceMatrix_eq (size : Nat) (solution : List Step)
    (hv : (solution.flatMap fun st => st.indecies).Perm (List.range' 1 size)) :
    ∃ pm, pieceMatrix size solution = some pm ∧ pm.length = size + 1 ∧
      ∀ st ∈ solution, ∀ cell ∈ st.indecies, pm[cell]? = some (st.block_index : Int) := by
  have hfst := map_fst_writesOf solution
  obtain ⟨pm, h1, h2, -, h4⟩ := writes_spec (writesOf solution) (List.replicate (size + 1) 0)
    (fun w hw => by
      have : w.1 ∈ (writesOf solution).map Prod.fst := List.mem_map.2 ⟨w, hw, rfl⟩
      rw [hfst] at this
      have := List.mem_range'_1.1 (hv.subset this)
      rw [List.length_replicate]
      omega)
  rw [List.length_replicate] at h2
  refine ⟨pm, ?_, h2, fun st hst cell hc => ?_⟩
  · unfold pieceMatrix
    rw [pieceMatrix_writes]
    exact h1
  · have hnd : ((writesOf solution).map Prod.fst).Nodup := by
      rw [hfst]
      exact hv.nodup_iff.2 (List.nodup_range' 1 size)
    exact h4 hnd (cell, (st.block_index : Int)) (by
      unfold writesOf
      exact List.mem_flatMap.2 ⟨st, hst, List.mem_map.2 ⟨cell, hc, rfl⟩⟩)

/-- The grid of a solution is the grid of the places of the board with the entry of
`piece_matrix` at every place that stands for a cell, and `-1` at the others. -/
theorem formatMatrix_eq (pattern : Pattern) (lay : List (List (Option Nat)))
    (hl : pattern.layout = some lay) (solution : List Step)
    (hv : (solution.flatMap fun st => st.indecies).Perm (List.range' 1 pattern.size)) :
    ∃ pm, pieceMatrix pattern.size solution = some pm ∧ pm.length = pattern.size + 1 ∧
      (∀ st ∈ solution, ∀ cell ∈ st.indecies, pm[cell]? = some (st.block_index : Int)) ∧
      pattern.FormatMatrix solution = some (lay.map (List.map (render pm))) := by
  obtain ⟨pm, h1, h2, h3⟩ := pieceMatrix_eq pattern.size solution hv
  refine ⟨pm, h1, h2, h3, ?_⟩
  have hread : (fun i => pm[i]?) = fun i =>
      ((if i ≤ pattern.size then some (some i) else none : Option (Option Nat))).map
        (render pm) := by
    funext i
    by_cases hi : i ≤ pattern.size
    · rw [if_pos hi, Option.map_some', List.getElem?_eq_getElem (by omega)]
      simp [render, List.getD_eq_getElem?_getD, List.getElem?_eq_getElem (show i < pm.length by omega)]
    · rw [if_neg hi, Option.map_none', List.getElem?_eq_none (by omega)]
  rw [formatMatrix_def, h1, Option.some_bind, hread]
  have := pattern_format_map pattern (render pm) none
    (fun i => if i ≤ pattern.size then some (some i) else none)
  unfold Pattern.layout at hl
  rw [hl] at this
  exact this

theorem forall₂_map_self {α β : Type} (R : α → β → Prop) (f : α → β) (l : List α)
    (h : ∀ a ∈ l, R a (f a)) : List.Forall₂ R l (l.map f) := by
  induction l with
  | nil => exact List.Forall₂.nil
  | cons a l ih =>
    exact List.Forall₂.cons (h a (by simp)) (ih fun b hb => h b (List.mem_cons_of_mem _ hb))

/-- The places of the grids of the four boards. -/
theorem layout_boards : ∀ type ∈ boardTypes,
    ((selectPattern type).any fun p => p.layout.any fun lay => decide (p.LayoutGood lay)) =
      true := by
  decide!

/-- The facts of C14 for a board with a good grid of places. -/
theorem format_pattern (pattern : Pattern) (lay : List (List (Option Nat)))
    (hl : pattern.layout = some lay) (hg : pattern.LayoutGood lay) (solution : List Step)
    (hv : (solution.flatMap fun st => st.indecies).Perm (List.range' 1 pattern.size)) :
    (∀ cell, ∀ st1 ∈ solution, ∀ st2 ∈ solution, cell ∈ st1.indecies → cell ∈ st2.indecies →
      st1 = st2) ∧
    ∃ grid, pattern.FormatMatrix solution = some grid ∧
      List.Forall₂ (List.Forall₂ (Shows solution)) lay grid ∧
      (pattern.isPyramid = false → ∀ row ∈ grid, (-1 : Int) ∉ row) := by
  obtain ⟨pm, -, hlen, hpm, hf⟩ := formatMatrix_eq pattern lay hl solution hv
  obtain ⟨-, g2, g3⟩ := hg
  have hnd : (solution.flatMap fun st => st.indecies).Nodup :=
    hv.nodup_iff.2 (List.nodup_range' 1 pattern.size)
  have hshow : ∀ row ∈ lay, ∀ e ∈ row, Shows solution e (render pm e) := by
    intro row hrow e he
    cases e with
    | none => rfl
    | some cell =>
      have hin := g2 (some cell) (List.mem_flatten.2 ⟨row, hrow, he⟩)
      simp only [Option.all_some, decide_eq_true_eq] at hin
      have hc : cell ∈ List.range' 1 pattern.size := List.mem_range'_1.2 ⟨hin.1, by omega⟩
      obtain ⟨st, hst, hcst⟩ := List.mem_flatMap.1 (hv.symm.subset hc)
      refine ⟨st, hst, hcst, ?_⟩
      have := hpm st hst cell hcst
      simp [render, List.getD_eq_getElem?_getD, this]
  refine ⟨?_, _, hf, ?_, ?_⟩
  · intro cell st1 h1 st2 h2 hc1 hc2
    by_contra hne
    have hp := (List.nodup_flatMap.1 hnd).2
    have hsym : Symmetric (fun a b : Step => List.Disjoint a.indecies b.indecies) :=
      fun a b hab => hab.symm
    exact List.Pairwise.forall hsym hp h1 h2 hne hc1 hc2
  · exact forall₂_map_self _ _ _ fun row hrow =>
      forall₂_map_self _ _ _ fun e he => hshow row hrow e he
  · intro hp row hrow hmem
    obtain ⟨row0, hrow0, rfl⟩ := List.mem_map.1 hrow
    obtain ⟨e, he, hev⟩ := List.mem_map.1 hmem
    have hs := hshow row0 hrow0 e he
    cases e with
    | none => exact g3 hp (List.mem_flatten.2 ⟨row0, hrow0, he⟩)
    | some cell =>
      obtain ⟨st, -, -, hval⟩ := hs
      rw [hev] at hval
      omega

/-- C14. The method `FormatMatrix` is the inverse mapping: for each of the four boards `main`
can select (the triangle, the rectangle, the pyramids of order 4 and 5) there is a grid
`lay` of places, the same for all solutions, in which every cell id `1..size()` stands at
exactly one place and nothing else stands but `none`, and `none` not at all for the
triangle and the rectangle; for every list of steps whose covered indices are the cells
`1..size()`, each once, every cell has one step that covers it, `FormatMatrix` returns
without a read or write outside a vector, and the grid it returns has, place by place,
the `block_index` of the step that covers the cell standing at that place, and `-1` at
the places where `none` stands; the grids of the triangle and of the rectangle hold no
`-1`. -/
theorem formatMatrix_inverse :
    boardTypes = ["t", "r", "p4", "p5"] ∧
    ∀ type ∈ boardTypes, ∃ pattern lay, selectPattern type = some pattern ∧
      pattern.layout = some lay ∧
      (pattern.isPyramid = decide (type = "p4" ∨ type = "p5")) ∧
      (∀ cell ∈ List.range' 1 pattern.size, lay.flatten.count (some cell) = 1) ∧
      (∀ e ∈ lay.flatten, ∀ cell, e = some cell → 1 ≤ cell ∧ cell ≤ pattern.size) ∧
      (pattern.isPyramid = false → none ∉ lay.flatten) ∧
      ∀ solution : List Step,
        (solution.flatMap fun st => st.indecies).Perm (List.range' 1 pattern.size) →
        (∀ cell, ∀ st1 ∈ solution, ∀ st2 ∈ solution, cell ∈ st1.indecies →
          cell ∈ st2.indecies → st1 = st2) ∧
        ∃ grid, pattern.FormatMatrix solution = some grid ∧
          List.Forall₂ (List.Forall₂ (Shows solution)) lay grid ∧
          (pattern.isPyramid = false → ∀ row ∈ grid, (-1 : Int) ∉ row) := by
  refine ⟨rfl, fun type ht => ?_⟩
  have h := layout_boards type ht
  have hp : ((selectPattern type).all fun p =>
      decide (p.isPyramid = decide (type = "p4" ∨ type = "p5"))) = true := by
    revert type
    decide!
  cases hs : selectPattern type with
  | none => rw [hs] at h; exact absurd h (by decide)
  | some pattern =>
    rw [hs] at h hp
    simp only [Option.any_some] at h
    simp only [Option.all_some, decide_eq_true_eq] at hp
    cases hl : pattern.layout with
    | none => simp [hl] at h
    | some lay =>
      rw [hl] at h
      simp only [Option.any_some, decide_eq_true_eq] at h
      refine ⟨pattern, lay, rfl, hl, hp, h.1, ?_, h.2.2, fun solution hv =>
        format_pattern pattern lay hl h solution hv⟩
      intro e he cell hc
      have := h.2.1 e he
      rw [hc] at this
      simpa using this

end IQPyramidSolver


namespace IQPyramidSolver

open DancingLinkX

set_option maxRecDepth 1000000
set_option maxHeartbeats 4000000

theorem column_choice_witness :
    WellFormed 2 [([1], 0), ([2], 1), ([1, 2], 2)] ∧
    (nodeCount 2 [([1], 0), ([2], 1), ([1, 2], 2)] : Int) ≤ INT_MAX ∧
    Reach (build 2 [([1], 0), ([2], 1), ([1, 2], 2)] true) []
      (build 2 [([1], 0), ([2], 1), ([1, 2], 2)] true) ∧
    (∃ c, InHeaderRing (build 2 [([1], 0), ([2], 1), ([1, 2], 2)] true) c ∧
      (c : Int) ≤ (build 2 [([1], 0), ([2], 1), ([1, 2], 2)] true).max_column) ∧
    nodeCount 2 [([1], 0), ([2], 1), ([1, 2], 2)] < 40 ∧
    ∃ now, selectLoop (build 2 [([1], 0), ([2], 1), ([1, 2], 2)] true) 40
        ((build 2 [([1], 0), ([2], 1), ([1, 2], 2)] true).Right 0) INT_MAX
        ((build 2 [([1], 0), ([2], 1), ([1, 2], 2)] true).Right 0) = some now ∧
      InHeaderRing (build 2 [([1], 0), ([2], 1), ([1, 2], 2)] true) now ∧
      (now : Int) ≤ (build 2 [([1], 0), ([2], 1), ([1, 2], 2)] true).max_column ∧
      (∀ c, InHeaderRing (build 2 [([1], 0), ([2], 1), ([1, 2], 2)] true) c →
        (c : Int) ≤ (build 2 [([1], 0), ([2], 1), ([1, 2], 2)] true).max_column →
        (build 2 [([1], 0), ([2], 1), ([1, 2], 2)] true).Count now ≤
          (build 2 [([1], 0), ([2], 1), ([1, 2], 2)] true).Count c) ∧
      ∃ k, Nat.iterate (build 2 [([1], 0), ([2], 1), ([1, 2], 2)] true).Right (k + 1) 0 = now ∧
        ∀ j < k,
          Nat.iterate (build 2 [([1], 0), ([2], 1), ([1, 2], 2)] true).Right (j + 1) 0 ≠ 0 ∧
          ((Nat.iterate (build 2 [([1], 0), ([2], 1), ([1, 2], 2)] true).Right (j + 1) 0 : Nat) :
            Int) ≤ (build 2 [([1], 0), ([2], 1), ([1, 2], 2)] true).max_column ∧
          (build 2 [([1], 0), ([2], 1), ([1, 2], 2)] true).Count now <
            (build 2 [([1], 0), ([2], 1), ([1, 2], 2)] true).Count
              (Nat.iterate (build 2 [([1], 0), ([2], 1), ([1, 2], 2)] true).Right (j + 1) 0) :=
  ⟨by decide, by decide, Reach.init, ⟨2, ⟨by decide, 2, by decide⟩, by decide⟩, by decide,
    DancingLinkX.column_choice 2 [([1], 0), ([2], 1), ([1, 2], 2)] true (by decide) (by decide)
      [] _ Reach.init ⟨2, ⟨by decide, 2, by decide⟩, by decide⟩ 40 (by decide)⟩

theorem terminal_condition_witness :
    WellFormed 2 [([1], 0), ([2], 1), ([1, 2], 2)] ∧
    Reach (build 2 [([1], 0), ([2], 1), ([1, 2], 2)] false) []
      (build 2 [([1], 0), ([2], 1), ([1, 2], 2)] false) ∧
    nodeCount 2 [([1], 0), ([2], 1), ([1, 2], 2)] < 40 ∧
    (build 2 [([1], 0), ([2], 1), ([1, 2], 2)] false).max_column =
      (if false = true then ((2 + 12 : Nat) : Int) else ((2 : Nat) : Int)) ∧
    (((build 2 [([1], 0), ([2], 1), ([1, 2], 2)] false).Right 0 = 0 ∨
        (((build 2 [([1], 0), ([2], 1), ([1, 2], 2)] false).Right 0 : Nat) : Int) >
          (build 2 [([1], 0), ([2], 1), ([1, 2], 2)] false).max_column) ↔
      ∀ c : Nat, 1 ≤ c → (c : Int) ≤ (build 2 [([1], 0), ([2], 1), ([1, 2], 2)] false).max_column →
        ¬ InHeaderRing (build 2 [([1], 0), ([2], 1), ([1, 2], 2)] false) c) ∧
    (∃ done added, Dance 40 (build 2 [([1], 0), ([2], 1), ([1, 2], 2)] false) = some done ∧
      done = { build 2 [([1], 0), ([2], 1), ([1, 2], 2)] false with
        Answers := (build 2 [([1], 0), ([2], 1), ([1, 2], 2)] false).Answers ++ added } ∧
      ((∀ c : Nat, 1 ≤ c →
          (c : Int) ≤ (build 2 [([1], 0), ([2], 1), ([1, 2], 2)] false).max_column →
          ¬ InHeaderRing (build 2 [([1], 0), ([2], 1), ([1, 2], 2)] false) c) →
        added = [(build 2 [([1], 0), ([2], 1), ([1, 2], 2)] false).Answer]) ∧
      ((∃ c : Nat, 1 ≤ c ∧
          (c : Int) ≤ (build 2 [([1], 0), ([2], 1), ([1, 2], 2)] false).max_column ∧
          InHeaderRing (build 2 [([1], 0), ([2], 1), ([1, 2], 2)] false) c) →
        (build 2 [([1], 0), ([2], 1), ([1, 2], 2)] false).Answer ∉ added ∧
        ∀ ans ∈ added, ∃ r sol,
          ans = (build 2 [([1], 0), ([2], 1), ([1, 2], 2)] false).Answer ++ r :: sol)) ∧
    ∃ n, (∀ j < n,
        Nat.iterate (build 2 [([1], 0), ([2], 1), ([1, 2], 2)] false).Right (j + 1) 0 ≠ 0 ∧
        InHeaderRing (build 2 [([1], 0), ([2], 1), ([1, 2], 2)] false)
          (Nat.iterate (build 2 [([1], 0), ([2], 1), ([1, 2], 2)] false).Right (j + 1) 0)) ∧
      Nat.iterate (build 2 [([1], 0), ([2], 1), ([1, 2], 2)] false).Right (n + 1) 0 = 0 ∧
      ∀ j k, j < k → k < n →
        Nat.iterate (build 2 [([1], 0), ([2], 1), ([1, 2], 2)] false).Right (j + 1) 0 <
          Nat.iterate (build 2 [([1], 0), ([2], 1), ([1, 2], 2)] false).Right (k + 1) 0 :=
  ⟨by decide, Reach.init, by decide,
    DancingLinkX.terminal_condition 2 [([1], 0), ([2], 1), ([1, 2], 2)] false (by decide)
      [] _ Reach.init 40 (by decide)⟩

theorem replay_equivalence_witness :
    WellFormed 2 [([1], 0), ([2], 1), ([1, 2], 2)] ∧
    nodeCount 2 [([1], 0), ([2], 1), ([1, 2], 2)] + 1 < 40 ∧
    ∃ recorded log,
      Spread 40 0 1 (build 2 [([1], 0), ([2], 1), ([1, 2], 2)] false) [] =
        some (build 2 [([1], 0), ([2], 1), ([1, 2], 2)] false, recorded) ∧
      SpreadLog 40 0 1 (build 2 [([1], 0), ([2], 1), ([1, 2], 2)] false) [] =
        some (build 2 [([1], 0), ([2], 1), ([1, 2], 2)] false, log) ∧
      log.map (fun e => e.1) = recorded ∧
      ∀ e ∈ log, ∃ clone,
        replay 40 e.1 (copy (build 2 [([1], 0), ([2], 1), ([1, 2], 2)] false)) = some clone ∧
        clone.Answer = e.2.Answer ∧ e.2.Answer = e.1 ∧
        (∀ c, InHeaderRing clone c ↔ InHeaderRing e.2 c) ∧
        (∀ k, Nat.iterate clone.Right k 0 = Nat.iterate e.2.Right k 0 ∧
          Nat.iterate clone.Left k 0 = Nat.iterate e.2.Left k 0) ∧
        (∀ c, InHeaderRing e.2 c → clone.Count c = e.2.Count c ∧
          ∀ k, Nat.iterate clone.Down k c = Nat.iterate e.2.Down k c ∧
            Nat.iterate clone.Up k c = Nat.iterate e.2.Up k c) ∧
        ∃ d1 d2 answers, Dance 40 e.2 = some d1 ∧ Dance 40 clone = some d2 ∧
          d1.Answers = e.2.Answers ++ answers ∧ d2.Answers = answers :=
  ⟨by decide, by decide,
    DancingLinkX.replay_equivalence 2 [([1], 0), ([2], 1), ([1, 2], 2)] false (by decide) 1 40
      (by decide)⟩

theorem prefixes_disjoint_witness :
    WellFormed 2 [([1], 0), ([2], 1), ([1, 2], 2)] ∧
    nodeCount 2 [([1], 0), ([2], 1), ([1, 2], 2)] + 1 < 40 ∧
    ∃ recorded results,
      Spread 40 0 1 (build 2 [([1], 0), ([2], 1), ([1, 2], 2)] false) [] =
        some (build 2 [([1], 0), ([2], 1), ([1, 2], 2)] false, recorded) ∧
      solve 40 1 (build 2 [([1], 0), ([2], 1), ([1, 2], 2)] false) = some results ∧
      recorded.Nodup ∧
      (∀ p ∈ recorded, ∀ q ∈ recorded, p ≠ q →
        ∃ r1 ∈ p, ∃ r2 ∈ q, r1 ≠ r2 ∧
          ∃ c, c ∈ rowCols 2 [([1], 0), ([2], 1), ([1, 2], 2)] r1 ∧
            c ∈ rowCols 2 [([1], 0), ([2], 1), ([1, 2], 2)] r2) ∧
      results.Pairwise (fun a b => ¬ a.Perm b) ∧ results.Nodup :=
  ⟨by decide, by decide,
    DancingLinkX.prefixes_disjoint 2 [([1], 0), ([2], 1), ([1, 2], 2)] false (by decide) 1 40
      (by decide)⟩

end IQPyramidSolver


namespace IQPyramidSolver
namespace DancingLinkX

/-- The facts of C21: `Spread` on a matrix built with `Link`. -/
theorem spread_links (nc : Nat) (links : List (Nat × Nat)) (hw : WellLinked nc links)
    (node_count row_count : Nat) (isComplete : Bool) (d : Nat) (list : List (List Nat))
    (fuel : Nat) (hfuel : links.length + nc + d + 1 < fuel) :
    ∃ added, Spread fuel 0 d
        (links.foldl (fun t e => Link e.1 e.2 t) (new node_count row_count nc isComplete)) list =
      some (links.foldl (fun t e => Link e.1 e.2 t) (new node_count row_count nc isComplete),
        list ++ added) := by
  have hinv := inv_foldl_link nc links [] _ (inv_new node_count row_count nc isComplete)
    (by simpa using hw)
  rw [List.nil_append] at hinv
  exact ⟨_, spread_eq nc links hw d _ _ 0 d list fuel hinv (by omega) (by omega)
    (by rw [List.length_range']; omega)⟩

/-- C21. The method `Spread` leaves the template unchanged: for every matrix built with
`Link` on a fresh object (every link into one of the columns `1..column_count`, no row
linked to a column twice), every depth `d` and every list, `Spread(0, d, list)` returns;
`Left`, `Right`, `Up`, `Down`, `Count`, `Column`, `Row`, `Header` and `Answer` (and every
other member) are what they were before the call, the list has only grown at its end, and
a copy taken afterwards is the copy of the matrix as it was built. -/
theorem spread_leaves_template (nc : Nat) (links : List (Nat × Nat)) (hw : WellLinked nc links)
    (node_count row_count : Nat) (isComplete : Bool) (d : Nat) (list : List (List Nat))
    (fuel : Nat) (hfuel : links.length + nc + d + 1 < fuel) :
    ∃ r, Spread fuel 0 d
        (links.foldl (fun t e => Link e.1 e.2 t) (new node_count row_count nc isComplete)) list =
        some r ∧
      r.1 = links.foldl (fun t e => Link e.1 e.2 t) (new node_count row_count nc isComplete) ∧
      r.1.Left = (links.foldl (fun t e => Link e.1 e.2 t)
        (new node_count row_count nc isComplete)).Left ∧
      r.1.Right = (links.foldl (fun t e => Link e.1 e.2 t)
        (new node_count row_count nc isComplete)).Right ∧
      r.1.Up = (links.foldl (fun t e => Link e.1 e.2 t)
        (new node_count row_count nc isComplete)).Up ∧
      r.1.Down = (links.foldl (fun t e => Link e.1 e.2 t)
        (new node_count row_count nc isComplete)).Down ∧
      r.1.Count = (links.foldl (fun t e => Link e.1 e.2 t)
        (new node_count row_count nc isComplete)).Count ∧
      r.1.Column = (links.foldl (fun t e => Link e.1 e.2 t)
        (new node_count row_count nc isComplete)).Column ∧
      r.1.Row = (links.foldl (fun t e => Link e.1 e.2 t)
        (new node_count row_count nc isComplete)).Row ∧
      r.1.Header = (links.foldl (fun t e => Link e.1 e.2 t)
        (new node_count row_count nc isComplete)).Header ∧
      r.1.Answer = (links.foldl (fun t e => Link e.1 e.2 t)
        (new node_count row_count nc isComplete)).Answer ∧
      (∃ added, r.2 = list ++ added) ∧
      copy r.1 = copy (links.foldl (fun t e => Link e.1 e.2 t)
        (new node_count row_count nc isComplete)) := by
  obtain ⟨added, h⟩ := spread_links nc links hw node_count row_count isComplete d list fuel hfuel
  exact ⟨_, h, rfl, rfl, rfl, rfl, rfl, rfl, rfl, rfl, rfl, rfl, ⟨added, rfl⟩, rfl⟩

/-- On a two-way ring each of the two maps undoes the other. -/
theorem ring_inverse (next prev : Nat → Nat) (a : Nat) (l : List Nat)
    (h : Ring next prev a l) : ∀ y ∈ a :: l, prev (next y) = y ∧ next (prev y) = y := by
  intro y hy
  rcases List.mem_cons.1 hy with rfl | hy
  · cases l with
    | nil =>
      have h1 : next y = y := h.1
      have h2 : prev y = y := h.2
      exact ⟨by rw [h1, h2], by rw [h2, h1]⟩
    | cons x l =>
      have hn := ring_next_start next prev y _ h
      have hp := ring_prev_start next prev y _ h
      simp only [List.headD_cons] at hn
      constructor
      · rw [hn]
        exact ring_prev next prev y [] x l h
      · rw [hp]
        obtain ⟨l1, z, hz⟩ : ∃ l1 z, x :: l = l1 ++ [z] :=
          ⟨(x :: l).dropLast, (x :: l).getLast (by simp),
            (List.dropLast_append_getLast (by simp)).symm⟩
        rw [hz] at h ⊢
        rw [List.getLastD_concat]
        have := ring_next next prev y l1 z [] h
        simpa using this
  · obtain ⟨l1, l2, rfl⟩ := List.append_of_mem hy
    exact ⟨(ring_link_back next prev a l1 y l2 h).2, (ring_link_back next prev a l1 y l2 h).1⟩

/-- The rings and the counters of a state that satisfies the invariant. -/
theorem rings_of_inv (nc : Nat) (links : List (Nat × Nat)) (L : List Nat) (s : DancingLinkX)
    (hinv : Inv nc links L s) :
    (∀ x, nc < x → x ≤ s.counter → ∃ l, Path s.Right x l x ∧ (x :: l).Nodup ∧
      (∀ n, n ∈ x :: l ↔ (nc < n ∧ n ≤ s.counter ∧ s.Row n = s.Row x)) ∧
      ∀ y ∈ x :: l, s.Left (s.Right y) = y ∧ s.Right (s.Left y) = y) ∧
    (∃ l, Path s.Right 0 l 0 ∧ (0 :: l).Nodup ∧ (∀ c, c ∈ l ↔ InHeaderRing s c) ∧
      ∀ y ∈ 0 :: l, s.Left (s.Right y) = y ∧ s.Right (s.Left y) = y) ∧
    ∀ c, InHeaderRing s c → ∃ l, Path s.Down c l c ∧ (c :: l).Nodup ∧
      (l.length : Int) = s.Count c ∧ (∀ n ∈ l, s.Column n = c) ∧
      ∀ y ∈ c :: l, s.Up (s.Down y) = y ∧ s.Down (s.Up y) = y := by
  have hcnt := hinv.static.counter_eq
  refine ⟨fun x hx1 hx2 => ?_, ?_, fun c hc => ?_⟩
  · obtain ⟨e, he⟩ : ∃ e, links[x - (nc + 1)]? = some e := by
      have hlt : x - (nc + 1) < links.length := by omega
      exact ⟨_, List.getElem?_eq_getElem hlt⟩
    have hxr : x ∈ rowNodes nc links e.1 := (mem_rowNodes nc links e.1 x).2 ⟨e.2, by omega, he⟩
    have hrow : s.Row x = e.1 := (column_eq_colOf nc links s hinv.static e.1 x hxr).2.1
    have hring := ring_row nc links s hinv.static x e.1 hxr
    refine ⟨rowOthers nc links x, hring.1, List.nodup_cons.2
      ⟨fun h => ((mem_rowOthers nc links x e.1 hxr x).1 h).2 rfl,
        nodup_rowOthers nc links x e.1 hxr⟩, fun n => ?_, ring_inverse _ _ _ _ hring⟩
    have hmem : n ∈ x :: rowOthers nc links x ↔ n ∈ rowNodes nc links e.1 := by
      rw [List.mem_cons, mem_rowOthers nc links x e.1 hxr n]
      constructor
      · rintro (rfl | h)
        · exact hxr
        · exact h.1
      · intro h
        by_cases hn : n = x
        · exact Or.inl hn
        · exact Or.inr ⟨h, hn⟩
    rw [hmem, hrow]
    constructor
    · intro hn
      have h1 := lt_of_mem_nodeIds nc links _ n hn
      have h2 := nodeIds_lt nc links _ n hn
      exact ⟨h1, by omega, (column_eq_colOf nc links s hinv.static e.1 n hn).2.1⟩
    · rintro ⟨h1, h2, h3⟩
      have hlt : n - (nc + 1) < links.length := by omega
      have hg : links[n - (nc + 1)]? = some links[n - (nc + 1)] := List.getElem?_eq_getElem hlt
      have hinc := (hinv.static.incidence (n - (nc + 1)) _ hg).1
      rw [show nc + 1 + (n - (nc + 1)) = n by omega, h3] at hinc
      refine (mem_rowNodes nc links e.1 n).2 ⟨(links[n - (nc + 1)]).2, by omega, ?_⟩
      rw [hg, hinc]
  · exact ⟨L, hinv.header_ring.1, inv_nodup nc links L s hinv,
      fun c => (inHeaderRing_iff nc links L s hinv c).symm,
      ring_inverse _ _ _ _ hinv.header_ring⟩
  · have hcL := (inHeaderRing_iff nc links L s hinv c).1 hc
    obtain ⟨h1, h2⟩ := hinv.columns c (List.mem_cons_of_mem _ hcL)
    rw [filter_not_mem_nil] at h1 h2
    have hnd := nodup_ring nc links L c (inv_le nc links L s hinv c hcL) (fun _ => true)
    rw [List.filter_true] at hnd
    exact ⟨ringNodes nc links L c, h1.1, hnd, h2.symm,
      fun n hn => column_of_mem_ringNodes nc links L s hinv.static c n hn,
      ring_inverse _ _ _ _ h1⟩

/-- C22. Ring and count invariant: in the matrix `main` builds with `Link` and in every
state reached from it by complete calls of `Delete` and `Recover` (the states `KnownStep`,
`Spread` and `Dance` are in between such calls), following `Right` from any node leads back
to it through exactly the other nodes of its row, each once; `Left` undoes `Right` and
`Right` undoes `Left` on every row ring and on the header ring; and for every column `c` of
the header ring following `Down` from `c` leads back to `c` through exactly `Count[c]`
nodes, each once, all of which have `Column = c`, and `Up` undoes `Down` and `Down` undoes
`Up` on that ring. -/
theorem ring_count_invariant (size : Nat) (steps : List (List Nat × Nat)) (isComplete : Bool)
    (hwf : WellFormed size steps) (stack : List Nat) (s : DancingLinkX)
    (hr : Reach (build size steps isComplete) stack s) :
    (∀ x, size + PIECES < x → x ≤ s.counter → ∃ l, Path s.Right x l x ∧ (x :: l).Nodup ∧
      (∀ n, n ∈ x :: l ↔ (size + PIECES < n ∧ n ≤ s.counter ∧ s.Row n = s.Row x)) ∧
      ∀ y ∈ x :: l, s.Left (s.Right y) = y ∧ s.Right (s.Left y) = y) ∧
    (∃ l, Path s.Right 0 l 0 ∧ (0 :: l).Nodup ∧ (∀ c, c ∈ l ↔ InHeaderRing s c) ∧
      ∀ y ∈ 0 :: l, s.Left (s.Right y) = y ∧ s.Right (s.Left y) = y) ∧
    ∀ c, InHeaderRing s c → ∃ l, Path s.Down c l c ∧ (c :: l).Nodup ∧
      (l.length : Int) = s.Count c ∧ (∀ n ∈ l, s.Column n = c) ∧
      ∀ y ∈ c :: l, s.Up (s.Down y) = y ∧ s.Down (s.Up y) = y := by
  obtain ⟨L, hinv⟩ := reach_inv size steps isComplete hwf stack s hr
  exact rings_of_inv _ _ L s hinv

end DancingLinkX
end IQPyramidSolver


namespace IQPyramidSolver

theorem writeAt_eq {α : Type} (v : List α) (i : Nat) (x : α) (h : i < v.length) :
    writeAt v i x = some (v.set i x) := by
  unfold writeAt
  rw [if_pos h]

theorem read_some {α : Type} (v : List α) (i : Nat) (h : i < v.length) :
    ∃ a, v[i]? = some a ∧ a ∈ v :=
  ⟨v[i], List.getElem?_eq_getElem h, List.getElem_mem h⟩

theorem mem_set_le (v : List Nat) (i x b : Nat) (hv : ∀ a ∈ v, a ≤ b) (hx : x ≤ b) :
    ∀ a ∈ v.set i x, a ≤ b := by
  intro a ha
  rcases List.mem_or_eq_of_mem_set ha with h | h
  · exact hv a h
  · rw [h]; exact hx

/-- A loop whose body keeps a property and returns, returns, and the property holds at its
end. -/
theorem foldlM_invariant {α β : Type} (P : α → Prop) (f : α → β → Option α) (l : List β)
    (h : ∀ a, ∀ x ∈ l, P a → ∃ b, f a x = some b ∧ P b) (a : α) (ha : P a) :
    ∃ r, l.foldlM f a = some r ∧ P r := by
  induction l generalizing a with
  | nil => exact ⟨a, rfl, ha⟩
  | cons x l ih =>
    obtain ⟨b, hb, hP⟩ := h a x (by simp) ha
    obtain ⟨r, hr, hPr⟩ := ih (fun a y hy => h a y (List.mem_cons_of_mem _ hy)) b hP
    exact ⟨r, by rw [List.foldlM_cons, hb]; exact hr, hPr⟩

namespace Checked
namespace DancingLinkX

open IQPyramidSolver.DancingLinkX (nodeCount linksFrom)

theorem linkColumn_ok (N RC CC row column : Nat) (s : DancingLinkX) (hs : Sized N RC CC s)
    (hc : s.counter + 1 < N) (hcol : column ≤ CC) :
    ∃ s1, linkColumn row column s = some s1 ∧ Sized N RC CC s1 ∧
      s1.counter = s.counter + 1 ∧ s1.Header = s.Header ∧ s1.Left = s.Left ∧
      s1.Right = s.Right := by
  obtain ⟨h1, h2, h3, h4, h5, h6, h7, h8, h9, h10, h11, h12⟩ := hs
  obtain ⟨n, hn, -⟩ := read_some s.Count column (by omega)
  obtain ⟨uc, huc, hucm⟩ := read_some s.Up column (by omega)
  have huc1 : (s.Up.set (s.counter + 1) uc)[column]? = some uc := by
    rw [List.getElem?_set_ne (by omega)]
    exact huc
  have hucle := h10 uc hucm
  refine ⟨{ s with
    counter := s.counter + 1, Column := s.Column.set (s.counter + 1) column,
    Row := s.Row.set (s.counter + 1) row, Count := s.Count.set column (n + 1),
    Up := (s.Up.set (s.counter + 1) uc).set column (s.counter + 1),
    Down := (s.Down.set (s.counter + 1) column).set uc (s.counter + 1) }, ?_, ?_, rfl, rfl, rfl,
    rfl⟩
  · unfold linkColumn
    simp only [writeAt_eq s.Column (s.counter + 1) column (by omega),
      writeAt_eq s.Row (s.counter + 1) row (by omega), hn, huc, Option.some_bind,
      writeAt_eq s.Count column (n + 1) (by omega),
      writeAt_eq s.Up (s.counter + 1) uc (by omega),
      writeAt_eq s.Down (s.counter + 1) column (by omega), huc1,
      writeAt_eq (s.Down.set (s.counter + 1) column) uc (s.counter + 1)
        (by rw [List.length_set]; omega),
      writeAt_eq (s.Up.set (s.counter + 1) uc) column (s.counter + 1)
        (by rw [List.length_set]; omega), Option.map_some']
  · refine ⟨h1, h2, by simp [h3], by simp [h4], by simp [h5], by simp [h6], by simp [h7], h8,
      by show CC ≤ s.counter + 1; omega, ?_, ?_, ?_⟩
    · show ∀ v ∈ (s.Up.set (s.counter + 1) uc).set column (s.counter + 1), v ≤ s.counter + 1
      exact mem_set_le _ _ _ _ (mem_set_le _ _ _ _
        (fun a ha => Nat.le_succ_of_le (h10 a ha)) (by omega)) (le_refl _)
    · exact fun v hv => Nat.le_succ_of_le (h11 v hv)
    · exact fun v hv => Nat.le_succ_of_le (h12 v hv)

/-- A call of `Link` with room left for the new node, a column of the matrix and a row of
the matrix makes no read or write outside a vector. -/
theorem link_ok (N RC CC row column : Nat) (s : DancingLinkX) (hs : Sized N RC CC s)
    (hc : s.counter + 1 < N) (hcol : column ≤ CC) (hrow : row ≤ RC) :
    ∃ s1, Link row column s = some s1 ∧ Sized N RC CC s1 ∧ s1.counter = s.counter + 1 := by
  obtain ⟨s1, g1, g2, g3, g4, g5, g6⟩ := linkColumn_ok N RC CC row column s hs hc hcol
  obtain ⟨h1, h2, h3, h4, h5, h6, h7, h8, h9, h10, h11, h12⟩ := g2
  obtain ⟨h, hh, hhm⟩ := read_some s1.Header row (by omega)
  have hhle : h ≤ s.counter := by
    rw [g4] at hhm
    exact hs.2.2.2.2.2.2.2.2.2.2.2 h hhm
  unfold Link
  rw [g1]
  simp only [Option.some_bind, hh]
  by_cases h0 : h = 0
  · rw [if_pos h0]
    refine ⟨{ s1 with
      Header := s1.Header.set row s1.counter,
      Left := s1.Left.set s1.counter s1.counter,
      Right := s1.Right.set s1.counter s1.counter }, ?_, ?_, g3⟩
    · unfold linkFirst
      simp only [writeAt_eq s1.Header row s1.counter (by omega),
        writeAt_eq s1.Left s1.counter s1.counter (by omega),
        writeAt_eq s1.Right s1.counter s1.counter (by omega), Option.some_bind,
        Option.map_some']
    · exact ⟨by simp [h1], by simp [h2], h3, h4, h5, h6, h7, by simp [h8], h9, h10,
        mem_set_le _ _ _ _ h11 (le_refl _), mem_set_le _ _ _ _ h12 (le_refl _)⟩
  · rw [if_neg h0]
    obtain ⟨lh, hlh, hlhm⟩ := read_some s1.Left h (by omega)
    have hlh1 : (s1.Left.set s1.counter lh)[h]? = some lh := by
      rw [List.getElem?_set_ne (by omega)]
      exact hlh
    have hlhle := h11 lh hlhm
    refine ⟨{ s1 with
      Left := (s1.Left.set s1.counter lh).set h s1.counter,
      Right := (s1.Right.set s1.counter h).set lh s1.counter }, ?_, ?_, g3⟩
    · unfold linkNext
      simp only [hlh, Option.some_bind, writeAt_eq s1.Left s1.counter lh (by omega),
        writeAt_eq s1.Right s1.counter h (by omega), hlh1,
        writeAt_eq (s1.Right.set s1.counter h) lh s1.counter
          (by rw [List.length_set]; omega),
        writeAt_eq (s1.Left.set s1.counter lh) h s1.counter
          (by rw [List.length_set]; omega), Option.map_some']
    · exact ⟨by simp [h1], by simp [h2], h3, h4, h5, h6, h7, h8, h9, h10,
        mem_set_le _ _ _ _ (mem_set_le _ _ _ _ h11 hlhle) (le_refl _), h12⟩

end DancingLinkX
end Checked

end IQPyramidSolver


namespace IQPyramidSolver
namespace Checked
namespace DancingLinkX

open IQPyramidSolver.DancingLinkX (nodeCount linksFrom)

theorem initColumn_ok (N RC CC : Nat) (s : DancingLinkX) (i : Nat) (hi : i ≤ CC) (hN : CC < N)
    (hs : s.Left.length = N ∧ s.Right.length = N ∧ s.Up.length = N ∧ s.Down.length = N ∧
      s.Column.length = N ∧ s.Row.length = N ∧ s.Count.length = CC + 1 ∧
      s.Header.length = RC + 1 ∧ s.counter = 0 ∧ (∀ v ∈ s.Up, v ≤ CC) ∧ (∀ v ∈ s.Left, v ≤ CC) ∧
      ∀ v ∈ s.Header, v ≤ CC) :
    ∃ s1, initColumn CC s i = some s1 ∧
      (s1.Left.length = N ∧ s1.Right.length = N ∧ s1.Up.length = N ∧ s1.Down.length = N ∧
        s1.Column.length = N ∧ s1.Row.length = N ∧ s1.Count.length = CC + 1 ∧
        s1.Header.length = RC + 1 ∧ s1.counter = 0 ∧ (∀ v ∈ s1.Up, v ≤ CC) ∧
        (∀ v ∈ s1.Left, v ≤ CC) ∧ ∀ v ∈ s1.Header, v ≤ CC) := by
  obtain ⟨h1, h2, h3, h4, h5, h6, h7, h8, h9, h10, h11, h12⟩ := hs
  refine ⟨{ s with
    Left := s.Left.set i (if i = 0 then CC else i - 1),
    Right := s.Right.set i (if i = CC then 0 else i + 1),
    Up := s.Up.set i i, Down := s.Down.set i i, Column := s.Column.set i i,
    Row := s.Row.set i 0, Count := s.Count.set i 0 }, ?_, ?_⟩
  · unfold initColumn
    simp only [writeAt_eq s.Left i _ (by omega), writeAt_eq s.Right i _ (by omega),
      writeAt_eq s.Up i i (by omega), writeAt_eq s.Down i i (by omega),
      writeAt_eq s.Column i i (by omega), writeAt_eq s.Row i 0 (by omega),
      writeAt_eq s.Count i 0 (by omega), Option.some_bind, Option.map_some']
  · refine ⟨by simp [h1], by simp [h2], by simp [h3], by simp [h4], by simp [h5], by simp [h6],
      by simp [h7], h8, h9, mem_set_le _ _ _ _ h10 hi, mem_set_le _ _ _ _ h11 ?_, h12⟩
    split <;> omega

/-- The constructor makes no write outside a vector when `node_count` is above
`column_count`. -/
theorem new_ok (N RC CC : Nat) (isComplete : Bool) (hN : CC < N) :
    ∃ s, new N RC CC isComplete = some s ∧ Sized N RC CC s ∧ s.counter = CC := by
  obtain ⟨s1, g1, h1, h2, h3, h4, h5, h6, h7, h8, -, h10, h11, h12⟩ := foldlM_invariant
    (fun s : DancingLinkX => s.Left.length = N ∧ s.Right.length = N ∧ s.Up.length = N ∧
      s.Down.length = N ∧ s.Column.length = N ∧ s.Row.length = N ∧ s.Count.length = CC + 1 ∧
      s.Header.length = RC + 1 ∧ s.counter = 0 ∧ (∀ v ∈ s.Up, v ≤ CC) ∧
      (∀ v ∈ s.Left, v ≤ CC) ∧ ∀ v ∈ s.Header, v ≤ CC)
    (initColumn CC) (List.range (CC + 1))
    (fun a i hi ha => initColumn_ok N RC CC a i (by
      have := List.mem_range.1 hi
      omega) hN ha)
    { Left := List.replicate N 0, Right := List.replicate N 0,
      Up := List.replicate N 0, Down := List.replicate N 0,
      Column := List.replicate N 0, Row := List.replicate N 0,
      Count := List.replicate (CC + 1) 0, Header := List.replicate (RC + 1) 0,
      counter := 0, Answer := [], Answers := [],
      max_column := if isComplete then (CC : Int) else (CC : Int) - PIECES }
    (by
      have hz : ∀ (n : Nat), ∀ v ∈ List.replicate n 0, v ≤ CC := fun n v hv => by
        rw [List.eq_of_mem_replicate hv]
        exact Nat.zero_le _
      exact ⟨by simp, by simp, by simp, by simp, by simp, by simp, by simp, by simp, rfl,
        hz N, hz N, hz (RC + 1)⟩)
  refine ⟨{ s1 with counter := CC }, ?_, ⟨h1, h2, h3, h4, h5, h6, h7, h8, le_refl _, h10, h11,
    h12⟩, rfl⟩
  unfold new
  simp only []
  rw [g1]
  rfl

theorem linkCells_ok (N RC CC row : Nat) (hrow : row ≤ RC) :
    ∀ (indecies : List Nat) (s : DancingLinkX), Sized N RC CC s →
      s.counter + indecies.length < N → (∀ x ∈ indecies, x ≤ CC) →
      ∃ t, indecies.foldlM (fun t index => Link row index t) s = some t ∧ Sized N RC CC t ∧
        t.counter = s.counter + indecies.length := by
  intro indecies
  induction indecies with
  | nil => intro s hs _ _; exact ⟨s, rfl, hs, rfl⟩
  | cons x rest ih =>
    intro s hs hc hx
    rw [List.length_cons] at hc
    obtain ⟨s1, g1, g2, g3⟩ := link_ok N RC CC row x s hs (by omega) (hx x (by simp)) hrow
    obtain ⟨t, k1, k2, k3⟩ := ih s1 g2 (by omega) (fun y hy => hx y (List.mem_cons_of_mem _ hy))
    refine ⟨t, ?_, k2, by rw [k3, g3, List.length_cons]; omega⟩
    rw [List.foldlM_cons, g1]
    exact k1

/-- The build loop of `main` makes no read or write outside a vector when `node_count`
leaves room for every node, and it makes one node for every link. -/
theorem buildLoop_ok (N RC CC size : Nat) (hCC : size + PIECES ≤ CC) :
    ∀ (steps : List (List Nat × Nat)) (i : Nat) (s : DancingLinkX), Sized N RC CC s →
      s.counter + (linksFrom size steps i).length < N → i + steps.length ≤ RC →
      (∀ st ∈ steps, (∀ x ∈ st.1, x ≤ size + PIECES) ∧ st.2 < PIECES) →
      ∃ m, buildLoop size steps i s = some m ∧ Sized N RC CC m ∧
        m.counter = s.counter + (linksFrom size steps i).length := by
  intro steps
  induction steps with
  | nil => intro i s hs _ _ _; exact ⟨s, rfl, hs, rfl⟩
  | cons st rest ih =>
    intro i s hs hc hi hst
    obtain ⟨indecies, block_index⟩ := st
    obtain ⟨hx, hb⟩ := hst (indecies, block_index) (by simp)
    simp only [linksFrom, List.length_append, List.length_map, List.length_cons] at hc ⊢
    rw [List.length_cons] at hi
    obtain ⟨s1, g1, g2, g3⟩ := linkCells_ok N RC CC (i + 1) (by omega) indecies s hs (by omega)
      (fun x hxm => (hx x hxm).trans hCC)
    obtain ⟨s2, k1, k2, k3⟩ := link_ok N RC CC (i + 1) (block_index + size + 1) s1 g2
      (by omega) (by simp only [PIECES] at hb hCC ⊢; omega) (by omega)
    obtain ⟨m, m1, m2, m3⟩ := ih (i + 1) s2 k2 (by omega) (by omega)
      (fun st hm => hst st (List.mem_cons_of_mem _ hm))
    refine ⟨m, ?_, m2, by omega⟩
    unfold buildLoop
    rw [g1]
    simp only [Option.some_bind, k1]
    exact m1

end DancingLinkX
end Checked

namespace DancingLinkX

theorem link_counter (row column : Nat) (s : DancingLinkX) :
    (Link row column s).counter = s.counter + 1 := by
  unfold Link
  split <;> rfl

theorem foldl_link_counter (links : List (Nat × Nat)) (s : DancingLinkX) :
    (links.foldl (fun t e => Link e.1 e.2 t) s).counter = s.counter + links.length := by
  induction links generalizing s with
  | nil => rfl
  | cons e rest ih =>
    rw [List.foldl_cons, ih, link_counter, List.length_cons]
    omega

theorem linksFrom_bounds (size : Nat) :
    ∀ (steps : List (List Nat × Nat)) (i : Nat),
      (∀ st ∈ steps, (∀ x ∈ st.1, x ≤ size + PIECES) ∧ st.2 < PIECES) →
      ∀ e ∈ linksFrom size steps i, i + 1 ≤ e.1 ∧ e.1 ≤ i + steps.length ∧
        e.2 ≤ size + PIECES := by
  intro steps
  induction steps with
  | nil => intro i _ e he; simp [linksFrom] at he
  | cons st rest ih =>
    intro i hst e he
    obtain ⟨ind, b⟩ := st
    obtain ⟨hx, hb⟩ := hst (ind, b) (by simp)
    simp only [linksFrom, List.mem_append, List.mem_map, List.mem_cons] at he
    rw [List.length_cons]
    rcases he with ⟨c, hc, rfl⟩ | rfl | he
    · exact ⟨le_refl _, by omega, hx c hc⟩
    · exact ⟨le_refl _, by omega, by simp only [PIECES] at hb ⊢; omega⟩
    · have := ih (i + 1) (fun st hm => hst st (List.mem_cons_of_mem _ hm)) e he
      omega

/-- C23. Node budget of the builder: with `node_count` as `main` computes it (the sum over
the placements of the number of covered cells plus one, plus `PIECES + size + 1`), for
placements whose cells are columns of the matrix and whose piece is one of the `PIECES`
pieces, the constructor and the build loop make no read or write outside a vector (the
vectors `Left`, `Right`, `Up`, `Down`, `Column` and `Row` being `node_count` long, `Count`
`size + PIECES + 1` and `Header` one more than the number of placements), and the loop ends
with `counter = node_count - 1`; every link goes into a column that is at most
`size + PIECES` and belongs to a row from `1` to the number of placements. -/
theorem node_budget (size : Nat) (steps : List (List Nat × Nat)) (isComplete : Bool)
    (hst : ∀ st ∈ steps, (∀ x ∈ st.1, x ≤ size + PIECES) ∧ st.2 < PIECES) :
    (∃ m, Checked.DancingLinkX.build size steps isComplete = some m ∧
      m.counter + 1 = nodeCount size steps ∧
      m.Left.length = nodeCount size steps ∧ m.Right.length = nodeCount size steps ∧
      m.Up.length = nodeCount size steps ∧ m.Down.length = nodeCount size steps ∧
      m.Column.length = nodeCount size steps ∧ m.Row.length = nodeCount size steps ∧
      m.Count.length = size + PIECES + 1 ∧ m.Header.length = steps.length + 1) ∧
    (build size steps isComplete).counter + 1 = nodeCount size steps ∧
    ∀ e ∈ linksFrom size steps 0, 1 ≤ e.1 ∧ e.1 ≤ steps.length ∧ e.2 ≤ size + PIECES := by
  have hn := nodeCount_eq size steps
  refine ⟨?_, ?_, fun e he => ?_⟩
  · obtain ⟨s0, g1, g2, g3⟩ := Checked.DancingLinkX.new_ok (nodeCount size steps) steps.length
      (size + PIECES) isComplete (by omega)
    obtain ⟨m, m1, m2, m3⟩ := Checked.DancingLinkX.buildLoop_ok (nodeCount size steps)
      steps.length (size + PIECES) size (le_refl _) steps 0 s0 g2 (by omega) (by omega) hst
    refine ⟨m, ?_, by omega, m2.1, m2.2.1, m2.2.2.1, m2.2.2.2.1, m2.2.2.2.2.1, m2.2.2.2.2.2.1,
      m2.2.2.2.2.2.2.1, m2.2.2.2.2.2.2.2.1⟩
    unfold Checked.DancingLinkX.build
    rw [g1]
    exact m1
  · unfold build
    rw [buildLoop_eq, foldl_link_counter,
      (new_fields (nodeCount size steps) steps.length (size + PIECES) isComplete).2.2]
    omega
  · have := linksFrom_bounds size steps 0 hst e he
    omega

end DancingLinkX
end IQPyramidSolver


namespace IQPyramidSolver

set_option maxRecDepth 1000000
set_option maxHeartbeats 4000000

theorem apartRows_append (pattern : Pattern) (a b c : Nat) (hab : a ≤ b) (hbc : b ≤ c)
    (h1 : pattern.ApartRows a b) (h2 : pattern.ApartRows b c) : pattern.ApartRows a c := by
  intro k hk
  rw [List.mem_range'_1] at hk
  by_cases hkb : k < b
  · exact h1 k (List.mem_range'_1.2 ⟨hk.1, by omega⟩)
  · exact h2 k (List.mem_range'_1.2 ⟨by omega, by omega⟩)

theorem slicesApart_of_rows (pattern : Pattern) (n : Nat) (hn : pattern.slices.length ≤ n)
    (h : pattern.ApartRows 0 n) : pattern.SlicesApart := by
  unfold Pattern.SlicesApart
  rw [List.pairwise_iff_getElem]
  intro i j hi hj hij
  refine h i (List.mem_range'_1.2 ⟨Nat.zero_le _, by omega⟩) _
    (by rw [List.getElem?_eq_getElem hi]; rfl) _ ?_
  have hd : j - (i + 1) < (pattern.slices.drop (i + 1)).length := by
    rw [List.length_drop]
    omega
  have := List.getElem_mem hd
  rw [List.getElem_drop] at this
  have e : i + 1 + (j - (i + 1)) = j := by omega
  simpa [e] using this

theorem apart_p4_low : ((selectPattern "p4").all fun p => decide (p.ApartRows 0 5)) = true := by
  decide!

theorem apart_p4_high : ((selectPattern "p4").all fun p =>
    decide (p.slices.length ≤ 18 ∧ p.ApartRows 5 18)) = true := by decide!

theorem apart_p5_first : ((selectPattern "p5").all fun p => decide (p.ApartRows 0 2)) = true := by
  decide!

theorem apart_p5_second : ((selectPattern "p5").all fun p => decide (p.ApartRows 2 4)) = true := by
  decide!

theorem apart_p5_third : ((selectPattern "p5").all fun p => decide (p.ApartRows 4 7)) = true := by
  decide!

theorem apart_p5_fourth : ((selectPattern "p5").all fun p => decide (p.ApartRows 7 11)) = true := by
  decide!

theorem apart_p5_last : ((selectPattern "p5").all fun p =>
    decide (p.slices.length ≤ 23 ∧ p.ApartRows 11 23)) = true := by decide!

theorem apart_flat : ((selectPattern "t").all fun p => decide p.SlicesApart) = true ∧
    ((selectPattern "r").all fun p => decide p.SlicesApart) = true := by decide!

theorem apart_boards : ∀ type ∈ boardTypes,
    ((selectPattern type).all fun p => decide p.SlicesApart) = true := by
  intro type ht
  simp only [boardTypes, List.mem_cons, List.mem_singleton, List.not_mem_nil, or_false] at ht
  rcases ht with rfl | rfl | rfl | rfl
  · exact apart_flat.1
  · exact apart_flat.2
  · have h1 := apart_p4_low
    have h2 := apart_p4_high
    cases hsel : selectPattern "p4" with
    | none => rfl
    | some p =>
      rw [hsel] at h1 h2
      simp only [Option.all_some, decide_eq_true_eq] at h1 h2 ⊢
      exact slicesApart_of_rows p 18 h2.1
        (apartRows_append p 0 5 18 (by omega) (by omega) h1 h2.2)
  · have h1 := apart_p5_first
    have h2 := apart_p5_second
    have h3 := apart_p5_third
    have h4 := apart_p5_fourth
    have h5 := apart_p5_last
    cases hsel : selectPattern "p5" with
    | none => rfl
    | some p =>
      rw [hsel] at h1 h2 h3 h4 h5
      simp only [Option.all_some, decide_eq_true_eq] at h1 h2 h3 h4 h5 ⊢
      exact slicesApart_of_rows p 23 h5.1
        (apartRows_append p 0 11 23 (by omega) (by omega)
          (apartRows_append p 0 7 11 (by omega) (by omega)
            (apartRows_append p 0 4 7 (by omega) (by omega)
              (apartRows_append p 0 2 4 (by omega) (by omega) h1 h2) h3) h4) h5.2)

theorem pieces_normal : ∀ piece ∈ pieces, (∃ p ∈ piece.points, p.x = 0) ∧
    (∃ p ∈ piece.points, p.y = 0) ∧ ∀ p ∈ piece.points, 0 ≤ p.x ∧ 0 ≤ p.y := by decide!

theorem pieces_adjacent : ∀ piece ∈ pieces, ∃ p ∈ piece.points, ∃ q ∈ piece.points,
    (q.x = p.x + 1 ∧ q.y = p.y) ∨ (q.x = p.x ∧ q.y = p.y + 1) := by decide!

theorem pieces_shape : ∀ p ∈ pieces, ∀ q ∈ pieces, p.block_index = q.block_index →
    SameShape p.points q.points → p = q := by decide!

theorem pieces_distinct : pieces.Nodup := by decide!

/-- On a good slice two places inside it with the same cell, not `0`, are one place. -/
theorem cellAt_inj {size : Nat} {sl : Slice} (hg : GoodSlice size sl) (X1 Y1 X2 Y2 : Int)
    (a1 : 0 ≤ X1) (a2 : X1 < sl.w) (a3 : 0 ≤ Y1) (a4 : Y1 < sl.h)
    (b1 : 0 ≤ X2) (b2 : X2 < sl.w) (b3 : 0 ≤ Y2) (b4 : Y2 < sl.h)
    (hne : cellAt sl.table sl.w X1 Y1 ≠ 0)
    (he : cellAt sl.table sl.w X1 Y1 = cellAt sl.table sl.w X2 Y2) : X1 = X2 ∧ Y1 = Y2 := by
  obtain ⟨hl, -, hnd⟩ := hg
  have g1 := cellAt_getElem sl.table sl.w sl.h hl X1 Y1 a1 a2 a3 a4
  have g2 := cellAt_getElem sl.table sl.w sl.h hl X2 Y2 b1 b2 b3 b4
  rw [← he] at g2
  have hi := index_inj_of_nodup_filter hne sl.table hnd _ _ g1 g2
  obtain ⟨c1, -⟩ := index_bounds sl.w sl.h X1 Y1 a1 a2 a3 a4
  obtain ⟨c2, -⟩ := index_bounds sl.w sl.h X2 Y2 b1 b2 b3 b4
  exact cell_index_inj sl.w X1 Y1 X2 Y2 a1 a2 b1 b2 (by omega)

theorem mem_stepAt (sl : Slice) (piece : Piece) (x y : Nat) (cell : Nat) :
    cell ∈ (stepAt sl piece x y).indecies ↔
      ∃ p ∈ piece.points, cellAt sl.table sl.w (p.x + x) (p.y + y) = cell := by
  simp [stepAt]

/-- The cells of a placement on a good slice are entries of its table. -/
theorem stepAt_mem_table {size : Nat} {sl : Slice} (hg : GoodSlice size sl) {piece : Piece}
    {x y : Nat} (hf : fits sl.table sl.w sl.h piece.points x y = true) :
    ∀ cell ∈ (stepAt sl piece x y).indecies, cell ∈ sl.table := by
  intro cell hc
  obtain ⟨p, hp, rfl⟩ := (mem_stepAt sl piece x y cell).1 hc
  obtain ⟨a, b, c, d, -⟩ := fits_point hf hp
  exact mem_of_getElem?_nat (cellAt_getElem sl.table sl.w sl.h hg.1 _ _ a b c d)

/-- A piece with two neighbouring points has no placement on slice `a` all of whose cells
are cells of a slice `b` that is apart from `a`. -/
theorem apart_no_common (a b : Slice) (hab : Apart a b) (piece : Piece)
    (hadj : ∃ p ∈ piece.points, ∃ q ∈ piece.points,
      (q.x = p.x + 1 ∧ q.y = p.y) ∨ (q.x = p.x ∧ q.y = p.y + 1))
    (x y : Nat) (hf : fits a.table a.w a.h piece.points x y = true)
    (hall : ∀ cell ∈ (stepAt a piece x y).indecies, cell ∈ b.table) : False := by
  obtain ⟨p, hp, q, hq, hpq⟩ := hadj
  obtain ⟨p1, p2, p3, p4, p5⟩ := fits_point hf hp
  obtain ⟨q1, q2, q3, q4, q5⟩ := fits_point hf hq
  have hcom : ∀ r ∈ piece.points, ∀ (X Y : Nat), (X : Int) = r.x + x → (Y : Int) = r.y + y →
      common a b X Y = true := by
    intro r hr X Y hX hY
    obtain ⟨r1, r2, r3, r4, r5⟩ := fits_point hf hr
    unfold common
    rw [decide_eq_true_iff, hX, hY]
    exact ⟨by omega, by omega, r5, hall _ ((mem_stepAt a piece x y _).2 ⟨r, hr, rfl⟩)⟩
  have hP := hcom p hp (p.x + x).toNat (p.y + y).toNat (by omega) (by omega)
  have hr := hab (p.y + y).toNat (List.mem_range.2 (by omega)) (p.x + x).toNat
    (List.mem_range.2 (by omega)) hP
  rcases hpq with ⟨e1, e2⟩ | ⟨e1, e2⟩
  · have hQ := hcom q hq ((p.x + x).toNat + 1) (p.y + y).toNat (by push_cast; omega) (by omega)
    rw [hr.1] at hQ
    exact absurd hQ (by decide)
  · have hQ := hcom q hq (p.x + x).toNat ((p.y + y).toNat + 1) (by omega) (by push_cast; omega)
    rw [hr.2] at hQ
    exact absurd hQ (by decide)

/-- Two placements on one good slice that cover the same cells are at the same place and
are of shapes with the same points. -/
theorem same_slice {size : Nat} {sl : Slice} (hg : GoodSlice size sl) (p1 p2 : Piece)
    (n1 : (∃ p ∈ p1.points, p.x = 0) ∧ (∃ p ∈ p1.points, p.y = 0) ∧
      ∀ p ∈ p1.points, 0 ≤ p.x ∧ 0 ≤ p.y)
    (n2 : (∃ p ∈ p2.points, p.x = 0) ∧ (∃ p ∈ p2.points, p.y = 0) ∧
      ∀ p ∈ p2.points, 0 ≤ p.x ∧ 0 ≤ p.y)
    (x1 y1 x2 y2 : Nat) (hf1 : fits sl.table sl.w sl.h p1.points x1 y1 = true)
    (hf2 : fits sl.table sl.w sl.h p2.points x2 y2 = true)
    (hsame : ∀ cell, cell ∈ (stepAt sl p1 x1 y1).indecies ↔
      cell ∈ (stepAt sl p2 x2 y2).indecies) :
    x1 = x2 ∧ y1 = y2 ∧ SameShape p1.points p2.points := by
  have key : ∀ (pa pb : Piece) (xa ya xb yb : Nat),
      fits sl.table sl.w sl.h pa.points xa ya = true →
      fits sl.table sl.w sl.h pb.points xb yb = true →
      (∀ cell, cell ∈ (stepAt sl pa xa ya).indecies → cell ∈ (stepAt sl pb xb yb).indecies) →
      ∀ p ∈ pa.points, ∃ q ∈ pb.points, p.x + xa = q.x + xb ∧ p.y + ya = q.y + yb := by
    intro pa pb xa ya xb yb hfa hfb hsub p hp
    obtain ⟨a1, a2, a3, a4, a5⟩ := fits_point hfa hp
    obtain ⟨q, hq, he⟩ := (mem_stepAt sl pb xb yb _).1
      (hsub _ ((mem_stepAt sl pa xa ya _).2 ⟨p, hp, rfl⟩))
    obtain ⟨b1, b2, b3, b4, -⟩ := fits_point hfb hq
    obtain ⟨e1, e2⟩ := cellAt_inj hg _ _ _ _ a1 a2 a3 a4 b1 b2 b3 b4 a5 he.symm
    exact ⟨q, hq, e1, e2⟩
  have k12 := key p1 p2 x1 y1 x2 y2 hf1 hf2 (fun c hc => (hsame c).1 hc)
  have k21 := key p2 p1 x2 y2 x1 y1 hf2 hf1 (fun c hc => (hsame c).2 hc)
  obtain ⟨⟨a, ha, hax⟩, ⟨b, hb, hby⟩, hpos1⟩ := n1
  obtain ⟨⟨c, hc, hcx⟩, ⟨d, hd, hdy⟩, hpos2⟩ := n2
  have hx : x1 = x2 := by
    obtain ⟨q, hq, e, -⟩ := k12 a ha
    obtain ⟨r, hr, f, -⟩ := k21 c hc
    have := (hpos2 q hq).1
    have := (hpos1 r hr).1
    omega
  have hy : y1 = y2 := by
    obtain ⟨q, hq, -, e⟩ := k12 b hb
    obtain ⟨r, hr, -, f⟩ := k21 d hd
    have := (hpos2 q hq).2
    have := (hpos1 r hr).2
    omega
  subst hx
  subst hy
  refine ⟨rfl, rfl, ?_, ?_⟩
  · intro p hp
    obtain ⟨q, hq, e1, e2⟩ := k12 p hp
    have : p = q := by
      cases p; cases q
      simp only [Point.mk.injEq]
      simp only at e1 e2
      omega
    rw [this]
    exact hq
  · intro p hp
    obtain ⟨q, hq, e1, e2⟩ := k21 p hp
    have : p = q := by
      cases p; cases q
      simp only [Point.mk.injEq]
      simp only at e1 e2
      omega
    rw [this]
    exact hq

end IQPyramidSolver


namespace IQPyramidSolver

theorem stepAt_inj (sl : Slice) (piece : Piece) (x y x1 y1 : Nat)
    (h : stepAt sl piece x y = stepAt sl piece x1 y1) : x = x1 ∧ y = y1 := by
  have hx := congrArg Step.x h
  have hy := congrArg Step.y h
  exact ⟨hx, hy⟩

theorem eq_of_mem_ite {c : Prop} [Decidable c] {a st : Step}
    (h : st ∈ (if c then [a] else [])) : st = a := by
  split at h <;> simp at h
  exact h

theorem nodup_placementsOn (sl : Slice) (piece : Piece) : (placementsOn sl piece).Nodup := by
  unfold placementsOn
  rw [List.nodup_flatMap]
  constructor
  · intro y _
    rw [List.nodup_flatMap]
    constructor
    · intro x _
      split <;> simp
    · refine List.Pairwise.imp ?_ (List.nodup_range sl.w)
      intro x x1 hne st h1 h2
      have e1 := eq_of_mem_ite h1
      have e2 := eq_of_mem_ite h2
      rw [e1] at e2
      exact hne (stepAt_inj sl piece x y x1 y e2).1
  · refine List.Pairwise.imp ?_ (List.nodup_range sl.h)
    intro y y1 hne st h1 h2
    obtain ⟨x, -, hx⟩ := List.mem_flatMap.1 h1
    obtain ⟨x1, -, hx1⟩ := List.mem_flatMap.1 h2
    have e1 := eq_of_mem_ite hx
    have e2 := eq_of_mem_ite hx1
    rw [e1] at e2
    exact hne (stepAt_inj sl piece x y x1 y1 e2).2

/-- Two steps of the board of the same piece on the same set of cells are one step. -/
theorem same_row_eq (pattern : Pattern) (hg : pattern.Good) (ha : pattern.SlicesApart)
    (a b : Step) (h1 : a ∈ pieces.flatMap pattern.placements)
    (h2 : b ∈ pieces.flatMap pattern.placements) (hs : SameRow a b) : a = b := by
  simp only [List.mem_flatMap, Pattern.placements] at h1 h2
  obtain ⟨p1, hp1, sl1, hsl1, hs1⟩ := h1
  obtain ⟨p2, hp2, sl2, hsl2, hs2⟩ := h2
  obtain ⟨y1, hy1, x1, hx1, hf1, rfl⟩ := mem_placementsOn.1 hs1
  obtain ⟨y2, hy2, x2, hx2, hf2, rfl⟩ := mem_placementsOn.1 hs2
  obtain ⟨hb, hc⟩ := hs
  by_cases hsl : sl1 = sl2
  · subst hsl
    obtain ⟨rfl, rfl, hsh⟩ := same_slice (hg.2 sl1 hsl1) p1 p2 (pieces_normal p1 hp1)
      (pieces_normal p2 hp2) x1 y1 x2 y2 hf1 hf2 hc
    rw [pieces_shape p1 hp1 p2 hp2 hb hsh]
  · have hsym : Symmetric (fun a b : Slice => Apart a b ∧ Apart b a) := fun a b h => ⟨h.2, h.1⟩
    have hap := List.Pairwise.forall hsym ha hsl1 hsl2 hsl
    exact absurd (apart_no_common sl1 sl2 hap.1 p1 (pieces_adjacent p1 hp1) x1 y1 hf1
      (fun cell hcell => stepAt_mem_table (hg.2 sl2 hsl2) hf2 cell ((hc cell).1 hcell))) id

/-- The vector `steps` of `main` holds no step twice. -/
theorem nodup_main (pattern : Pattern) (hg : pattern.Good) (hk : pattern.KeyGood)
    (ha : pattern.SlicesApart) : (pieces.flatMap pattern.placements).Nodup := by
  rw [List.nodup_flatMap]
  constructor
  · intro piece hp
    unfold Pattern.placements
    rw [List.nodup_flatMap]
    refine ⟨fun sl _ => nodup_placementsOn sl piece, ?_⟩
    refine List.Pairwise.imp_of_mem ?_ ha
    intro a b hsa hsb hab st h1 h2
    obtain ⟨y1, -, x1, -, hf1, rfl⟩ := mem_placementsOn.1 h1
    obtain ⟨y2, -, x2, -, hf2, he⟩ := mem_placementsOn.1 h2
    exact apart_no_common a b hab.1 piece (pieces_adjacent piece hp) x1 y1 hf1
      (fun cell hcell => stepAt_mem_table (hg.2 b hsb) hf2 cell (by rw [← he]; exact hcell))
  · refine List.Pairwise.imp_of_mem ?_ pieces_distinct
    intro p q hp hq hne st h1 h2
    unfold Pattern.placements at h1 h2
    obtain ⟨sl1, hsl1, hs1⟩ := List.mem_flatMap.1 h1
    obtain ⟨sl2, hsl2, hs2⟩ := List.mem_flatMap.1 h2
    obtain ⟨y1, -, x1, -, -, rfl⟩ := mem_placementsOn.1 hs1
    obtain ⟨y2, -, x2, -, -, he⟩ := mem_placementsOn.1 hs2
    have hb : p.block_index = q.block_index := congrArg Step.block_index he
    have hsh : sl1.id p.shape_index = sl2.id q.shape_index := congrArg Step.shape_index he
    have k1 := (hk.1 sl1 hsl1 p.shape_index (List.mem_range.2 (pieces_block p hp).2)).1
    have k2 := (hk.1 sl2 hsl2 q.shape_index (List.mem_range.2 (pieces_block q hq).2)).1
    rw [hsh, k2] at k1
    exact hne (pieces_key p hp q hq hb k1.symm)

/-- No two entries of the vector `steps` of `main` are of the same piece on the same set of
cells. -/
theorem pairwise_main (pattern : Pattern) (hg : pattern.Good) (hk : pattern.KeyGood)
    (ha : pattern.SlicesApart) :
    (pieces.flatMap pattern.placements).Pairwise (fun a b => ¬ SameRow a b) := by
  refine List.Pairwise.imp_of_mem ?_ (nodup_main pattern hg hk ha)
  intro a b h1 h2 hne hs
  exact hne (same_row_eq pattern hg ha a b h1 h2 hs)

end IQPyramidSolver


namespace IQPyramidSolver

open DancingLinkX

set_option maxRecDepth 1000000
set_option maxHeartbeats 4000000

/-- Two rows of a cover with the same piece are one row. -/
theorem same_piece_row (size : Nat) (steps : List (List Nat × Nat)) (ans : List Nat)
    (hnd : (covered (linksFrom size steps 0) ans).Nodup) (r1 r2 : Nat) (h1 : r1 ∈ ans)
    (h2 : r2 ∈ ans) (b : Nat) (p1 : pieceOf steps r1 = some b) (p2 : pieceOf steps r2 = some b) :
    r1 = r2 := by
  by_contra hne
  have hc : ∀ r, pieceOf steps r = some b → b + size + 1 ∈ colsOf (linksFrom size steps 0) r := by
    intro r hr
    rw [colsOf_build]
    unfold rowCols
    rw [hr]
    simp
  exact no_clash_of_nodup _ ans hnd r1 r2 h1 h2 hne (b + size + 1) (hc r1 p1) (hc r2 p2)

/-- Two covers that give the same tiling have the same rows, when no two rows of the
matrix are of the same piece on the same set of cells and every row has a cell. -/
theorem rows_of_tiling (size : Nat) (steps : List (List Nat × Nat))
    (hdist : ∀ r1 r2, 1 ≤ r1 → r1 ≤ steps.length → 1 ≤ r2 → r2 ≤ steps.length →
      pieceOf steps r1 = pieceOf steps r2 →
      (∀ cell, cell ∈ cellsOf steps r1 ↔ cell ∈ cellsOf steps r2) → r1 = r2)
    (hne : ∀ st ∈ steps, st.1 ≠ [])
    (ans1 ans2 : List Nat)
    (hv1 : ∀ r ∈ ans1, 1 ≤ r ∧ r ≤ steps.length) (hv2 : ∀ r ∈ ans2, 1 ≤ r ∧ r ≤ steps.length)
    (hn1 : (covered (linksFrom size steps 0) ans1).Nodup)
    (hn2 : (covered (linksFrom size steps 0) ans2).Nodup)
    (ht : ∀ cell block, Tiles steps ans1 cell block → Tiles steps ans2 cell block)
    (ht2 : ∀ cell block, Tiles steps ans2 cell block → Tiles steps ans1 cell block) :
    ∀ r ∈ ans1, r ∈ ans2 := by
  intro r hr
  obtain ⟨st, hst, hcells, hpiece, -⟩ := row_facts size steps r (hv1 r hr)
  obtain ⟨c, hc⟩ := List.exists_mem_of_ne_nil _ (hne st hst)
  rw [← hcells] at hc
  obtain ⟨r', hr', hc', hp'⟩ := ht c st.2 ⟨r, hr, hc, hpiece⟩
  have heq : r = r' := by
    refine hdist r r' (hv1 r hr).1 (hv1 r hr).2 (hv2 r' hr').1 (hv2 r' hr').2
      (by rw [hpiece, hp']) (fun cell => ⟨fun h => ?_, fun h => ?_⟩)
    · obtain ⟨r2, hr2, hc2, hp2⟩ := ht cell st.2 ⟨r, hr, h, hpiece⟩
      rw [← same_piece_row size steps ans2 hn2 r2 r' hr2 hr' st.2 hp2 hp']
      exact hc2
    · obtain ⟨r0, hr0, hc0, hp0⟩ := ht2 cell st.2 ⟨r', hr', h, hp'⟩
      rw [← same_piece_row size steps ans1 hn1 r0 r hr0 hr st.2 hp0 hpiece]
      exact hc0
  rw [heq]
  exact hr'

/-- The rows of the matrix of `main` are pairwise different as a piece on a set of cells. -/
theorem rows_distinct (pattern : Pattern) (hg : pattern.Good) (hk : pattern.KeyGood)
    (ha : pattern.SlicesApart) (r1 r2 : Nat)
    (a1 : 1 ≤ r1) (a2 : r1 ≤ ((pieces.flatMap pattern.placements).map placementOf).length)
    (b1 : 1 ≤ r2) (b2 : r2 ≤ ((pieces.flatMap pattern.placements).map placementOf).length)
    (hp : pieceOf ((pieces.flatMap pattern.placements).map placementOf) r1 =
      pieceOf ((pieces.flatMap pattern.placements).map placementOf) r2)
    (hc : ∀ cell, cell ∈ cellsOf ((pieces.flatMap pattern.placements).map placementOf) r1 ↔
      cell ∈ cellsOf ((pieces.flatMap pattern.placements).map placementOf) r2) : r1 = r2 := by
  obtain ⟨i, rfl⟩ : ∃ k, r1 = k + 1 := ⟨r1 - 1, by omega⟩
  obtain ⟨j, rfl⟩ : ∃ k, r2 = k + 1 := ⟨r2 - 1, by omega⟩
  rw [List.length_map] at a2 b2
  have hi : i < (pieces.flatMap pattern.placements).length := by omega
  have hj : j < (pieces.flatMap pattern.placements).length := by omega
  simp only [pieceOf, cellsOf, List.getElem?_map, List.getElem?_eq_getElem hi,
    List.getElem?_eq_getElem hj, Option.map_some', Option.getD_some, Option.some.injEq,
    placementOf] at hp hc
  have hs : SameRow (pieces.flatMap pattern.placements)[i] (pieces.flatMap pattern.placements)[j] :=
    ⟨hp, hc⟩
  have hpw := pairwise_main pattern hg hk ha
  rcases Nat.lt_trichotomy i j with h | h | h
  · exact absurd hs (List.pairwise_iff_getElem.1 hpw i j hi hj h)
  · rw [h]
  · exact absurd ⟨hs.1.symm, fun c => (hs.2 c).symm⟩ (List.pairwise_iff_getElem.1 hpw j i hj hi h)

/-- The facts of C25 for a good board. -/
theorem tilings_pattern (pattern : Pattern) (hg : pattern.Good) (hk : pattern.KeyGood)
    (ha : pattern.SlicesApart) :
    ∃ steps, mainSteps pattern = some steps ∧
      (∀ a ∈ steps, ∀ b ∈ steps, a.block_index = b.block_index →
        (∀ cell, cell ∈ a.indecies ↔ cell ∈ b.indecies) → a = b) ∧
      steps.Pairwise (fun a b => ¬ SameRow a b) ∧
      ∀ level fuel : Nat, nodeCount pattern.size (steps.map placementOf) + level < fuel →
        ∃ results, solve fuel level (mainMatrix pattern steps) = some results ∧
          results.Pairwise fun ans1 ans2 => ¬ ∀ cell block,
            Tiles (steps.map placementOf) ans1 cell block ↔
              Tiles (steps.map placementOf) ans2 cell block := by
  refine ⟨_, mainSteps_eq pattern hg,
    fun a h1 b h2 hb hc => same_row_eq pattern hg ha a b h1 h2 ⟨hb, hc⟩,
    pairwise_main pattern hg hk ha, fun level fuel hfuel => ?_⟩
  have hwf := wellFormed_main pattern hg
  obtain ⟨recorded, results, -, hsolve, -, -, hpw, -⟩ := disjoint_build pattern.size _
    (decide (pattern.size = piece_node_count)) hwf level fuel hfuel
  have hsolve2 := solve_build pattern.size _ (decide (pattern.size = piece_node_count)) hwf
    level fuel hfuel
  refine ⟨results, hsolve, List.Pairwise.imp_of_mem ?_ hpw⟩
  intro ans1 ans2 h1 h2 hnp ht
  rw [hsolve] at hsolve2
  have hres := Option.some.inj hsolve2
  have hcov : ∀ ans ∈ results, Covers (linksFrom pattern.size
      ((pieces.flatMap pattern.placements).map placementOf) 0)
      (List.range' 1 (pattern.size + PIECES))
      (build pattern.size ((pieces.flatMap pattern.placements).map placementOf)
        (decide (pattern.size = piece_node_count))).max_column ans := by
    intro ans hans
    rw [hres] at hans
    exact covers_solve_build pattern.size _ _ hwf level ans hans
  have hvalid : ∀ ans ∈ results, ∀ r ∈ ans,
      1 ≤ r ∧ r ≤ ((pieces.flatMap pattern.placements).map placementOf).length := by
    intro ans hans r hr
    obtain ⟨c, hc⟩ := (hcov ans hans).2.2.2 r hr
    exact row_of_link pattern.size _ r c hc
  have hne : ∀ st ∈ (pieces.flatMap pattern.placements).map placementOf, st.1 ≠ [] := by
    intro st hst he
    have := cells_of_main pattern hg st hst
    rw [he] at this
    simp at this
  have hnd : ∀ ans ∈ results, ans.Nodup := by
    intro ans hans
    refine nodup_of_flatMap (colsOf (linksFrom pattern.size
      ((pieces.flatMap pattern.placements).map placementOf) 0)) ans (hcov ans hans).1 ?_
    intro r hr he
    obtain ⟨c, hc⟩ := (hcov ans hans).2.2.2 r hr
    have := (mem_colsOf _ r c).2 hc
    rw [he] at this
    simp at this
  have hd := rows_distinct pattern hg hk ha
  have s12 := rows_of_tiling pattern.size _ hd hne ans1 ans2 (hvalid ans1 h1) (hvalid ans2 h2)
    (hcov ans1 h1).1 (hcov ans2 h2).1 (fun c b => (ht c b).1) (fun c b => (ht c b).2)
  have s21 := rows_of_tiling pattern.size _ hd hne ans2 ans1 (hvalid ans2 h2) (hvalid ans1 h1)
    (hcov ans2 h2).1 (hcov ans1 h1).1 (fun c b => (ht c b).2) (fun c b => (ht c b).1)
  exact hnp ((List.perm_ext_iff_of_nodup (hnd ans1 h1) (hnd ans2 h2)).2
    (fun r => ⟨s12 r, s21 r⟩))

/-- C25. No duplicate rows: on each of the four boards (the triangle, the rectangle, the
pyramids of order 4 and 5), `main` collects its steps from `GetValidSteps` over the 60
oriented shapes, and two of these steps with the same `block_index` that cover the same
set of cell ids are the same step (same `shape_index`, `x` and `y`), also as entries of
the vector: no two entries are of the same piece on the same cells. Hence, for every
depth, any two different entries of the list of results are different tilings of the
board: some cell belongs to some piece in the one and not in the other. -/
theorem no_duplicate_rows :
    boardTypes = ["t", "r", "p4", "p5"] ∧ pieces.length = 60 ∧
    ∀ type ∈ boardTypes, ∃ pattern steps, selectPattern type = some pattern ∧
      mainSteps pattern = some steps ∧
      (∀ a ∈ steps, ∀ b ∈ steps, a.block_index = b.block_index →
        (∀ cell, cell ∈ a.indecies ↔ cell ∈ b.indecies) →
        a = b ∧ a.shape_index = b.shape_index ∧ a.x = b.x ∧ a.y = b.y) ∧
      steps.Pairwise (fun a b => ¬ SameRow a b) ∧
      ∀ level fuel : Nat, nodeCount pattern.size (steps.map placementOf) + level < fuel →
        ∃ results, solve fuel level (mainMatrix pattern steps) = some results ∧
          results.Pairwise fun ans1 ans2 => ¬ ∀ cell block,
            Tiles (steps.map placementOf) ans1 cell block ↔
              Tiles (steps.map placementOf) ans2 cell block := by
  refine ⟨rfl, by decide, fun type ht => ?_⟩
  obtain ⟨pattern, hp, -⟩ := good_boards type ht
  obtain ⟨hg, hk⟩ := good_of_select type ht pattern hp
  have ha : pattern.SlicesApart := by
    have := apart_boards type ht
    rw [hp] at this
    simpa using this
  obtain ⟨steps, h1, h2, h3, h4⟩ := tilings_pattern pattern hg hk ha
  refine ⟨pattern, steps, hp, h1, fun a ha1 b hb1 hb hc => ?_, h3, h4⟩
  have := h2 a ha1 b hb1 hb hc
  subst this
  exact ⟨rfl, rfl, rfl, rfl⟩

end IQPyramidSolver


namespace IQPyramidSolver
namespace DancingLinkX

/-! ## The depth of the search -/

/-- Choosing a row that meets a live piece column leaves fewer piece columns live. -/
theorem pieceColumns_filter_lt (size : Nat) (links : List (Nat × Nat)) (L : List Nat) (r p : Nat)
    (hp : p ∈ colsOf links r) (hpL : p ∈ L) (hsize : size < p) :
    (pieceColumns size (L.filter (fun d => decide (d ∉ colsOf links r)))).length <
      (pieceColumns size L).length := by
  unfold pieceColumns
  rw [List.filter_filter]
  have : L.filter (fun a => decide (size < a) && decide (a ∉ colsOf links r)) =
      (L.filter (fun c => decide (size < c))).filter (fun a => decide (a ∉ colsOf links r)) := by
    rw [List.filter_filter]
    congr 1
    funext a
    exact Bool.and_comm _ _
  rw [this]
  apply List.length_filter_lt_length_iff_exists.2
  refine ⟨p, List.mem_filter.2 ⟨hpL, by simpa using hsize⟩, ?_⟩
  simp [hp]

/-- A live row with a piece column leaves room on the stack. -/
theorem pieceColumns_pos (size : Nat) (links : List (Nat × Nat)) (L : List Nat) (r : Nat)
    (hlive : rowLive links L r = true) (hpiece : ∃ p ∈ colsOf links r, size < p) :
    ∃ p, p ∈ colsOf links r ∧ p ∈ L ∧ size < p := by
  obtain ⟨p, hp, hs⟩ := hpiece
  exact ⟨p, hp, (rowLive_iff links L r).1 hlive p ((mem_colsOf links r p).1 hp), hs⟩

/-- With enough fuel `DanceDepth` ends in the state `Dance` ends in, and the largest size of
the `Answer` stack is at most the rows on it at the start plus the piece columns then live. -/
theorem danceDepth_eq (nc : Nat) (links : List (Nat × Nat)) (hnd : links.Nodup) (size bound : Nat)
    (hpiece : ∀ e ∈ links, ∃ p ∈ colsOf links e.1, size < p)
    (n : Nat) (L : List Nat)
    (s : DancingLinkX) (depth : Nat) (fuel : Nat) (hinv : Inv nc links L s) (hn : L.length < n)
    (hfuel : links.length + n < fuel)
    (hbound : s.Answer.length + (pieceColumns size L).length ≤ bound) :
    ∃ depth1, DanceDepth fuel (s, depth) = some (withAnswers s.Answer
      (s.Answers ++ (searchList links s.max_column n L).map (fun sol => s.Answer ++ sol)) s,
        depth1) ∧ depth ≤ depth1 ∧ depth1 ≤ max depth bound := by
  induction n generalizing L s fuel depth with
  | zero => simp at hn
  | succ n ih =>
    cases fuel with
    | zero => simp at hfuel
    | succ fuel =>
      have hf1 : links.length < fuel := by omega
      have hf2 : L.length < fuel := by omega
      have hstart : s.Right 0 = L.headD 0 := ring_next_start _ _ _ _ hinv.header_ring
      unfold DanceDepth searchList
      simp only [hstart]
      by_cases hterm : L.headD 0 = 0 ∨ ((L.headD 0 : Nat) : Int) > s.max_column
      · simp only [hterm, if_true]
        exact ⟨depth, by simp [withAnswers], le_refl _, le_max_left _ _⟩
      · simp only [hterm, if_false]
        have hsel := selectLoop_chosen nc links L s hinv fuel hf2
        rw [hstart] at hsel
        rw [hsel]
        simp only [Option.some_bind]
        have hhead : L.headD 0 ≠ 0 := fun e => hterm (Or.inl e)
        have hcL : chosen links s.max_column L ∈ L := chosen_mem links s.max_column L hhead
        generalize hcdef : chosen links s.max_column L = c at hcL ⊢
        rw [delete_eq nc links L s hinv hnd c hcL fuel hf1]
        simp only [Option.some_bind]
        have hinv1 := inv_deleteState nc links L s hinv hnd c hcL
        have hring0 := (hinv.columns c (List.mem_cons_of_mem _ hcL)).1
        rw [filter_not_mem_nil] at hring0
        have hring1 : Ring (deleteState nc links L c s).Down (deleteState nc links L c s).Up c
            (ringNodes nc links L c) :=
          (cover_initial nc links L s hinv hnd c hcL (coverNodes nc links L c) [] (by simp)).2.2.2
        have hcR : c ∉ ringNodes nc links L c := fun h => by
          have := lt_of_mem_nodeIds nc links _ c h
          have := inv_le nc links L s hinv c hcL
          omega
        have hdf := deleteState_fields nc links L c s
        obtain ⟨s2, hrun, ⟨done, hdone, hs2, hd1, hd2⟩⟩ := forRing_spec
          (fun p : DancingLinkX × Nat => p.1.Down) c
          (fun i p =>
            (forRing (fun u : DancingLinkX => u.Right) i (fun j u => Delete fuel (u.Column j) u)
              fuel (({ p.1 with Answer := p.1.Answer ++ [p.1.Row i] } : DancingLinkX).Right i)
              { p.1 with Answer := p.1.Answer ++ [p.1.Row i] }).bind fun t2 =>
            (DanceDepth fuel (t2, max p.2
              ({ p.1 with Answer := p.1.Answer ++ [p.1.Row i] } : DancingLinkX).Answer.length)).bind
              fun q =>
            (forRing (fun u : DancingLinkX => u.Left) i (fun j u => Recover fuel (u.Column j) u)
              fuel (q.1.Left i) q.1).map fun t4 =>
            ({ t4 with Answer := t4.Answer.dropLast }, q.2))
          s.Down
          (fun rest p => ∃ done, ringNodes nc links L c = done ++ rest ∧
            p.1 = withAnswers s.Answer (s.Answers ++ done.flatMap (fun x =>
              (searchList links s.max_column n
                (L.filter (fun d => decide (d ∉ colsOf links (s.Row x))))).map
                  (fun sol => s.Answer ++ s.Row x :: sol))) (deleteState nc links L c s) ∧
            depth ≤ p.2 ∧ p.2 ≤ max depth bound)
          (by
            rintro x rest ⟨t, depth2⟩ ⟨done, hR, ht, hd1, hd2⟩
            simp only at ht hd1 hd2
            subst ht
            have hxR : x ∈ ringNodes nc links L c := by rw [hR]; simp
            obtain ⟨r, hx1, hx2, hlive⟩ := (mem_ringNodes nc links L c x).1 hxR
            have hxr : x ∈ rowNodes nc links r := (mem_rowNodes nc links r x).2 ⟨c, hx1, hx2⟩
            have hrow : s.Row x = r := (column_eq_colOf nc links s hinv.static r x hxr).2.1
            obtain ⟨p, hp, hpL, hps⟩ := pieceColumns_pos size links L r hlive
              (hpiece (r, c) (mem_of_getElem? links _ _ hx2))
            have hlt := pieceColumns_filter_lt size links L r p hp hpL hps
            have hliveRow : ∀ j ∈ rowOthers nc links x, colOf nc links j ∈ L.erase c := by
              intro j hj
              obtain ⟨d, hd, hdc, hjd⟩ := live_row_nodes nc links L c x hxR j hj hnd
              obtain ⟨r1, _, h4, _⟩ := (mem_ringNodes nc links L d j).1 hjd
              have : colOf nc links j = d := by
                unfold colOf
                rw [h4]
                rfl
              rw [this]
              exact (List.mem_erase_of_ne hdc).2 hd
            generalize hA : s.Answers ++ done.flatMap (fun x =>
              (searchList links s.max_column n
                (L.filter (fun d => decide (d ∉ colsOf links (s.Row x))))).map
                  (fun sol => s.Answer ++ s.Row x :: sol)) = A1
            have ht1 : ({ withAnswers s.Answer A1 (deleteState nc links L c s) with
                Answer := (withAnswers s.Answer A1 (deleteState nc links L c s)).Answer ++
                  [(withAnswers s.Answer A1 (deleteState nc links L c s)).Row x] } : DancingLinkX) =
                withAnswers (s.Answer ++ [r]) A1 (deleteState nc links L c s) := by
              show withAnswers (s.Answer ++ [(deleteState nc links L c s).Row x]) A1
                (deleteState nc links L c s) = _
              rw [hdf.2.2.2.1, hrow]
            have hinvt1 := inv_withAnswers nc links _ _ (s.Answer ++ [r]) A1 hinv1
            have hcover := coverRow_eq nc links hnd _ _ hinvt1 x r hxr hliveRow fuel hf1
            have hlist := live_after_row nc links L hinv.sorted.nodup c x r hx2 hx1
            have hcnd := nodup_map_colOf nc links hnd r (rowOthers nc links x)
              (nodup_rowOthers nc links x r hxr)
              (fun j hj => ((mem_rowOthers nc links x r hxr j).1 hj).1)
            have hinv2 := inv_deleteCols nc links hnd _ _ _ hinvt1 hcnd (by
              intro d hd
              obtain ⟨k, hk, rfl⟩ := List.mem_map.1 hd
              exact hliveRow k hk)
            rw [hlist] at hinv2
            have hlen : (L.filter (fun d => decide (d ∉ colsOf links r))).length < n := by
              have hlt : (L.filter (fun d => decide (d ∉ colsOf links r))).length < L.length := by
                apply List.length_filter_lt_length_iff_exists.2
                refine ⟨c, hcL, ?_⟩
                have : c ∈ colsOf links r := (mem_colsOf links r c).2 (mem_of_getElem? links _ _ hx2)
                simp [this]
              omega
            have hcf := deleteCols_fields nc links ((rowOthers nc links x).map (colOf nc links))
              (L.erase c) (withAnswers (s.Answer ++ [r]) A1 (deleteState nc links L c s))
            have hans : (withAnswers (s.Answer ++ [r]) A1 (deleteState nc links L c s)).Answer =
                s.Answer ++ [r] := rfl
            obtain ⟨depth3, hdance, hd3, hd4⟩ := ih _ _ (max depth2 (s.Answer ++ [r]).length)
              fuel hinv2 hlen (by omega) (by
                rw [hcf.1, hans, List.length_append, List.length_singleton]
                omega)
            rw [hcf.1, hcf.2.1, hcf.2.2.1] at hdance
            have hmax : (withAnswers (s.Answer ++ [r]) A1 (deleteState nc links L c s)).max_column =
                s.max_column := hdf.2.2.1
            have hanss : (withAnswers (s.Answer ++ [r]) A1 (deleteState nc links L c s)).Answers =
                A1 := rfl
            rw [hmax, hans, hanss, ← deleteCols_withAnswers, withAnswers_withAnswers] at hdance
            generalize hA2 : A1 ++ (searchList links s.max_column n
              (L.filter (fun d => decide (d ∉ colsOf links r)))).map
                (fun sol => (s.Answer ++ [r]) ++ sol) = A2 at hdance
            have hinvt2 := inv_withAnswers nc links _ _ (s.Answer ++ [r]) A2 hinv1
            have huncover := uncoverRow_eq nc links hnd _ _ hinvt2 x r hxr hliveRow fuel hf1
            have hlen1 : (s.Answer ++ [r]).length ≤ bound := by
              rw [List.length_append, List.length_singleton]
              omega
            refine ⟨(withAnswers s.Answer A2 (deleteState nc links L c s), depth3), ?_,
              ⟨done ++ [x], by simp [hR], ?_, ?_, ?_⟩, ?_⟩
            · beta_reduce
              rw [ht1, hcover]
              simp only [Option.some_bind]
              rw [hans, hdance]
              simp only [Option.some_bind]
              rw [huncover]
              simp [withAnswers]
            · show withAnswers s.Answer A2 (deleteState nc links L c s) = _
              rw [← hA2, ← hA]
              simp [List.flatMap_append, hrow, List.append_assoc]
            · exact le_trans hd1 (le_trans (le_max_left _ _) hd3)
            · refine le_trans hd4 ?_
              simp only [max_le_iff]
              exact ⟨⟨hd2, le_trans hlen1 (le_max_right _ _)⟩, le_max_right _ _⟩
            · show (deleteState nc links L c s).Down x = s.Down x
              rw [hR] at hring1 hring0
              rw [ring_next _ _ _ _ _ _ hring1, ring_next _ _ _ _ _ _ hring0])
          (ringNodes nc links L c) c (deleteState nc links L c s, depth) fuel hring0.1 hcR
          ⟨[], rfl, by
            rw [List.flatMap_nil, List.append_nil]
            conv_lhs => rw [← withAnswers_self (deleteState nc links L c s)]
            rw [hdf.1, hdf.2.1], le_refl _, le_max_left _ _⟩
          (lt_of_le_of_lt (length_ringNodes nc links L c) hf1)
        simp only [List.append_nil] at hdone
        have hfirst : (deleteState nc links L c s).Down c = s.Down c := by
          rw [ring_next_start _ _ _ _ hring1, ring_next_start _ _ _ _ hring0]
        rw [hfirst, hrun]
        simp only [Option.some_bind]
        rw [hs2, ← deleteState_withAnswers]
        rw [recover_eq nc links L _ (inv_withAnswers nc links L s _ _ hinv) hnd c hcL fuel hf1]
        refine ⟨s2.2, ?_, hd1, hd2⟩
        simp only [Option.map_some']
        congr 3
        rw [← hdone, ← map_row_ringNodes nc links L s hinv.static c]
        simp only [List.map_flatMap, List.flatMap_map, List.map_map]
        rfl

end DancingLinkX
end IQPyramidSolver


namespace IQPyramidSolver
namespace DancingLinkX

/-- With enough fuel `SpreadDepth` returns the object and the list `Spread` returns, and
the largest size of the `Answer` stack is at most the rows on it at the start plus the piece
columns then live. -/
theorem spreadDepth_eq (nc : Nat) (links : List (Nat × Nat)) (hw : WellLinked nc links)
    (size bound : Nat) (hpiece : ∀ e ∈ links, ∃ p ∈ colsOf links e.1, size < p) (n : Nat)
    (L : List Nat) (s : DancingLinkX) (level level_needed : Nat) (steps_list : List (List Nat))
    (depth : Nat)
    (fuel : Nat) (hinv : Inv nc links L s) (hn : level_needed - level = n)
    (hfuel : links.length + n < fuel) (hfuelL : L.length + 1 < fuel)
    (hbound : s.Answer.length + (pieceColumns size L).length ≤ bound) :
    ∃ depth1, SpreadDepth fuel level level_needed s (steps_list, depth) = some (s,
      steps_list ++ (spreadList links s.max_column n L).map (fun sol => s.Answer ++ sol),
        depth1) ∧ depth ≤ depth1 ∧ depth1 ≤ max depth bound := by
  have hnd := hw.2
  induction n generalizing L s level steps_list fuel depth with
  | zero =>
    obtain ⟨f, rfl⟩ : ∃ f, fuel = f + 1 := ⟨fuel - 1, by omega⟩
    have hge : level ≥ level_needed := by omega
    refine ⟨depth, ?_, le_refl _, le_max_left _ _⟩
    unfold SpreadDepth spreadList
    simp [hge]
  | succ n ih =>
    obtain ⟨fuel, rfl⟩ : ∃ f, fuel = f + 1 := ⟨fuel - 1, by omega⟩
    have hf1 : links.length < fuel := by omega
    have hf2 : L.length < fuel := by omega
    have hlt : ¬ level ≥ level_needed := by omega
    unfold SpreadDepth spreadList
    simp only [hlt, if_false]
    rw [selectLoop_chosen nc links L s hinv fuel hf2]
    simp only [Option.some_bind]
    by_cases hLnil : L = []
    · subst hLnil
      have hc0 : chosen links s.max_column [] = 0 := rfl
      obtain ⟨hd1, hd2, hd3⟩ := delete_zero nc links s hinv fuel (by omega)
      obtain ⟨f, rfl⟩ : ∃ f, fuel = f + 1 := ⟨fuel - 1, by omega⟩
      refine ⟨depth, ?_, le_refl _, le_max_left _ _⟩
      rw [hc0, hd1]
      simp only [Option.some_bind, hd3, forRing, if_true, hd2, Option.map_some',
        ringRows_zero nc links hw]
      simp
    · have hhead : L.headD 0 ≠ 0 := by
        cases L with
        | nil => exact absurd rfl hLnil
        | cons a l =>
          have := (hinv.range a (by simp)).1
          simp only [List.headD_cons]
          omega
      have hcL : chosen links s.max_column L ∈ L := chosen_mem links s.max_column L hhead
      generalize hcdef : chosen links s.max_column L = c at hcL ⊢
      rw [delete_eq nc links L s hinv hnd c hcL fuel hf1]
      simp only [Option.some_bind]
      have hinv1 := inv_deleteState nc links L s hinv hnd c hcL
      have hring0 := (hinv.columns c (List.mem_cons_of_mem _ hcL)).1
      rw [filter_not_mem_nil] at hring0
      have hring1 : Ring (deleteState nc links L c s).Down (deleteState nc links L c s).Up c
          (ringNodes nc links L c) :=
        (cover_initial nc links L s hinv hnd c hcL (coverNodes nc links L c) [] (by simp)).2.2.2
      have hcR : c ∉ ringNodes nc links L c := fun h => by
        have := lt_of_mem_nodeIds nc links _ c h
        have := inv_le nc links L s hinv c hcL
        omega
      have hdf := deleteState_fields nc links L c s
      obtain ⟨s2, hrun, done, hdone, hs2, hs3, hd1, hd2⟩ := forRing_spec
        (fun p : DancingLinkX × List (List Nat) × Nat => p.1.Down) c
        (fun i p =>
          (forRing (fun u : DancingLinkX => u.Right) i (fun j u => Delete fuel (u.Column j) u)
            fuel (({ p.1 with Answer := p.1.Answer ++ [p.1.Row i] } : DancingLinkX).Right i)
            { p.1 with Answer := p.1.Answer ++ [p.1.Row i] }).bind fun t2 =>
          (SpreadDepth fuel (level + 1) level_needed t2 (p.2.1, max p.2.2
            ({ p.1 with Answer := p.1.Answer ++ [p.1.Row i] } : DancingLinkX).Answer.length)).bind
            fun q =>
          (forRing (fun u : DancingLinkX => u.Left) i (fun j u => Recover fuel (u.Column j) u)
            fuel (q.1.Left i) q.1).map fun t4 =>
          (({ t4 with Answer := t4.Answer.dropLast } : DancingLinkX), q.2))
        s.Down
        (fun rest p => ∃ done, ringNodes nc links L c = done ++ rest ∧
          p.1 = deleteState nc links L c s ∧ p.2.1 = steps_list ++ done.flatMap (fun x =>
            (spreadList links s.max_column n
              (L.filter (fun d => decide (d ∉ colsOf links (s.Row x))))).map
                (fun sol => s.Answer ++ s.Row x :: sol)) ∧
          depth ≤ p.2.2 ∧ p.2.2 ≤ max depth bound)
        (by
          rintro x rest ⟨t, lst, depth2⟩ ⟨done, hR, ht, hl, hd1, hd2⟩
          simp only at ht hl hd1 hd2
          subst ht hl
          have hxR : x ∈ ringNodes nc links L c := by rw [hR]; simp
          obtain ⟨r, hx1, hx2, hlive⟩ := (mem_ringNodes nc links L c x).1 hxR
          have hxr : x ∈ rowNodes nc links r := (mem_rowNodes nc links r x).2 ⟨c, hx1, hx2⟩
          have hrow : s.Row x = r := (column_eq_colOf nc links s hinv.static r x hxr).2.1
          obtain ⟨p, hp, hpL, hps⟩ := pieceColumns_pos size links L r hlive
            (hpiece (r, c) (mem_of_getElem? links _ _ hx2))
          have hplt := pieceColumns_filter_lt size links L r p hp hpL hps
          have hliveRow : ∀ j ∈ rowOthers nc links x, colOf nc links j ∈ L.erase c := by
            intro j hj
            obtain ⟨d, hd, hdc, hjd⟩ := live_row_nodes nc links L c x hxR j hj hnd
            obtain ⟨r1, _, h4, _⟩ := (mem_ringNodes nc links L d j).1 hjd
            have : colOf nc links j = d := by
              unfold colOf
              rw [h4]
              rfl
            rw [this]
            exact (List.mem_erase_of_ne hdc).2 hd
          generalize hA : steps_list ++ done.flatMap (fun x =>
            (spreadList links s.max_column n
              (L.filter (fun d => decide (d ∉ colsOf links (s.Row x))))).map
                (fun sol => s.Answer ++ s.Row x :: sol)) = A1
          have ht1 : ({ deleteState nc links L c s with
              Answer := (deleteState nc links L c s).Answer ++
                [(deleteState nc links L c s).Row x] } : DancingLinkX) =
              withAnswers (s.Answer ++ [r]) s.Answers (deleteState nc links L c s) := by
            show withAnswers ((deleteState nc links L c s).Answer ++
              [(deleteState nc links L c s).Row x]) (deleteState nc links L c s).Answers
              (deleteState nc links L c s) = _
            rw [hdf.2.2.2.1, hrow, hdf.1, hdf.2.1]
          have hinvt1 := inv_withAnswers nc links _ _ (s.Answer ++ [r]) s.Answers hinv1
          have hcover := coverRow_eq nc links hnd _ _ hinvt1 x r hxr hliveRow fuel hf1
          have hlist := live_after_row nc links L hinv.sorted.nodup c x r hx2 hx1
          have hcnd := nodup_map_colOf nc links hnd r (rowOthers nc links x)
            (nodup_rowOthers nc links x r hxr)
            (fun j hj => ((mem_rowOthers nc links x r hxr j).1 hj).1)
          have hinv2 := inv_deleteCols nc links hnd _ _ _ hinvt1 hcnd (by
            intro d hd
            obtain ⟨k, hk, rfl⟩ := List.mem_map.1 hd
            exact hliveRow k hk)
          rw [hlist] at hinv2
          have hlen : (L.filter (fun d => decide (d ∉ colsOf links r))).length < L.length := by
            apply List.length_filter_lt_length_iff_exists.2
            refine ⟨c, hcL, ?_⟩
            have : c ∈ colsOf links r := (mem_colsOf links r c).2 (mem_of_getElem? links _ _ hx2)
            simp [this]
          have hcf := deleteCols_fields nc links ((rowOthers nc links x).map (colOf nc links))
            (L.erase c) (withAnswers (s.Answer ++ [r]) s.Answers (deleteState nc links L c s))
          have hans : (withAnswers (s.Answer ++ [r]) s.Answers
              (deleteState nc links L c s)).Answer = s.Answer ++ [r] := rfl
          obtain ⟨depth3, hspread, hd3, hd4⟩ := ih _ _ (level + 1) A1
            (max depth2 (s.Answer ++ [r]).length) fuel hinv2 (by omega) (by omega) (by omega) (by
              rw [hcf.1, hans, List.length_append, List.length_singleton]
              omega)
          rw [hcf.1, hcf.2.2.1] at hspread
          have hmax : (withAnswers (s.Answer ++ [r]) s.Answers
              (deleteState nc links L c s)).max_column = s.max_column := hdf.2.2.1
          rw [hmax, hans] at hspread
          have huncover := uncoverRow_eq nc links hnd _ _ hinvt1 x r hxr hliveRow fuel hf1
          have hlen1 : (s.Answer ++ [r]).length ≤ bound := by
            rw [List.length_append, List.length_singleton]
            omega
          refine ⟨(deleteState nc links L c s, A1 ++ (spreadList links s.max_column n
              (L.filter (fun d => decide (d ∉ colsOf links r)))).map
                (fun sol => (s.Answer ++ [r]) ++ sol), depth3), ?_,
            ⟨done ++ [x], by simp [hR], rfl, ?_, ?_, ?_⟩, ?_⟩
          · beta_reduce
            rw [ht1, hcover]
            simp only [Option.some_bind]
            rw [hans, hspread]
            simp only [Option.some_bind]
            rw [huncover]
            simp only [Option.map_some', Option.some.injEq, Prod.mk.injEq, and_true]
            show withAnswers (s.Answer ++ [r]).dropLast s.Answers (deleteState nc links L c s) = _
            rw [List.dropLast_concat]
            conv_rhs => rw [← withAnswers_self (deleteState nc links L c s)]
            rw [hdf.1, hdf.2.1]
          · show A1 ++ _ = _
            rw [← hA]
            simp [List.flatMap_append, hrow, List.append_assoc]
          · exact le_trans hd1 (le_trans (le_max_left _ _) hd3)
          · refine le_trans hd4 ?_
            simp only [max_le_iff]
            exact ⟨⟨hd2, le_trans hlen1 (le_max_right _ _)⟩, le_max_right _ _⟩
          · show (deleteState nc links L c s).Down x = s.Down x
            rw [hR] at hring1 hring0
            rw [ring_next _ _ _ _ _ _ hring1, ring_next _ _ _ _ _ _ hring0])
        (ringNodes nc links L c) c (deleteState nc links L c s, steps_list, depth) fuel hring0.1 hcR
        ⟨[], rfl, rfl, by simp, le_refl _, le_max_left _ _⟩
        (lt_of_le_of_lt (length_ringNodes nc links L c) hf1)
      simp only [List.append_nil] at hdone
      have hfirst : (deleteState nc links L c s).Down c = s.Down c := by
        rw [ring_next_start _ _ _ _ hring1, ring_next_start _ _ _ _ hring0]
      refine ⟨s2.2.2, ?_, hd1, hd2⟩
      rw [hfirst, hrun]
      simp only [Option.some_bind]
      rw [hs2]
      rw [recover_eq nc links L _ hinv hnd c hcL fuel hf1]
      simp only [Option.map_some', Option.some.injEq, Prod.mk.injEq, true_and]
      refine Prod.ext ?_ rfl
      show s2.2.1 = _
      rw [hs3, ← hdone, ← map_row_ringNodes nc links L s hinv.static c]
      simp only [List.map_flatMap, List.flatMap_map, List.map_map]
      rfl

end DancingLinkX
end IQPyramidSolver


namespace IQPyramidSolver
namespace DancingLinkX

/-- Every row of the matrix of `main` meets a piece column. -/
theorem piece_linksFrom (size : Nat) :
    ∀ (steps : List (List Nat × Nat)) (i : Nat), ∀ e ∈ linksFrom size steps i,
      ∃ p ∈ colsOf (linksFrom size steps i) e.1, size < p := by
  intro steps
  induction steps with
  | nil => intro i e he; simp [linksFrom] at he
  | cons st rest ih =>
    intro i e he
    obtain ⟨ind, b⟩ := st
    simp only [linksFrom, List.mem_append, List.mem_map, List.mem_cons] at he
    have hfirst : ∃ p ∈ colsOf (linksFrom size ((ind, b) :: rest) i) (i + 1), size < p := by
      refine ⟨b + size + 1, ?_, by omega⟩
      rw [mem_colsOf]
      simp [linksFrom]
    rcases he with ⟨c, _, rfl⟩ | rfl | he
    · exact hfirst
    · exact hfirst
    · obtain ⟨p, hp, hs⟩ := ih (i + 1) e he
      refine ⟨p, ?_, hs⟩
      rw [mem_colsOf] at hp ⊢
      simp only [linksFrom, List.mem_append, List.mem_cons]
      exact Or.inr (Or.inr hp)

/-- On the matrix as built, the piece columns are `PIECES` of the live columns. -/
theorem pieceColumns_all (size : Nat) :
    (pieceColumns size (List.range' 1 (size + PIECES))).length = PIECES := by
  have h := List.range'_append 1 size PIECES 1
  rw [Nat.add_comm PIECES size] at h
  unfold pieceColumns
  rw [← h, List.filter_append]
  have h1 : (List.range' 1 size).filter (fun c => decide (size < c)) = [] := by
    rw [List.filter_eq_nil_iff]
    intro a ha
    rw [List.mem_range'] at ha
    obtain ⟨k, hk, rfl⟩ := ha
    simp only [decide_eq_true_eq]
    omega
  have h2 : (List.range' (1 + 1 * size) PIECES).filter (fun c => decide (size < c)) =
      List.range' (1 + 1 * size) PIECES := by
    rw [List.filter_eq_self]
    intro a ha
    rw [List.mem_range'] at ha
    obtain ⟨k, hk, rfl⟩ := ha
    simp only [decide_eq_true_eq]
    omega
  rw [h1, h2, List.nil_append, List.length_range']

/-- On the matrix of `main`, `Dance` and `Spread(0, d)` return, and the `Answer` stack never
holds more than `PIECES` rows. -/
theorem depth_build (size : Nat) (steps : List (List Nat × Nat)) (isComplete : Bool)
    (hwf : WellFormed size steps) (d fuel : Nat) (hfuel : nodeCount size steps + d < fuel) :
    (∃ done depth, Dance fuel (build size steps isComplete) = some done ∧
      DanceDepth fuel (build size steps isComplete, 0) = some (done, depth) ∧ depth ≤ PIECES) ∧
    ∃ out depth, Spread fuel 0 d (build size steps isComplete) [] = some out ∧
      SpreadDepth fuel 0 d (build size steps isComplete) ([], 0) = some (out.1, out.2, depth) ∧
      depth ≤ PIECES := by
  have hw := wellLinked_linksFrom size steps 0 hwf
  have hinv := inv_build size steps isComplete hw
  obtain ⟨-, hA, hAs⟩ := build_answers size steps isComplete
  have hn := nodeCount_eq size steps
  have hb : (build size steps isComplete).Answer.length +
      (pieceColumns size (List.range' 1 (size + PIECES))).length ≤ PIECES := by
    rw [hA, pieceColumns_all]
    simp
  constructor
  · obtain ⟨depth, h1, -, h2⟩ := danceDepth_eq (size + PIECES) _ hw.2 size PIECES
      (piece_linksFrom size steps 0) (size + PIECES + 1) _ _ 0 fuel hinv
      (by rw [List.length_range']; omega) (by omega) hb
    refine ⟨_, depth, ?_, h1, by simpa using h2⟩
    exact dance_eq (size + PIECES) _ hw.2 (size + PIECES + 1) _ _ fuel hinv
      (by rw [List.length_range']; omega) (by omega)
  · obtain ⟨depth, h1, -, h2⟩ := spreadDepth_eq (size + PIECES) _ hw size PIECES
      (piece_linksFrom size steps 0) d _ _ 0 d [] 0 fuel hinv (by omega) (by omega)
      (by rw [List.length_range']; omega) hb
    refine ⟨(build size steps isComplete, [] ++ (spreadList (linksFrom size steps 0)
      (build size steps isComplete).max_column d (List.range' 1 (size + PIECES))).map
        (fun sol => (build size steps isComplete).Answer ++ sol)), depth, ?_, h1,
      by simpa using h2⟩
    exact spread_eq (size + PIECES) _ hw d _ _ 0 d [] fuel hinv (by omega) (by omega)
      (by rw [List.length_range']; omega)

/-- C24: for every matrix `main` builds with `Link` from a placement list whose rows have
distinct cells on the board and one piece below `PIECES`, and every `d`, with fuel beyond
`node_count + d` the methods `Dance` and `Spread(0, d, list)` return; run with a note of the
largest size of the `Answer` stack they return the same object (and list), and that size is
at most `PIECES`, which is 12. -/
theorem bounded_depth (size : Nat) (steps : List (List Nat × Nat)) (isComplete : Bool)
    (hwf : WellFormed size steps) (d fuel : Nat) (hfuel : nodeCount size steps + d < fuel) :
    PIECES = 12 ∧
    (∃ done depth, Dance fuel (build size steps isComplete) = some done ∧
      DanceDepth fuel (build size steps isComplete, 0) = some (done, depth) ∧ depth ≤ 12) ∧
    ∃ out depth, Spread fuel 0 d (build size steps isComplete) [] = some out ∧
      SpreadDepth fuel 0 d (build size steps isComplete) ([], 0) = some (out.1, out.2, depth) ∧
      depth ≤ 12 :=
  ⟨rfl, depth_build size steps isComplete hwf d fuel hfuel⟩

end DancingLinkX
end IQPyramidSolver


namespace IQPyramidSolver

open DancingLinkX

set_option maxRecDepth 1000000
set_option maxHeartbeats 4000000

theorem spread_leaves_template_witness :
    WellLinked (2 + PIECES) (linksFrom 2 [([1], 0), ([2], 1), ([1, 2], 2)] 0) ∧
    (linksFrom 2 [([1], 0), ([2], 1), ([1, 2], 2)] 0).length + (2 + PIECES) + 1 + 1 < 40 ∧
    ∃ r, Spread 40 0 1
        ((linksFrom 2 [([1], 0), ([2], 1), ([1, 2], 2)] 0).foldl (fun t e => Link e.1 e.2 t) (new 24 3 (2 + PIECES) true)) [] =
        some r ∧
      r.1 = (linksFrom 2 [([1], 0), ([2], 1), ([1, 2], 2)] 0).foldl (fun t e => Link e.1 e.2 t) (new 24 3 (2 + PIECES) true) ∧
      r.1.Left = ((linksFrom 2 [([1], 0), ([2], 1), ([1, 2], 2)] 0).foldl (fun t e => Link e.1 e.2 t)
        (new 24 3 (2 + PIECES) true)).Left ∧
      r.1.Right = ((linksFrom 2 [([1], 0), ([2], 1), ([1, 2], 2)] 0).foldl (fun t e => Link e.1 e.2 t)
        (new 24 3 (2 + PIECES) true)).Right ∧
      r.1.Up = ((linksFrom 2 [([1], 0), ([2], 1), ([1, 2], 2)] 0).foldl (fun t e => Link e.1 e.2 t)
        (new 24 3 (2 + PIECES) true)).Up ∧
      r.1.Down = ((linksFrom 2 [([1], 0), ([2], 1), ([1, 2], 2)] 0).foldl (fun t e => Link e.1 e.2 t)
        (new 24 3 (2 + PIECES) true)).Down ∧
      r.1.Count = ((linksFrom 2 [([1], 0), ([2], 1), ([1, 2], 2)] 0).foldl (fun t e => Link e.1 e.2 t)
        (new 24 3 (2 + PIECES) true)).Count ∧
      r.1.Column = ((linksFrom 2 [([1], 0), ([2], 1), ([1, 2], 2)] 0).foldl (fun t e => Link e.1 e.2 t)
        (new 24 3 (2 + PIECES) true)).Column ∧
      r.1.Row = ((linksFrom 2 [([1], 0), ([2], 1), ([1, 2], 2)] 0).foldl (fun t e => Link e.1 e.2 t)
        (new 24 3 (2 + PIECES) true)).Row ∧
      r.1.Header = ((linksFrom 2 [([1], 0), ([2], 1), ([1, 2], 2)] 0).foldl (fun t e => Link e.1 e.2 t)
        (new 24 3 (2 + PIECES) true)).Header ∧
      r.1.Answer = ((linksFrom 2 [([1], 0), ([2], 1), ([1, 2], 2)] 0).foldl (fun t e => Link e.1 e.2 t)
        (new 24 3 (2 + PIECES) true)).Answer ∧
      (∃ added, r.2 = [] ++ added) ∧
      copy r.1 = copy ((linksFrom 2 [([1], 0), ([2], 1), ([1, 2], 2)] 0).foldl (fun t e => Link e.1 e.2 t)
        (new 24 3 (2 + PIECES) true)) :=
  ⟨wellLinked_linksFrom 2 _ 0 (by decide), by decide,
    DancingLinkX.spread_leaves_template (2 + PIECES) (linksFrom 2 [([1], 0), ([2], 1), ([1, 2], 2)] 0)
      (wellLinked_linksFrom 2 _ 0 (by decide)) 24 3 true 1 [] 40 (by decide)⟩

theorem ring_count_invariant_witness :
    WellFormed 2 [([1], 0), ([2], 1), ([1, 2], 2)] ∧
    Reach (build 2 [([1], 0), ([2], 1), ([1, 2], 2)] true) [] (build 2 [([1], 0), ([2], 1), ([1, 2], 2)] true) ∧
    (∀ x, 2 + PIECES < x → x ≤ (build 2 [([1], 0), ([2], 1), ([1, 2], 2)] true).counter → ∃ l, Path (build 2 [([1], 0), ([2], 1), ([1, 2], 2)] true).Right x l x ∧ (x :: l).Nodup ∧
      (∀ n, n ∈ x :: l ↔ (2 + PIECES < n ∧ n ≤ (build 2 [([1], 0), ([2], 1), ([1, 2], 2)] true).counter ∧ (build 2 [([1], 0), ([2], 1), ([1, 2], 2)] true).Row n = (build 2 [([1], 0), ([2], 1), ([1, 2], 2)] true).Row x)) ∧
      ∀ y ∈ x :: l, (build 2 [([1], 0), ([2], 1), ([1, 2], 2)] true).Left ((build 2 [([1], 0), ([2], 1), ([1, 2], 2)] true).Right y) = y ∧ (build 2 [([1], 0), ([2], 1), ([1, 2], 2)] true).Right ((build 2 [([1], 0), ([2], 1), ([1, 2], 2)] true).Left y) = y) ∧
    (∃ l, Path (build 2 [([1], 0), ([2], 1), ([1, 2], 2)] true).Right 0 l 0 ∧ (0 :: l).Nodup ∧ (∀ c, c ∈ l ↔ InHeaderRing (build 2 [([1], 0), ([2], 1), ([1, 2], 2)] true) c) ∧
      ∀ y ∈ 0 :: l, (build 2 [([1], 0), ([2], 1), ([1, 2], 2)] true).Left ((build 2 [([1], 0), ([2], 1), ([1, 2], 2)] true).Right y) = y ∧ (build 2 [([1], 0), ([2], 1), ([1, 2], 2)] true).Right ((build 2 [([1], 0), ([2], 1), ([1, 2], 2)] true).Left y) = y) ∧
    ∀ c, InHeaderRing (build 2 [([1], 0), ([2], 1), ([1, 2], 2)] true) c → ∃ l, Path (build 2 [([1], 0), ([2], 1), ([1, 2], 2)] true).Down c l c ∧ (c :: l).Nodup ∧
      (l.length : Int) = (build 2 [([1], 0), ([2], 1), ([1, 2], 2)] true).Count c ∧ (∀ n ∈ l, (build 2 [([1], 0), ([2], 1), ([1, 2], 2)] true).Column n = c) ∧
      ∀ y ∈ c :: l, (build 2 [([1], 0), ([2], 1), ([1, 2], 2)] true).Up ((build 2 [([1], 0), ([2], 1), ([1, 2], 2)] true).Down y) = y ∧ (build 2 [([1], 0), ([2], 1), ([1, 2], 2)] true).Down ((build 2 [([1], 0), ([2], 1), ([1, 2], 2)] true).Up y) = y :=
  ⟨by decide, Reach.init,
    DancingLinkX.ring_count_invariant 2 [([1], 0), ([2], 1), ([1, 2], 2)] true (by decide) [] _ Reach.init⟩

theorem node_budget_witness :
    (∀ st ∈ ([([1], 0), ([2], 1), ([1, 2], 2)] : List (List Nat × Nat)), (∀ x ∈ st.1, x ≤ 2 + PIECES) ∧ st.2 < PIECES) ∧
    (∃ m, Checked.DancingLinkX.build 2 [([1], 0), ([2], 1), ([1, 2], 2)] true = some m ∧
      m.counter + 1 = nodeCount 2 [([1], 0), ([2], 1), ([1, 2], 2)] ∧
      m.Left.length = nodeCount 2 [([1], 0), ([2], 1), ([1, 2], 2)] ∧ m.Right.length = nodeCount 2 [([1], 0), ([2], 1), ([1, 2], 2)] ∧
      m.Up.length = nodeCount 2 [([1], 0), ([2], 1), ([1, 2], 2)] ∧ m.Down.length = nodeCount 2 [([1], 0), ([2], 1), ([1, 2], 2)] ∧
      m.Column.length = nodeCount 2 [([1], 0), ([2], 1), ([1, 2], 2)] ∧ m.Row.length = nodeCount 2 [([1], 0), ([2], 1), ([1, 2], 2)] ∧
      m.Count.length = 2 + PIECES + 1 ∧ m.Header.length = ([([1], 0), ([2], 1), ([1, 2], 2)] : List (List Nat × Nat)).length + 1) ∧
    (build 2 [([1], 0), ([2], 1), ([1, 2], 2)] true).counter + 1 = nodeCount 2 [([1], 0), ([2], 1), ([1, 2], 2)] ∧
    ∀ e ∈ linksFrom 2 [([1], 0), ([2], 1), ([1, 2], 2)] 0, 1 ≤ e.1 ∧ e.1 ≤ ([([1], 0), ([2], 1), ([1, 2], 2)] : List (List Nat × Nat)).length ∧ e.2 ≤ 2 + PIECES :=
  ⟨by decide,
    DancingLinkX.node_budget 2 [([1], 0), ([2], 1), ([1, 2], 2)] true (by decide)⟩

theorem bounded_depth_witness :
    WellFormed 2 [([1], 0), ([2], 1), ([1, 2], 2)] ∧
    nodeCount 2 [([1], 0), ([2], 1), ([1, 2], 2)] + 1 < 40 ∧
    PIECES = 12 ∧
    (∃ done depth, Dance 40 (build 2 [([1], 0), ([2], 1), ([1, 2], 2)] true) = some done ∧
      DanceDepth 40 (build 2 [([1], 0), ([2], 1), ([1, 2], 2)] true, 0) = some (done, depth) ∧ depth ≤ 12) ∧
    ∃ out depth, Spread 40 0 1 (build 2 [([1], 0), ([2], 1), ([1, 2], 2)] true) [] = some out ∧
      SpreadDepth 40 0 1 (build 2 [([1], 0), ([2], 1), ([1, 2], 2)] true) ([], 0) = some (out.1, out.2, depth) ∧
      depth ≤ 12 :=
  ⟨by decide, by decide,
    DancingLinkX.bounded_depth 2 [([1], 0), ([2], 1), ([1, 2], 2)] true (by decide) 1 40 (by decide)⟩

end IQPyramidSolver


namespace IQPyramidSolver

open DancingLinkX

set_option maxRecDepth 1000000
set_option maxHeartbeats 4000000

/-- C2 for a placement without cells, the piece columns optional: on the board of one cell
with the placements `([1], 0)` and `([], 1)` the rows `1` and `2` together meet the column
`1 = max_column` once and no column twice, and `Dance` on the fresh matrix returns with
`[1]` as its only answer: after row `1` every column up to `max_column` is covered and the
answer is recorded at once, so that no answer holds row `2`. -/
theorem dance_misses_cover :
    WellFormed 1 [([1], 0), ([], 1)] ∧
    (build 1 [([1], 0), ([], 1)] false).max_column = 1 ∧
    ExactCover 1 [([1], 0), ([], 1)] (build 1 [([1], 0), ([], 1)] false).max_column [1, 2] ∧
    ∀ fuel, nodeCount 1 [([1], 0), ([], 1)] < fuel →
      ∃ done, Dance fuel (build 1 [([1], 0), ([], 1)] false) = some done ∧
        done.Answers = [[1]] ∧
        done.Answers.countP (fun ans => decide (ans.Perm [1, 2])) = 0 := by
  have hmax : (build 1 [([1], 0), ([], 1)] false).max_column = 1 := by
    rw [(build_answers 1 _ false).1]
    rfl
  refine ⟨by decide, hmax, ⟨by decide, by decide, by decide, fun c h1 h2 => ?_⟩,
    fun fuel hfuel => ?_⟩
  · rw [hmax] at h2
    have hc : c = 1 := by omega
    subst hc
    decide
  · obtain ⟨done, h1, h2⟩ := dance_build 1 [([1], 0), ([], 1)] false (by decide) fuel hfuel
    have h3 : done.Answers = [[1]] := by
      rw [h2, hmax]
      decide
    refine ⟨done, h1, h3, ?_⟩
    rw [h3]
    decide

end IQPyramidSolver

